import Mathlib

/-!
# Chiplet-aware sorting: a shallow embedding of the C sources

The definitions below are translated from `src/cmp_64_chiplet.c` and
`src/lsb_64_chiplet.c`.  Conventions:

* a C array is a `List Nat`; a read is `getD` and a write is `set`;
* `uint64_t` arithmetic is `Nat` arithmetic with an explicit `% 2^64`
  where the C code can wrap;
* an `__m128i` register is the structure `M128` of four 32-bit elements
  `e0 .. e3` (Intel's element numbering, lowest first);
* a failed `assert` and an exhausted loop budget are `none`.
-/

namespace ChipletSort

/-! ## Scalar helpers -/

/-- The C loop of `binary_search`, with `fuel` bounding the iterations. -/
def binary_search_loop (keys : List Nat) (key : Nat) : Nat → Nat → Nat → Option Nat
  | 0, _, _ => none
  | fuel + 1, low, high =>
    if low < high then
      let mid := ((low + high) % 2 ^ 64) >>> 1
      if key > keys.getD mid 0 then
        binary_search_loop keys key fuel (mid + 1) high
      else
        binary_search_loop keys key fuel low mid
    else some low

/-- `binary_search(keys, size, key)` of `cmp_64_chiplet.c`. -/
def binary_search (keys : List Nat) (size key : Nat) : Option Nat :=
  binary_search_loop keys key (size + 1) 0 size

/-- The spec's wording of range mode: the index of the first delimiter
that is strictly greater than the key, the number of delimiters if none is. -/
def first_delimiter_gt (delim : List Nat) (key : Nat) : Nat :=
  delim.findIdx (fun d => decide (key < d))

/-- The index of the first delimiter that is greater than or equal to the
key, the number of delimiters if none is (a lower bound). -/
def first_delimiter_ge (delim : List Nat) (key : Nat) : Nat :=
  delim.findIdx (fun d => decide (key ≤ d))

/-! ## SSE registers and intrinsics -/

/-- An `__m128i` register: four 32-bit elements, `e0` the lowest. -/
structure M128 where
  e0 : Nat
  e1 : Nat
  e2 : Nat
  e3 : Nat
deriving DecidableEq

/-- The low 64-bit lane of a register. -/
def M128.lo64 (r : M128) : Nat := r.e0 + 2 ^ 32 * r.e1

/-- The high 64-bit lane of a register. -/
def M128.hi64 (r : M128) : Nat := r.e2 + 2 ^ 32 * r.e3

/-- The register whose 64-bit lanes are `q0` (low) and `q1` (high). -/
def mk64 (q0 q1 : Nat) : M128 :=
  ⟨q0 % 2 ^ 32, q0 / 2 ^ 32 % 2 ^ 32, q1 % 2 ^ 32, q1 / 2 ^ 32 % 2 ^ 32⟩

/-- The value of a 32-bit pattern read as `int32_t`. -/
def toInt32 (x : Nat) : Int := if x < 2 ^ 31 then (x : Int) else (x : Int) - 2 ^ 32

/-- The value of a 64-bit pattern read as `int64_t`. -/
def toInt64 (x : Nat) : Int := if x < 2 ^ 63 then (x : Int) else (x : Int) - 2 ^ 64

/-- All-ones or all-zeros 32-bit element. -/
def mask32 (c : Bool) : Nat := if c then 2 ^ 32 - 1 else 0

/-- All-ones or all-zeros 64-bit lane. -/
def mask64 (c : Bool) : Nat := if c then 2 ^ 64 - 1 else 0

/-- `x & ~m` on unsigned integers. -/
def and_not (x m : Nat) : Nat := x - (x &&& m)

/-- `_MM_SHUFFLE(z, y, x, w)`. -/
def MM_SHUFFLE (z y x w : Nat) : Nat := (z <<< 6) ||| (y <<< 4) ||| (x <<< 2) ||| w

/-- Element `i` (mod 4) of a register. -/
def M128.sel (r : M128) (i : Nat) : Nat :=
  match i % 4 with
  | 0 => r.e0
  | 1 => r.e1
  | 2 => r.e2
  | _ => r.e3

def _mm_setzero_si128 : M128 := ⟨0, 0, 0, 0⟩

def _mm_set1_epi32 (x : Nat) : M128 := ⟨x % 2 ^ 32, x % 2 ^ 32, x % 2 ^ 32, x % 2 ^ 32⟩

def _mm_set_epi32 (x3 x2 x1 x0 : Nat) : M128 :=
  ⟨x0 % 2 ^ 32, x1 % 2 ^ 32, x2 % 2 ^ 32, x3 % 2 ^ 32⟩

def _mm_set1_epi64x (x : Nat) : M128 := mk64 (x % 2 ^ 64) (x % 2 ^ 64)

def _mm_cvtsi64_si128 (x : Nat) : M128 := mk64 (x % 2 ^ 64) 0

/-- `_mm_load_si128((__m128i*) &mem[i])`, also `_mm_loadu_si128`. -/
def _mm_load_si128 (mem : List Nat) (i : Nat) : M128 :=
  mk64 (mem.getD i 0) (mem.getD (i + 1) 0)

/-- `_mm_loadl_epi64((__m128i*) &mem[i])`. -/
def _mm_loadl_epi64 (mem : List Nat) (i : Nat) : M128 := mk64 (mem.getD i 0) 0

/-- `_mm_store_si128((__m128i*) &mem[i], r)`, also `_mm_stream_si128`. -/
def _mm_store_si128 (mem : List Nat) (i : Nat) (r : M128) : List Nat :=
  (mem.set i r.lo64).set (i + 1) r.hi64

def _mm_add_epi64 (a b : M128) : M128 :=
  mk64 ((a.lo64 + b.lo64) % 2 ^ 64) ((a.hi64 + b.hi64) % 2 ^ 64)

def _mm_sub_epi64 (a b : M128) : M128 :=
  mk64 ((a.lo64 + 2 ^ 64 - b.lo64 % 2 ^ 64) % 2 ^ 64) ((a.hi64 + 2 ^ 64 - b.hi64 % 2 ^ 64) % 2 ^ 64)

def _mm_add_epi32 (a b : M128) : M128 :=
  ⟨(a.e0 + b.e0) % 2 ^ 32, (a.e1 + b.e1) % 2 ^ 32, (a.e2 + b.e2) % 2 ^ 32, (a.e3 + b.e3) % 2 ^ 32⟩

def _mm_sub_epi32 (a b : M128) : M128 :=
  ⟨(a.e0 + 2 ^ 32 - b.e0 % 2 ^ 32) % 2 ^ 32, (a.e1 + 2 ^ 32 - b.e1 % 2 ^ 32) % 2 ^ 32,
   (a.e2 + 2 ^ 32 - b.e2 % 2 ^ 32) % 2 ^ 32, (a.e3 + 2 ^ 32 - b.e3 % 2 ^ 32) % 2 ^ 32⟩

/-- A 32-bit element as its two 16-bit halves, combined by `f` half by half. -/
def op16 (f : Nat → Nat → Nat) (x y : Nat) : Nat :=
  f (x % 2 ^ 16) (y % 2 ^ 16) % 2 ^ 16 + 2 ^ 16 * (f (x / 2 ^ 16 % 2 ^ 16) (y / 2 ^ 16 % 2 ^ 16) % 2 ^ 16)

def _mm_add_epi16 (a b : M128) : M128 :=
  ⟨op16 (· + ·) a.e0 b.e0, op16 (· + ·) a.e1 b.e1, op16 (· + ·) a.e2 b.e2, op16 (· + ·) a.e3 b.e3⟩

def _mm_sub_epi16 (a b : M128) : M128 :=
  ⟨op16 (fun x y => x + 2 ^ 16 - y) a.e0 b.e0, op16 (fun x y => x + 2 ^ 16 - y) a.e1 b.e1,
   op16 (fun x y => x + 2 ^ 16 - y) a.e2 b.e2, op16 (fun x y => x + 2 ^ 16 - y) a.e3 b.e3⟩

def _mm_cmpgt_epi64 (a b : M128) : M128 :=
  mk64 (mask64 (decide (toInt64 a.lo64 > toInt64 b.lo64)))
    (mask64 (decide (toInt64 a.hi64 > toInt64 b.hi64)))

def _mm_cmpeq_epi64 (a b : M128) : M128 :=
  mk64 (mask64 (decide (a.lo64 = b.lo64))) (mask64 (decide (a.hi64 = b.hi64)))

def _mm_cmpgt_epi32 (a b : M128) : M128 :=
  ⟨mask32 (decide (toInt32 a.e0 > toInt32 b.e0)), mask32 (decide (toInt32 a.e1 > toInt32 b.e1)),
   mask32 (decide (toInt32 a.e2 > toInt32 b.e2)), mask32 (decide (toInt32 a.e3 > toInt32 b.e3))⟩

def _mm_cmpeq_epi32 (a b : M128) : M128 :=
  ⟨mask32 (decide (a.e0 = b.e0)), mask32 (decide (a.e1 = b.e1)),
   mask32 (decide (a.e2 = b.e2)), mask32 (decide (a.e3 = b.e3))⟩

def _mm_min_epu32 (a b : M128) : M128 :=
  ⟨min a.e0 b.e0, min a.e1 b.e1, min a.e2 b.e2, min a.e3 b.e3⟩

def _mm_and_si128 (a b : M128) : M128 :=
  ⟨a.e0 &&& b.e0, a.e1 &&& b.e1, a.e2 &&& b.e2, a.e3 &&& b.e3⟩

def _mm_or_si128 (a b : M128) : M128 :=
  ⟨a.e0 ||| b.e0, a.e1 ||| b.e1, a.e2 ||| b.e2, a.e3 ||| b.e3⟩

def _mm_xor_si128 (a b : M128) : M128 :=
  ⟨a.e0 ^^^ b.e0, a.e1 ^^^ b.e1, a.e2 ^^^ b.e2, a.e3 ^^^ b.e3⟩

/-- `_mm_testz_si128(a, b)`: 1 when `a & b` is all zeros. -/
def _mm_testz_si128 (a b : M128) : Bool :=
  decide (_mm_and_si128 a b = ⟨0, 0, 0, 0⟩)

/-- Byte `k` of a 32-bit element taken from `b` when the top bit of byte
`k` of `m` is set, from `a` otherwise. -/
def blend_byte (a b m k : Nat) : Nat :=
  if m / 2 ^ (8 * k + 7) % 2 = 1 then b / 2 ^ (8 * k) % 256 else a / 2 ^ (8 * k) % 256

/-- One 32-bit element of `_mm_blendv_epi8`. -/
def blend32 (a b m : Nat) : Nat :=
  blend_byte a b m 0 + 2 ^ 8 * blend_byte a b m 1 + 2 ^ 16 * blend_byte a b m 2
    + 2 ^ 24 * blend_byte a b m 3

def _mm_blendv_epi8 (a b mask : M128) : M128 :=
  ⟨blend32 a.e0 b.e0 mask.e0, blend32 a.e1 b.e1 mask.e1,
   blend32 a.e2 b.e2 mask.e2, blend32 a.e3 b.e3 mask.e3⟩

def _mm_shuffle_epi32 (a : M128) (imm : Nat) : M128 :=
  ⟨a.sel (imm % 4), a.sel (imm / 4 % 4), a.sel (imm / 16 % 4), a.sel (imm / 64 % 4)⟩

def _mm_unpacklo_epi32 (a b : M128) : M128 := ⟨a.e0, b.e0, a.e1, b.e1⟩

def _mm_unpacklo_epi64 (a b : M128) : M128 := ⟨a.e0, a.e1, b.e0, b.e1⟩

def _mm_unpackhi_epi64 (a b : M128) : M128 := ⟨a.e2, a.e3, b.e2, b.e3⟩

/-- Signed saturation of an `int32_t` pattern to an `int16_t` pattern. -/
def sat_i16 (x : Nat) : Nat :=
  if toInt32 x > 32767 then 0x7FFF else if toInt32 x < -32768 then 0x8000 else x % 2 ^ 16

/-- Unsigned saturation of an `int32_t` pattern to a `uint16_t` pattern. -/
def sat_u16 (x : Nat) : Nat :=
  if toInt32 x > 65535 then 0xFFFF else if toInt32 x < 0 then 0 else x % 2 ^ 16

def _mm_packs_epi32 (a b : M128) : M128 :=
  ⟨sat_i16 a.e0 + 2 ^ 16 * sat_i16 a.e1, sat_i16 a.e2 + 2 ^ 16 * sat_i16 a.e3,
   sat_i16 b.e0 + 2 ^ 16 * sat_i16 b.e1, sat_i16 b.e2 + 2 ^ 16 * sat_i16 b.e3⟩

def _mm_packus_epi32 (a b : M128) : M128 :=
  ⟨sat_u16 a.e0 + 2 ^ 16 * sat_u16 a.e1, sat_u16 a.e2 + 2 ^ 16 * sat_u16 a.e3,
   sat_u16 b.e0 + 2 ^ 16 * sat_u16 b.e1, sat_u16 b.e2 + 2 ^ 16 * sat_u16 b.e3⟩

/-- Sign extension of a 16-bit pattern to 32 bits. -/
def sext16 (h : Nat) : Nat := if h < 2 ^ 15 then h else h + (2 ^ 32 - 2 ^ 16)

/-- Sign extension of an 8-bit pattern to 32 bits. -/
def sext8 (b : Nat) : Nat := if b < 2 ^ 7 then b else b + (2 ^ 32 - 2 ^ 8)

def _mm_cvtepi16_epi32 (a : M128) : M128 :=
  ⟨sext16 (a.e0 % 2 ^ 16), sext16 (a.e0 / 2 ^ 16 % 2 ^ 16),
   sext16 (a.e1 % 2 ^ 16), sext16 (a.e1 / 2 ^ 16 % 2 ^ 16)⟩

def _mm_cvtepu16_epi32 (a : M128) : M128 :=
  ⟨a.e0 % 2 ^ 16, a.e0 / 2 ^ 16 % 2 ^ 16, a.e1 % 2 ^ 16, a.e1 / 2 ^ 16 % 2 ^ 16⟩

def _mm_cvtepi8_epi32 (a : M128) : M128 :=
  ⟨sext8 (a.e0 % 2 ^ 8), sext8 (a.e0 / 2 ^ 8 % 2 ^ 8),
   sext8 (a.e0 / 2 ^ 16 % 2 ^ 8), sext8 (a.e0 / 2 ^ 24 % 2 ^ 8)⟩

def _mm_slli_epi32 (a : M128) (n : Nat) : M128 :=
  if n > 31 then ⟨0, 0, 0, 0⟩
  else ⟨(a.e0 <<< n) % 2 ^ 32, (a.e1 <<< n) % 2 ^ 32, (a.e2 <<< n) % 2 ^ 32, (a.e3 <<< n) % 2 ^ 32⟩

def _mm_slli_epi64 (a : M128) (n : Nat) : M128 :=
  if n > 63 then ⟨0, 0, 0, 0⟩
  else mk64 ((a.lo64 <<< n) % 2 ^ 64) ((a.hi64 <<< n) % 2 ^ 64)

/-- `_mm_srl_epi64(a, count)`: the shift count is the low 64 bits of `count`. -/
def _mm_srl_epi64 (a count : M128) : M128 :=
  if count.lo64 > 63 then ⟨0, 0, 0, 0⟩
  else mk64 (a.lo64 >>> count.lo64) (a.hi64 >>> count.lo64)

/-- `movd`: the lowest 32-bit element, zero extended. -/
def movd (r : M128) : Nat := r.e0

/-- `movq`: the low 64-bit lane. -/
def movq (r : M128) : Nat := r.lo64

/-- `_mm_mask_epi64` (`movmskpd`): the sign bits of the two 64-bit lanes. -/
def _mm_mask_epi64 (x : M128) : Nat := x.e1 / 2 ^ 31 % 2 + 2 * (x.e3 / 2 ^ 31 % 2)

/-- `_mm_mask_epi32` (`movmskps`): the sign bits of the four 32-bit elements. -/
def _mm_mask_epi32 (x : M128) : Nat :=
  x.e0 / 2 ^ 31 % 2 + 2 * (x.e1 / 2 ^ 31 % 2) + 4 * (x.e2 / 2 ^ 31 % 2) + 8 * (x.e3 / 2 ^ 31 % 2)

/-- Index of the lowest set bit among the low `n` bits (`n` if there is none). -/
def bsf_loop : Nat → Nat → Nat
  | 0, _ => 0
  | n + 1, i => if i % 2 = 1 then 0 else 1 + bsf_loop n (i / 2)

/-- `bsf` on a 64-bit operand (the result for 0 is undefined in hardware). -/
def bsf (i : Nat) : Nat := bsf_loop 64 i

/-! ## Radix histogram (`lsb_64_chiplet.c`) -/

/-- The partition of a key in radix mode. -/
def radix_digit (key shift_bits radix_bits : Nat) : Nat :=
  (key >>> shift_bits) &&& ((1 <<< radix_bits) - 1)

/-- `count[p]++` on an array of `uint64_t`. -/
def count_incr (count : List Nat) (p : Nat) : List Nat :=
  count.set p ((count.getD p 0 + 1) % 2 ^ 64)

/-- The four digits of the keys in `k12`, `k34`, one per 32-bit element:
`srl`, `and`, `packus` as written in `histogram`. -/
def histogram_hash (k12 k34 s m : M128) : M128 :=
  let h12 := _mm_srl_epi64 k12 s
  let h34 := _mm_srl_epi64 k34 s
  let h12 := _mm_and_si128 h12 m
  let h34 := _mm_and_si128 h34 m
  _mm_packus_epi32 h12 h34

/-- The loop `for (i = 0; i < n; i++) { movd; count[p]++; rotate h }`. -/
def histogram_lanes : Nat → M128 → List Nat → List Nat
  | 0, _, count => count
  | n + 1, h, count =>
    histogram_lanes n (_mm_shuffle_epi32 h (MM_SHUFFLE 0 3 2 1)) (count_incr count (movd h))

/-- The loop `while (keys < keys_aligned_end)` of `histogram`, `n` groups
of four keys starting at `keys[i]`. -/
def histogram_aligned (keys : List Nat) (s m : M128) : Nat → Nat → List Nat → List Nat
  | 0, _, count => count
  | n + 1, i, count =>
    let k12 := _mm_load_si128 keys i
    let k34 := _mm_load_si128 keys (i + 2)
    let h := histogram_hash k12 k34 s m
    histogram_aligned keys s m n (i + 4) (histogram_lanes 4 h count)

/-- The loop `while (((uintptr_t) keys & 15) && size > 0)` that copies the
keys before the first 16-byte boundary into `unaligned_keys`.  `kpos` is
the address of `keys[0]` divided by 8, `i` the number of keys consumed so
far; the result is the new `i`, the remaining size, the buffer and its
fill count. -/
def histogram_head (kpos : Nat) (keys : List Nat) :
    Nat → Nat → List Nat → Nat → Nat × Nat × List Nat × Nat
  | 0, i, unaligned_keys, unaligned_count => (i, 0, unaligned_keys, unaligned_count)
  | size + 1, i, unaligned_keys, unaligned_count =>
    if (15 &&& (8 * (kpos + i))) ≠ 0 then
      histogram_head kpos keys size (i + 1)
        (unaligned_keys.set unaligned_count (keys.getD i 0)) (unaligned_count + 1)
    else (i, size + 1, unaligned_keys, unaligned_count)

/-- Copying `n` keys from `keys[i]` on into `unaligned_keys`. -/
def gather_unaligned (keys : List Nat) : Nat → Nat → List Nat → Nat → List Nat × Nat
  | 0, _, unaligned_keys, unaligned_count => (unaligned_keys, unaligned_count)
  | n + 1, i, unaligned_keys, unaligned_count =>
    gather_unaligned keys n (i + 1)
      (unaligned_keys.set unaligned_count (keys.getD i 0)) (unaligned_count + 1)

/-- The block `if (unaligned_count > 0) { ... }` of `histogram`. -/
def histogram_unaligned (unaligned_keys : List Nat) (unaligned_count : Nat) (s m : M128)
    (count : List Nat) : List Nat :=
  if unaligned_count > 0 then
    let k12 := _mm_load_si128 unaligned_keys 0
    let k34 := if unaligned_count > 2 then _mm_load_si128 unaligned_keys 2
      else _mm_setzero_si128
    let h := histogram_hash k12 k34 s m
    histogram_lanes unaligned_count h count
  else count

/-- `histogram(keys, size, count, shift_bits, radix_bits)` of
`lsb_64_chiplet.c`.  `kpos` is the address of `keys` divided by 8 and
`stack` the initial (indeterminate) contents of `unaligned_keys[4]`. -/
def histogram (kpos : Nat) (keys : List Nat) (size : Nat) (count : List Nat)
    (shift_bits radix_bits : Nat) (stack : List Nat) : Option (List Nat) :=
  if radix_bits ≤ 16 then
    let s := _mm_set_epi32 0 0 0 shift_bits
    let m := _mm_set1_epi64x ((1 <<< radix_bits) - 1)
    let (i, size, unaligned_keys, unaligned_count) := histogram_head kpos keys size 0 stack 0
    let keys_aligned_end := i + and_not size 3
    let keys_end := i + size
    let count := histogram_aligned keys s m (and_not size 3 / 4) i count
    let count := histogram_unaligned unaligned_keys unaligned_count s m count
    let (unaligned_keys, unaligned_count) :=
      gather_unaligned keys (keys_end - keys_aligned_end) keys_aligned_end unaligned_keys 0
    some (histogram_unaligned unaligned_keys unaligned_count s m count)
  else none

/-! ## Double-precision products truncated to `uint64_t` -/

/-- Number of binary digits of `n` among its low `fuel` bits. -/
def bit_length_loop : Nat → Nat → Nat
  | 0, _ => 0
  | fuel + 1, n => if n = 0 then 0 else 1 + bit_length_loop fuel (n / 2)

/-- Number of binary digits of `n < 2^256`. -/
def bit_length (n : Nat) : Nat := bit_length_loop 256 n

/-- Rounding of a positive integer to 53 significant bits, ties to even:
the IEEE-754 double nearest to it (the same for any power-of-two scaling). -/
def round53 (p : Nat) : Nat :=
  if p < 2 ^ 53 then p
  else
    let sh := bit_length p - 53
    let q := p / 2 ^ sh
    let r := p % 2 ^ sh
    let half := 2 ^ (sh - 1)
    if r > half ∨ (r = half ∧ q % 2 = 1) then (q + 1) * 2 ^ sh else q * 2 ^ sh

/-- `(uint64_t) (x * shrink)` with `const double shrink = 0.77` and `x` a
`uint64_t`: `x` is converted to double, multiplied by the double nearest to
0.77, which is `6935543426150564 * 2^-53`, and the rounded product is
truncated. -/
def mul_shrink (x : Nat) : Nat := round53 (round53 x * 6935543426150564) / 2 ^ 53

/-! ## Cache-resident sort (`cmp_64_chiplet.c`) -/

/-- The inner `do { ... } while (next_key < temp_key)` of `insertsort`,
entered with index `j`; the last component is `j + 1` at the exit (`0`
after the `break` on `j-- == 0`). -/
def insertsort_shift (next_key : Nat) : Nat → Nat → List Nat → List Nat → List Nat × List Nat × Nat
  | 0, temp_key, keys, rids =>
    let rids := rids.set 1 (rids.getD 0 0)
    let keys := keys.set 1 temp_key
    (keys, rids, 0)
  | j + 1, temp_key, keys, rids =>
    let rids := rids.set (j + 1 + 1) (rids.getD (j + 1) 0)
    let keys := keys.set (j + 1 + 1) temp_key
    let temp_key := keys.getD j 0
    if next_key < temp_key then insertsort_shift next_key j temp_key keys rids
    else (keys, rids, j + 1)

/-- The outer `do { ... } while (++i != size)` of `insertsort`, `n`
iterations starting at index `i`. -/
def insertsort_loop : Nat → Nat → Nat → List Nat → List Nat → List Nat × List Nat
  | 0, _, _, keys, rids => (keys, rids)
  | n + 1, i, prev_key, keys, rids =>
    let next_key := keys.getD i 0
    if next_key ≥ prev_key then insertsort_loop n (i + 1) next_key keys rids
    else
      let next_rid := rids.getD i 0
      let temp_key := prev_key
      let (keys, rids, j1) := insertsort_shift next_key (i - 1) temp_key keys rids
      let keys := keys.set j1 next_key
      let rids := rids.set j1 next_rid
      insertsort_loop n (i + 1) prev_key keys rids

/-- `insertsort(keys, rids, size)`. -/
def insertsort (keys rids : List Nat) (size : Nat) : List Nat × List Nat :=
  if size ≤ 1 then (keys, rids)
  else insertsort_loop (size - 1) 1 (keys.getD 0 0) keys rids

/-- The scalar compare-exchange of `keys[i]` and `keys[j]` in the comb
loop of `simd_combsort` (the `beg` and `end` parts). -/
def comb_scalar (mask_C : M128) (keys rids : List Nat) (swap : M128) (i j : Nat) :
    List Nat × List Nat × M128 :=
  let ki := keys.getD i 0
  let kj := keys.getD j 0
  if ki > kj then
    let swap := mask_C
    let r := rids.getD j 0
    let rids := rids.set j (rids.getD i 0)
    let rids := rids.set i r
    let keys := keys.set i kj
    let keys := keys.set j ki
    (keys, rids, swap)
  else (keys, rids, swap)

/-- One iteration of the 4-wide middle loop of the comb sort: the keys and
payloads at `i .. i+3` against those at `j .. j+3`. -/
def comb_vector (mask_C : M128) (keys rids : List Nat) (swap : M128) (i j : Nat) :
    List Nat × List Nat × M128 :=
  let ki_L := _mm_load_si128 keys i
  let ki_H := _mm_load_si128 keys (i + 2)
  let kj_L := _mm_load_si128 keys j
  let kj_H := _mm_load_si128 keys (j + 2)
  let vi_L := _mm_load_si128 rids i
  let vi_H := _mm_load_si128 rids (i + 2)
  let vj_L := _mm_load_si128 rids j
  let vj_H := _mm_load_si128 rids (j + 2)
  let ki_LC := _mm_sub_epi64 ki_L mask_C
  let ki_HC := _mm_sub_epi64 ki_H mask_C
  let kj_LC := _mm_sub_epi64 kj_L mask_C
  let kj_HC := _mm_sub_epi64 kj_H mask_C
  let cmp_L := _mm_cmpgt_epi64 ki_LC kj_LC
  let cmp_H := _mm_cmpgt_epi64 ki_HC kj_HC
  let k_min_L := _mm_blendv_epi8 ki_L kj_L cmp_L
  let k_max_L := _mm_blendv_epi8 kj_L ki_L cmp_L
  let k_min_H := _mm_blendv_epi8 ki_H kj_H cmp_H
  let k_max_H := _mm_blendv_epi8 kj_H ki_H cmp_H
  let v_min_L := _mm_blendv_epi8 vi_L vj_L cmp_L
  let v_max_L := _mm_blendv_epi8 vj_L vi_L cmp_L
  let v_min_H := _mm_blendv_epi8 vi_H vj_H cmp_H
  let v_max_H := _mm_blendv_epi8 vj_H vi_H cmp_H
  let swap := _mm_or_si128 swap cmp_L
  let swap := _mm_or_si128 swap cmp_H
  let keys := _mm_store_si128 keys i k_min_L
  let keys := _mm_store_si128 keys (i + 2) k_min_H
  let keys := _mm_store_si128 keys j k_max_L
  let keys := _mm_store_si128 keys (j + 2) k_max_H
  let rids := _mm_store_si128 rids i v_min_L
  let rids := _mm_store_si128 rids (i + 2) v_min_H
  let rids := _mm_store_si128 rids j v_max_L
  let rids := _mm_store_si128 rids (j + 2) v_max_H
  (keys, rids, swap)

/-- The middle loop `do { ... i += 4; j += 4; } while (j != size_middle)`;
`none` when `fuel` iterations do not reach `size_middle`. -/
def comb_middle (mask_C : M128) (size_middle : Nat) :
    Nat → List Nat → List Nat → M128 → Nat → Nat → Option (List Nat × List Nat × M128 × Nat × Nat)
  | 0, _, _, _, _, _ => none
  | fuel + 1, keys, rids, swap, i, j =>
    let (keys, rids, swap) := comb_vector mask_C keys rids swap i j
    let i := i + 4
    let j := j + 4
    if j ≠ size_middle then comb_middle mask_C size_middle fuel keys rids swap i j
    else some (keys, rids, swap, i, j)

/-- The loop `for (c = 0; c != end; ++c)` after the middle loop, `n`
iterations from `c`. -/
def comb_end (mask_C : M128) (i j : Nat) :
    Nat → Nat → List Nat → List Nat → M128 → List Nat × List Nat × M128
  | 0, _, keys, rids, swap => (keys, rids, swap)
  | n + 1, c, keys, rids, swap =>
    let (keys, rids, swap) := comb_scalar mask_C keys rids swap (c + i) (c + j)
    comb_end mask_C i j n (c + 1) keys rids swap

/-- One pass of the comb loop: the body of `for (;;)` up to the test of
`gap`. -/
def comb_pass (mask_C : M128) (size beg end_ size_middle gap : Nat) (keys rids : List Nat) :
    Option (List Nat × List Nat × M128) :=
  let i := beg
  let j := (gap <<< 2) % 2 ^ 64
  let swap := _mm_setzero_si128
  let (keys, rids, swap) :=
    if beg ≠ 0 then comb_scalar mask_C keys rids swap 0 j else (keys, rids, swap)
  let j := j + beg
  match comb_middle mask_C size_middle size keys rids swap i j with
  | none => none
  | some (keys, rids, swap, i, j) => some (comb_end mask_C i j end_ 0 keys rids swap)

/-- The comb loop `for (;;)`; `none` when `fuel` passes are not enough. -/
def comb_loop (mask_C : M128) (size beg end_ size_middle : Nat) :
    Nat → Nat → List Nat → List Nat → Option (List Nat × List Nat)
  | 0, _, _, _ => none
  | fuel + 1, gap, keys, rids =>
    match comb_pass mask_C size beg end_ size_middle gap keys rids with
    | none => none
    | some (keys, rids, swap) =>
      if gap > 1 then comb_loop mask_C size beg end_ size_middle fuel (mul_shrink gap) keys rids
      else if _mm_testz_si128 swap swap then some (keys, rids)
      else comb_loop mask_C size beg end_ size_middle fuel gap keys rids

/-- The registers carried by the merging loop of `simd_combsort`. -/
structure MergeRegs where
  key_L : M128
  key_H : M128
  rid_L : M128
  rid_H : M128
  loc : M128

/-- The block "get leftmost and valid minimum key" of the merging loop:
`m_key`, the unsigned minimum of the four keys in both 64-bit lanes. -/
def merge_min_key (mask_C key_L key_H : M128) : M128 :=
  let key_LC := _mm_sub_epi64 key_L mask_C
  let key_HC := _mm_sub_epi64 key_H mask_C
  let m_cmp := _mm_cmpgt_epi64 key_LC key_HC
  let m_key := _mm_blendv_epi8 key_LC key_HC m_cmp
  let t_key := _mm_shuffle_epi32 m_key (MM_SHUFFLE 1 0 3 2)
  let m_cmp := _mm_cmpgt_epi64 m_key t_key
  let m_key := _mm_blendv_epi8 m_key t_key m_cmp
  _mm_add_epi64 m_key mask_C

/-- The block "get min index" of the merging loop: `m_loc`, the smallest
location among the lanes whose key is the minimum, in all four elements. -/
def merge_min_loc (mask_I m_key key_L key_H loc : M128) : M128 :=
  let m_loc_L := _mm_cmpeq_epi64 m_key key_L
  let m_loc_H := _mm_cmpeq_epi64 m_key key_H
  let m_loc := _mm_packs_epi32 m_loc_L m_loc_H
  let m_loc := _mm_xor_si128 m_loc mask_I
  let m_loc := _mm_or_si128 m_loc loc
  let t_loc := _mm_shuffle_epi32 m_loc (MM_SHUFFLE 2 3 0 1)
  let m_loc := _mm_min_epu32 m_loc t_loc
  let t_loc := _mm_shuffle_epi32 m_loc (MM_SHUFFLE 1 0 3 2)
  _mm_min_epu32 m_loc t_loc

/-- The block "get min rid" of the merging loop. -/
def merge_min_rid (rid_L rid_H m_pos_L m_pos_H : M128) : M128 :=
  let m_rid_L := _mm_and_si128 rid_L m_pos_L
  let m_rid_H := _mm_and_si128 rid_H m_pos_H
  let m_rid := _mm_or_si128 m_rid_L m_rid_H
  let t_rid := _mm_shuffle_epi32 m_rid (MM_SHUFFLE 1 0 3 2)
  _mm_or_si128 m_rid t_rid

/-- One iteration of the merging loop: the new registers and the pair
`(k, r)` streamed to `keys_out`, `rids_out`. -/
def merge_step (keys rids : List Nat) (mask_C mask_I mask_4 mask_size : M128) (s : MergeRegs) :
    MergeRegs × Nat × Nat :=
  let m_key := merge_min_key mask_C s.key_L s.key_H
  let m_loc := merge_min_loc mask_I m_key s.key_L s.key_H s.loc
  let m_pos := _mm_cmpeq_epi32 m_loc s.loc
  let m_loc := _mm_add_epi32 m_loc mask_4
  let m_pos_L := _mm_shuffle_epi32 m_pos (MM_SHUFFLE 1 1 0 0)
  let m_pos_H := _mm_shuffle_epi32 m_pos (MM_SHUFFLE 3 3 2 2)
  let m_rid := merge_min_rid s.rid_L s.rid_H m_pos_L m_pos_H
  let i := movd m_loc
  let n_key := _mm_loadl_epi64 keys i
  let n_rid := _mm_loadl_epi64 rids i
  let n_key := _mm_unpacklo_epi64 n_key n_key
  let n_rid := _mm_unpacklo_epi64 n_rid n_rid
  let loc := _mm_blendv_epi8 s.loc m_loc m_pos
  let key_L := _mm_blendv_epi8 s.key_L n_key m_pos_L
  let key_H := _mm_blendv_epi8 s.key_H n_key m_pos_H
  let rid_L := _mm_blendv_epi8 s.rid_L n_rid m_pos_L
  let rid_H := _mm_blendv_epi8 s.rid_H n_rid m_pos_H
  let inv := _mm_cmpgt_epi32 loc mask_size
  let inv_L := _mm_shuffle_epi32 inv (MM_SHUFFLE 1 1 0 0)
  let inv_H := _mm_shuffle_epi32 inv (MM_SHUFFLE 3 3 2 2)
  let key_L := _mm_or_si128 key_L inv_L
  let key_H := _mm_or_si128 key_H inv_H
  let k := movq m_key
  let r := movq m_rid
  (⟨key_L, key_H, rid_L, rid_H, loc⟩, k, r)

/-- The merging loop `do { ... } while (keys_out != keys_end)`, `n`
iterations; the streamed keys and payloads are appended to `keys_out`,
`rids_out`. -/
def merge_loop (keys rids : List Nat) (mask_C mask_I mask_4 mask_size : M128) :
    Nat → MergeRegs → List Nat → List Nat → List Nat × List Nat
  | 0, _, keys_out, rids_out => (keys_out, rids_out)
  | n + 1, s, keys_out, rids_out =>
    let (s, k, r) := merge_step keys rids mask_C mask_I mask_4 mask_size s
    merge_loop keys rids mask_C mask_I mask_4 mask_size n s (keys_out ++ [k]) (rids_out ++ [r])

/-- The 4-way merge of `simd_combsort` (from `mask_7654` on): the contents
of `keys_out[0 .. size)` and `rids_out[0 .. size)`. -/
def simd_merge (mask_C mask_I : M128) (keys rids : List Nat) (size : Nat) : List Nat × List Nat :=
  let mask_7654 := _mm_cvtsi64_si128 0x07060504
  let mask_size := _mm_cvtsi64_si128 (size - 1)
  let mask_7654 := _mm_cvtepi8_epi32 mask_7654
  let mask_size := _mm_shuffle_epi32 mask_size 0
  let mask_4 := _mm_shuffle_epi32 mask_7654 0
  let key_L := _mm_load_si128 keys 0
  let key_H := _mm_load_si128 keys 2
  let rid_L := _mm_load_si128 rids 0
  let rid_H := _mm_load_si128 rids 2
  let loc := _mm_sub_epi32 mask_7654 mask_4
  merge_loop keys rids mask_C mask_I mask_4 mask_size size
    ⟨key_L, key_H, rid_L, rid_H, loc⟩ [] []

/-- `simd_combsort(keys, rids, size, keys_out, rids_out)`.  `kpos` is the
address of `keys` divided by 8, `fuel` bounds the passes of the comb loop.
The result is the final contents of `keys`, `rids` and of
`keys_out[0 .. size)`, `rids_out[0 .. size)`; `none` is a failed assertion
or exhausted `fuel`. -/
def simd_combsort (fuel kpos : Nat) (keys rids : List Nat) (size : Nat) :
    Option (List Nat × List Nat × List Nat × List Nat) :=
  if size ≤ 9 then
    let (keys, rids) := insertsort keys rids size
    some (keys, rids, keys.take size, rids.take size)
  else if size ≤ 0x7FFFFFF0 then
    let unaligned := (15 &&& (8 * kpos)) >>> 3
    let beg := if unaligned = 0 then 0 else 2 - unaligned
    let end_ := (size - beg) &&& 3
    let gap := mul_shrink ((size - beg - end_) >>> 2)
    let size_middle := size - end_
    let mask_I := _mm_set1_epi32 (2 ^ 32 - 1)
    let mask_C := _mm_slli_epi64 mask_I 63
    match comb_loop mask_C size beg end_ size_middle fuel gap keys rids with
    | none => none
    | some (keys, rids) =>
      let (keys_out, rids_out) := simd_merge mask_C mask_I keys rids size
      some (keys, rids, keys_out, rids_out)
  else none

/-! ## Functions used to state the behaviour of the comb loop -/

/-- Compare-exchange of the pairs at positions `i` and `j`: afterwards the
smaller key (with its payload) is at `i`. -/
def cx (keys rids : List Nat) (i j : Nat) : List Nat × List Nat :=
  let c := decide (keys.getD i 0 > keys.getD j 0)
  ((keys.set i (if c then keys.getD j 0 else keys.getD i 0)).set j
      (if c then keys.getD i 0 else keys.getD j 0),
   (rids.set j (if c then rids.getD i 0 else rids.getD j 0)).set i
      (if c then rids.getD j 0 else rids.getD i 0))

/-- `n` compare-exchanges of `e` with `e + d`, for `e` ascending from the
given start; the flag records whether any pair was exchanged. -/
def cx_seq (d : Nat) : Nat → Nat → List Nat × List Nat × Bool → List Nat × List Nat × Bool
  | 0, _, st => st
  | n + 1, e, (keys, rids, dirty) =>
    cx_seq d n (e + 1)
      ((cx keys rids e (e + d)).1, (cx keys rids e (e + d)).2,
        dirty || decide (keys.getD e 0 > keys.getD (e + d) 0))

/-- The weighted sum `0 * l[0] + 1 * l[1] + ...`, offset by `k`. -/
def weighted_sum : Nat → List Nat → Nat
  | _, [] => 0
  | k, x :: xs => k * x + weighted_sum (k + 1) xs

/-- The first `size` (key, payload) pairs of two arrays. -/
def pairs (keys rids : List Nat) (size : Nat) : List (Nat × Nat) :=
  (List.range size).map (fun e => (keys.getD e 0, rids.getD e 0))

/-- The registers of the merging loop whose lane `j` holds key `K j`,
payload `R j` and location `L j`. -/
def merge_regs (K R L : Nat → Nat) : MergeRegs :=
  ⟨mk64 (K 0) (K 1), mk64 (K 2) (K 3), mk64 (R 0) (R 1), mk64 (R 2) (R 3), ⟨L 0, L 1, L 2, L 3⟩⟩

/-! ## Pass schedule of the LSB radix sort (`distribute_bits`) -/

/-- `ceil_div(x, y)`: `(x + y - 1) / y` on `int`, the division truncating. -/
def ceil_div (x y : Int) : Int := Int.tdiv (x + y - 1) y

/-- The loop of `ceil_log_2`: `while ((one << power) < x && power != 64) power++`. -/
def ceil_log_2_loop (x : Nat) : Nat → Nat → Nat
  | 0, power => power
  | fuel + 1, power =>
    if (1 <<< power) % 2 ^ 64 < x ∧ power ≠ 64 then ceil_log_2_loop x fuel (power + 1) else power

/-- `ceil_log_2(x)`: the loop runs at most 64 times. -/
def ceil_log_2 (x : Nat) : Nat := ceil_log_2_loop x 65 0

/-- The table `limit[]` of `distribute_bits` in `lsb_64_chiplet.c`, with the
entries replaced when `global_tuples >= 100`. -/
def limit_chiplet (global_tuples : Nat) : List Int :=
  if global_tuples ≥ 100 then [14, 27, 40, 53, 66, 67] else [12, 23, 34, 45, 56, 67]

/-- The table `limit[]` of `distribute_bits` in `lsb_64_baseline.c`. -/
def limit_baseline : List Int := [12, 23, 34, 45, 56, 67]

/-- `while (limit[passes++] < total_bits);` from `passes`; `none` is a read
past the end of the table. -/
def count_passes (limit : List Int) (total_bits : Int) : Nat → Nat → Option Nat
  | 0, _ => none
  | fuel + 1, passes =>
    match limit[passes]? with
    | none => none
    | some l =>
      if l < total_bits then count_passes limit total_bits fuel (passes + 1)
      else some (passes + 1)

/-- The loop `for (p = 1; p != passes; ++p)` of `distribute_bits`, `n`
iterations from `p`: the remaining bits and the entries of `pass`. -/
def fill_passes (end_bits : Int) (passes : Nat) : Nat → Nat → Int → List Int → Int × List Int
  | 0, _, rem_bits, pass => (rem_bits, pass)
  | n + 1, p, rem_bits, pass =>
    let v := ceil_div (rem_bits - end_bits) ((passes : Int) - p)
    fill_passes end_bits passes n (p + 1) (rem_bits - v) (pass ++ [v])

/-- `distribute_bits(bits, numa, pass, 0)` with the given `limit` table.
The result is the returned number of passes with the entries
`pass[0 .. passes]`, all of which the function writes; `none` is a failed
assertion or a read outside `limit`. -/
def distribute_bits_limit (limit : List Int) (bits numa : Nat) : Option (Nat × List Int) :=
  let numa_bits : Int := ceil_log_2 numa
  let end_bits : Int := if numa_bits > 0 then 1 else 0
  let total_bits : Int := bits + numa_bits
  match count_passes limit total_bits (limit.length + 1) 0 with
  | none => none
  | some passes =>
    let pass0 := ceil_div (total_bits - end_bits) passes - numa_bits
    let (rem_bits, pass) := fill_passes end_bits passes (passes - 1) 1 (bits - pass0) [pass0]
    let pass := pass.set (passes - 1) (pass.getD (passes - 1) 0 + end_bits)
    if rem_bits = end_bits then some (passes, pass ++ [0]) else none

/-- `distribute_bits` of `lsb_64_chiplet.c`, `global_tuples` the global variable. -/
def distribute_bits (global_tuples bits numa : Nat) : Option (Nat × List Int) :=
  distribute_bits_limit (limit_chiplet global_tuples) bits numa

/-- `distribute_bits` of `lsb_64_baseline.c`. -/
def distribute_bits_baseline (bits numa : Nat) : Option (Nat × List Int) :=
  distribute_bits_limit limit_baseline bits numa

/-- The property of a schedule stated for `distribute_bits`: `1 <= k <= 6`,
`pass[k] = 0`, every earlier entry at least one, and the entries sum to `bits`. -/
def schedule_ok (bits : Nat) (r : Option (Nat × List Int)) : Bool :=
  match r with
  | none => false
  | some (k, pass) =>
    decide (1 ≤ k) && decide (k ≤ 6) && decide (pass.length = k + 1)
      && decide (pass.getD k 1 = 0) && (pass.take k).all (fun v => decide (1 ≤ v))
      && decide ((pass.take k).sum = (bits : Int))

/-- The bound on the fan-out of a schedule: `pass[0] + ceil_log_2(numa) <= 16`
and `pass[p] <= 16` for the later passes. -/
def schedule_fits (numa : Nat) (r : Option (Nat × List Int)) : Bool :=
  match r with
  | none => false
  | some (k, pass) =>
    decide (pass.getD 0 0 + (ceil_log_2 numa : Int) ≤ 16)
      && ((pass.take k).drop 1).all (fun v => decide (v ≤ 16))

/-- The check of both properties on both tables of the chiplet variant and
the table of the baseline, for one `bits` and one `numa`. -/
def schedule_check (b n : Nat) : Bool :=
  schedule_ok b (distribute_bits_limit [12, 23, 34, 45, 56, 67] b n) &&
  schedule_ok b (distribute_bits_limit [14, 27, 40, 53, 66, 67] b n) &&
  schedule_fits n (distribute_bits_limit [12, 23, 34, 45, 56, 67] b n) &&
  schedule_fits n (distribute_bits_limit [14, 27, 40, 53, 66, 67] b n)


/-! ## Fan-out selection and delimiters of the range sort (`cmp_64_chiplet.c`) -/

/-- The table `fanout[4]` of `decide_partitions`. -/
def fanout : List Nat := [1, 360, 1000, 1800]

/-- The index pairs `(i, 0)` visited by the first loop of
`decide_partitions`, in order (`j` is still 0 there). -/
def fanout_single : List (Nat × Nat) := (List.range' 1 3).map (fun i => (i, 0))

/-- The index pairs `(i, j)` visited by the nested loops of
`decide_partitions`, in order: `i` from 1 to 3, `j` from 1 to `i`. -/
def fanout_double : List (Nat × Nat) :=
  (List.range' 1 3).flatMap (fun i => (List.range' 1 i).map (fun j => (i, j)))

/-- `decide_partitions(size, part, numa, 0)`: the pair `(part[0], part[1])`.
The products are taken in `uint64_t`; `numa` is a non-negative `int`. -/
def decide_partitions (size numa : Nat) : Nat × Nat :=
  let cache := 1500000
  let ij :=
    match fanout_single.find? (fun (ij : Nat × Nat) =>
        decide (fanout.getD ij.1 0 * cache % 2 ^ 64 ≥ size) && decide (fanout.getD ij.1 0 ≥ numa)) with
    | some ij => ij
    | none =>
      match fanout_double.find? (fun (ij : Nat × Nat) =>
          decide (fanout.getD ij.1 0 * fanout.getD ij.2 0 % 2 ^ 64 * cache % 2 ^ 64 ≥ size)
            && decide (fanout.getD ij.1 0 ≥ numa)) with
      | some ij => ij
      | none => (3, 3)
  (fanout.getD ij.1 0, fanout.getD ij.2 0)

/-- The index `j * (i + 1) - 1` of the sample element that `sort_thread`
stores in `delim_1[i]`, with `j = sample_size / partitions_1`, in `uint64_t`. -/
def delim_1_index (sample_size partitions_1 i : Nat) : Nat :=
  (sample_size / partitions_1 * (i + 1) % 2 ^ 64 + (2 ^ 64 - 1)) % 2 ^ 64

/-- The loop `for (i = 0; i != partitions_1 - 1; ++i) delim_1[i] = sample[j * (i + 1) - 1]`
of `sort_thread`: the delimiters, or `none` when an index is outside the
`sample_size` elements of `sample`. -/
def first_pass_delimiters (sample : List Nat) (sample_size partitions_1 : Nat) :
    Option (List Nat) :=
  (List.range (partitions_1 - 1)).mapM (fun i =>
    if delim_1_index sample_size partitions_1 i < sample_size then
      sample[delim_1_index sample_size partitions_1 i]?
    else none)

/-! ## Order of the data movements of the sorts -/

/-- The two sets of arrays of a sort: the caller's `keys`/`rids` (`input`)
and `keys_buf`/`rids_buf` (`scratch`). -/
inductive Buffer
  | input
  | scratch
  deriving DecidableEq

/-- The data movements `(source, destination)` that `sort_thread` of
`cmp_64_chiplet.c` applies to a first-level partition, in order:
`known_partition` from `keys` to `keys_out = keys_buf`; for `numa > 1` the
shuffle from `keys_buf` to `keys`; then with `keys_1`, `keys_2` as assigned,
either `simd_combsort(keys_1, .., keys_2, ..)`, or
`known_partition(keys_1, .., keys_2, ..)` and `simd_combsort(keys_2, .., keys_1, ..)`. -/
def cmp_sort_thread_moves (numa partitions_2 : Nat) : List (Buffer × Buffer) :=
  let keys_out := Buffer.scratch
  let keys_1 := if numa > 1 then Buffer.input else Buffer.scratch
  let keys_2 := if numa > 1 then Buffer.scratch else Buffer.input
  [(Buffer.input, keys_out)]
    ++ (if numa > 1 then [(Buffer.scratch, Buffer.input)] else [])
    ++ (if partitions_2 = 1 then [(keys_1, keys_2)] else [(keys_1, keys_2), (keys_2, keys_1)])

/-- The value `(numa == 1) ^ (global.partitions_2 == 1)` returned by `sort`
of `cmp_64_chiplet.c`. -/
def cmp_sort_return (numa partitions_2 : Nat) : Nat :=
  (if numa = 1 then 1 else 0) ^^^ (if partitions_2 = 1 then 1 else 0)

/-- The loop `while (d->bits[++pass])` of `sort_thread` in the LSB sorts,
over the entries `bits[1], bits[2], ...`: each pass moves from `keys_a` to
`keys_b` and swaps the two. -/
def radix_passes : Buffer → Buffer → List Int → List (Buffer × Buffer)
  | _, _, [] => []
  | keys_a, keys_b, b :: rest =>
    if b = 0 then [] else (keys_a, keys_b) :: radix_passes keys_b keys_a rest

/-- The data movements `(source, destination)` of `sort_thread` in
`lsb_64_chiplet.c`: the first pass from `keys` to `keys_out = keys_buf`, then
the later passes, with `keys_a = numa > 1 ? d->keys : d->keys_buf`. -/
def lsb_sort_thread_moves (numa : Nat) (bits : List Int) : List (Buffer × Buffer) :=
  (Buffer.input, Buffer.scratch) ::
    radix_passes (if numa > 1 then Buffer.input else Buffer.scratch)
      (if numa > 1 then Buffer.scratch else Buffer.input) (bits.drop 1)

/-- The data movements of `sort_thread` in `lsb_64_baseline.c`: as in the
chiplet variant, with the copy of the remote partitions from `keys_buf` to
`keys` after the first pass when `numa > 1`. -/
def lsb_baseline_sort_thread_moves (numa : Nat) (bits : List Int) : List (Buffer × Buffer) :=
  (Buffer.input, Buffer.scratch) ::
    ((if numa > 1 then [(Buffer.scratch, Buffer.input)] else []) ++
      radix_passes (if numa > 1 then Buffer.input else Buffer.scratch)
        (if numa > 1 then Buffer.scratch else Buffer.input) (bits.drop 1))

/-- The value returned by `sort` of the LSB sorts:
`if (numa > 1) bit_passes++; return bit_passes & 1`. -/
def lsb_sort_return (bit_passes numa : Nat) : Nat :=
  (if numa > 1 then bit_passes + 1 else bit_passes) &&& 1

/-- The pass schedule, returned value and data movements of `sort` of
`lsb_64_chiplet.c`. -/
def lsb_sort (global_tuples bits numa : Nat) : Option (Nat × List (Buffer × Buffer)) :=
  match distribute_bits global_tuples bits numa with
  | none => none
  | some (bit_passes, pass) =>
    some (lsb_sort_return bit_passes numa, lsb_sort_thread_moves numa pass)

/-- The pass schedule, returned value and data movements of `sort` of
`lsb_64_baseline.c`. -/
def lsb_baseline_sort (bits numa : Nat) : Option (Nat × List (Buffer × Buffer)) :=
  match distribute_bits_baseline bits numa with
  | none => none
  | some (bit_passes, pass) =>
    some (lsb_sort_return bit_passes numa, lsb_baseline_sort_thread_moves numa pass)

/-- Every movement but the first reads the buffer the one before it wrote. -/
def moves_chained : List (Buffer × Buffer) → Bool
  | [] => true
  | [_] => true
  | a :: b :: rest => decide (a.2 = b.1) && moves_chained (b :: rest)

/-! ## Delimiters of the NUMA split (`extract_delimiters`)

A non-negative double is represented by a pair `(m, k)` of value `m / 2^k`. -/

/-- Removal of trailing zero bits of the numerator of `m / 2^k`. -/
def dy_strip : Nat → Nat × Nat → Nat × Nat
  | 0, x => x
  | fuel + 1, (m, k) => if m % 2 = 0 ∧ k ≠ 0 ∧ m ≠ 0 then dy_strip fuel (m / 2, k - 1) else (m, k)

/-- The double `(double) a / (double) d` for `uint64_t` values `a`, `d ≠ 0`:
the quotient is computed with 60 extra bits and a sticky bit, then rounded. -/
def dy_div (a d : Nat) : Nat × Nat :=
  let k := 60 + bit_length (round53 d)
  let q := round53 a * 2 ^ k / round53 d
  let sticky := if round53 a * 2 ^ k % round53 d = 0 then 0 else 1
  dy_strip 256 (round53 (2 * q + sticky), k + 1)

/-- The double `x * (double) n` for a `uint64_t` value `n`. -/
def dy_mul (x : Nat × Nat) (n : Nat) : Nat × Nat :=
  dy_strip 256 (round53 (x.1 * round53 n), x.2)

/-- The conversion `(uint64_t) (x - 0.001)`; the double nearest to 0.001 is
`4611686018427388 / 2^62`. A difference in `(-1, 0)` truncates to 0. -/
def dy_sub_milli_trunc (x : Nat × Nat) : Nat :=
  let K := max x.2 62
  let a := x.1 * 2 ^ (K - x.2)
  let c := 4611686018427388 * 2 ^ (K - 62)
  if a < c then 0 else round53 (a - c) / 2 ^ K % 2 ^ 64

/-- `while (delimiter[parts] != ~ (uint64_t) 0) parts++`; `none` when no
entry of the array holds the end marker. -/
def count_parts (delimiter : List Nat) : Nat → Nat → Option Nat
  | 0, _ => none
  | fuel + 1, parts =>
    match delimiter[parts]? with
    | none => none
    | some v => if v ≠ 2 ^ 64 - 1 then count_parts delimiter fuel (parts + 1) else some parts

/-- `for (start = index; start; --start) if (sample[start] != d) break;`:
the final `start`. -/
def run_start (sample : List Nat) (d : Nat) : Nat → Nat
  | 0 => 0
  | start + 1 => if sample.getD (start + 1) 0 ≠ d then start + 1 else run_start sample d start

/-- `for (end = index; end != sample_size; ++end) if (sample[end] != d) break;`:
the final `end`, with at most `fuel` iterations. -/
def run_end (sample : List Nat) (sample_size d : Nat) : Nat → Nat → Nat
  | 0, e => e
  | fuel + 1, e =>
    if e = sample_size then e
    else if sample.getD e 0 ≠ d then e
    else run_end sample sample_size d fuel (e + 1)

/-- The body of the loop of `extract_delimiters` for `i`, `i + 1`, ...
(`n` iterations); `none` when `index` is outside the sample. -/
def extract_loop (sample : List Nat) (sample_size : Nat) (percentile : Nat × Nat) :
    Nat → Nat → List Nat → Option (List Nat)
  | 0, _, delimiter => some delimiter
  | n + 1, i, delimiter =>
    let index := dy_sub_milli_trunc (dy_mul percentile (i + 1))
    if index < sample_size ∧ index < sample.length then
      let d := sample.getD index 0
      let start := run_start sample d index
      let end_ := run_end sample sample_size d (sample_size - index) index
      let d' := if index - start < end_ - index ∧ d ≠ 0 then d - 1 else d
      extract_loop sample sample_size percentile n (i + 1) (delimiter.set i d')
    else none

/-- `extract_delimiters(sample, sample_size, delimiter)`: the final contents
of `delimiter`. -/
def extract_delimiters (sample : List Nat) (sample_size : Nat) (delimiter : List Nat) :
    Option (List Nat) :=
  match count_parts delimiter (delimiter.length + 1) 0 with
  | none => none
  | some parts =>
    extract_loop sample sample_size (dy_div sample_size (parts + 1)) parts 0 delimiter

/-! ## Buffered radix partitioning of the LSB sorts (`partition`, `finalize`) -/

/-- The loop `for (i = 0; i != partitions; ++i) buf[(i << 4) | 14] = offsets[i] << 1`. -/
def partition_init (offsets : List Nat) : Nat → Nat → List Nat → List Nat
  | 0, _, buf => buf
  | n + 1, i, buf =>
    partition_init offsets n (i + 1)
      (buf.set ((i <<< 4) ||| 14) ((offsets.getD i 0 <<< 1) % 2 ^ 64))

/-- The loop `while ((15 & (uint64_t) keys) && i != size)` of `partition`,
from `i`: the items before the first 16-byte boundary are copied to
`unaligned_keys`, `unaligned_rids`.  `kpos` is the address of `keys` divided
by 8. -/
def partition_head (kpos : Nat) (keys rids : List Nat) (size : Nat) :
    Nat → Nat → List Nat → List Nat → Nat × List Nat × List Nat
  | 0, i, uk, ur => (i, uk, ur)
  | fuel + 1, i, uk, ur =>
    if (15 &&& (8 * (kpos + i))) ≠ 0 ∧ i ≠ size then
      partition_head kpos keys rids size fuel (i + 1) (uk.set i (keys.getD i 0))
        (ur.set i (rids.getD i 0))
    else (i, uk, ur)

/-- The body of the inner loop of `partition` for the lane in element 0 of
`h`, `k_L`, `k_H`, `v_L`, `v_H`: the pair is stored in the buffer line of its
partition, and a full line is streamed to `keys_out`, `rids_out`. -/
def partition_lane (h k_L k_H v_L v_H : M128) (buf keys_out rids_out : List Nat) :
    List Nat × List Nat × List Nat :=
  let p := movd h
  let index := buf.getD (p + 14) 0
  let buf := buf.set (p + 14) ((index + 2) % 2 ^ 64)
  let offset := index &&& 15
  let kkxx := _mm_unpacklo_epi32 k_L k_H
  let vvxx := _mm_unpacklo_epi32 v_L v_H
  let kkvv := _mm_unpacklo_epi64 kkxx vvxx
  let buf := _mm_store_si128 buf (p + offset) kkvv
  if offset = 14 then
    let dest := (index - 14) / 2
    let r0 := _mm_load_si128 buf p
    let r1 := _mm_load_si128 buf (p + 2)
    let r2 := _mm_load_si128 buf (p + 4)
    let r3 := _mm_load_si128 buf (p + 6)
    let r4 := _mm_load_si128 buf (p + 8)
    let r5 := _mm_load_si128 buf (p + 10)
    let r6 := _mm_load_si128 buf (p + 12)
    let r7 := _mm_load_si128 buf (p + 14)
    let x0 := _mm_unpacklo_epi64 r0 r1
    let x1 := _mm_unpacklo_epi64 r2 r3
    let x2 := _mm_unpacklo_epi64 r4 r5
    let x3 := _mm_unpacklo_epi64 r6 r7
    let keys_out := _mm_store_si128 keys_out dest x0
    let keys_out := _mm_store_si128 keys_out (dest + 2) x1
    let keys_out := _mm_store_si128 keys_out (dest + 4) x2
    let keys_out := _mm_store_si128 keys_out (dest + 6) x3
    let y0 := _mm_unpackhi_epi64 r0 r1
    let y1 := _mm_unpackhi_epi64 r2 r3
    let y2 := _mm_unpackhi_epi64 r4 r5
    let y3 := _mm_unpackhi_epi64 r6 r7
    let rids_out := _mm_store_si128 rids_out dest y0
    let rids_out := _mm_store_si128 rids_out (dest + 2) y1
    let rids_out := _mm_store_si128 rids_out (dest + 4) y2
    let rids_out := _mm_store_si128 rids_out (dest + 6) y3
    (buf.set (p + 14) ((index + 2) % 2 ^ 64), keys_out, rids_out)
  else (buf, keys_out, rids_out)

/-- The inner loop of `partition` over `n` lanes, rotating the registers
after each. -/
def partition_lanes : Nat → M128 → M128 → M128 → M128 → M128 →
    List Nat × List Nat × List Nat → List Nat × List Nat × List Nat
  | 0, _, _, _, _, _, st => st
  | n + 1, h, k_L, k_H, v_L, v_H, (buf, keys_out, rids_out) =>
    partition_lanes n (_mm_shuffle_epi32 h (MM_SHUFFLE 0 3 2 1))
      (_mm_shuffle_epi32 k_L (MM_SHUFFLE 0 3 2 1)) (_mm_shuffle_epi32 k_H (MM_SHUFFLE 0 3 2 1))
      (_mm_shuffle_epi32 v_L (MM_SHUFFLE 0 3 2 1)) (_mm_shuffle_epi32 v_H (MM_SHUFFLE 0 3 2 1))
      (partition_lane h k_L k_H v_L v_H buf keys_out rids_out)

/-- The code of `partition` from the label `unaligned_intro` to the end of
the inner loop, which runs over `n` lanes. -/
def partition_group (n : Nat) (k12 k34 v12 v34 s m : M128)
    (st : List Nat × List Nat × List Nat) : List Nat × List Nat × List Nat :=
  let h12 := _mm_srl_epi64 k12 s
  let h34 := _mm_srl_epi64 k34 s
  let h12 := _mm_and_si128 h12 m
  let h34 := _mm_and_si128 h34 m
  let h := _mm_packus_epi32 h12 h34
  let h := _mm_slli_epi32 h 4
  let k12 := _mm_shuffle_epi32 k12 (MM_SHUFFLE 3 1 2 0)
  let k34 := _mm_shuffle_epi32 k34 (MM_SHUFFLE 3 1 2 0)
  let v12 := _mm_shuffle_epi32 v12 (MM_SHUFFLE 3 1 2 0)
  let v34 := _mm_shuffle_epi32 v34 (MM_SHUFFLE 3 1 2 0)
  let k_L := _mm_unpacklo_epi64 k12 k34
  let k_H := _mm_unpackhi_epi64 k12 k34
  let v_L := _mm_unpacklo_epi64 v12 v34
  let v_H := _mm_unpackhi_epi64 v12 v34
  partition_lanes n h k_L k_H v_L v_H st

/-- The loop `while (keys != keys_aligned_end)` of `partition`: `n` groups
of four items from `keys[i]`, `rids[i]`. -/
def partition_aligned (keys rids : List Nat) (s m : M128) :
    Nat → Nat → List Nat × List Nat × List Nat → List Nat × List Nat × List Nat
  | 0, _, st => st
  | n + 1, i, st =>
    partition_aligned keys rids s m n (i + 4)
      (partition_group 4 (_mm_load_si128 keys i) (_mm_load_si128 keys (i + 2))
        (_mm_load_si128 rids i) (_mm_load_si128 rids (i + 2)) s m st)

/-- Copying `n` items from `keys[i]`, `rids[i]` on into `unaligned_keys`,
`unaligned_rids` from entry `c` on. -/
def partition_gather (keys rids : List Nat) : Nat → Nat → Nat → List Nat → List Nat →
    List Nat × List Nat
  | 0, _, _, uk, ur => (uk, ur)
  | n + 1, i, c, uk, ur =>
    partition_gather keys rids n (i + 1) (c + 1) (uk.set c (keys.getD i 0))
      (ur.set c (rids.getD i 0))

/-- The common code of `partition` in the two LSB sorts.  In
`lsb_64_chiplet.c` the inner loop is `for (int j = 0; j < 4; j++)`
(`four_lanes`), in `lsb_64_baseline.c` it is `do { ... } while (--i)`.
`kpos` is the address of `keys` divided by 8 (`rids` is aligned like `keys`,
`keys_out` and `rids_out` to 64 bytes), `unaligned_keys` and `unaligned_rids`
are the initial, indeterminate contents of these local arrays.  The result
is the final `buf`, `keys_out`, `rids_out`; `none` is a failed assertion. -/
def partition_common (four_lanes : Bool) (kpos : Nat) (keys rids : List Nat) (size : Nat)
    (offsets buf keys_out rids_out : List Nat) (shift_bits radix_bits : Nat)
    (unaligned_keys unaligned_rids : List Nat) : Option (List Nat × List Nat × List Nat) :=
  if radix_bits ≤ 16 then
    let partitions := 1 <<< radix_bits
    let buf := partition_init offsets partitions 0 buf
    let s := _mm_set_epi32 0 0 0 shift_bits
    let m := _mm_set1_epi64x ((1 <<< radix_bits) - 1)
    let (i, uk, ur) := partition_head kpos keys rids size (size + 1) 0 unaligned_keys unaligned_rids
    let aligned := and_not (size - i) 3
    let st := (buf, keys_out, rids_out)
    let st :=
      if i ≠ 0 then
        partition_group (if four_lanes then 4 else i) (_mm_load_si128 uk 0) (_mm_load_si128 uk 2)
          (_mm_load_si128 ur 0) (_mm_load_si128 ur 2) s m st
      else st
    let st := partition_aligned keys rids s m (aligned / 4) i st
    let t := size - i - aligned
    let (uk, ur) := partition_gather keys rids t (i + aligned) 0 uk ur
    let st :=
      if t ≠ 0 then
        partition_group (if four_lanes then 4 else t) (_mm_load_si128 uk 0) (_mm_load_si128 uk 2)
          (_mm_load_si128 ur 0) (_mm_load_si128 ur 2) s m st
      else st
    some st
  else none

/-- `partition` of `lsb_64_chiplet.c`. -/
def partition (kpos : Nat) (keys rids : List Nat) (size : Nat)
    (offsets buf keys_out rids_out : List Nat) (shift_bits radix_bits : Nat)
    (unaligned_keys unaligned_rids : List Nat) : Option (List Nat × List Nat × List Nat) :=
  partition_common true kpos keys rids size offsets buf keys_out rids_out shift_bits radix_bits
    unaligned_keys unaligned_rids

/-- `partition` of `lsb_64_baseline.c`. -/
def partition_baseline (kpos : Nat) (keys rids : List Nat) (size : Nat)
    (offsets buf keys_out rids_out : List Nat) (shift_bits radix_bits : Nat)
    (unaligned_keys unaligned_rids : List Nat) : Option (List Nat × List Nat × List Nat) :=
  partition_common false kpos keys rids size offsets buf keys_out rids_out shift_bits radix_bits
    unaligned_keys unaligned_rids

/-- The loop `while (off != rem)` of `finalize`, `n` iterations. -/
def finalize_copy (buf : List Nat) (src : Nat) :
    Nat → Nat → Nat → List Nat × List Nat → List Nat × List Nat
  | 0, _, _, out => out
  | n + 1, off, index, (keys_out, rids_out) =>
    finalize_copy buf src n (off + 1) (index + 1)
      (keys_out.set index (buf.getD (src + off + off) 0),
       rids_out.set index (buf.getD (src + off + off + 1) 0))

/-- The loop of `finalize` over the partitions `i`, `i + 1`, ... (`n` of them). -/
def finalize_loop (sizes buf : List Nat) :
    Nat → Nat → List Nat × List Nat → List Nat × List Nat
  | 0, _, out => out
  | n + 1, i, out =>
    let src := i <<< 4
    let index := buf.getD (src + 14) 0 >>> 1
    let rem := index &&& 7
    let off := if rem > sizes.getD i 0 then rem - sizes.getD i 0 else 0
    let index := index - (rem - off)
    finalize_loop sizes buf n (i + 1) (finalize_copy buf src (rem - off) off index out)

/-- `finalize(sizes, buf, keys_out, rids_out, partitions)`: the final
`keys_out`, `rids_out`. -/
def finalize (sizes buf keys_out rids_out : List Nat) (partitions : Nat) :
    List Nat × List Nat :=
  finalize_loop sizes buf partitions 0 (keys_out, rids_out)

/-- The exclusive prefix sums that `partition_offsets` computes for a
single thread (`threads = 1`, `id = 0`): `offsets[i] = count[0] + ... + count[i-1]`. -/
def partition_offsets_single (count : List Nat) : Nat → Nat → Nat → List Nat → List Nat
  | 0, _, _, offsets => offsets
  | n + 1, i, p, offsets =>
    partition_offsets_single count n (i + 1) ((p + count.getD i 0) % 2 ^ 64) (offsets.set i p)

/-- A radix pass of a single worker, as `sort_thread` of `lsb_64_chiplet.c`
performs it: `count` is zeroed, then `histogram`, `partition_offsets`,
`partition` and `finalize` run.  The result is the final `buf`, `keys_out`,
`rids_out`. -/
def radix_pass (keys rids : List Nat) (size : Nat) (buf keys_out rids_out : List Nat)
    (shift_bits radix_bits : Nat) (unaligned_keys unaligned_rids : List Nat) :
    Option (List Nat × List Nat × List Nat) :=
  let partitions := 1 <<< radix_bits
  match histogram 0 keys size (List.replicate partitions 0) shift_bits radix_bits
      unaligned_keys with
  | none => none
  | some count =>
    let offsets := partition_offsets_single count partitions 0 0 (List.replicate partitions 0)
    match partition 0 keys rids size offsets buf keys_out rids_out shift_bits radix_bits
        unaligned_keys unaligned_rids with
    | none => none
    | some (buf, keys_out, rids_out) =>
      some (buf, (finalize count buf keys_out rids_out partitions).1,
        (finalize count buf keys_out rids_out partitions).2)

/-- The loop `while (d->bits[++pass])` of `sort_thread` for a single worker,
over the entries `bits[1], bits[2], ...`: each pass partitions `keys_a`,
`rids_a` into `keys_b`, `rids_b`, and the two pairs are swapped.  The result
is the final `(keys_a, rids_a, keys_b, rids_b)`. -/
def radix_pass_loop (size : Nat) (unaligned_keys unaligned_rids : List Nat) :
    List Int → Nat → List Nat → List Nat × List Nat × List Nat × List Nat →
    Option (List Nat × List Nat × List Nat × List Nat)
  | [], _, _, st => some st
  | b :: rest, shift_bits, buf, (keys_a, rids_a, keys_b, rids_b) =>
    if b = 0 then some (keys_a, rids_a, keys_b, rids_b)
    else
      match radix_pass keys_a rids_a size buf keys_b rids_b shift_bits b.toNat
          unaligned_keys unaligned_rids with
      | none => none
      | some (buf, keys_b, rids_b) =>
        radix_pass_loop size unaligned_keys unaligned_rids rest (shift_bits + b.toNat) buf
          (keys_b, rids_b, keys_a, rids_a)

/-- `sort` of `lsb_64_chiplet.c` with `threads = 1`, `numa = 1` and arrays
aligned to 64 bytes: the returned parity and the final contents of `keys`,
`rids`, `keys_buf`, `rids_buf`.  `buf` is the worker's line buffer (zeroed
here), `unaligned_keys` and `unaligned_rids` the indeterminate initial
contents of the local arrays of `histogram` and `partition`. -/
def lsb_sort_single (global_tuples bits : Nat) (keys rids : List Nat) (size : Nat)
    (keys_buf rids_buf unaligned_keys unaligned_rids : List Nat) :
    Option (Nat × List Nat × List Nat × List Nat × List Nat) :=
  match distribute_bits global_tuples bits 1 with
  | none => none
  | some (bit_passes, pass) =>
    let radix_bits := (pass.getD 0 0).toNat
    let max_partitions := (pass.map (fun b => 1 <<< b.toNat)).foldl max 0
    match radix_pass keys rids size (List.replicate (max_partitions <<< 4) 0) keys_buf rids_buf
        0 radix_bits unaligned_keys unaligned_rids with
    | none => none
    | some (buf, keys_buf, rids_buf) =>
      match radix_pass_loop size unaligned_keys unaligned_rids (pass.drop 1) radix_bits buf
          (keys_buf, rids_buf, keys, rids) with
      | none => none
      | some (keys_a, rids_a, keys_b, rids_b) =>
        if lsb_sort_return bit_passes 1 = 1 then
          some (1, keys_b, rids_b, keys_a, rids_a)
        else some (0, keys_a, rids_a, keys_b, rids_b)

/-! ## Buffered range partitioning (`known_partition` of `cmp_64_chiplet.c`) -/

/-- The loop `while (63 & (uint64_t) &keys_out[to_align]) to_align++`, with
`opos` the address of `keys_out` divided by 8. -/
def to_align_loop (opos : Nat) : Nat → Nat → Nat
  | 0, to_align => to_align
  | fuel + 1, to_align =>
    if (63 &&& (8 * (opos + to_align))) ≠ 0 then to_align_loop opos fuel (to_align + 1)
    else to_align

/-- The initialisation of the cursors for `offsets != NULL`:
`buf[(p << 4) | 14] = (offsets[p] + virtual_add) << 1`. -/
def known_init_offsets (offsets : List Nat) (virtual_add : Nat) : Nat → Nat → List Nat → List Nat
  | 0, _, buf => buf
  | n + 1, p, buf =>
    known_init_offsets offsets virtual_add n (p + 1)
      (buf.set ((p <<< 4) ||| 14) (((offsets.getD p 0 + virtual_add) <<< 1) % 2 ^ 64))

/-- The initialisation of the cursors for `offsets == NULL`:
`buf[(p << 4) | 14] = (i + virtual_add) << 1; i += sizes[p]`; also the final `i`. -/
def known_init_sizes (sizes : List Nat) (virtual_add : Nat) :
    Nat → Nat → Nat → List Nat → Nat × List Nat
  | 0, _, i, buf => (i, buf)
  | n + 1, p, i, buf =>
    known_init_sizes sizes virtual_add n (p + 1) ((i + sizes.getD p 0) % 2 ^ 64)
      (buf.set ((p <<< 4) ||| 14) (((i + virtual_add) <<< 1) % 2 ^ 64))

/-- The loop `for (p >>= 4; p; --p) index += sizes[p - 1]` of the special
case for the first cache line. -/
def first_line_start (sizes : List Nat) : Nat → Nat → Nat
  | 0, index => index
  | p + 1, index => first_line_start sizes p ((index + sizes.getD p 0) % 2 ^ 64)

/-- The loop `while (index != 8)` of the special case for the first cache
line; `none` when it does not end within `fuel` iterations (it starts above
8 and runs through the memory after the arrays). -/
def first_line_copy (buf : List Nat) (src : Nat) :
    Nat → Nat → List Nat × List Nat → Option (List Nat × List Nat)
  | 0, _, _ => none
  | fuel + 1, index, (keys_out, rids_out) =>
    if index ≠ 8 then
      first_line_copy buf src fuel ((index + 1) % 2 ^ 64)
        (keys_out.set index (buf.getD (src + index + index) 0),
         rids_out.set index (buf.getD (src + index + index + 1) 0))
    else some (keys_out, rids_out)

/-- The body of the inner loop `do { ... } while (--i)` of `known_partition`
for the lane in element 0 of the registers.  `keys_out`, `rids_out` are the
arrays from the (moved) pointers `keys_out`, `rids_out` on. -/
def known_lane (sizes : List Nat) (virtual_add : Nat) (h k_L k_H v_L v_H : M128)
    (buf keys_out rids_out : List Nat) : Option (List Nat × List Nat × List Nat) :=
  let p := movd h
  let index := buf.getD (p + 14) 0
  let buf := buf.set (p + 14) ((index + 2) % 2 ^ 64)
  let offset := index &&& 15
  let kkxx := _mm_unpacklo_epi32 k_L k_H
  let vvxx := _mm_unpacklo_epi32 v_L v_H
  let kkvv := _mm_unpacklo_epi64 kkxx vvxx
  let buf := _mm_store_si128 buf (p + offset) kkvv
  if offset ≠ 14 then some (buf, keys_out, rids_out)
  else if index ≠ 14 then
    let dest := (index - 14) / 2
    let r0 := _mm_load_si128 buf p
    let r1 := _mm_load_si128 buf (p + 2)
    let r2 := _mm_load_si128 buf (p + 4)
    let r3 := _mm_load_si128 buf (p + 6)
    let r4 := _mm_load_si128 buf (p + 8)
    let r5 := _mm_load_si128 buf (p + 10)
    let r6 := _mm_load_si128 buf (p + 12)
    let r7 := _mm_load_si128 buf (p + 14)
    let x0 := _mm_unpacklo_epi64 r0 r1
    let x1 := _mm_unpacklo_epi64 r2 r3
    let x2 := _mm_unpacklo_epi64 r4 r5
    let x3 := _mm_unpacklo_epi64 r6 r7
    let keys_out := _mm_store_si128 keys_out dest x0
    let keys_out := _mm_store_si128 keys_out (dest + 2) x1
    let keys_out := _mm_store_si128 keys_out (dest + 4) x2
    let keys_out := _mm_store_si128 keys_out (dest + 6) x3
    let y0 := _mm_unpackhi_epi64 r0 r1
    let y1 := _mm_unpackhi_epi64 r2 r3
    let y2 := _mm_unpackhi_epi64 r4 r5
    let y3 := _mm_unpackhi_epi64 r6 r7
    let rids_out := _mm_store_si128 rids_out dest y0
    let rids_out := _mm_store_si128 rids_out (dest + 2) y1
    let rids_out := _mm_store_si128 rids_out (dest + 4) y2
    let rids_out := _mm_store_si128 rids_out (dest + 6) y3
    some (buf.set (p + 14) ((index + 2) % 2 ^ 64), keys_out, rids_out)
  else
    let index := first_line_start sizes (p >>> 4) virtual_add
    match first_line_copy buf p 9 index (keys_out, rids_out) with
    | none => none
    | some (keys_out, rids_out) => some (buf.set (p + 14) 16, keys_out, rids_out)

/-- The inner loop of `known_partition` over `n` lanes. -/
def known_lanes (sizes : List Nat) (virtual_add : Nat) :
    Nat → M128 → M128 → M128 → M128 → M128 → List Nat × List Nat × List Nat →
    Option (List Nat × List Nat × List Nat)
  | 0, _, _, _, _, _, st => some st
  | n + 1, h, k_L, k_H, v_L, v_H, (buf, keys_out, rids_out) =>
    match known_lane sizes virtual_add h k_L k_H v_L v_H buf keys_out rids_out with
    | none => none
    | some st =>
      known_lanes sizes virtual_add n (_mm_shuffle_epi32 h (MM_SHUFFLE 0 3 2 1))
        (_mm_shuffle_epi32 k_L (MM_SHUFFLE 0 3 2 1)) (_mm_shuffle_epi32 k_H (MM_SHUFFLE 0 3 2 1))
        (_mm_shuffle_epi32 v_L (MM_SHUFFLE 0 3 2 1)) (_mm_shuffle_epi32 v_H (MM_SHUFFLE 0 3 2 1)) st

/-- The code of `known_partition` from the label `unaligned_part_intro` to
the end of the inner loop, for `n` lanes. -/
def known_group (sizes : List Nat) (virtual_add n : Nat) (h k12 k34 v12 v34 : M128)
    (st : List Nat × List Nat × List Nat) : Option (List Nat × List Nat × List Nat) :=
  let h := _mm_cvtepu16_epi32 h
  let k12 := _mm_shuffle_epi32 k12 (MM_SHUFFLE 3 1 2 0)
  let k34 := _mm_shuffle_epi32 k34 (MM_SHUFFLE 3 1 2 0)
  let v12 := _mm_shuffle_epi32 v12 (MM_SHUFFLE 3 1 2 0)
  let v34 := _mm_shuffle_epi32 v34 (MM_SHUFFLE 3 1 2 0)
  let h := _mm_slli_epi32 h 4
  let k_L := _mm_unpacklo_epi64 k12 k34
  let k_H := _mm_unpackhi_epi64 k12 k34
  let v_L := _mm_unpacklo_epi64 v12 v34
  let v_H := _mm_unpackhi_epi64 v12 v34
  known_lanes sizes virtual_add n h k_L k_H v_L v_H st

/-- Eight `uint16_t` entries from `ranges[i]` on as a register
(`_mm_loadl_epi64` uses the low four). -/
def load_ranges (ranges : List Nat) (i : Nat) : M128 :=
  ⟨ranges.getD i 0 % 2 ^ 16 + 2 ^ 16 * (ranges.getD (i + 1) 0 % 2 ^ 16),
   ranges.getD (i + 2) 0 % 2 ^ 16 + 2 ^ 16 * (ranges.getD (i + 3) 0 % 2 ^ 16),
   ranges.getD (i + 4) 0 % 2 ^ 16 + 2 ^ 16 * (ranges.getD (i + 5) 0 % 2 ^ 16),
   ranges.getD (i + 6) 0 % 2 ^ 16 + 2 ^ 16 * (ranges.getD (i + 7) 0 % 2 ^ 16)⟩

/-- The loop `while (keys != keys_loop_end)` of `known_partition`: `n`
groups of four items from index `i`. -/
def known_aligned (sizes : List Nat) (virtual_add : Nat) (keys rids ranges : List Nat) :
    Nat → Nat → List Nat × List Nat × List Nat → Option (List Nat × List Nat × List Nat)
  | 0, _, st => some st
  | n + 1, i, st =>
    match known_group sizes virtual_add 4 (load_ranges ranges i) (_mm_load_si128 keys i)
        (_mm_load_si128 keys (i + 2)) (_mm_load_si128 rids i) (_mm_load_si128 rids (i + 2)) st with
    | none => none
    | some st => known_aligned sizes virtual_add keys rids ranges n (i + 4) st

/-- The loop `for (i = 0; (7 & (uint64_t) ranges) && i != size; ++i)`: the
number of items before `ranges` is 8-byte aligned.  `kpos` is the address of
`keys` divided by 8; by the second assertion of `known_partition` the address
of `ranges` is `2 * kpos` modulo 8. -/
def known_head (kpos size : Nat) : Nat → Nat → Nat
  | 0, i => i
  | fuel + 1, i =>
    if (7 &&& (2 * (kpos + i))) ≠ 0 ∧ i ≠ size then known_head kpos size fuel (i + 1) else i

/-- Copying `n` items from index `i` on into `unaligned_keys`,
`unaligned_vals`, `unaligned_ranges` from entry 0 on. -/
def known_gather (keys rids ranges : List Nat) : Nat → Nat → Nat →
    List Nat × List Nat × List Nat → List Nat × List Nat × List Nat
  | 0, _, _, u => u
  | n + 1, i, c, (uk, uv, ur) =>
    known_gather keys rids ranges n (i + 1) (c + 1)
      (uk.set c (keys.getD i 0), uv.set c (rids.getD i 0), ur.set c (ranges.getD i 0))

/-- The final loop of `known_partition` that flushes the remaining items of
the partitions `p`, `p + 1`, ... (the inner loop is that of `finalize`). -/
def known_flush (sizes buf : List Nat) :
    Nat → Nat → List Nat × List Nat → List Nat × List Nat
  | 0, _, out => out
  | n + 1, p, out =>
    let src := p <<< 4
    let index := buf.getD (src + 14) 0 >>> 1
    let remain := index &&& 7
    let offset := if remain > sizes.getD p 0 then remain - sizes.getD p 0 else 0
    let index := index - (remain - offset)
    known_flush sizes buf n (p + 1) (finalize_copy buf src (remain - offset) offset index out)

/-- The final assertions of `known_partition` for `offsets != NULL`. -/
def known_check_offsets (offsets sizes buf : List Nat) (virtual_add partitions : Nat) : Bool :=
  (List.range partitions).all (fun p =>
    decide ((offsets.getD p 0 + sizes.getD p 0 + virtual_add) % 2 ^ 64
      = buf.getD ((p <<< 4) ||| 14) 0 >>> 1))

/-- The final assertions of `known_partition` for `offsets == NULL`. -/
def known_check_sizes (sizes buf : List Nat) (virtual_add : Nat) : Nat → Nat → Nat → Bool
  | 0, _, _ => true
  | n + 1, p, i =>
    decide ((i + sizes.getD p 0 + virtual_add) % 2 ^ 64 = buf.getD ((p <<< 4) ||| 14) 0 >>> 1)
      && known_check_sizes sizes buf virtual_add n (p + 1) ((i + sizes.getD p 0) % 2 ^ 64)

/-- `known_partition(keys, rids, ranges, size, offsets, sizes, keys_out,
rids_out, buf, partitions)`.  `kpos` and `opos` are the addresses of `keys`
and of `keys_out` divided by 8 (`rids`, `ranges` and `rids_out` are aligned
as the first three assertions ask).  The lists `keys_out` and `rids_out` are
the memory from the 64-byte boundary at or before the two pointers on, so
that `keys_out[j]` of the source is entry `opos % 8 + j`.  `offsets` is
`none` for `NULL`; `u` holds the initial contents of `unaligned_keys`,
`unaligned_vals`, `unaligned_ranges`.  The result is the final `buf`,
`keys_out`, `rids_out`; `none` is a failed assertion. -/
def known_partition (kpos opos : Nat) (keys rids ranges : List Nat) (size : Nat)
    (offsets : Option (List Nat)) (sizes keys_out rids_out buf : List Nat) (partitions : Nat)
    (u : List Nat × List Nat × List Nat) : Option (List Nat × List Nat × List Nat) :=
  let to_align := to_align_loop opos 8 0
  if ¬ to_align < 8 then none else
  let virtual_add := if to_align ≠ 0 ∧ to_align < size then 8 - to_align else 0
  if (63 &&& (8 * (opos + 8 - virtual_add))) ≠ 0 then none else
  let init : Option (List Nat) :=
    match offsets with
    | some offsets => some (known_init_offsets offsets virtual_add partitions 0 buf)
    | none =>
      if (known_init_sizes sizes virtual_add partitions 0 0 buf).1 = size then
        some (known_init_sizes sizes virtual_add partitions 0 0 buf).2
      else none
  match init with
  | none => none
  | some buf =>
    let i := known_head kpos size 4 0
    if (15 &&& (8 * (kpos + i))) ≠ 0 then none else
    let u := known_gather keys rids ranges i 0 0 u
    let aligned := and_not (size - i) 3
    let st : Option (List Nat × List Nat × List Nat) :=
      if i ≠ 0 then
        known_group sizes virtual_add i (load_ranges u.2.2 0) (_mm_load_si128 u.1 0)
          (_mm_load_si128 u.1 2) (_mm_load_si128 u.2.1 0) (_mm_load_si128 u.2.1 2)
          (buf, keys_out, rids_out)
      else some (buf, keys_out, rids_out)
    match st with
    | none => none
    | some st =>
      match known_aligned sizes virtual_add keys rids ranges (aligned / 4) i st with
      | none => none
      | some st =>
        let t := size - i - aligned
        let u := known_gather keys rids ranges t (i + aligned) 0 u
        let st : Option (List Nat × List Nat × List Nat) :=
          if t ≠ 0 then
            known_group sizes virtual_add t (load_ranges u.2.2 0) (_mm_load_si128 u.1 0)
              (_mm_load_si128 u.1 2) (_mm_load_si128 u.2.1 0) (_mm_load_si128 u.2.1 2) st
          else some st
        match st with
        | none => none
        | some (buf, keys_out, rids_out) =>
          let out := known_flush sizes buf partitions 0 (keys_out, rids_out)
          let ok :=
            match offsets with
            | some offsets => known_check_offsets offsets sizes buf virtual_add partitions
            | none => known_check_sizes sizes buf virtual_add partitions 0 0
          if ok then some (buf, out.1, out.2) else none

/-- The value `global.sample_size` of `sort` in `cmp_64_chiplet.c`:
`0.01 * total_size` truncated to `uint64_t`, at most 1000000.  The double
nearest to 0.01 is `5764607523034235 / 2^59`. -/
def cmp_sample_size (total_size : Nat) : Nat :=
  let s := round53 (round53 total_size * 5764607523034235) / 2 ^ 59
  if s > 1000000 then 1000000 else s

/-- The first-pass delimiters that `sort_thread` of `cmp_64_chiplet.c`
extracts from the sorted sample, for the fan-out and the sample size that
`sort` chooses for `total_size` tuples; `none` is an index outside the sample. -/
def cmp_first_delimiters (total_size numa : Nat) (sample : List Nat) : Option (List Nat) :=
  first_pass_delimiters sample (cmp_sample_size total_size) (decide_partitions total_size numa).1

/-- The new location of a merge lane at location `l` when the lane at
location `μ` is emitted. -/
def lane_loc (μ l : Nat) : Nat := if μ = l then μ + 4 else l

/-- The new key of a merge lane: reloaded from `keys[μ + 4]` when it is the
emitted lane, all ones when its new location is above `s`. -/
def lane_key (keys : List Nat) (s μ l k : Nat) : Nat :=
  if lane_loc μ l > s then 2 ^ 64 - 1 else if μ = l then keys.getD (μ + 4) 0 else k

/-- The new payload of a merge lane. -/
def lane_rid (rids : List Nat) (μ l r : Nat) : Nat :=
  if μ = l then rids.getD (μ + 4) 0 else r

/-- The payload of a lane masked by "this is the emitted lane". -/
def lane_pick (μ l r : Nat) : Nat := if μ = l then r else 0

/-- The invariant of the merging loop of `simd_combsort` after the indices
`E` were emitted, for lanes with keys `K`, payloads `R`, locations `L`:
lane `j` is at a location congruent to `j` modulo 4 and holds the pair of
that location, or an all-ones key when the location is past `size`; `E`
holds exactly the indices below the lane locations; no emitted key is above
a lane key; the emitted keys are in order. -/
def merge_inv (keys rids : List Nat) (size : Nat) (K R L : Nat → Nat) (E : List Nat) : Prop :=
  (∀ j, j < 4 → L j % 4 = j) ∧
  (∀ j, j < 4 → L j < size + 4) ∧
  (∀ j, j < 4 → L j < size → K j = keys.getD (L j) 0 ∧ R j = rids.getD (L j) 0) ∧
  (∀ j, j < 4 → size ≤ L j → K j = 2 ^ 64 - 1) ∧
  (∀ j, j < 4 → R j < 2 ^ 64) ∧
  E.Nodup ∧
  (∀ e, e ∈ E ↔ (e < size ∧ e < L (e % 4))) ∧
  (∀ e, e ∈ E → ∀ j, j < 4 → keys.getD e 0 ≤ K j) ∧
  List.Pairwise (fun a b => a ≤ b) (E.map (fun e => keys.getD e 0))

/-! ## Range histograms (`histogram_360`, `histogram_1000`, `histogram_1800`
of `cmp_64_chiplet.c`)

The index buffer holds the levels of the comparison tree one after the
other: `index_L0 = index`, `index_L1 = &index_L0[8]`, and so on; a level
pointer is the offset of its first entry in `index`.  The keys pointer is
`8 * kpos`, the ranges pointer (`uint16_t*`) is `2 * rpos`. -/

/-- `histogram_root`: the number of root delimiters below each of the eight
biased keys, one per 16-bit element.  `__m128i r = _mm_xor_si128(r, r)` is
zero whatever the register held. -/
def histogram_root (k1 k2 k3 k4 del_1 del_2 del_3 del_4 del_5 del_6 del_7 : M128) : M128 :=
  let e1_L1 := _mm_cmpgt_epi64 k1 del_4
  let e2_L1 := _mm_cmpgt_epi64 k2 del_4
  let e3_L1 := _mm_cmpgt_epi64 k3 del_4
  let e4_L1 := _mm_cmpgt_epi64 k4 del_4
  let e12_L1 := _mm_packs_epi32 e1_L1 e2_L1
  let e34_L1 := _mm_packs_epi32 e3_L1 e4_L1
  let e_L1 := _mm_packs_epi32 e12_L1 e34_L1
  let d1_26 := _mm_blendv_epi8 del_2 del_6 e1_L1
  let d2_26 := _mm_blendv_epi8 del_2 del_6 e2_L1
  let d3_26 := _mm_blendv_epi8 del_2 del_6 e3_L1
  let d4_26 := _mm_blendv_epi8 del_2 del_6 e4_L1
  let d1_15 := _mm_blendv_epi8 del_1 del_5 e1_L1
  let d2_15 := _mm_blendv_epi8 del_1 del_5 e2_L1
  let d3_15 := _mm_blendv_epi8 del_1 del_5 e3_L1
  let d4_15 := _mm_blendv_epi8 del_1 del_5 e4_L1
  let d1_37 := _mm_blendv_epi8 del_3 del_7 e1_L1
  let d2_37 := _mm_blendv_epi8 del_3 del_7 e2_L1
  let d3_37 := _mm_blendv_epi8 del_3 del_7 e3_L1
  let d4_37 := _mm_blendv_epi8 del_3 del_7 e4_L1
  let e1_L2 := _mm_cmpgt_epi64 k1 d1_26
  let e2_L2 := _mm_cmpgt_epi64 k2 d2_26
  let e3_L2 := _mm_cmpgt_epi64 k3 d3_26
  let e4_L2 := _mm_cmpgt_epi64 k4 d4_26
  let e12_L2 := _mm_packs_epi32 e1_L2 e2_L2
  let e34_L2 := _mm_packs_epi32 e3_L2 e4_L2
  let e_L2 := _mm_packs_epi32 e12_L2 e34_L2
  let d1_1357 := _mm_blendv_epi8 d1_15 d1_37 e1_L2
  let d2_1357 := _mm_blendv_epi8 d2_15 d2_37 e2_L2
  let d3_1357 := _mm_blendv_epi8 d3_15 d3_37 e3_L2
  let d4_1357 := _mm_blendv_epi8 d4_15 d4_37 e4_L2
  let e1_L3 := _mm_cmpgt_epi64 k1 d1_1357
  let e2_L3 := _mm_cmpgt_epi64 k2 d2_1357
  let e3_L3 := _mm_cmpgt_epi64 k3 d3_1357
  let e4_L3 := _mm_cmpgt_epi64 k4 d4_1357
  let e12_L3 := _mm_packs_epi32 e1_L3 e2_L3
  let e34_L3 := _mm_packs_epi32 e3_L3 e4_L3
  let e_L3 := _mm_packs_epi32 e12_L3 e34_L3
  let r := _mm_xor_si128 _mm_setzero_si128 _mm_setzero_si128
  let r := _mm_sub_epi16 r e_L1
  let r := _mm_add_epi16 r r
  let r := _mm_sub_epi16 r e_L2
  let r := _mm_add_epi16 r r
  _mm_sub_epi16 r e_L3

/-- One level with two delimiters per node, for one key: `q = p << 1;
d = load(&index_L[q]); d = cmpgt(k_x2, d); q += p; p = mask_epi64(d);
p ^= 7; p = bsf(p); p += q`. -/
def tree_level_3 (index : List Nat) (index_L : Nat) (k_x2 : M128) (p : Nat) : Nat :=
  let q := (p <<< 1) % 2 ^ 64
  let d := _mm_load_si128 index (index_L + q)
  let d := _mm_cmpgt_epi64 k_x2 d
  let q := (q + p) % 2 ^ 64
  let p := _mm_mask_epi64 d
  let p := p ^^^ 7
  let p := bsf p
  (p + q) % 2 ^ 64

/-- One level with four delimiters per node, for one key: `q = p << 2;
d_L = load(&index_L[q]); d_H = load(&index_L[q + 2]); d_L = cmpgt(k_x2, d_L);
d_H = cmpgt(k_x2, d_H); d = packs_epi32(d_L, d_H); q += p;
p = mask_epi32(d); p ^= 31; p = bsf(p); p += q`. -/
def tree_level_5 (index : List Nat) (index_L : Nat) (k_x2 : M128) (p : Nat) : Nat :=
  let q := (p <<< 2) % 2 ^ 64
  let d_L := _mm_load_si128 index (index_L + q)
  let d_H := _mm_load_si128 index (index_L + (q + 2) % 2 ^ 64)
  let d_L := _mm_cmpgt_epi64 k_x2 d_L
  let d_H := _mm_cmpgt_epi64 k_x2 d_H
  let d := _mm_packs_epi32 d_L d_H
  let q := (q + p) % 2 ^ 64
  let p := _mm_mask_epi32 d
  let p := p ^^^ 31
  let p := bsf p
  (p + q) % 2 ^ 64

/-- `_mm_stream_si64((long long int*) ranges, w)` on an array of `uint16_t`. -/
def stream_ranges (ranges : List Nat) (ri w : Nat) : List Nat :=
  (((ranges.set ri (w % 2 ^ 16)).set (ri + 1) (w / 2 ^ 16 % 2 ^ 16)).set (ri + 2)
    (w / 2 ^ 32 % 2 ^ 16)).set (ri + 3) (w / 2 ^ 48 % 2 ^ 16)

/-- The frame shared by `histogram_8_3_3_5_part`, `histogram_8_5_5_5_part`
and `histogram_8_3_3_5_5_part`: the four root tags are moved out of `r`, each
key is duplicated in a register and walks the levels (`walk`), then
`count[p]++` for the four tags and one 64-bit store of the four tags at
`ranges[ri .. ri + 3]`.  The source interleaves the four walks instruction
by instruction. -/
def histogram_part (walk : M128 → Nat → Nat) (k12 k34 r : M128)
    (count ranges : List Nat) (ri : Nat) : List Nat × List Nat :=
  let r_s1 := _mm_shuffle_epi32 r 1
  let r_s2 := _mm_shuffle_epi32 r 2
  let r_s3 := _mm_shuffle_epi32 r 3
  let p1 := movd r
  let p2 := movd r_s1
  let p3 := movd r_s2
  let p4 := movd r_s3
  let k1_x2 := _mm_shuffle_epi32 k12 (MM_SHUFFLE 1 0 1 0)
  let k2_x2 := _mm_shuffle_epi32 k12 (MM_SHUFFLE 3 2 3 2)
  let k3_x2 := _mm_shuffle_epi32 k34 (MM_SHUFFLE 1 0 1 0)
  let k4_x2 := _mm_shuffle_epi32 k34 (MM_SHUFFLE 3 2 3 2)
  let p1 := walk k1_x2 p1
  let p2 := walk k2_x2 p2
  let p3 := walk k3_x2 p3
  let p4 := walk k4_x2 p4
  let count := count_incr count p1
  let count := count_incr count p2
  let count := count_incr count p3
  let count := count_incr count p4
  let p2 := (p2 <<< 16) % 2 ^ 64
  let p3 := (p3 <<< 32) % 2 ^ 64
  let p4 := (p4 <<< 48) % 2 ^ 64
  (count, stream_ranges ranges ri (p1 ||| p2 ||| p3 ||| p4))

/-- `histogram_8_3_3_5_part`: levels of fanout 3, 3, 5 below the root. -/
def histogram_8_3_3_5_part (k12 k34 r : M128) (index : List Nat) (index_L1 index_L2 index_L3 : Nat)
    (count ranges : List Nat) (ri : Nat) : List Nat × List Nat :=
  histogram_part (fun k_x2 p => tree_level_5 index index_L3 k_x2
    (tree_level_3 index index_L2 k_x2 (tree_level_3 index index_L1 k_x2 p))) k12 k34 r count ranges ri

/-- `histogram_8_5_5_5_part`: levels of fanout 5, 5, 5 below the root. -/
def histogram_8_5_5_5_part (k12 k34 r : M128) (index : List Nat) (index_L1 index_L2 index_L3 : Nat)
    (count ranges : List Nat) (ri : Nat) : List Nat × List Nat :=
  histogram_part (fun k_x2 p => tree_level_5 index index_L3 k_x2
    (tree_level_5 index index_L2 k_x2 (tree_level_5 index index_L1 k_x2 p))) k12 k34 r count ranges ri

/-- `histogram_8_3_3_5_5_part`: levels of fanout 3, 3, 5, 5 below the root. -/
def histogram_8_3_3_5_5_part (k12 k34 r : M128) (index : List Nat)
    (index_L1 index_L2 index_L3 index_L4 : Nat)
    (count ranges : List Nat) (ri : Nat) : List Nat × List Nat :=
  histogram_part (fun k_x2 p => tree_level_5 index index_L4 k_x2 (tree_level_5 index index_L3 k_x2
    (tree_level_3 index index_L2 k_x2 (tree_level_3 index index_L1 k_x2 p)))) k12 k34 r count ranges ri

/-- The scalar loops of the range histograms, `rem` keys from `keys[i]`:
`p = binary_search(delim, n, *keys++); count[p]++; *ranges++ = p`.  The
first loop (`head = true`) also stops when the ranges pointer is a multiple
of 8.  Returns the index reached. -/
def histogram_scalar (delim : List Nat) (n : Nat) (keys : List Nat) (head : Bool) (rpos : Nat) :
    Nat → Nat → List Nat → List Nat → Option (Nat × List Nat × List Nat)
  | 0, i, count, ranges => some (i, count, ranges)
  | rem + 1, i, count, ranges =>
    if head ∧ 7 &&& (2 * (rpos + i)) = 0 then some (i, count, ranges)
    else
      match binary_search delim n (keys.getD i 0) with
      | none => none
      | some p =>
        histogram_scalar delim n keys head rpos rem (i + 1) (count_incr count p)
          (ranges.set i (p % 2 ^ 16))

/-- The loop over groups of eight keys: the keys are loaded and biased by
`sign`, `histogram_root` gives the eight root tags, and the part function
is called for keys 0..3 with `&ranges_64[0]` and for keys 4..7 with
`&ranges_64[1]`. -/
def histogram_groups (part : M128 → M128 → M128 → List Nat → List Nat → Nat → List Nat × List Nat)
    (index keys : List Nat) : Nat → Nat → List Nat → List Nat → List Nat × List Nat
  | 0, _, count, ranges => (count, ranges)
  | g + 1, i, count, ranges =>
    let sign_x2 := _mm_set1_epi64x (1 <<< 63)
    let del_1 := _mm_set1_epi64x (index.getD 0 0)
    let del_2 := _mm_set1_epi64x (index.getD 1 0)
    let del_3 := _mm_set1_epi64x (index.getD 2 0)
    let del_4 := _mm_set1_epi64x (index.getD 3 0)
    let del_5 := _mm_set1_epi64x (index.getD 4 0)
    let del_6 := _mm_set1_epi64x (index.getD 5 0)
    let del_7 := _mm_set1_epi64x (index.getD 6 0)
    let k1 := _mm_load_si128 keys i
    let k2 := _mm_load_si128 keys (i + 2)
    let k3 := _mm_load_si128 keys (i + 4)
    let k4 := _mm_load_si128 keys (i + 6)
    let k1 := _mm_sub_epi64 k1 sign_x2
    let k2 := _mm_sub_epi64 k2 sign_x2
    let k3 := _mm_sub_epi64 k3 sign_x2
    let k4 := _mm_sub_epi64 k4 sign_x2
    let r := histogram_root k1 k2 k3 k4 del_1 del_2 del_3 del_4 del_5 del_6 del_7
    let r1 := _mm_cvtepi16_epi32 r
    let r := _mm_shuffle_epi32 r (MM_SHUFFLE 1 0 3 2)
    let r2 := _mm_cvtepi16_epi32 r
    let cr := part k1 k2 r1 count ranges i
    let cr := part k3 k4 r2 cr.1 cr.2 (i + 4)
    histogram_groups part index keys g (i + 8) cr.1 cr.2

/-- The three loops over the keys, the same in `histogram_360`,
`histogram_1000` and `histogram_1800` up to the number `n` of delimiters and
the part function: scalar steps until `ranges` is 8-byte aligned,
`assert((15 & (uint64_t) keys) == 0)`, groups of eight keys up to
`keys_aligned_end = &keys[(keys_end - keys) & ~7]`, scalar steps for the
rest.  Returns `count` and `ranges`. -/
def histogram_keys (n : Nat)
    (part : M128 → M128 → M128 → List Nat → List Nat → Nat → List Nat × List Nat)
    (kpos rpos : Nat) (keys : List Nat) (size : Nat) (delim count ranges index : List Nat) :
    Option (List Nat × List Nat) :=
  match histogram_scalar delim n keys true rpos size 0 count ranges with
  | none => none
  | some (i, count, ranges) =>
    if 15 &&& (8 * (kpos + i)) ≠ 0 then none
    else
      let aligned := and_not (size - i) 7
      let cr := histogram_groups part index keys (aligned / 8) i count ranges
      match histogram_scalar delim n keys false rpos (size - i - aligned) (i + aligned) cr.1 cr.2 with
      | none => none
      | some (_, count, ranges) => some (count, ranges)

/-- The index distribution loop of `histogram_360`, `steps` delimiters from
`delim[i]`; the state is `rem_1, rem_2, rem_3, i0, i1, i2, i3` and the
index buffer; `val i` is the stored value `delim[i] - sign`. -/
def index_fill_360 (val : Nat → Nat) :
    Nat → Nat → Nat × Nat × Nat × Nat × Nat × Nat × Nat × List Nat →
      Nat × Nat × Nat × Nat × Nat × Nat × Nat × List Nat
  | 0, _, st => st
  | steps + 1, i, (rem_1, rem_2, rem_3, i0, i1, i2, i3, index) =>
    if rem_3 ≠ 0 then
      index_fill_360 val steps (i + 1) (rem_1, rem_2, rem_3 - 1, i0, i1, i2, i3 + 1,
        index.set (72 + i3) (val i))
    else if rem_2 ≠ 0 then
      index_fill_360 val steps (i + 1) (rem_1, rem_2 - 1, 4, i0, i1, i2 + 1, i3,
        index.set (24 + i2) (val i))
    else if rem_1 ≠ 0 then
      index_fill_360 val steps (i + 1) (rem_1 - 1, 2, 4, i0, i1 + 1, i2, i3,
        index.set (8 + i1) (val i))
    else
      index_fill_360 val steps (i + 1) (2, 2, 4, i0 + 1, i1, i2, i3, index.set i0 (val i))

/-- The index distribution loop of `histogram_1000`. -/
def index_fill_1000 (val : Nat → Nat) :
    Nat → Nat → Nat × Nat × Nat × Nat × Nat × Nat × Nat × List Nat →
      Nat × Nat × Nat × Nat × Nat × Nat × Nat × List Nat
  | 0, _, st => st
  | steps + 1, i, (rem_1, rem_2, rem_3, i0, i1, i2, i3, index) =>
    if rem_3 ≠ 0 then
      index_fill_1000 val steps (i + 1) (rem_1, rem_2, rem_3 - 1, i0, i1, i2, i3 + 1,
        index.set (200 + i3) (val i))
    else if rem_2 ≠ 0 then
      index_fill_1000 val steps (i + 1) (rem_1, rem_2 - 1, 4, i0, i1, i2 + 1, i3,
        index.set (40 + i2) (val i))
    else if rem_1 ≠ 0 then
      index_fill_1000 val steps (i + 1) (rem_1 - 1, 4, 4, i0, i1 + 1, i2, i3,
        index.set (8 + i1) (val i))
    else
      index_fill_1000 val steps (i + 1) (4, 4, 4, i0 + 1, i1, i2, i3, index.set i0 (val i))

/-- The index distribution loop of `histogram_1800`; the state is `rem_1,
rem_2, rem_3, rem_4, i0, i1, i2, i3, i4` and the index buffer. -/
def index_fill_1800 (val : Nat → Nat) :
    Nat → Nat → Nat × Nat × Nat × Nat × Nat × Nat × Nat × Nat × Nat × List Nat →
      Nat × Nat × Nat × Nat × Nat × Nat × Nat × Nat × Nat × List Nat
  | 0, _, st => st
  | steps + 1, i, (rem_1, rem_2, rem_3, rem_4, i0, i1, i2, i3, i4, index) =>
    if rem_4 ≠ 0 then
      index_fill_1800 val steps (i + 1) (rem_1, rem_2, rem_3, rem_4 - 1, i0, i1, i2, i3, i4 + 1,
        index.set (360 + i4) (val i))
    else if rem_3 ≠ 0 then
      index_fill_1800 val steps (i + 1) (rem_1, rem_2, rem_3 - 1, 4, i0, i1, i2, i3 + 1, i4,
        index.set (72 + i3) (val i))
    else if rem_2 ≠ 0 then
      index_fill_1800 val steps (i + 1) (rem_1, rem_2 - 1, 4, 4, i0, i1, i2 + 1, i3, i4,
        index.set (24 + i2) (val i))
    else if rem_1 ≠ 0 then
      index_fill_1800 val steps (i + 1) (rem_1 - 1, 2, 4, 4, i0, i1 + 1, i2, i3, i4,
        index.set (8 + i1) (val i))
    else
      index_fill_1800 val steps (i + 1) (2, 2, 4, 4, i0 + 1, i1, i2, i3, i4,
        index.set i0 (val i))

/-- The value `delim[i] - sign` in `uint64_t`, `sign = 1ull << 63`. -/
def delim_biased (delim : List Nat) (i : Nat) : Nat :=
  (delim.getD i 0 + 2 ^ 64 - (1 <<< 63)) % 2 ^ 64

/-- `histogram_360`: the index is filled, the level counts are asserted,
the keys are tagged and counted.  Returns `count`, `ranges`, `index`. -/
def histogram_360 (kpos rpos : Nat) (keys : List Nat) (size : Nat)
    (delim count ranges index : List Nat) : Option (List Nat × List Nat × List Nat) :=
  match index_fill_360 (delim_biased delim) 359 0 (2, 2, 4, 0, 0, 0, 0, index) with
  | (_, _, _, i0, i1, i2, i3, index) =>
    if i0 = 7 ∧ i1 = 16 ∧ i2 = 48 ∧ i3 = 288 then
      match histogram_keys 359
          (fun k12 k34 r count ranges ri =>
            histogram_8_3_3_5_part k12 k34 r index 8 24 72 count ranges ri)
          kpos rpos keys size delim count ranges index with
      | none => none
      | some (count, ranges) => some (count, ranges, index)
    else none

/-- `histogram_1000`. -/
def histogram_1000 (kpos rpos : Nat) (keys : List Nat) (size : Nat)
    (delim count ranges index : List Nat) : Option (List Nat × List Nat × List Nat) :=
  match index_fill_1000 (delim_biased delim) 999 0 (4, 4, 4, 0, 0, 0, 0, index) with
  | (_, _, _, i0, i1, i2, i3, index) =>
    if i0 = 7 ∧ i1 = 32 ∧ i2 = 160 ∧ i3 = 800 then
      match histogram_keys 999
          (fun k12 k34 r count ranges ri =>
            histogram_8_5_5_5_part k12 k34 r index 8 40 200 count ranges ri)
          kpos rpos keys size delim count ranges index with
      | none => none
      | some (count, ranges) => some (count, ranges, index)
    else none

/-- `histogram_1800`. -/
def histogram_1800 (kpos rpos : Nat) (keys : List Nat) (size : Nat)
    (delim count ranges index : List Nat) : Option (List Nat × List Nat × List Nat) :=
  match index_fill_1800 (delim_biased delim) 1799 0 (2, 2, 4, 4, 0, 0, 0, 0, 0, index) with
  | (_, _, _, _, i0, i1, i2, i3, i4, index) =>
    if i0 = 7 ∧ i1 = 16 ∧ i2 = 48 ∧ i3 = 288 ∧ i4 = 1440 then
      match histogram_keys 1799
          (fun k12 k34 r count ranges ri =>
            histogram_8_3_3_5_5_part k12 k34 r index 8 24 72 360 count ranges ri)
          kpos rpos keys size delim count ranges index with
      | none => none
      | some (count, ranges) => some (count, ranges, index)
    else none

/-- The signed comparison `(int64_t) a > (int64_t) c` of two 64-bit patterns. -/
def sgt (a c : Nat) : Bool := decide (toInt64 (a % 2 ^ 64) > toInt64 (c % 2 ^ 64))

/-- The path of one biased key `x` through the root of the comparison tree:
`del_4` first, then `del_2` or `del_6`, then one of `del_1`, `del_3`,
`del_5`, `del_7`; the tag is `4 a + 2 b + c` for the three outcomes. -/
def root_tag (D1 D2 D3 D4 D5 D6 D7 x : Nat) : Nat :=
  let a := sgt x D4
  let b := sgt x (if a then D6 else D2)
  let c := sgt x (if b then (if a then D7 else D3) else (if a then D5 else D1))
  4 * a.toNat + 2 * b.toNat + c.toNat

/-- The entry of `index` that `histogram_360` writes for `delim[i]`. -/
def slot_360 (i : Nat) : Nat :=
  if i % 5 ≠ 4 then 72 + (i - i / 5)
  else if i / 5 % 3 ≠ 2 then 24 + (i / 5 - i / 15)
  else if i / 15 % 3 ≠ 2 then 8 + (i / 15 - i / 45)
  else i / 45

/-- The position in `delim` of the delimiter stored at `index[k]` by `histogram_360`. -/
def pos_360 (k : Nat) : Nat :=
  if k < 8 then 45 * k + 44
  else if k < 24 then 45 * ((k - 8) / 2) + 15 * ((k - 8) % 2) + 14
  else if k < 72 then 15 * ((k - 24) / 2) + 5 * ((k - 24) % 2) + 4
  else 5 * ((k - 72) / 4) + (k - 72) % 4

/-- The entry of `index` that `histogram_1000` writes for `delim[i]`. -/
def slot_1000 (i : Nat) : Nat :=
  if i % 5 ≠ 4 then 200 + (i - i / 5)
  else if i / 5 % 5 ≠ 4 then 40 + (i / 5 - i / 25)
  else if i / 25 % 5 ≠ 4 then 8 + (i / 25 - i / 125)
  else i / 125

/-- The position in `delim` of the delimiter stored at `index[k]` by `histogram_1000`. -/
def pos_1000 (k : Nat) : Nat :=
  if k < 8 then 125 * k + 124
  else if k < 40 then 125 * ((k - 8) / 4) + 25 * ((k - 8) % 4) + 24
  else if k < 200 then 25 * ((k - 40) / 4) + 5 * ((k - 40) % 4) + 4
  else 5 * ((k - 200) / 4) + (k - 200) % 4

/-- The entry of `index` that `histogram_1800` writes for `delim[i]`. -/
def slot_1800 (i : Nat) : Nat :=
  if i % 5 ≠ 4 then 360 + (i - i / 5)
  else if i / 5 % 5 ≠ 4 then 72 + (i / 5 - i / 25)
  else if i / 25 % 3 ≠ 2 then 24 + (i / 25 - i / 75)
  else if i / 75 % 3 ≠ 2 then 8 + (i / 75 - i / 225)
  else i / 225

/-- The position in `delim` of the delimiter stored at `index[k]` by `histogram_1800`. -/
def pos_1800 (k : Nat) : Nat :=
  if k < 8 then 225 * k + 224
  else if k < 24 then 225 * ((k - 8) / 2) + 75 * ((k - 8) % 2) + 74
  else if k < 72 then 75 * ((k - 24) / 2) + 25 * ((k - 24) % 2) + 24
  else if k < 360 then 25 * ((k - 72) / 4) + 5 * ((k - 72) % 4) + 4
  else 5 * ((k - 360) / 4) + (k - 360) % 4

/-- The counters after `count[tag j]++` for `j = i, …, i + rem - 1`. -/
def tally_tags (tag : Nat → Nat) (i rem : Nat) (count : List Nat) : List Nat :=
  (List.range' i rem).foldl (fun c j => count_incr c (tag j)) count

/-- The tag array after `ranges[j] = tag j` for `j = i, …, i + rem - 1`. -/
def store_tags (tag : Nat → Nat) (i rem : Nat) (ranges : List Nat) : List Nat :=
  (List.range' i rem).foldl (fun r j => r.set j (tag j)) ranges

/-! ## Thread placement (`calculatePattern`, `schedule_threads`) -/

/-- `#define CORES_PER_CHIPLET 8`. -/
def CORES_PER_CHIPLET : Int := 8

/-- `calculatePattern(n)` of `cmp_64_chiplet.c` and `lsb_64_chiplet.c`, on
`int` with the truncating division of C.  For `0 ≤ n < 2^31` no operation
leaves the range of `int`: the result lies in the block of `n`. -/
def calculatePattern (n : Int) : Int :=
  let blockSize : Int := 128
  let groupSize : Int := 16
  let base := Int.tdiv n blockSize * blockSize
  let offset := Int.tmod n blockSize
  base + Int.tdiv offset groupSize + Int.tmod offset groupSize * Int.tdiv blockSize groupSize

/-- The search `for (i = 0; i != max_threads; ++i) if (thread_numa[i] == n) break;`
from index `i` on, with `fuel` entries left: the final `i`. -/
def find_thread (thread_numa : List Int) (n : Int) : Nat → Nat → Nat
  | 0, i => i
  | fuel + 1, i => if thread_numa.getD i 0 = n then i else find_thread thread_numa n fuel (i + 1)

/-- The loop `for (t = 0; t != threads; ++t)` of the second branch of
`schedule_threads`, `steps` iterations from `t`; `none` when no hardware
thread of node `n` is left, where the code writes `thread_numa[max_threads]`. -/
def schedule_bound (max_threads numa : Nat) :
    Nat → Nat → List Int → List Int → List Int → Option (List Int × List Int)
  | 0, _, _, cpu, numa_node => some (cpu, numa_node)
  | steps + 1, t, thread_numa, cpu, numa_node =>
    let n : Int := (t % numa : Nat)
    let i := find_thread thread_numa n max_threads 0
    if i < max_threads then
      schedule_bound max_threads numa steps (t + 1) (thread_numa.set i (-1))
        (cpu.set t i) (numa_node.set t n)
    else none

/-- `schedule_threads(cpu, numa_node, threads, numa)` for non-negative
`threads`, `numa`.  `max_numa` is `numa_max_node() + 1`, `max_threads` is
`hardware_threads()`, `numa_node_of_cpu` the topology of the machine.  The
result is the contents of `cpu[0 .. threads)` and `numa_node[0 .. threads)`;
`none` is a division by zero or a failed assertion. -/
def schedule_threads (max_numa max_threads : Nat) (numa_node_of_cpu : Nat → Int)
    (threads numa : Nat) : Option (List Int × List Int) :=
  if max_numa = 0 ∨ numa = 0 then none
  else
    let max_threads_per_numa := max_threads / max_numa
    let threads_per_numa := threads / numa
    if ¬ (numa > 0 ∧ threads ≥ numa ∧ threads % numa = 0) then none
    else if numa > max_numa ∨ threads > max_threads ∨ threads_per_numa > max_threads_per_numa then
      some ((List.range threads).map (fun (t : Nat) => (t : Int)),
        (List.range threads).map (fun (t : Nat) => ((t / threads_per_numa : Nat) : Int)))
    else
      let thread_numa := (List.range max_threads).map numa_node_of_cpu
      schedule_bound max_threads numa threads 0 thread_numa
        (List.replicate threads 0) (List.replicate threads 0)

/-! ## Partitions per NUMA node and the transfer list (`sort_thread` of
`cmp_64_chiplet.c`) -/

/-- The scan `for (p = o = 0; p != partitions_1; ++p) { if (o +
part_total_size[p] >= g) break; o += part_total_size[p]; }` entered at `p`
with `rem = partitions_1 - p` partitions left: the final `p` and `o`. -/
def cut_scan (part_total_size : List Nat) (g : Nat) : Nat → Nat → Nat → Nat × Nat
  | 0, p, o => (p, o)
  | rem + 1, p, o =>
    if (o + part_total_size.getD p 0) % 2 ^ 64 ≥ g then (p, o)
    else cut_scan part_total_size g rem (p + 1) ((o + part_total_size.getD p 0) % 2 ^ 64)

/-- The cut of node `n`: the scan for `g = (total_size / numa) * (n + 1)`,
then `if (p != partitions_1 && part_total_size[p] + o - g < g - o)
o += part_total_size[p++]`. -/
def node_cut (part_total_size : List Nat) (partitions_1 total_size numa n : Nat) : Nat × Nat :=
  let g := (total_size / numa * (n + 1)) % 2 ^ 64
  let po := cut_scan part_total_size g partitions_1 0 0
  let p := po.1
  let o := po.2
  if p ≠ partitions_1 ∧
      ((part_total_size.getD p 0 + o) % 2 ^ 64 + 2 ^ 64 - g) % 2 ^ 64 < (g + 2 ^ 64 - o) % 2 ^ 64 then
    (p + 1, (o + part_total_size.getD p 0) % 2 ^ 64)
  else (p, o)

/-- The loop `for (n = 0; n != numa - 1; ++n)` of the assignment, `steps`
iterations from `n`; the state is `prev_p`, `prev_o` and the entries of
`part_per_numa`, `size_per_numa` written so far. -/
def assign_loop (part_total_size : List Nat) (partitions_1 total_size numa : Nat) :
    Nat → Nat → Nat → Nat → List Nat → List Nat → Nat × Nat × List Nat × List Nat
  | 0, _, prev_p, prev_o, part_per_numa, size_per_numa =>
    (prev_p, prev_o, part_per_numa, size_per_numa)
  | steps + 1, n, prev_p, prev_o, part_per_numa, size_per_numa =>
    let po := node_cut part_total_size partitions_1 total_size numa n
    assign_loop part_total_size partitions_1 total_size numa steps (n + 1) po.1 po.2
      (part_per_numa ++ [(po.1 + 2 ^ 64 - prev_p) % 2 ^ 64])
      (size_per_numa ++ [(po.2 + 2 ^ 64 - prev_o) % 2 ^ 64])

/-- The assignment of the first-pass partitions to the NUMA nodes for
`numa > 1`: the arrays `part_per_numa[0 .. numa)` and `size_per_numa[0 .. numa)`. -/
def assign_nodes (part_total_size : List Nat) (partitions_1 total_size numa : Nat) :
    List Nat × List Nat :=
  let r := assign_loop part_total_size partitions_1 total_size numa (numa - 1) 0 0 0 [] []
  (r.2.2.1 ++ [(partitions_1 + 2 ^ 64 - r.1) % 2 ^ 64],
   r.2.2.2 ++ [(total_size + 2 ^ 64 - r.2.1) % 2 ^ 64])

/-- The first partition of node `n`: 0 for node 0, the cut of node `n - 1`
otherwise, `partitions_1` past the last node. -/
def node_first (part_total_size : List Nat) (partitions_1 total_size numa n : Nat) : Nat :=
  if n = 0 then 0
  else if numa ≤ n then partitions_1
  else (node_cut part_total_size partitions_1 total_size numa (n - 1)).1

/-- The total size of the first `j` partitions. -/
def prefix_size (part_total_size : List Nat) (j : Nat) : Nat := (part_total_size.take j).sum

/-- The distance of two sizes. -/
def dist_size (a g : Nat) : Nat := (a - g) + (g - a)

/-- A sum accumulated in a `uint64_t`, `s += x` for the entries in order. -/
def sum64 (l : List Nat) : Nat := l.foldl (fun a x => (a + x) % 2 ^ 64) 0

/-- The loop `for (t = 0; t != threads_per_numa; ++t) remote_size +=
d->count[n][t][lp]`. -/
def thread_sum (count : Nat → Nat → Nat → Nat) (threads_per_numa n lp : Nat) : Nat :=
  sum64 ((List.range threads_per_numa).map (fun t => count n t lp))

/-- `part_total_size[p]`, the sum of `d->count[n][t][p]` over the nodes and
their threads. -/
def part_totals (count : Nat → Nat → Nat → Nat) (numa threads_per_numa partitions_1 : Nat) :
    List Nat :=
  (List.range partitions_1).map (fun p =>
    sum64 ((List.range numa).flatMap (fun n =>
      (List.range threads_per_numa).map (fun t => count n t p))))

/-- The initial `remote_offset[n]`: the sum of `d->count[n][t][p]` over the
partitions before the first one of this node and the threads. -/
def remote_offset_init (count : Nat → Nat → Nat → Nat) (threads_per_numa prev n : Nat) : Nat :=
  sum64 ((List.range prev).flatMap (fun p =>
    (List.range threads_per_numa).map (fun t => count n t p)))

/-- A transfer descriptor: the source node, the offset of the source region
in `keys_buf[n]` (and `rids_buf[n]`), the offset of the destination region
in `keys[numa_node]` (and `rids[numa_node]`), the number of tuples. -/
structure Transfer where
  src_node : Nat
  src : Nat
  dst : Nat
  size : Nat
deriving DecidableEq

/-- The loop `for (n = 0; n != numa; ++n)` that sets the descriptors of the
partition `lp`, `steps` iterations from `n`. -/
def transfer_nodes (count : Nat → Nat → Nat → Nat) (threads_per_numa lp : Nat) :
    Nat → Nat → List Nat → Nat → List Transfer → List Nat × Nat × List Transfer
  | 0, _, remote_offset, local_offset, transfers => (remote_offset, local_offset, transfers)
  | steps + 1, n, remote_offset, local_offset, transfers =>
    let remote_size := thread_sum count threads_per_numa n lp
    transfer_nodes count threads_per_numa lp steps (n + 1)
      (remote_offset.set n ((remote_offset.getD n 0 + remote_size) % 2 ^ 64))
      ((local_offset + remote_size) % 2 ^ 64)
      (transfers ++ [⟨n, remote_offset.getD n 0, local_offset, remote_size⟩])

/-- The loop `for (p = 0; p != numa_partitions; ++p)` over the partitions of
the local node, `steps` iterations from `p`. -/
def transfer_parts (count : Nat → Nat → Nat → Nat) (threads_per_numa numa prev : Nat) :
    Nat → Nat → List Nat → Nat → List Transfer → List Nat × Nat × List Transfer
  | 0, _, remote_offset, local_offset, transfers => (remote_offset, local_offset, transfers)
  | steps + 1, p, remote_offset, local_offset, transfers =>
    let lp := (p + prev) % 2 ^ 64
    let r := transfer_nodes count threads_per_numa lp numa 0 remote_offset local_offset transfers
    transfer_parts count threads_per_numa numa prev steps (p + 1) r.1 r.2.1 r.2.2

/-- The test `x <= s * fudge` of `sort_thread`, with `x` and `s` of type
`uint64_t` and `fudge` a finite non-negative double of value
`fudge.1 / 2^fudge.2`: `x` and `s` are converted to double, the product is
rounded to double, and the two doubles are compared. -/
def fits_fudge (x s : Nat) (fudge : Nat × Nat) : Bool :=
  decide (round53 x * 2 ^ fudge.2 ≤ round53 (round53 s * fudge.1))

/-- The loop `for (n = 0; n != numa; ++n) assert(size_per_numa[n] <=
d->size[n] * d->fudge)`: whether every assertion holds. -/
def sizes_fit (size_per_numa size : List Nat) (fudge : Nat × Nat) (numa : Nat) : Bool :=
  (List.range numa).all (fun n => fits_fudge (size_per_numa.getD n 0) (size.getD n 0) fudge)

/-- The transfer list of node `numa_node` as built by `sort_thread` before
its order is randomised, with the final `local_offset`, from the check that
the sizes fit on.  `size` is `d->size` and `fudge` is `d->fudge` as a pair
of value `fudge.1 / 2^fudge.2`.  The result is `none` when one of the
assertions `size_per_numa[n] <= d->size[n] * d->fudge`,
`local_offset <= d->size[numa_node] * d->fudge` and
`transfer_unit == numa_partitions * numa` fails. -/
def build_transfers (count : Nat → Nat → Nat → Nat) (threads_per_numa numa numa_node : Nat)
    (part_per_numa size_per_numa size : List Nat) (fudge : Nat × Nat) :
    Option (List Transfer × Nat) :=
  if sizes_fit size_per_numa size fudge numa then
    let previous_numa_partitions := sum64 (part_per_numa.take numa_node)
    let remote_offset := (List.range numa).map
      (remote_offset_init count threads_per_numa previous_numa_partitions)
    let numa_partitions := part_per_numa.getD numa_node 0
    let r := transfer_parts count threads_per_numa numa previous_numa_partitions numa_partitions 0
      remote_offset 0 []
    let transfer_unit := r.2.2.length % 2 ^ 64
    if fits_fudge r.2.1 (size.getD numa_node 0) fudge then
      if transfer_unit = (numa_partitions * numa) % 2 ^ 64 then some (r.2.2, r.2.1) else none
    else none
  else none

/-- The sum `f 0 + ... + f (n - 1)`. -/
def range_sum (f : Nat → Nat) (n : Nat) : Nat := ((List.range n).map f).sum

/-- The destination regions of a transfer list are laid out one after the
other from offset 0 and end at `local_offset`. -/
def transfers_contiguous (transfers : List Transfer) (local_offset : Nat) : Prop :=
  local_offset = (transfers.map (fun t => t.size)).sum ∧
  ∀ k, k < transfers.length →
    (transfers.map (fun t => t.dst)).getD k 0 = ((transfers.map (fun t => t.size)).take k).sum

/-! ## Functions used to state the stability of `insertsort` -/

/-- The arrays `keys'`, `rids'` hold in `[0, size)` the pairs of `keys`,
`rids` read through an injective index map under which pairs with equal keys
keep their order. -/
def stable_image (keys rids keys' rids' : List Nat) (size : Nat) : Prop :=
  ∃ σ : Nat → Nat,
    (∀ x, x < size → σ x < size) ∧
    (∀ x y, x < size → y < size → σ x = σ y → x = y) ∧
    (∀ x, x < size → keys'.getD x 0 = keys.getD (σ x) 0 ∧ rids'.getD x 0 = rids.getD (σ x) 0) ∧
    (∀ x y, x < y → y < size → keys'.getD x 0 = keys'.getD y 0 → σ x < σ y)

/-! ## Functions used to state the result of `extract_delimiters` -/

/-- The index `percentile * (i + 1) - 0.001` of the `i`-th delimiter in a
sample of `sample_size` keys cut into `parts + 1` ranges. -/
def extract_index (sample_size parts i : Nat) : Nat :=
  dy_sub_milli_trunc (dy_mul (dy_div sample_size (parts + 1)) (i + 1))

/-- The delimiter that the body of the loop of `extract_delimiters` stores
for the sample position `index`: the key there, less one when the run of
equal keys has more elements after `index` than before and the key is not 0. -/
def extract_value (sample : List Nat) (sample_size index : Nat) : Nat :=
  let d := sample.getD index 0
  let start := run_start sample d index
  let end_ := run_end sample sample_size d (sample_size - index) index
  if index - start < end_ - index ∧ d ≠ 0 then d - 1 else d

/-! ## NUMA histogram of `lsb_64_baseline.c` (`histogram_numa_2`) -/

/-- `_mm_sll_epi32(a, count)`: the shift count is the low 64 bits of `count`. -/
def _mm_sll_epi32 (a count : M128) : M128 :=
  if count.lo64 > 31 then ⟨0, 0, 0, 0⟩
  else ⟨(a.e0 <<< count.lo64) % 2 ^ 32, (a.e1 <<< count.lo64) % 2 ^ 32,
    (a.e2 <<< count.lo64) % 2 ^ 32, (a.e3 <<< count.lo64) % 2 ^ 32⟩

/-- The computation of `histogram_numa_2` from the label `unaligned_intro`
to the counting loop: the four counter indices of the keys in `k12`, `k34`,
one per 32-bit element. -/
def histogram_numa_2_hash (k12 k34 s m d c : M128) : M128 :=
  let h12 := _mm_and_si128 k12 m
  let h34 := _mm_and_si128 k34 m
  let h := _mm_packus_epi32 h12 h34
  let k12_c := _mm_sub_epi64 k12 c
  let k34_c := _mm_sub_epi64 k34 c
  let e_L := _mm_cmpgt_epi64 k12_c d
  let e_H := _mm_cmpgt_epi64 k34_c d
  let e := _mm_packs_epi32 e_L e_H
  let r := _mm_setzero_si128
  let r := _mm_sub_epi32 r e
  let r := _mm_sll_epi32 r s
  _mm_or_si128 h r

/-- The loop `while ((15 & (uint64_t) keys) && i != size)` of
`histogram_numa_2` that copies the keys before the first 16-byte boundary
into `unaligned_keys`: the final `i` and the buffer.  `kpos` is the address
of `keys[0]` divided by 8. -/
def histogram_numa_2_head (kpos : Nat) (keys : List Nat) (size : Nat) :
    Nat → Nat → List Nat → Nat × List Nat
  | 0, i, unaligned_keys => (i, unaligned_keys)
  | fuel + 1, i, unaligned_keys =>
    if (15 &&& (8 * (kpos + i))) ≠ 0 ∧ i ≠ size then
      histogram_numa_2_head kpos keys size fuel (i + 1) (unaligned_keys.set i (keys.getD i 0))
    else (i, unaligned_keys)

/-- The loop `while (keys != keys_aligned_end)` of `histogram_numa_2` entered
at its head, `n` groups of four keys starting at `keys[i]`; the counting
loop `do { ... } while (--i)` runs four times. -/
def histogram_numa_2_aligned (keys : List Nat) (s m d c : M128) :
    Nat → Nat → List Nat → List Nat
  | 0, _, count => count
  | n + 1, i, count =>
    let k12 := _mm_load_si128 keys i
    let k34 := _mm_load_si128 keys (i + 2)
    let h := histogram_numa_2_hash k12 k34 s m d c
    histogram_numa_2_aligned keys s m d c n (i + 4) (histogram_lanes 4 h count)

/-- The blocks `if (i) { ...; goto unaligned_intro; }` of `histogram_numa_2`:
the `i` keys of `unaligned_keys` are counted, the counting loop
`do { ... } while (--i)` runs `i` times. -/
def histogram_numa_2_unaligned (unaligned_keys : List Nat) (i : Nat) (s m d c : M128)
    (count : List Nat) : List Nat :=
  if i ≠ 0 then
    let k12 := _mm_load_si128 unaligned_keys 0
    let k34 := _mm_load_si128 unaligned_keys 2
    histogram_lanes i (histogram_numa_2_hash k12 k34 s m d c) count
  else count

/-- `histogram_numa_2(keys, size, count, radix_bits, delim)` of
`lsb_64_baseline.c`.  `kpos` is the address of `keys` divided by 8 and
`stack` the initial (indeterminate) contents of `unaligned_keys[4]`; `none`
is the failed assertion. -/
def histogram_numa_2 (kpos : Nat) (keys : List Nat) (size : Nat) (count : List Nat)
    (radix_bits : Nat) (delim : List Nat) (stack : List Nat) : Option (List Nat) :=
  if radix_bits ≤ 16 then
    let convert := (1 <<< 63) % 2 ^ 64
    let s := _mm_set_epi32 0 0 0 radix_bits
    let m := _mm_set1_epi64x ((1 <<< radix_bits) - 1)
    let d := _mm_set1_epi64x ((delim.getD 0 0 + 2 ^ 64 - convert) % 2 ^ 64)
    let c := _mm_set1_epi64x convert
    let (i, unaligned_keys) := histogram_numa_2_head kpos keys size size 0 stack
    let keys_aligned_end := i + and_not (size - i) 3
    let keys_end := i + (size - i)
    let count := histogram_numa_2_unaligned unaligned_keys i s m d c count
    let count := histogram_numa_2_aligned keys s m d c (and_not (size - i) 3 / 4) i count
    let (unaligned_keys, i) :=
      gather_unaligned keys (keys_end - keys_aligned_end) keys_aligned_end unaligned_keys 0
    some (histogram_numa_2_unaligned unaligned_keys i s m d c count)
  else none

/-- The counter index of a key in `histogram_numa_2`: the low `radix_bits`
bits of the key, and above them the NUMA tag `key > delim[0]`. -/
def numa_2_index (key radix_bits delim_0 : Nat) : Nat :=
  (key &&& ((1 <<< radix_bits) - 1)) ||| ((if key > delim_0 then 1 else 0) <<< radix_bits)

/-! ## Random indices (`mulhi`) and the order of the transfers -/

/-- The instruction `mulq`: the 128-bit product of two 64-bit registers as
its low and high halves (`rax`, `rdx`). -/
def mulq (x y : Nat) : Nat × Nat :=
  ((x % 2 ^ 64) * (y % 2 ^ 64) % 2 ^ 64, (x % 2 ^ 64) * (y % 2 ^ 64) / 2 ^ 64 % 2 ^ 64)

/-- `mulhi(x, y)`: the high half `h` of `mulq`. -/
def mulhi (x y : Nat) : Nat := (mulq x y).2

/-- The loop `for (p = 0; p != sample_size; ++p) sample[p] =
keys[mulhi(rand64_next(gen), size)]` of `sort_thread`; `rand p` is the value
of the `p`-th call of `rand64_next`, `none` is an index outside the `size`
keys of the thread. -/
def draw_sample (rand : Nat → Nat) (keys : List Nat) (size sample_size : Nat) :
    Option (List Nat) :=
  (List.range sample_size).mapM (fun p =>
    if mulhi (rand p) size < size then keys[mulhi (rand p) size]? else none)

/-- The index `r = mulhi(r, transfer_unit - p) + p` of the randomisation of
the transfer order, in `uint64_t`, for the random value `r`. -/
def transfer_pick (r transfer_unit p : Nat) : Nat :=
  (mulhi r ((transfer_unit + 2 ^ 64 - p) % 2 ^ 64) + p) % 2 ^ 64

/-- The loop `for (p = 0; p != transfer_unit; ++p) { r = rand64_next(common_gen);
r = mulhi(r, transfer_unit - p) + p; swap transfers[p], transfers[r] }` of
`sort_thread`, `n` iterations from `p`; `rand p` is the value of the `p`-th
call of `rand64_next`, `none` is an index outside the list. -/
def randomize_transfers (rand : Nat → Nat) (transfer_unit : Nat) :
    Nat → Nat → List Transfer → Option (List Transfer)
  | 0, _, transfers => some transfers
  | n + 1, p, transfers =>
    let r := transfer_pick (rand p) transfer_unit p
    match transfers[p]?, transfers[r]? with
    | some tmp, some tr =>
      randomize_transfers rand transfer_unit n (p + 1) ((transfers.set p tr).set r tmp)
    | _, _ => none

/-! ## The checker (`check_thread`, `check` of `cmp_64_chiplet.c`) and the
sample size of `sort` -/

/-- The loop `while (keys != keys_end)` of `check_thread`, `n` keys from
index `i`: the checksum, `none` for a failed assertion. -/
def check_slice (keys : List Nat) (rids : Option (List Nat)) : Nat → Nat → Nat → Nat → Option Nat
  | 0, _, sum, _ => some sum
  | n + 1, i, sum, pkey =>
    let key := keys.getD i 0
    let same :=
      match rids with
      | some rids => decide (key = rids.getD i 0)
      | none => true
    if same = false then none
    else if ¬ key ≥ pkey then none
    else check_slice keys rids n (i + 1) ((sum + key) % 2 ^ 64) key

/-- `check_thread` for the thread `id`: its checksum, `none` for a failed
assertion.  `numa_node` is the array filled by `schedule_threads`. -/
def check_thread (keys : List (List Nat)) (rids : Option (List (List Nat))) (size : List Nat)
    (numa_node : List Nat) (threads numa id : Nat) : Option Nat :=
  let node := numa_node.getD id 0
  let threads_per_numa := threads / numa
  let numa_local_id := ((List.range id).filter (fun i => numa_node.getD i 0 = node)).length
  let numa_size := size.getD node 0
  let sz := numa_size / threads_per_numa
  let offset := sz * numa_local_id
  let sz := if numa_local_id + 1 = threads_per_numa then numa_size - sz * numa_local_id else sz
  check_slice (keys.getD node [])
    (match rids with
      | some rids => some (rids.getD node [])
      | none => none) sz offset 0 0

/-- `check(keys, rids, size, numa, same)` with `threads` checker threads
placed by `schedule_threads` as `numa_node`: the assertions on the node
boundaries and the sum of the checksums; `none` for a failed assertion in
`check` or in a thread. -/
def check (keys rids : List (List Nat)) (size : List Nat) (numa : Nat) (same : Bool)
    (threads : Nat) (numa_node : List Nat) : Option Nat :=
  if (List.range' 1 (numa - 1)).all (fun n =>
      decide ((keys.getD n []).getD 0 0
        ≥ (keys.getD (n - 1) []).getD (size.getD (n - 1) 0 - 1) 0)) then
    (List.range threads).foldl (fun acc t =>
      match acc, check_thread keys (if same then some rids else none) size numa_node threads numa t
        with
      | some checksum, some c => some ((checksum + c) % 2 ^ 64)
      | _, _ => none) (some 0)
  else none

/-- The per-node sizes that `main` of `cmp_64_chiplet.c` passes to `sort`:
`tuples *= 1000000; size[n] = tuples / numa`. -/
def main_sizes (tuples numa : Nat) : List Nat :=
  List.replicate numa (tuples * 1000000 % 2 ^ 64 / numa)

/-- The assertion `(d->sample_size & 3) == 0` of `sort_thread` for the sample
size that `sort` computes from the sizes of the nodes. -/
def sample_size_aligned (size : List Nat) : Bool :=
  decide (cmp_sample_size (sum64 size) &&& 3 = 0)

/-! ## Functions used to state the course of `simd_combsort` -/

/-- The values `beg`, `end`, `gap`, `size_middle` that `simd_combsort`
computes before the comb loop for keys at address `8 * kpos`. -/
def comb_params (kpos size : Nat) : Nat × Nat × Nat × Nat :=
  let unaligned := (15 &&& (8 * kpos)) >>> 3
  let beg := if unaligned = 0 then 0 else 2 - unaligned
  let end_ := (size - beg) &&& 3
  let gap := mul_shrink ((size - beg - end_) >>> 2)
  let size_middle := size - end_
  (beg, end_, gap, size_middle)

/-- The registers of the merging loop after `n` iterations. -/
def merge_run (keys rids : List Nat) (mask_C mask_I mask_4 mask_size : M128) :
    Nat → MergeRegs → MergeRegs
  | 0, s => s
  | n + 1, s =>
    merge_run keys rids mask_C mask_I mask_4 mask_size n
      (merge_step keys rids mask_C mask_I mask_4 mask_size s).1

/-- The registers of the 4-way merge of `simd_combsort` (from `mask_7654`
on) after `n` iterations of its loop. -/
def simd_merge_regs (mask_C mask_I : M128) (keys rids : List Nat) (size n : Nat) : MergeRegs :=
  let mask_7654 := _mm_cvtsi64_si128 0x07060504
  let mask_size := _mm_cvtsi64_si128 (size - 1)
  let mask_7654 := _mm_cvtepi8_epi32 mask_7654
  let mask_size := _mm_shuffle_epi32 mask_size 0
  let mask_4 := _mm_shuffle_epi32 mask_7654 0
  let key_L := _mm_load_si128 keys 0
  let key_H := _mm_load_si128 keys 2
  let rid_L := _mm_load_si128 rids 0
  let rid_H := _mm_load_si128 rids 2
  let loc := _mm_sub_epi32 mask_7654 mask_4
  merge_run keys rids mask_C mask_I mask_4 mask_size n ⟨key_L, key_H, rid_L, rid_H, loc⟩

/-! ## `partition_offsets` for several threads -/

/-- The loops `for (...; t != bound; ++t) p += count[t][i]` of
`partition_offsets`: `n` iterations from thread `t`. -/
def offsets_add (count : Nat → Nat → Nat) (i : Nat) : Nat → Nat → Nat → Nat
  | 0, _, p => p
  | n + 1, t, p => offsets_add count i n ((t + 1) % 2 ^ 64) ((p + count t i) % 2 ^ 64)

/-- The loop over the partitions of `partition_offsets`, `n` iterations from
partition `i` with the running sum `p`. The first inner loop runs `id` times
from `t = 0`, the second from `t = id` until `t == threads`. -/
def partition_offsets_loop (count : Nat → Nat → Nat) (id threads : Nat) :
    Nat → Nat → Nat → List Nat → List Nat
  | 0, _, _, offsets => offsets
  | n + 1, i, p, offsets =>
    let p := offsets_add count i id 0 p
    let offsets := offsets.set i p
    let p := offsets_add count i ((threads + 2 ^ 64 - id) % 2 ^ 64) id p
    partition_offsets_loop count id threads n (i + 1) p offsets

/-- `partition_offsets(count, partitions, id, threads, offsets)` with
`count t i` for `count[t][i]`. -/
def partition_offsets (count : Nat → Nat → Nat) (partitions id threads : Nat)
    (offsets : List Nat) : List Nat :=
  partition_offsets_loop count id threads partitions 0 0 offsets

/-! ## `histogram_old` (`lsb_64_chiplet.c`) -/

/-- The loop `while ((15 & ((uint64_t) keys)) && i != size)
unaligned_keys[i++] = *keys++` of `histogram_old`: the final `i` and the
buffer.  `kpos` is the address of `keys[0]` divided by 8. -/
def histogram_old_head (kpos : Nat) (keys : List Nat) (size : Nat) :
    Nat → Nat → List Nat → Nat × List Nat
  | 0, i, unaligned_keys => (i, unaligned_keys)
  | fuel + 1, i, unaligned_keys =>
    if (15 &&& (8 * (kpos + i))) ≠ 0 ∧ i ≠ size then
      histogram_old_head kpos keys size fuel (i + 1) (unaligned_keys.set i (keys.getD i 0))
    else (i, unaligned_keys)

/-- The loop `while (keys != keys_aligned_end)` of `histogram_old` entered at
its head, `n` groups of four keys starting at `keys[i]`; the counting loop
`do { ... } while (--i)` runs four times. -/
def histogram_old_aligned (keys : List Nat) (s m : M128) : Nat → Nat → List Nat → List Nat
  | 0, _, count => count
  | n + 1, i, count =>
    let k12 := _mm_load_si128 keys i
    let k34 := _mm_load_si128 keys (i + 2)
    let h := histogram_hash k12 k34 s m
    histogram_old_aligned keys s m n (i + 4) (histogram_lanes 4 h count)

/-- The blocks `if (i) { ...; goto unaligned_intro; }` of `histogram_old`:
both halves of `unaligned_keys` are loaded and the counting loop
`do { ... } while (--i)` runs `i` times. -/
def histogram_old_unaligned (unaligned_keys : List Nat) (i : Nat) (s m : M128)
    (count : List Nat) : List Nat :=
  if i ≠ 0 then
    let k12 := _mm_load_si128 unaligned_keys 0
    let k34 := _mm_load_si128 unaligned_keys 2
    histogram_lanes i (histogram_hash k12 k34 s m) count
  else count

/-- `histogram_old(keys, size, count, shift_bits, radix_bits)` of
`lsb_64_chiplet.c`.  `kpos` is the address of `keys` divided by 8 and
`stack` the initial (indeterminate) contents of `unaligned_keys[4]`; `none`
is the failed assertion. -/
def histogram_old (kpos : Nat) (keys : List Nat) (size : Nat) (count : List Nat)
    (shift_bits radix_bits : Nat) (stack : List Nat) : Option (List Nat) :=
  if radix_bits ≤ 16 then
    let s := _mm_set_epi32 0 0 0 shift_bits
    let m := _mm_set1_epi64x ((1 <<< radix_bits) - 1)
    let (i, unaligned_keys) := histogram_old_head kpos keys size size 0 stack
    let keys_aligned_end := i + and_not (size - i) 3
    let keys_end := i + (size - i)
    let count := histogram_old_unaligned unaligned_keys i s m count
    let count := histogram_old_aligned keys s m (and_not (size - i) 3 / 4) i count
    let (unaligned_keys, i) :=
      gather_unaligned keys (keys_end - keys_aligned_end) keys_aligned_end unaligned_keys 0
    some (histogram_old_unaligned unaligned_keys i s m count)
  else none

/-- The 32-bit element that `srl`, `and`, `packus` of `histogram` produce
for the key `x`. -/
def histogram_digit (s m : M128) (x : Nat) : Nat :=
  (histogram_hash (mk64 x 0) (mk64 0 0) s m).e0

/-! ## Radix sort of the sample (`partition_keys`, `cmp_64_chiplet.c`) -/

/-- `_mm_storel_epi64((__m128i*) &mem[i], r)`. -/
def _mm_storel_epi64 (mem : List Nat) (i : Nat) (r : M128) : List Nat := mem.set i r.lo64

/-- The loop `for (p = 0; p != partitions; ++p) local_hist[p] = 0`. -/
def partition_keys_zero : Nat → Nat → List Nat → List Nat
  | 0, _, local_hist => local_hist
  | n + 1, p, local_hist => partition_keys_zero n (p + 1) (local_hist.set p 0)

/-- The main histogram loop of `partition_keys`: `n` groups of four keys
from `local_keys[i]`. -/
def partition_keys_count (local_keys : List Nat) (s m : M128) :
    Nat → Nat → List Nat → List Nat
  | 0, _, local_hist => local_hist
  | n + 1, i, local_hist =>
    let k12 := _mm_load_si128 local_keys i
    let k34 := _mm_load_si128 local_keys (i + 2)
    let h12 := _mm_srl_epi64 k12 s
    let h34 := _mm_srl_epi64 k34 s
    let h12 := _mm_and_si128 h12 m
    let h34 := _mm_and_si128 h34 m
    let h := _mm_packus_epi32 h12 h34
    partition_keys_count local_keys s m n (i + 4) (histogram_lanes 4 h local_hist)

/-- The loop that initialises the buffer, for `thread_id = 0` and
`threads = 1`: the first inner loop does not run, `buf[(p << 3) | 7] = i`,
and the second inner loop adds `hist[0][p]`. -/
def partition_keys_init (hist : List Nat) : Nat → Nat → Nat → List Nat → Nat × List Nat
  | 0, _, i, buf => (i, buf)
  | n + 1, p, i, buf =>
    partition_keys_init hist n (p + 1) ((i + hist.getD p 0) % 2 ^ 64)
      (buf.set ((p <<< 3) ||| 7) i)

/-- The body of the inner loop of the main partitioning loop for the key in
element 0 of `h`, `k_L`, `k_H`: the key is stored in the buffer line of its
partition and a full line is streamed to `keys_out`. -/
def partition_keys_lane (h k_L k_H : M128) (buf keys_out : List Nat) : List Nat × List Nat :=
  let p := movd h
  let index := buf.getD (p + 7) 0
  let buf := buf.set (p + 7) ((index + 1) % 2 ^ 64)
  let offset := index &&& 7
  let k := _mm_unpacklo_epi32 k_L k_H
  let buf := _mm_storel_epi64 buf (p + offset) k
  if offset = 7 then
    let dst := index - 7
    let r0 := _mm_load_si128 buf p
    let r1 := _mm_load_si128 buf (p + 2)
    let r2 := _mm_load_si128 buf (p + 4)
    let r3 := _mm_load_si128 buf (p + 6)
    let keys_out := _mm_store_si128 keys_out dst r0
    let keys_out := _mm_store_si128 keys_out (dst + 2) r1
    let keys_out := _mm_store_si128 keys_out (dst + 4) r2
    let keys_out := _mm_store_si128 keys_out (dst + 6) r3
    (buf.set (p + 7) ((index + 1) % 2 ^ 64), keys_out)
  else (buf, keys_out)

/-- The inner loop `for (j = 0; j != 4; ++j)` of the main partitioning
loop, `n` iterations, rotating the registers after each. -/
def partition_keys_lanes : Nat → M128 → M128 → M128 → List Nat × List Nat → List Nat × List Nat
  | 0, _, _, _, st => st
  | n + 1, h, k_L, k_H, (buf, keys_out) =>
    partition_keys_lanes n (_mm_shuffle_epi32 h (MM_SHUFFLE 0 3 2 1))
      (_mm_shuffle_epi32 k_L (MM_SHUFFLE 0 3 2 1)) (_mm_shuffle_epi32 k_H (MM_SHUFFLE 0 3 2 1))
      (partition_keys_lane h k_L k_H buf keys_out)

/-- The body of the main partitioning loop for the keys in `k12`, `k34`. -/
def partition_keys_group (k12 k34 s m : M128) (st : List Nat × List Nat) :
    List Nat × List Nat :=
  let h12 := _mm_srl_epi64 k12 s
  let h34 := _mm_srl_epi64 k34 s
  let h12 := _mm_and_si128 h12 m
  let h34 := _mm_and_si128 h34 m
  let k12 := _mm_shuffle_epi32 k12 (MM_SHUFFLE 3 1 2 0)
  let k34 := _mm_shuffle_epi32 k34 (MM_SHUFFLE 3 1 2 0)
  let h := _mm_packus_epi32 h12 h34
  let k_L := _mm_unpacklo_epi64 k12 k34
  let k_H := _mm_unpackhi_epi64 k12 k34
  let h := _mm_slli_epi32 h 3
  partition_keys_lanes 4 h k_L k_H st

/-- The main partitioning loop: `n` groups of four keys from
`local_keys[i]`. -/
def partition_keys_loop (local_keys : List Nat) (s m : M128) :
    Nat → Nat → List Nat × List Nat → List Nat × List Nat
  | 0, _, st => st
  | n + 1, i, st =>
    partition_keys_loop local_keys s m n (i + 4)
      (partition_keys_group (_mm_load_si128 local_keys i) (_mm_load_si128 local_keys (i + 2))
        s m st)

/-- The loop `while (offset != remain) keys_out[index++] = src[offset++]`,
`n` iterations. -/
def partition_keys_copy (buf : List Nat) (src : Nat) : Nat → Nat → Nat → List Nat → List Nat
  | 0, _, _, keys_out => keys_out
  | n + 1, offset, index, keys_out =>
    partition_keys_copy buf src n (offset + 1) (index + 1)
      (keys_out.set index (buf.getD (src + offset) 0))

/-- The loop that flushes the remaining items of the partitions `p`,
`p + 1`, ... (`n` of them) from the buffer to `keys_out`. -/
def partition_keys_flush (local_hist buf : List Nat) : Nat → Nat → List Nat → List Nat
  | 0, _, keys_out => keys_out
  | n + 1, p, keys_out =>
    let src := p <<< 3
    let index := buf.getD (src + 7) 0
    let remain := index &&& 7
    let offset := if remain > local_hist.getD p 0 then remain - local_hist.getD p 0 else 0
    let index := index - (remain - offset)
    partition_keys_flush local_hist buf n (p + 1)
      (partition_keys_copy buf src (remain - offset) offset index keys_out)

/-- `partition_keys(keys, keys_out, size, hist, shift_bits, radix_bits,
thread_id, threads, barrier)` for `thread_id = 0` and `threads = 1`, where
the barriers do not wait.  `kpos` and `opos` are the addresses of `keys` and
`keys_out` divided by 8, `hist` is `hist[0]` and `buf` the initial
(indeterminate) contents of the allocated buffer.  The result is the final
`keys_out` and `hist[0]`; `none` is a failed assertion, or a `size` that is
not a multiple of 4, for which the loops `for (i = 0; i != local_size;
i += 4)` do not end inside the arrays. -/
def partition_keys (kpos opos : Nat) (keys keys_out : List Nat) (size : Nat) (hist : List Nat)
    (shift_bits radix_bits : Nat) (buf : List Nat) : Option (List Nat × List Nat) :=
  if (15 &&& (8 * kpos)) ≠ 0 then none
  else if (63 &&& (8 * opos)) ≠ 0 then none
  else
    let local_size := and_not (size / 1) 15
    let local_size := size - local_size * 0
    let partitions := 1 <<< radix_bits
    let local_hist := partition_keys_zero partitions 0 hist
    let s := _mm_set_epi32 0 0 0 shift_bits
    let m := _mm_set1_epi64x ((1 <<< radix_bits) - 1)
    if local_size % 4 ≠ 0 then none
    else
      let local_hist := partition_keys_count keys s m (local_size / 4) 0 local_hist
      let (i, buf) := partition_keys_init local_hist partitions 0 0 buf
      if i ≠ size then none
      else
        let (buf, keys_out) := partition_keys_loop keys s m (local_size / 4) 0 (buf, keys_out)
        some (partition_keys_flush local_hist buf partitions 0 keys_out, local_hist)

/-- The eight calls of `partition_keys` in `sort_thread` that sort the
sample, for one thread.  `spos` and `bpos` are the addresses of `sample` and
`sample_buf` divided by 8, `bufs k` the initial contents of the buffer that
call `k` allocates.  The result is the final `sample`, `sample_buf` and
`sample_hist[0]`. -/
def sort_thread_sample (spos bpos : Nat) (sample sample_buf : List Nat) (sample_size : Nat)
    (sample_hist : List Nat) (bufs : Nat → List Nat) :
    Option (List Nat × List Nat × List Nat) :=
  match partition_keys spos bpos sample sample_buf sample_size sample_hist 0 8 (bufs 0) with
  | none => none
  | some (sample_buf, sample_hist) =>
  match partition_keys bpos spos sample_buf sample sample_size sample_hist 8 8 (bufs 1) with
  | none => none
  | some (sample, sample_hist) =>
  match partition_keys spos bpos sample sample_buf sample_size sample_hist 16 8 (bufs 2) with
  | none => none
  | some (sample_buf, sample_hist) =>
  match partition_keys bpos spos sample_buf sample sample_size sample_hist 24 8 (bufs 3) with
  | none => none
  | some (sample, sample_hist) =>
  match partition_keys spos bpos sample sample_buf sample_size sample_hist 32 8 (bufs 4) with
  | none => none
  | some (sample_buf, sample_hist) =>
  match partition_keys bpos spos sample_buf sample sample_size sample_hist 40 8 (bufs 5) with
  | none => none
  | some (sample, sample_hist) =>
  match partition_keys spos bpos sample sample_buf sample_size sample_hist 48 8 (bufs 6) with
  | none => none
  | some (sample_buf, sample_hist) =>
  match partition_keys bpos spos sample_buf sample sample_size sample_hist 56 8 (bufs 7) with
  | none => none
  | some (sample, sample_hist) => some (sample, sample_buf, sample_hist)

/-- A stable partition of `l` by the digit `radix_digit k shift_bits
radix_bits`: the keys with digit 0 in their order in `l`, then those with
digit 1, and so on. -/
def stable_partition (l : List Nat) (shift_bits radix_bits : Nat) : List Nat :=
  (List.range (2 ^ radix_bits)).flatMap
    (fun p => l.filter (fun k => decide (radix_digit k shift_bits radix_bits = p)))

/-- The body of the inner loop of the main partitioning loop of
`partition_keys` for one key: the registers hold eight times its digit and
the halves of the key in their elements 0. -/
def partition_keys_step (shift_bits radix_bits : Nat) (st : List Nat × List Nat) (key : Nat) :
    List Nat × List Nat :=
  partition_keys_lane ⟨(radix_digit key shift_bits radix_bits <<< 3) % 2 ^ 32, 0, 0, 0⟩
    ⟨key % 2 ^ 32, 0, 0, 0⟩ ⟨key / 2 ^ 32 % 2 ^ 32, 0, 0, 0⟩ st.1 st.2

/-- The keys of `l` with digit `p`, in their order in `l`. -/
def digit_keys (l : List Nat) (shift_bits radix_bits p : Nat) : List Nat :=
  l.filter (fun k => decide (radix_digit k shift_bits radix_bits = p))

/-- The number of keys of `l` with a digit less than `p`. -/
def digit_start (l : List Nat) (shift_bits radix_bits p : Nat) : Nat :=
  range_sum (fun q => (digit_keys l shift_bits radix_bits q).length) p

/-- The state of the main partitioning loop of `partition_keys` after the
keys `pre` of `l`: the index of partition `p` is in `buf[8 * p + 7]`, and
the key for the output position `x` of the partition is in the buffer line
if `x` is in the line of the index, and in `keys_out` otherwise. -/
def partition_keys_inv (l : List Nat) (shift_bits radix_bits : Nat) (pre : List Nat)
    (st : List Nat × List Nat) : Prop :=
  st.1.length = 8 * 2 ^ radix_bits ∧ l.length ≤ st.2.length ∧
  ∀ p, p < 2 ^ radix_bits →
    st.1.getD (8 * p + 7) 0
      = digit_start l shift_bits radix_bits p + (digit_keys pre shift_bits radix_bits p).length ∧
    ∀ x, digit_start l shift_bits radix_bits p ≤ x →
      x < digit_start l shift_bits radix_bits p + (digit_keys pre shift_bits radix_bits p).length →
      (if x / 8 = (digit_start l shift_bits radix_bits p
            + (digit_keys pre shift_bits radix_bits p).length) / 8
        then st.1.getD (8 * p + x % 8) 0 else st.2.getD x 0)
        = (digit_keys l shift_bits radix_bits p).getD (x - digit_start l shift_bits radix_bits p) 0
/-! ## Lemmas on list reads and writes -/

theorem getD_of_lt (l : List Nat) (i : Nat) (h : i < l.length) : l.getD i 0 = l[i] := by
  simp [List.getD_eq_getElem?_getD, List.getElem?_eq_getElem h]

theorem getD_of_ge (l : List Nat) (i : Nat) (h : l.length ≤ i) : l.getD i 0 = 0 := by
  simp [List.getD_eq_getElem?_getD, List.getElem?_eq_none h]

theorem getD_set (l : List Nat) (i j v : Nat) :
    (l.set i v).getD j 0 = if i = j ∧ i < l.length then v else l.getD j 0 := by
  simp only [List.getD_eq_getElem?_getD, List.getElem?_set]
  by_cases h : i = j
  · subst h
    by_cases h2 : i < l.length
    · simp [h2]
    · simp [h2, List.getElem?_eq_none (Nat.le_of_not_lt h2)]
  · simp [h]

/-! ## Lemmas on `binary_search` -/

theorem binary_search_loop_spec (keys : List Nat) (key : Nat) :
    ∀ (fuel low high : Nat), low ≤ high → high ≤ keys.length → keys.length < 2 ^ 63 →
      high - low < fuel →
      (∀ i, i < low → keys.getD i 0 < key) →
      (∀ i, high ≤ i → i < keys.length → key ≤ keys.getD i 0) →
      List.Sorted (· ≤ ·) keys →
      ∃ p, binary_search_loop keys key fuel low high = some p ∧ p ≤ keys.length ∧
        (∀ i, i < p → keys.getD i 0 < key) ∧
        (∀ i, p ≤ i → i < keys.length → key ≤ keys.getD i 0) := by
  intro fuel
  induction fuel with
  | zero => intro low high _ _ _ h; omega
  | succ fuel ih =>
    intro low high hlh hhn hn hf hlo hhi hs
    unfold binary_search_loop
    by_cases hlt : low < high
    · have hmid : ((low + high) % 2 ^ 64) >>> 1 = (low + high) / 2 := by
        rw [Nat.mod_eq_of_lt (by omega), Nat.shiftRight_eq_div_pow]
      simp only [hlt, if_true, hmid]
      have hm1 : low ≤ (low + high) / 2 := by omega
      have hm2 : (low + high) / 2 < high := by omega
      have hsorted : ∀ i j, i ≤ j → j < keys.length → keys.getD i 0 ≤ keys.getD j 0 := by
        intro i j hij hj
        rcases Nat.eq_or_lt_of_le hij with h | h
        · subst h; exact le_refl _
        · have hp := List.pairwise_iff_getElem.mp hs i j (by omega) hj h
          rw [getD_of_lt _ _ (show i < keys.length by omega), getD_of_lt _ _ hj]
          exact hp
      by_cases hk : key > keys.getD ((low + high) / 2) 0
      · simp only [hk, if_true]
        apply ih _ _ (by omega) hhn hn (by omega) _ hhi hs
        intro i hi
        have := hsorted i ((low + high) / 2) (by omega) (by omega)
        omega
      · simp only [hk, if_false]
        apply ih _ _ (by omega) (by omega) hn (by omega) hlo _ hs
        intro i hi hin
        have := hsorted ((low + high) / 2) i hi hin
        omega
    · simp only [hlt, if_false]
      have : low = high := by omega
      subst this
      exact ⟨low, rfl, hhn, hlo, hhi⟩

/-- On a non-decreasing array `binary_search` returns the one index `p`
with every earlier entry `< key` and every later entry `≥ key`. -/
theorem binary_search_sorted (delim : List Nat) (key : Nat)
    (hs : List.Sorted (· ≤ ·) delim) (hn : delim.length < 2 ^ 63) :
    ∃ p, binary_search delim delim.length key = some p ∧ p ≤ delim.length ∧
      (∀ i, i < p → delim.getD i 0 < key) ∧
      (∀ i, p ≤ i → i < delim.length → key ≤ delim.getD i 0) := by
  unfold binary_search
  apply binary_search_loop_spec delim key _ 0 delim.length (by omega) (le_refl _) hn
    (by omega) (by intro i hi; omega) (by intro i hi hi2; omega) hs

/-- Two indices that both split a list into entries `< key` and entries
`≥ key` coincide. -/
theorem split_index_unique (l : List Nat) (key p q : Nat)
    (hp : p ≤ l.length) (hq : q ≤ l.length)
    (hp1 : ∀ i, i < p → l.getD i 0 < key)
    (hp2 : ∀ i, p ≤ i → i < l.length → key ≤ l.getD i 0)
    (hq1 : ∀ i, i < q → l.getD i 0 < key)
    (hq2 : ∀ i, q ≤ i → i < l.length → key ≤ l.getD i 0) : p = q := by
  rcases Nat.lt_trichotomy p q with h | h | h
  · have h1 := hq1 p h
    have h2 := hp2 p (le_refl _) (by omega)
    omega
  · exact h
  · have h1 := hp1 q h
    have h2 := hq2 q (le_refl _) (by omega)
    omega

theorem first_delimiter_ge_spec (l : List Nat) (key : Nat) :
    first_delimiter_ge l key ≤ l.length ∧
    (∀ i, i < first_delimiter_ge l key → l.getD i 0 < key) ∧
    (first_delimiter_ge l key < l.length →
      key ≤ l.getD (first_delimiter_ge l key) 0) := by
  unfold first_delimiter_ge
  refine ⟨List.findIdx_le_length _, ?_, ?_⟩
  · intro i hi
    have hlen : i < l.length := lt_of_lt_of_le hi (List.findIdx_le_length _)
    have := List.not_of_lt_findIdx hi
    simp only [decide_eq_false_iff_not, not_le] at this
    rw [getD_of_lt _ _ hlen]
    exact this
  · intro h
    have := List.findIdx_getElem (w := h)
    simp only [decide_eq_true_eq] at this
    rw [getD_of_lt _ _ h]
    exact this


/-! ## Lemmas on the radix histogram -/

theorem one_shiftLeft_sub (r : Nat) : (1 <<< r) - 1 = 2 ^ r - 1 := by
  rw [Nat.one_shiftLeft]

theorem radix_digit_eq (k sh r : Nat) : radix_digit k sh r = k / 2 ^ sh % 2 ^ r := by
  unfold radix_digit
  rw [one_shiftLeft_sub, Nat.and_pow_two_sub_one_eq_mod, Nat.shiftRight_eq_div_pow]

theorem radix_digit_lt (k sh r : Nat) : radix_digit k sh r < 2 ^ r := by
  rw [radix_digit_eq]; exact Nat.mod_lt _ (by positivity)

theorem sat_u16_of_lt (v : Nat) (h : v < 2 ^ 16) : sat_u16 v = v := by
  unfold sat_u16 toInt32
  have h1 : v < 2 ^ 31 := by omega
  simp only [h1, if_true]
  have h2 : ¬ ((v : Int) > 65535) := by omega
  have h3 : ¬ ((v : Int) < 0) := by omega
  simp only [h2, h3, if_false]
  omega

theorem pack_digit (x r : Nat) (hr : r ≤ 16) :
    sat_u16 ((x % 2 ^ 32) &&& ((2 ^ r - 1) % 2 ^ 64 % 2 ^ 32))
      + 2 ^ 16 * sat_u16 ((x / 2 ^ 32 % 2 ^ 32) &&& ((2 ^ r - 1) % 2 ^ 64 / 2 ^ 32 % 2 ^ 32))
      = x % 2 ^ r := by
  have hM : 2 ^ r ≤ 2 ^ 16 := Nat.pow_le_pow_right (by norm_num) hr
  have hpos : 0 < 2 ^ r := by positivity
  have h1 : (2 ^ r - 1) % 2 ^ 64 % 2 ^ 32 = 2 ^ r - 1 := by omega
  have h2 : (2 ^ r - 1) % 2 ^ 64 / 2 ^ 32 % 2 ^ 32 = 0 := by omega
  rw [h1, h2, Nat.and_zero, Nat.and_pow_two_sub_one_eq_mod]
  have h3 : x % 2 ^ 32 % 2 ^ r = x % 2 ^ r :=
    Nat.mod_mod_of_dvd _ (Nat.pow_dvd_pow 2 (by omega))
  rw [h3, sat_u16_of_lt 0 (by norm_num), sat_u16_of_lt _ (by have := Nat.mod_lt x hpos; omega)]
  omega

theorem histogram_hash_lanes (a b c d sh r : Nat) (hr : r ≤ 16) (hsh : sh ≤ 64)
    (ha : a < 2 ^ 64) (hb : b < 2 ^ 64) (hc : c < 2 ^ 64) (hd : d < 2 ^ 64) :
    histogram_hash (mk64 a b) (mk64 c d) (_mm_set_epi32 0 0 0 sh)
        (_mm_set1_epi64x ((1 <<< r) - 1))
      = ⟨radix_digit a sh r, radix_digit b sh r, radix_digit c sh r, radix_digit d sh r⟩ := by
  have lo : ∀ x y : Nat, x < 2 ^ 64 → (mk64 x y).lo64 = x := by
    intro x y hx; simp only [mk64, M128.lo64]; omega
  have hi : ∀ x y : Nat, y < 2 ^ 64 → (mk64 x y).hi64 = y := by
    intro x y hy; simp only [mk64, M128.hi64]; omega
  have hs : (_mm_set_epi32 0 0 0 sh).lo64 = sh := by
    simp only [_mm_set_epi32, M128.lo64]; omega
  simp only [histogram_hash, _mm_srl_epi64, hs, lo _ _ ha, hi _ _ hb, lo _ _ hc, hi _ _ hd,
    one_shiftLeft_sub, radix_digit_eq]
  by_cases h63 : sh > 63
  · have h64 : sh = 64 := by omega
    subst h64
    simp only [h63, if_true, _mm_and_si128, _mm_packus_epi32, _mm_set1_epi64x, mk64,
      Nat.zero_and]
    have z : ∀ x : Nat, x < 2 ^ 64 → x / 2 ^ 64 % 2 ^ r = 0 := by
      intro x hx; rw [Nat.div_eq_of_lt hx]; simp
    rw [z a ha, z b hb, z c hc, z d hd, sat_u16_of_lt 0 (by norm_num)]
    simp
  · simp only [h63, if_false, _mm_and_si128, _mm_packus_epi32, _mm_set1_epi64x, mk64,
      Nat.shiftRight_eq_div_pow, pack_digit _ r hr]

/-- Counting a list of digits into `count`, one `count[p]++` each. -/
theorem count_incr_length (count : List Nat) (p : Nat) :
    (count_incr count p).length = count.length := by
  simp [count_incr]

theorem count_incr_getD (count : List Nat) (p q : Nat) :
    (count_incr count p).getD q 0
      = if p = q ∧ p < count.length then (count.getD p 0 + 1) % 2 ^ 64 else count.getD q 0 := by
  simp only [count_incr, getD_set]

theorem tally_spec (f : Nat → Nat) (idxs : List Nat) :
    ∀ (count : List Nat) (p : Nat), p < count.length → count.getD p 0 < 2 ^ 64 →
      ((idxs.foldl (fun c j => count_incr c (f j)) count).length = count.length) ∧
      (idxs.foldl (fun c j => count_incr c (f j)) count).getD p 0
        = (count.getD p 0 + idxs.countP (fun j => decide (f j = p))) % 2 ^ 64 := by
  induction idxs with
  | nil =>
    intro count p _ hc
    simp only [List.foldl_nil, List.countP_nil, Nat.add_zero, true_and]
    exact (Nat.mod_eq_of_lt hc).symm
  | cons j js ih =>
    intro count p hp hc
    simp only [List.foldl_cons, List.countP_cons]
    have hc' : (count_incr count (f j)).getD p 0 < 2 ^ 64 := by
      rw [count_incr_getD]
      split
      · exact Nat.mod_lt _ (by norm_num)
      · exact hc
    obtain ⟨h1, h2⟩ := ih (count_incr count (f j)) p (by rw [count_incr_length]; exact hp) hc'
    refine ⟨by rw [h1, count_incr_length], ?_⟩
    rw [h2, count_incr_getD]
    by_cases hj : f j = p
    · subst hj
      simp only [hp, and_self, if_true, decide_True]
      omega
    · have : ¬ (f j = p ∧ f j < count.length) := fun h => hj h.1
      simp only [this, if_false, hj, decide_False]
      simp

theorem tally_congr (f g : Nat → Nat) (idxs : List Nat) (h : ∀ j ∈ idxs, f j = g j) :
    ∀ count : List Nat, idxs.foldl (fun c j => count_incr c (f j)) count
      = idxs.foldl (fun c j => count_incr c (g j)) count := by
  induction idxs with
  | nil => intro count; rfl
  | cons j js ih =>
    intro count
    simp only [List.foldl_cons]
    rw [h j (List.mem_cons_self _ _)]
    exact ih (fun k hk => h k (List.mem_cons_of_mem _ hk)) _

theorem histogram_lanes_eq (n : Nat) (d0 d1 d2 d3 : Nat) (count : List Nat) (hn : n ≤ 4) :
    histogram_lanes n ⟨d0, d1, d2, d3⟩ count
      = ([d0, d1, d2, d3].take n).foldl count_incr count := by
  have h4 : n = 0 ∨ n = 1 ∨ n = 2 ∨ n = 3 ∨ n = 4 := by omega
  rcases h4 with h | h | h | h | h <;> subst h <;>
    simp [histogram_lanes, _mm_shuffle_epi32, MM_SHUFFLE, M128.sel, movd]

theorem load_si128_eq (mem : List Nat) (i : Nat) :
    _mm_load_si128 mem i = mk64 (mem.getD i 0) (mem.getD (i + 1) 0) := rfl

theorem histogram_aligned_eq (keys : List Nat) (sh r : Nat) (hr : r ≤ 16) (hsh : sh ≤ 64)
    (hk : ∀ j, keys.getD j 0 < 2 ^ 64) :
    ∀ (n i : Nat) (count : List Nat),
      histogram_aligned keys (_mm_set_epi32 0 0 0 sh) (_mm_set1_epi64x ((1 <<< r) - 1)) n i count
        = (List.range' i (4 * n)).foldl
            (fun c j => count_incr c (radix_digit (keys.getD j 0) sh r)) count := by
  intro n
  induction n with
  | zero => intro i count; rfl
  | succ n ih =>
    intro i count
    have e : 4 * (n + 1) = 4 * n + 1 + 1 + 1 + 1 := by omega
    rw [e]
    simp only [histogram_aligned, load_si128_eq, List.range'_succ, List.foldl_cons]
    rw [histogram_hash_lanes _ _ _ _ sh r hr hsh (hk _) (hk _) (hk _) (hk _),
      histogram_lanes_eq 4 _ _ _ _ _ (le_refl _), ih]
    simp only [List.take, List.foldl_cons, List.foldl_nil]

theorem setzero_eq : _mm_setzero_si128 = mk64 0 0 := by decide

theorem histogram_unaligned_eq (uk : List Nat) (uc sh r : Nat) (hr : r ≤ 16) (hsh : sh ≤ 64)
    (huc : uc ≤ 3) (hk : ∀ j, uk.getD j 0 < 2 ^ 64) (count : List Nat) :
    histogram_unaligned uk uc (_mm_set_epi32 0 0 0 sh) (_mm_set1_epi64x ((1 <<< r) - 1)) count
      = (List.range' 0 uc).foldl
          (fun c j => count_incr c (radix_digit (uk.getD j 0) sh r)) count := by
  have h4 : uc = 0 ∨ uc = 1 ∨ uc = 2 ∨ uc = 3 := by omega
  rcases h4 with h | h | h | h <;> subst h
  · rfl
  · simp only [histogram_unaligned, load_si128_eq, setzero_eq, Nat.lt_irrefl, if_false,
      show (1 > 0) = True by simp, show (1 > 2) = False by simp, if_true]
    rw [histogram_hash_lanes _ _ _ _ sh r hr hsh (hk _) (hk _) (by norm_num) (by norm_num),
      histogram_lanes_eq 1 _ _ _ _ _ (by omega)]
    rfl
  · simp only [histogram_unaligned, load_si128_eq, setzero_eq, Nat.lt_irrefl, if_false,
      show (2 > 0) = True by simp, show (2 > 2) = False by simp, if_true]
    rw [histogram_hash_lanes _ _ _ _ sh r hr hsh (hk _) (hk _) (by norm_num) (by norm_num),
      histogram_lanes_eq 2 _ _ _ _ _ (by omega)]
    rfl
  · simp only [histogram_unaligned, load_si128_eq, setzero_eq,
      show (3 > 0) = True by simp, show (3 > 2) = True by simp, if_true]
    rw [histogram_hash_lanes _ _ _ _ sh r hr hsh (hk _) (hk _) (hk _) (hk _),
      histogram_lanes_eq 3 _ _ _ _ _ (by omega)]
    rfl

theorem and_15_mul_8 (k : Nat) : 15 &&& (8 * k) = 8 * (k % 2) := by
  rw [Nat.and_comm]
  have := Nat.and_pow_two_sub_one_eq_mod (8 * k) 4
  simp only [show 2 ^ 4 - 1 = 15 by norm_num, show 2 ^ 4 = 16 by norm_num] at this
  rw [this]; omega

theorem and_not_3 (x : Nat) : and_not x 3 = x - x % 4 := by
  unfold and_not
  have := Nat.and_pow_two_sub_one_eq_mod x 2
  simp only [show 2 ^ 2 - 1 = 3 by norm_num, show 2 ^ 2 = 4 by norm_num] at this
  rw [this]

theorem histogram_head_eq (kpos : Nat) (keys : List Nat) (size : Nat) (stack : List Nat) :
    histogram_head kpos keys size 0 stack 0
      = if kpos % 2 = 1 ∧ 0 < size then (1, size - 1, stack.set 0 (keys.getD 0 0), 1)
        else (0, size, stack, 0) := by
  cases size with
  | zero => simp [histogram_head]
  | succ n =>
    simp only [histogram_head, and_15_mul_8, Nat.add_zero]
    by_cases hk : kpos % 2 = 1
    · have h1 : 8 * (kpos % 2) ≠ 0 := by omega
      simp only [h1, ne_eq, not_false_eq_true, if_true, hk, Nat.zero_lt_succ, and_self]
      cases n with
      | zero => simp [histogram_head]
      | succ m =>
        have h2 : ¬ (8 * ((kpos + (0 + 1)) % 2) ≠ 0) := by omega
        simp only [histogram_head, and_15_mul_8, h2, if_false]
        simp
    · have h1 : ¬ (8 * (kpos % 2) ≠ 0) := by omega
      simp only [h1, if_false, hk, false_and]

theorem gather_unaligned_spec (keys : List Nat) :
    ∀ (n i : Nat) (uk : List Nat) (c : Nat),
      (gather_unaligned keys n i uk c).2 = c + n ∧
      (gather_unaligned keys n i uk c).1.length = uk.length ∧
      ∀ j, (gather_unaligned keys n i uk c).1.getD j 0
        = if c ≤ j ∧ j < c + n ∧ j < uk.length then keys.getD (i + (j - c)) 0
          else uk.getD j 0 := by
  intro n
  induction n with
  | zero =>
    intro i uk c
    refine ⟨rfl, rfl, ?_⟩
    intro j
    rw [if_neg (by omega)]
    rfl
  | succ n ih =>
    intro i uk c
    obtain ⟨h1, h2, h3⟩ := ih (i + 1) (uk.set c (keys.getD i 0)) (c + 1)
    simp only [gather_unaligned]
    refine ⟨by rw [h1]; omega, by rw [h2]; simp, ?_⟩
    intro j
    rw [h3, getD_set, List.length_set]
    by_cases hj : c + 1 ≤ j ∧ j < c + 1 + n ∧ j < uk.length
    · rw [if_pos hj, if_pos (by omega)]
      congr 1; omega
    · rw [if_neg hj]
      by_cases hc : c = j ∧ c < uk.length
      · rw [if_pos hc, if_pos (by omega)]
        congr 1; omega
      · rw [if_neg hc, if_neg (by omega)]

theorem getD_lt_of_forall (l : List Nat) (h : ∀ x ∈ l, x < 2 ^ 64) (j : Nat) :
    l.getD j 0 < 2 ^ 64 := by
  by_cases hj : j < l.length
  · rw [getD_of_lt _ _ hj]; exact h _ (List.getElem_mem _)
  · rw [getD_of_ge _ _ (by omega)]; norm_num

/-- The body of `histogram` after the head loop: the aligned groups, the
head keys, the gathered tail. -/
theorem histogram_body (keys : List Nat) (sh r : Nat) (hr : r ≤ 16) (hsh : sh ≤ 64)
    (hk : ∀ j, keys.getD j 0 < 2 ^ 64)
    (i0 size : Nat) (hi0 : i0 ≤ 1) (uk : List Nat) (huk : uk.length = 4)
    (hukv : ∀ j, uk.getD j 0 < 2 ^ 64) (hhead : ∀ j, j < i0 → uk.getD j 0 = keys.getD j 0)
    (count : List Nat) (p : Nat) (hp : p < count.length) (hc : count.getD p 0 < 2 ^ 64) :
    let s := _mm_set_epi32 0 0 0 sh
    let m := _mm_set1_epi64x ((1 <<< r) - 1)
    let c1 := histogram_aligned keys s m (and_not size 3 / 4) i0 count
    let c2 := histogram_unaligned uk i0 s m c1
    let g := gather_unaligned keys (i0 + size - (i0 + and_not size 3)) (i0 + and_not size 3) uk 0
    (histogram_unaligned g.1 g.2 s m c2).length = count.length ∧
    (histogram_unaligned g.1 g.2 s m c2).getD p 0
      = (count.getD p 0 + (List.range (i0 + size)).countP
          (fun i => decide (radix_digit (keys.getD i 0) sh r = p))) % 2 ^ 64 := by
  intro s m c1 c2 g
  have hrest : i0 + size - (i0 + and_not size 3) = size % 4 := by rw [and_not_3]; omega
  have hgrp : and_not size 3 / 4 = size / 4 := by rw [and_not_3]; omega
  have hae : i0 + and_not size 3 = i0 + 4 * (size / 4) := by rw [and_not_3]; omega
  obtain ⟨g2, glen, gval⟩ := gather_unaligned_spec keys (size % 4) (i0 + 4 * (size / 4)) uk 0
  have hg : g = gather_unaligned keys (size % 4) (i0 + 4 * (size / 4)) uk 0 := by
    show gather_unaligned keys _ _ uk 0 = _
    rw [hrest, hae]
  have hgv : ∀ j, g.1.getD j 0 < 2 ^ 64 := by
    intro j; rw [hg, gval]; split
    · exact hk _
    · exact hukv _
  have e1 : c1 = (List.range' i0 (4 * (size / 4))).foldl
      (fun c j => count_incr c (radix_digit (keys.getD j 0) sh r)) count := by
    show histogram_aligned keys _ _ _ i0 count = _
    rw [hgrp]; exact histogram_aligned_eq keys sh r hr hsh hk _ _ _
  have e2 : c2 = (List.range' 0 i0).foldl
      (fun c j => count_incr c (radix_digit (keys.getD j 0) sh r)) c1 := by
    show histogram_unaligned uk i0 _ _ c1 = _
    rw [histogram_unaligned_eq uk i0 sh r hr hsh (by omega) hukv]
    apply tally_congr
    intro j hj
    rw [List.mem_range'_1] at hj
    rw [hhead j (by omega)]
  have e3 : histogram_unaligned g.1 g.2 s m c2 = (List.range' 0 (size % 4)).foldl
      (fun c j => count_incr c (radix_digit (keys.getD (i0 + 4 * (size / 4) + j) 0) sh r)) c2 := by
    have hg2 : g.2 = size % 4 := by rw [hg, g2]; omega
    rw [hg2]
    show histogram_unaligned g.1 (size % 4) (_mm_set_epi32 0 0 0 sh)
      (_mm_set1_epi64x ((1 <<< r) - 1)) c2 = _
    rw [histogram_unaligned_eq g.1 (size % 4) sh r hr hsh (by omega) hgv]
    apply tally_congr
    intro j hj
    rw [List.mem_range'_1] at hj
    rw [hg, gval]
    have : 0 ≤ j ∧ j < 0 + size % 4 ∧ j < uk.length := by omega
    simp only [this, and_self, if_true, Nat.sub_zero]
  obtain ⟨l1, v1⟩ := tally_spec (fun j => radix_digit (keys.getD j 0) sh r)
    (List.range' i0 (4 * (size / 4))) count p hp hc
  rw [← e1] at l1 v1
  have hc1 : c1.getD p 0 < 2 ^ 64 := by rw [v1]; exact Nat.mod_lt _ (by norm_num)
  obtain ⟨l2, v2⟩ := tally_spec (fun j => radix_digit (keys.getD j 0) sh r)
    (List.range' 0 i0) c1 p (by omega) hc1
  rw [← e2] at l2 v2
  have hc2 : c2.getD p 0 < 2 ^ 64 := by rw [v2]; exact Nat.mod_lt _ (by norm_num)
  obtain ⟨l3, v3⟩ := tally_spec
    (fun j => radix_digit (keys.getD (i0 + 4 * (size / 4) + j) 0) sh r)
    (List.range' 0 (size % 4)) c2 p (by omega) hc2
  rw [← e3] at l3 v3
  refine ⟨by omega, ?_⟩
  rw [v3, v2, v1]
  have split : List.range (i0 + size)
      = List.range' 0 i0 ++ (List.range' i0 (4 * (size / 4))
          ++ List.range' (i0 + 4 * (size / 4)) (size % 4)) := by
    rw [List.range_eq_range']
    have a := List.range'_append i0 (4 * (size / 4)) (size % 4) 1
    have b := List.range'_append 0 i0 (size % 4 + 4 * (size / 4)) 1
    simp only [Nat.one_mul, Nat.zero_add] at a b
    rw [a, b]
    congr 1; omega
  have shift : (List.range' 0 (size % 4)).countP
      (fun j => decide (radix_digit (keys.getD (i0 + 4 * (size / 4) + j) 0) sh r = p))
      = (List.range' (i0 + 4 * (size / 4)) (size % 4)).countP
          (fun i => decide (radix_digit (keys.getD i 0) sh r = p)) := by
    have := List.map_add_range' (i0 + 4 * (size / 4)) 0 (size % 4) 1
    rw [Nat.add_zero] at this
    rw [← this, List.countP_map]
    rfl
  rw [split, List.countP_append, List.countP_append, shift]
  omega

/-! ## Lemmas on 64-bit lanes -/

theorem list_ext_getD (l1 l2 : List Nat) (hlen : l1.length = l2.length)
    (h : ∀ n, l1.getD n 0 = l2.getD n 0) : l1 = l2 := by
  apply List.ext_getElem hlen
  intro n h1 h2
  have := h n
  rw [getD_of_lt _ _ h1, getD_of_lt _ _ h2] at this
  exact this

theorem set_getD_self (l : List Nat) (i : Nat) : l.set i (l.getD i 0) = l := by
  apply list_ext_getD _ _ (by simp)
  intro n
  rw [getD_set]
  split
  · rename_i h; rw [h.1]
  · rfl

theorem lo64_mk64 (a b : Nat) (ha : a < 2 ^ 64) : (mk64 a b).lo64 = a := by
  simp only [mk64, M128.lo64]; omega

theorem hi64_mk64 (a b : Nat) (hb : b < 2 ^ 64) : (mk64 a b).hi64 = b := by
  simp only [mk64, M128.hi64]; omega

theorem mask64_lt (c : Bool) : mask64 c < 2 ^ 64 := by
  cases c <;> simp [mask64]

theorem mask32_lt (c : Bool) : mask32 c < 2 ^ 32 := by
  cases c <;> simp [mask32]

theorem mk64_mask (p q : Bool) :
    mk64 (mask64 p) (mask64 q) = ⟨mask32 p, mask32 p, mask32 q, mask32 q⟩ := by
  cases p <;> cases q <;> decide

theorem mask_C_eq : _mm_slli_epi64 (_mm_set1_epi32 (2 ^ 32 - 1)) 63 = mk64 (2 ^ 63) (2 ^ 63) := by
  simp only [_mm_slli_epi64, _mm_set1_epi32, mk64, M128.lo64, M128.hi64, Nat.shiftLeft_eq]
  norm_num

theorem mask_I_eq : _mm_set1_epi32 (2 ^ 32 - 1) = ⟨2 ^ 32 - 1, 2 ^ 32 - 1, 2 ^ 32 - 1, 2 ^ 32 - 1⟩ := by
  simp only [_mm_set1_epi32]
  norm_num

/-- The biased value `x - 2^63` (mod `2^64`) of an unsigned key. -/
theorem sub_mask_C (a b : Nat) (ha : a < 2 ^ 64) (hb : b < 2 ^ 64) :
    _mm_sub_epi64 (mk64 a b) (mk64 (2 ^ 63) (2 ^ 63))
      = mk64 ((a + 2 ^ 63) % 2 ^ 64) ((b + 2 ^ 63) % 2 ^ 64) := by
  simp only [_mm_sub_epi64, lo64_mk64 _ _ ha, hi64_mk64 _ _ hb,
    lo64_mk64 _ _ (show 2 ^ 63 < 2 ^ 64 by norm_num),
    hi64_mk64 _ _ (show 2 ^ 63 < 2 ^ 64 by norm_num)]
  have e : ∀ x : Nat, (x + 2 ^ 64 - 2 ^ 63 % 2 ^ 64) % 2 ^ 64 = (x + 2 ^ 63) % 2 ^ 64 := by
    intro x; omega
  rw [e, e]

theorem add_mask_C (a b : Nat) (ha : a < 2 ^ 64) (hb : b < 2 ^ 64) :
    _mm_add_epi64 (mk64 ((a + 2 ^ 63) % 2 ^ 64) ((b + 2 ^ 63) % 2 ^ 64))
        (mk64 (2 ^ 63) (2 ^ 63)) = mk64 a b := by
  simp only [_mm_add_epi64, lo64_mk64 _ _ (Nat.mod_lt _ (by norm_num : 0 < 2 ^ 64)),
    hi64_mk64 _ _ (Nat.mod_lt _ (by norm_num : 0 < 2 ^ 64)),
    lo64_mk64 _ _ (show 2 ^ 63 < 2 ^ 64 by norm_num),
    hi64_mk64 _ _ (show 2 ^ 63 < 2 ^ 64 by norm_num)]
  have e : ∀ x : Nat, x < 2 ^ 64 → ((x + 2 ^ 63) % 2 ^ 64 + 2 ^ 63) % 2 ^ 64 = x := by
    intro x hx; omega
  rw [e a ha, e b hb]

theorem toInt64_biased (a c : Nat) (ha : a < 2 ^ 64) (hc : c < 2 ^ 64) :
    (toInt64 ((a + 2 ^ 63) % 2 ^ 64) > toInt64 ((c + 2 ^ 63) % 2 ^ 64)) ↔ a > c := by
  unfold toInt64
  split <;> split <;> omega

/-- The signed comparison of biased keys is the unsigned comparison. -/
theorem cmpgt_biased (a b c d : Nat) (ha : a < 2 ^ 64) (hb : b < 2 ^ 64) (hc : c < 2 ^ 64)
    (hd : d < 2 ^ 64) :
    _mm_cmpgt_epi64 (mk64 ((a + 2 ^ 63) % 2 ^ 64) ((b + 2 ^ 63) % 2 ^ 64))
        (mk64 ((c + 2 ^ 63) % 2 ^ 64) ((d + 2 ^ 63) % 2 ^ 64))
      = mk64 (mask64 (decide (a > c))) (mask64 (decide (b > d))) := by
  have m := Nat.mod_lt
  simp only [_mm_cmpgt_epi64, lo64_mk64 _ _ (Nat.mod_lt _ (by norm_num : 0 < 2 ^ 64)),
    hi64_mk64 _ _ (Nat.mod_lt _ (by norm_num : 0 < 2 ^ 64)), toInt64_biased _ _ ha hc,
    toInt64_biased _ _ hb hd]

theorem blend32_ones (x y : Nat) (hy : y < 2 ^ 32) : blend32 x y (2 ^ 32 - 1) = y := by
  simp only [blend32, blend_byte]
  norm_num
  omega

theorem blend32_zero (x y : Nat) (hx : x < 2 ^ 32) : blend32 x y 0 = x := by
  simp only [blend32, blend_byte]
  norm_num
  omega

theorem blend32_mask (x y : Nat) (c : Bool) (hx : x < 2 ^ 32) (hy : y < 2 ^ 32) :
    blend32 x y (mask32 c) = if c then y else x := by
  cases c
  · simp only [mask32]; exact blend32_zero x y hx
  · simp only [mask32]; exact blend32_ones x y hy

theorem blendv_mk64 (a b c d : Nat) (p q : Bool) :
    _mm_blendv_epi8 (mk64 a b) (mk64 c d) (mk64 (mask64 p) (mask64 q))
      = mk64 (if p then c else a) (if q then d else b) := by
  rw [mk64_mask]
  have h := fun x => Nat.mod_lt x (by norm_num : 0 < 2 ^ 32)
  simp only [_mm_blendv_epi8, mk64, blend32_mask _ _ _ (h _) (h _)]
  cases p <;> cases q <;> simp

theorem lo64_mk64_mod (a b : Nat) : (mk64 a b).lo64 = a % 2 ^ 64 := by
  simp only [mk64, M128.lo64]; omega

theorem hi64_mk64_mod (a b : Nat) : (mk64 a b).hi64 = b % 2 ^ 64 := by
  simp only [mk64, M128.hi64]; omega

theorem store_mk64 (mem : List Nat) (i a b : Nat) :
    _mm_store_si128 mem i (mk64 a b) = (mem.set i (a % 2 ^ 64)).set (i + 1) (b % 2 ^ 64) := by
  simp only [_mm_store_si128, lo64_mk64_mod, hi64_mk64_mod]

theorem or_ones_ne_zero (x : Nat) : x ||| (2 ^ 32 - 1) ≠ 0 := by
  intro h
  have := congrArg (fun v => Nat.testBit v 0) h
  simp [Nat.testBit_or, Nat.testBit_two_pow_sub_one] at this

theorem or_mask32_eq_zero (x : Nat) (p : Bool) : x ||| mask32 p = 0 ↔ x = 0 ∧ p = false := by
  cases p
  · simp [mask32]
  · simp only [mask32, if_true]
    constructor
    · intro h; exact absurd h (or_ones_ne_zero x)
    · intro h; cases h.2

theorem or_mask_eq_zero (s : M128) (p q : Bool) :
    _mm_or_si128 s (mk64 (mask64 p) (mask64 q)) = ⟨0, 0, 0, 0⟩
      ↔ s = ⟨0, 0, 0, 0⟩ ∧ p = false ∧ q = false := by
  rw [mk64_mask]
  cases s with
  | mk a b c d =>
    simp only [_mm_or_si128, M128.mk.injEq, or_mask32_eq_zero]
    tauto

theorem testz_self (s : M128) : _mm_testz_si128 s s = true ↔ s = ⟨0, 0, 0, 0⟩ := by
  cases s with
  | mk a b c d =>
    simp only [_mm_testz_si128, _mm_and_si128, Nat.and_self, decide_eq_true_eq]

theorem ite_mod_lt (p : Prop) [Decidable p] (x y : Nat) (hx : x < 2 ^ 64) (hy : y < 2 ^ 64) :
    (if p then x else y) % 2 ^ 64 = if p then x else y := by
  split
  · exact Nat.mod_eq_of_lt hx
  · exact Nat.mod_eq_of_lt hy

theorem cx_length (keys rids : List Nat) (i j : Nat) :
    (cx keys rids i j).1.length = keys.length ∧ (cx keys rids i j).2.length = rids.length := by
  simp [cx]

theorem cx_keys_getD (keys rids : List Nat) (i j n : Nat) :
    (cx keys rids i j).1.getD n 0 =
      if j = n ∧ j < keys.length then
        (if keys.getD i 0 > keys.getD j 0 then keys.getD i 0 else keys.getD j 0)
      else if i = n ∧ i < keys.length then
        (if keys.getD i 0 > keys.getD j 0 then keys.getD j 0 else keys.getD i 0)
      else keys.getD n 0 := by
  simp only [cx, getD_set, List.length_set, decide_eq_true_eq]

theorem cx_rids_getD (keys rids : List Nat) (i j n : Nat) :
    (cx keys rids i j).2.getD n 0 =
      if i = n ∧ i < rids.length then
        (if keys.getD i 0 > keys.getD j 0 then rids.getD j 0 else rids.getD i 0)
      else if j = n ∧ j < rids.length then
        (if keys.getD i 0 > keys.getD j 0 then rids.getD i 0 else rids.getD j 0)
      else rids.getD n 0 := by
  simp only [cx, getD_set, List.length_set, decide_eq_true_eq]

/-- The scalar compare-exchange of the comb loop is `cx`; the swap flag
stays zero exactly when it was zero and nothing was exchanged. -/
theorem comb_scalar_eq (mask_C : M128) (hC : mask_C ≠ ⟨0, 0, 0, 0⟩) (keys rids : List Nat)
    (swap : M128) (i j : Nat) :
    ∃ swap', comb_scalar mask_C keys rids swap i j
        = ((cx keys rids i j).1, (cx keys rids i j).2, swap') ∧
      (swap' = ⟨0, 0, 0, 0⟩ ↔
        (swap = ⟨0, 0, 0, 0⟩ ∧ decide (keys.getD i 0 > keys.getD j 0) = false)) := by
  unfold comb_scalar cx
  by_cases h : keys.getD i 0 > keys.getD j 0
  · refine ⟨mask_C, ?_, ?_⟩
    · simp only [h, if_true, decide_True]
    · constructor
      · intro hm; exact absurd hm hC
      · intro hh; exact absurd h (of_decide_eq_false hh.2)
  · refine ⟨swap, ?_, ?_⟩
    · simp only [h, if_false, decide_False, set_getD_self, Bool.false_eq_true]
    · constructor
      · intro hs; exact ⟨hs, decide_eq_false h⟩
      · intro hh; exact hh.1

/-- Pointwise description of `n ≤ d` successive compare-exchanges of `e + l`
with `e + d + l`: the pairs do not overlap, so each one sees the original
values. -/
theorem cx_seq_pointwise (d : Nat) :
    ∀ (n e : Nat) (keys rids : List Nat) (dirty : Bool), n ≤ d →
      e + d + n ≤ keys.length → rids.length = keys.length →
      (cx_seq d n e (keys, rids, dirty)).1.length = keys.length ∧
      (cx_seq d n e (keys, rids, dirty)).2.1.length = rids.length ∧
      (∀ l, l < n →
        (cx_seq d n e (keys, rids, dirty)).1.getD (e + l) 0
          = (if keys.getD (e + l) 0 > keys.getD (e + d + l) 0 then keys.getD (e + d + l) 0
              else keys.getD (e + l) 0) ∧
        (cx_seq d n e (keys, rids, dirty)).1.getD (e + d + l) 0
          = (if keys.getD (e + l) 0 > keys.getD (e + d + l) 0 then keys.getD (e + l) 0
              else keys.getD (e + d + l) 0) ∧
        (cx_seq d n e (keys, rids, dirty)).2.1.getD (e + l) 0
          = (if keys.getD (e + l) 0 > keys.getD (e + d + l) 0 then rids.getD (e + d + l) 0
              else rids.getD (e + l) 0) ∧
        (cx_seq d n e (keys, rids, dirty)).2.1.getD (e + d + l) 0
          = (if keys.getD (e + l) 0 > keys.getD (e + d + l) 0 then rids.getD (e + l) 0
              else rids.getD (e + d + l) 0)) ∧
      (∀ x, (x < e ∨ (e + n ≤ x ∧ x < e + d) ∨ e + d + n ≤ x) →
        (cx_seq d n e (keys, rids, dirty)).1.getD x 0 = keys.getD x 0 ∧
        (cx_seq d n e (keys, rids, dirty)).2.1.getD x 0 = rids.getD x 0) ∧
      ((cx_seq d n e (keys, rids, dirty)).2.2 = false ↔
        (dirty = false ∧ ∀ l, l < n → keys.getD (e + l) 0 ≤ keys.getD (e + d + l) 0)) := by
  intro n
  induction n with
  | zero =>
    intro e keys rids dirty _ _ _
    refine ⟨rfl, rfl, ?_, ?_, ?_⟩
    · intro l hl; omega
    · intro x _; exact ⟨rfl, rfl⟩
    · simp [cx_seq]
  | succ n ih =>
    intro e keys rids dirty hn hlen hr
    have hc := cx_length keys rids e (e + d)
    obtain ⟨h1, h2, h3, h4, h5⟩ := ih (e + 1) (cx keys rids e (e + d)).1 (cx keys rids e (e + d)).2
      (dirty || decide (keys.getD e 0 > keys.getD (e + d) 0)) (by omega)
      (by rw [hc.1]; omega) (by rw [hc.1, hc.2]; exact hr)
    have kk : ∀ x, x ≠ e → x ≠ e + d →
        (cx keys rids e (e + d)).1.getD x 0 = keys.getD x 0 := by
      intro x hx1 hx2
      rw [cx_keys_getD, if_neg (by omega), if_neg (by omega)]
    have rr : ∀ x, x ≠ e → x ≠ e + d →
        (cx keys rids e (e + d)).2.getD x 0 = rids.getD x 0 := by
      intro x hx1 hx2
      rw [cx_rids_getD, if_neg (by omega), if_neg (by omega)]
    simp only [cx_seq]
    refine ⟨by rw [h1, hc.1], by rw [h2, hc.2], ?_, ?_, ?_⟩
    · intro l hl
      rcases Nat.eq_zero_or_pos l with hl0 | hl0
      · subst hl0
        have a := h4 e (Or.inl (by omega))
        have b := h4 (e + d) (Or.inr (Or.inl ⟨by omega, by omega⟩))
        simp only [Nat.add_zero]
        rw [a.1, a.2, b.1, b.2, cx_keys_getD, cx_keys_getD, cx_rids_getD, cx_rids_getD]
        have c1 : ¬ (e + d = e ∧ e + d < keys.length) := by omega
        have c2 : e = e ∧ e < keys.length := ⟨rfl, by omega⟩
        have c3 : e + d = e + d ∧ e + d < keys.length := ⟨rfl, by omega⟩
        have c4 : e = e ∧ e < rids.length := ⟨rfl, by omega⟩
        have c5 : ¬ (e = e + d ∧ e < rids.length) := by omega
        have c6 : e + d = e + d ∧ e + d < rids.length := ⟨rfl, by omega⟩
        rw [if_neg c1, if_pos c2, if_pos c3, if_pos c4, if_neg c5, if_pos c6]
        exact ⟨rfl, rfl, rfl, rfl⟩
      · have a := h3 (l - 1) (by omega)
        have e1 : e + 1 + (l - 1) = e + l := by omega
        have e2 : e + 1 + d + (l - 1) = e + d + l := by omega
        rw [e1, e2] at a
        rw [kk (e + l) (by omega) (by omega), kk (e + d + l) (by omega) (by omega),
          rr (e + l) (by omega) (by omega), rr (e + d + l) (by omega) (by omega)] at a
        exact a
    · intro x hx
      have a := h4 x (by omega)
      rw [kk x (by omega) (by omega), rr x (by omega) (by omega)] at a
      exact a
    · rw [h5]
      constructor
      · intro ⟨hd1, hd2⟩
        simp only [Bool.or_eq_false_iff, decide_eq_false_iff_not, not_lt] at hd1
        refine ⟨hd1.1, ?_⟩
        intro l hl
        rcases Nat.eq_zero_or_pos l with hl0 | hl0
        · subst hl0; exact hd1.2
        · have a := hd2 (l - 1) (by omega)
          have e1 : e + 1 + (l - 1) = e + l := by omega
          have e2 : e + 1 + d + (l - 1) = e + d + l := by omega
          rw [e1, e2, kk (e + l) (by omega) (by omega),
            kk (e + d + l) (by omega) (by omega)] at a
          exact a
      · intro ⟨hd1, hd2⟩
        refine ⟨?_, ?_⟩
        · simp only [Bool.or_eq_false_iff, decide_eq_false_iff_not, not_lt]
          exact ⟨hd1, by simpa using hd2 0 (by omega)⟩
        · intro l hl
          have a := hd2 (l + 1) (by omega)
          have e1 : e + (l + 1) = e + 1 + l := by omega
          have e2 : e + d + (l + 1) = e + 1 + d + l := by omega
          rw [e1, e2] at a
          rw [kk (e + 1 + l) (by omega) (by omega), kk (e + 1 + d + l) (by omega) (by omega)]
          exact a

theorem comb_vector_keys (keys rids : List Nat) (swap : M128) (i d : Nat) (hd : 4 ≤ d)
    (hlen : i + d + 4 ≤ keys.length) (hrl : rids.length = keys.length)
    (hk : ∀ n, keys.getD n 0 < 2 ^ 64) :
    (comb_vector (mk64 (2 ^ 63) (2 ^ 63)) keys rids swap i (i + d)).1
      = (cx_seq d 4 i (keys, rids, false)).1 := by
  obtain ⟨p1, p2, p3, p4, p5⟩ := cx_seq_pointwise d 4 i keys rids false hd hlen hrl
  simp only [comb_vector, load_si128_eq, sub_mask_C _ _ (hk _) (hk _),
    cmpgt_biased _ _ _ _ (hk _) (hk _) (hk _) (hk _), blendv_mk64, store_mk64,
    ite_mod_lt _ _ _ (hk _) (hk _), decide_eq_true_eq]
  apply list_ext_getD
  · simp only [List.length_set, p1]
  · intro x
    have hx : x = i + 0 ∨ x = i + 1 ∨ x = i + 2 ∨ x = i + 3 ∨ x = i + d + 0 ∨ x = i + d + 1 ∨
        x = i + d + 2 ∨ x = i + d + 3 ∨ (x < i ∨ (i + 4 ≤ x ∧ x < i + d) ∨ i + d + 4 ≤ x) := by
      omega
    rcases hx with h | h | h | h | h | h | h | h | h
    · rw [h, (p3 0 (by omega)).1]
      simp (disch := omega) only [getD_set, List.length_set, if_pos, if_neg, Nat.add_zero, true_and]
    · rw [h, (p3 1 (by omega)).1]
      simp (disch := omega) only [getD_set, List.length_set, if_pos, if_neg, Nat.add_zero, true_and]
    · rw [h, (p3 2 (by omega)).1]
      simp (disch := omega) only [getD_set, List.length_set, if_pos, if_neg, Nat.add_zero, true_and]
    · rw [h, (p3 3 (by omega)).1]
      simp (disch := omega) only [getD_set, List.length_set, if_pos, if_neg, Nat.add_zero, true_and]
    · rw [h, (p3 0 (by omega)).2.1]
      simp (disch := omega) only [getD_set, List.length_set, if_pos, if_neg, Nat.add_zero, true_and]
    · rw [h, (p3 1 (by omega)).2.1]
      simp (disch := omega) only [getD_set, List.length_set, if_pos, if_neg, Nat.add_zero, true_and]
    · rw [h, (p3 2 (by omega)).2.1]
      simp (disch := omega) only [getD_set, List.length_set, if_pos, if_neg, Nat.add_zero, true_and]
    · rw [h, (p3 3 (by omega)).2.1]
      simp (disch := omega) only [getD_set, List.length_set, if_pos, if_neg, Nat.add_zero, true_and]
    · rw [(p4 x h).1]
      simp (disch := omega) only [getD_set, List.length_set, if_pos, if_neg, Nat.add_zero, true_and]

theorem comb_vector_rids (keys rids : List Nat) (swap : M128) (i d : Nat) (hd : 4 ≤ d)
    (hlen : i + d + 4 ≤ keys.length) (hrl : rids.length = keys.length)
    (hk : ∀ n, keys.getD n 0 < 2 ^ 64) (hr : ∀ n, rids.getD n 0 < 2 ^ 64) :
    (comb_vector (mk64 (2 ^ 63) (2 ^ 63)) keys rids swap i (i + d)).2.1
      = (cx_seq d 4 i (keys, rids, false)).2.1 := by
  obtain ⟨p1, p2, p3, p4, p5⟩ := cx_seq_pointwise d 4 i keys rids false hd hlen hrl
  simp only [comb_vector, load_si128_eq, sub_mask_C _ _ (hk _) (hk _),
    cmpgt_biased _ _ _ _ (hk _) (hk _) (hk _) (hk _), blendv_mk64, store_mk64,
    ite_mod_lt _ _ _ (hr _) (hr _), decide_eq_true_eq]
  apply list_ext_getD
  · simp only [List.length_set, p2]
  · intro x
    have hx : x = i + 0 ∨ x = i + 1 ∨ x = i + 2 ∨ x = i + 3 ∨ x = i + d + 0 ∨ x = i + d + 1 ∨
        x = i + d + 2 ∨ x = i + d + 3 ∨ (x < i ∨ (i + 4 ≤ x ∧ x < i + d) ∨ i + d + 4 ≤ x) := by
      omega
    rcases hx with h | h | h | h | h | h | h | h | h
    · rw [h, (p3 0 (by omega)).2.2.1]
      simp (disch := omega) only [getD_set, List.length_set, if_pos, if_neg, Nat.add_zero, true_and]
    · rw [h, (p3 1 (by omega)).2.2.1]
      simp (disch := omega) only [getD_set, List.length_set, if_pos, if_neg, Nat.add_zero, true_and]
    · rw [h, (p3 2 (by omega)).2.2.1]
      simp (disch := omega) only [getD_set, List.length_set, if_pos, if_neg, Nat.add_zero, true_and]
    · rw [h, (p3 3 (by omega)).2.2.1]
      simp (disch := omega) only [getD_set, List.length_set, if_pos, if_neg, Nat.add_zero, true_and]
    · rw [h, (p3 0 (by omega)).2.2.2]
      simp (disch := omega) only [getD_set, List.length_set, if_pos, if_neg, Nat.add_zero, true_and]
    · rw [h, (p3 1 (by omega)).2.2.2]
      simp (disch := omega) only [getD_set, List.length_set, if_pos, if_neg, Nat.add_zero, true_and]
    · rw [h, (p3 2 (by omega)).2.2.2]
      simp (disch := omega) only [getD_set, List.length_set, if_pos, if_neg, Nat.add_zero, true_and]
    · rw [h, (p3 3 (by omega)).2.2.2]
      simp (disch := omega) only [getD_set, List.length_set, if_pos, if_neg, Nat.add_zero, true_and]
    · rw [(p4 x h).2]
      simp (disch := omega) only [getD_set, List.length_set, if_pos, if_neg, Nat.add_zero, true_and]

theorem comb_vector_swap (keys rids : List Nat) (swap : M128) (i d : Nat) (hd : 4 ≤ d)
    (hlen : i + d + 4 ≤ keys.length) (hrl : rids.length = keys.length)
    (hk : ∀ n, keys.getD n 0 < 2 ^ 64) :
    (comb_vector (mk64 (2 ^ 63) (2 ^ 63)) keys rids swap i (i + d)).2.2 = ⟨0, 0, 0, 0⟩ ↔
      (swap = ⟨0, 0, 0, 0⟩ ∧ (cx_seq d 4 i (keys, rids, false)).2.2 = false) := by
  obtain ⟨p1, p2, p3, p4, p5⟩ := cx_seq_pointwise d 4 i keys rids false hd hlen hrl
  simp only [comb_vector, load_si128_eq, sub_mask_C _ _ (hk _) (hk _),
    cmpgt_biased _ _ _ _ (hk _) (hk _) (hk _) (hk _), or_mask_eq_zero, p5,
    decide_eq_false_iff_not, not_lt, true_and]
  constructor
  · intro ⟨⟨hs, a0, a1⟩, a2, a3⟩
    refine ⟨hs, ?_⟩
    intro l hl
    have : l = 0 ∨ l = 1 ∨ l = 2 ∨ l = 3 := by omega
    rcases this with h | h | h | h <;> subst h
    · simpa using a0
    · exact a1
    · exact a2
    · exact a3
  · intro ⟨hs, h⟩
    exact ⟨⟨hs, by simpa using h 0 (by omega), h 1 (by omega)⟩, h 2 (by omega), h 3 (by omega)⟩

theorem swap_perm {α : Type} [DecidableEq α] (L : List α) (i j : Nat) (hi : i < L.length)
    (hj : j < L.length) :
    List.Perm ((L.set i L[j]).set j (L[i])) L := by
  rw [List.perm_iff_count]
  intro a
  by_cases hij : i = j
  · subst hij
    have hj2 : i < (L.set i L[i]).length := by simpa using hj
    rw [List.count_set _ _ _ _ hj2, List.count_set _ _ _ _ hi]
    have h1 := List.boole_getElem_le_count a L i hi
    by_cases c1 : L[i] = a <;> simp_all
  · have hj2 : j < (L.set i L[j]).length := by simpa using hj
    rw [List.count_set _ _ _ _ hj2, List.count_set _ _ _ _ hi]
    have e : (L.set i L[j])[j] = L[j] := by
      rw [List.getElem_set]; simp [hij]
    rw [e]
    have h1 := List.boole_getElem_le_count a L i hi
    have h2 := List.boole_getElem_le_count a L j hj
    by_cases c1 : L[i] = a <;> by_cases c2 : L[j] = a <;> simp_all

theorem pairs_length (keys rids : List Nat) (size : Nat) : (pairs keys rids size).length = size := by
  simp [pairs]

theorem pairs_getElem (keys rids : List Nat) (size x : Nat) (hx : x < (pairs keys rids size).length) :
    (pairs keys rids size)[x] = (keys.getD x 0, rids.getD x 0) := by
  simp [pairs]

/-- A compare-exchange of two positions below `size` permutes the first
`size` pairs. -/
theorem cx_pairs_perm (keys rids : List Nat) (size i j : Nat) (hij : i ≠ j) (hi : i < size)
    (hj : j < size) (hs : size ≤ keys.length) (hr : rids.length = keys.length) :
    List.Perm (pairs (cx keys rids i j).1 (cx keys rids i j).2 size) (pairs keys rids size) := by
  have hi2 : i < (pairs keys rids size).length := by rw [pairs_length]; exact hi
  have hj2 : j < (pairs keys rids size).length := by rw [pairs_length]; exact hj
  by_cases hc : keys.getD i 0 > keys.getD j 0
  · have e : pairs (cx keys rids i j).1 (cx keys rids i j).2 size
        = ((pairs keys rids size).set i (pairs keys rids size)[j]).set j (pairs keys rids size)[i] := by
      apply List.ext_getElem
      · simp [pairs_length]
      · intro x h1 h2
        rw [pairs_getElem, List.getElem_set, List.getElem_set, cx_keys_getD, cx_rids_getD]
        simp only [pairs_getElem]
        have hx : x < size := by
          have h3 := h1
          rw [pairs_length] at h3
          exact h3
        by_cases hxj : j = x
        · subst hxj
          simp (disch := omega) only [if_pos, if_neg, hc, true_and, and_self, if_true]
        · by_cases hxi : i = x
          · subst hxi
            simp (disch := omega) only [if_pos, if_neg, hc, true_and, and_self, if_true]
          · simp (disch := omega) only [if_pos, if_neg, hc, true_and, and_self, pairs_getElem, if_true]
    rw [e]
    exact swap_perm _ i j hi2 hj2
  · have e : cx keys rids i j = (keys, rids) := by
      simp only [cx, hc, decide_False, if_false, set_getD_self, Bool.false_eq_true]
    rw [e]
theorem weighted_sum_set (l : List Nat) :
    ∀ (k i v : Nat), i < l.length →
      weighted_sum k (l.set i v) + (k + i) * l.getD i 0 = weighted_sum k l + (k + i) * v := by
  induction l with
  | nil => intro k i v h; simp at h
  | cons x xs ih =>
    intro k i v h
    cases i with
    | zero => simp [weighted_sum, List.getD]; ring
    | succ i =>
      have := ih (k + 1) i v (by simpa using h)
      simp only [List.set_cons_succ, weighted_sum, List.getD_cons_succ]
      have e : k + (i + 1) = k + 1 + i := by omega
      rw [e]
      omega

theorem sum_set (l : List Nat) :
    ∀ (i v : Nat), i < l.length → (l.set i v).sum + l.getD i 0 = l.sum + v := by
  induction l with
  | nil => intro i v h; simp at h
  | cons x xs ih =>
    intro i v h
    cases i with
    | zero => simp [List.getD]; ring
    | succ i =>
      have := ih i v (by simpa using h)
      simp only [List.set_cons_succ, List.sum_cons, List.getD_cons_succ]
      omega

theorem weighted_sum_le (l : List Nat) : ∀ k, weighted_sum k l ≤ (k + l.length) * l.sum := by
  induction l with
  | nil => intro k; simp [weighted_sum]
  | cons x xs ih =>
    intro k
    have := ih (k + 1)
    simp only [weighted_sum, List.length_cons, List.sum_cons]
    have e : k + 1 + xs.length = k + (xs.length + 1) := by omega
    rw [e] at this
    nlinarith [Nat.zero_le (xs.length * x), Nat.zero_le (k * xs.sum)]

/-- An exchange moves the larger key to the higher position: the weighted
sum grows strictly and the plain sum is unchanged. -/
theorem cx_weighted (keys rids : List Nat) (i j : Nat) (hij : i < j) (hj : j < keys.length)
    (hc : keys.getD i 0 > keys.getD j 0) :
    weighted_sum 0 keys < weighted_sum 0 (cx keys rids i j).1 ∧
    (cx keys rids i j).1.sum = keys.sum := by
  simp only [cx, hc, decide_True, if_true]
  have a1 := weighted_sum_set keys 0 i (keys.getD j 0) (by omega)
  have a2 := weighted_sum_set (keys.set i (keys.getD j 0)) 0 j (keys.getD i 0) (by simpa using hj)
  have b1 := sum_set keys i (keys.getD j 0) (by omega)
  have b2 := sum_set (keys.set i (keys.getD j 0)) j (keys.getD i 0) (by simpa using hj)
  have e : (keys.set i (keys.getD j 0)).getD j 0 = keys.getD j 0 := by
    rw [getD_set, if_neg (by omega)]
  rw [e] at a2 b2
  simp only [Nat.zero_add] at a1 a2
  refine ⟨?_, by omega⟩
  have key : ∀ (W W1 W2 ki kj i j : Nat), i < j → kj < ki → W1 + i * ki = W + i * kj →
      W2 + j * kj = W1 + j * ki → W < W2 := by
    intro W W1 W2 ki kj i j h1 h2 h3 h4
    obtain ⟨δ, rfl⟩ : ∃ δ, j = i + δ + 1 := ⟨j - i - 1, by omega⟩
    obtain ⟨ε, rfl⟩ : ∃ ε, ki = kj + ε + 1 := ⟨ki - kj - 1, by omega⟩
    nlinarith [Nat.zero_le (δ * ε), Nat.zero_le δ, Nat.zero_le ε]
  exact key _ _ _ _ _ _ _ hij hc a1 a2
theorem cx_id (keys rids : List Nat) (i j : Nat) (hc : ¬ keys.getD i 0 > keys.getD j 0) :
    cx keys rids i j = (keys, rids) := by
  simp only [cx, hc, decide_False, if_false, set_getD_self, Bool.false_eq_true]

theorem cx_keys_lt (keys rids : List Nat) (i j : Nat) (hk : ∀ x, keys.getD x 0 < 2 ^ 64) :
    ∀ x, (cx keys rids i j).1.getD x 0 < 2 ^ 64 := by
  intro x
  rw [cx_keys_getD]
  split
  · split <;> exact hk _
  · split
    · split <;> exact hk _
    · exact hk _

theorem cx_rids_lt (keys rids : List Nat) (i j : Nat) (hr : ∀ x, rids.getD x 0 < 2 ^ 64) :
    ∀ x, (cx keys rids i j).2.getD x 0 < 2 ^ 64 := by
  intro x
  rw [cx_rids_getD]
  split
  · split <;> exact hr _
  · split
    · split <;> exact hr _
    · exact hr _

/-- What a run of compare-exchanges at distance `d ≥ 1` inside the first
`size` positions preserves and what its flag tells. -/
theorem cx_seq_props (d size : Nat) (hd : 1 ≤ d) :
    ∀ (n e : Nat) (keys rids : List Nat) (dirty : Bool),
      e + n + d ≤ size → size ≤ keys.length → rids.length = keys.length →
      (cx_seq d n e (keys, rids, dirty)).1.length = keys.length ∧
      (cx_seq d n e (keys, rids, dirty)).2.1.length = rids.length ∧
      List.Perm (pairs (cx_seq d n e (keys, rids, dirty)).1
        (cx_seq d n e (keys, rids, dirty)).2.1 size) (pairs keys rids size) ∧
      (∀ x, size ≤ x → (cx_seq d n e (keys, rids, dirty)).1.getD x 0 = keys.getD x 0 ∧
        (cx_seq d n e (keys, rids, dirty)).2.1.getD x 0 = rids.getD x 0) ∧
      ((∀ x, keys.getD x 0 < 2 ^ 64) →
        ∀ x, (cx_seq d n e (keys, rids, dirty)).1.getD x 0 < 2 ^ 64) ∧
      ((∀ x, rids.getD x 0 < 2 ^ 64) →
        ∀ x, (cx_seq d n e (keys, rids, dirty)).2.1.getD x 0 < 2 ^ 64) ∧
      (cx_seq d n e (keys, rids, dirty)).1.sum = keys.sum ∧
      weighted_sum 0 keys ≤ weighted_sum 0 (cx_seq d n e (keys, rids, dirty)).1 ∧
      ((cx_seq d n e (keys, rids, dirty)).2.2 = false →
        dirty = false ∧ (cx_seq d n e (keys, rids, dirty)).1 = keys ∧
        (cx_seq d n e (keys, rids, dirty)).2.1 = rids ∧
        ∀ l, l < n → keys.getD (e + l) 0 ≤ keys.getD (e + l + d) 0) ∧
      ((cx_seq d n e (keys, rids, dirty)).2.2 = true →
        dirty = true ∨ weighted_sum 0 keys < weighted_sum 0 (cx_seq d n e (keys, rids, dirty)).1) := by
  intro n
  induction n with
  | zero =>
    intro e keys rids dirty _ _ _
    refine ⟨rfl, rfl, List.Perm.refl _, fun x _ => ⟨rfl, rfl⟩, fun h => h, fun h => h, rfl,
      le_refl _, ?_, ?_⟩
    · intro h; exact ⟨h, rfl, rfl, fun l hl => by omega⟩
    · intro h; exact Or.inl h
  | succ n ih =>
    intro e keys rids dirty hb hs hr
    have hc := cx_length keys rids e (e + d)
    obtain ⟨i1, i2, i3, i4, i5, i6, i7, i8, i9, i10⟩ :=
      ih (e + 1) (cx keys rids e (e + d)).1 (cx keys rids e (e + d)).2
        (dirty || decide (keys.getD e 0 > keys.getD (e + d) 0)) (by omega)
        (by rw [hc.1]; exact hs) (by rw [hc.1, hc.2]; exact hr)
    simp only [cx_seq]
    have hsum : (cx keys rids e (e + d)).1.sum = keys.sum ∧
        weighted_sum 0 keys ≤ weighted_sum 0 (cx keys rids e (e + d)).1 := by
      by_cases c : keys.getD e 0 > keys.getD (e + d) 0
      · have := cx_weighted keys rids e (e + d) (by omega) (by omega) c
        exact ⟨this.2, le_of_lt this.1⟩
      · rw [cx_id _ _ _ _ c]; exact ⟨rfl, le_refl _⟩
    refine ⟨by rw [i1, hc.1], by rw [i2, hc.2], ?_, ?_, ?_, ?_, by rw [i7, hsum.1],
      le_trans hsum.2 i8, ?_, ?_⟩
    · exact i3.trans (cx_pairs_perm keys rids size e (e + d) (by omega) (by omega) (by omega) hs hr)
    · intro x hx
      have a := i4 x hx
      rw [cx_keys_getD, cx_rids_getD, if_neg (by omega), if_neg (by omega), if_neg (by omega),
        if_neg (by omega)] at a
      exact a
    · intro hk; exact i5 (cx_keys_lt keys rids _ _ hk)
    · intro hk; exact i6 (cx_rids_lt keys rids _ _ hk)
    · intro h
      obtain ⟨a1, a2, a3, a4⟩ := i9 h
      simp only [Bool.or_eq_false_iff, decide_eq_false_iff_not] at a1
      have hid := cx_id keys rids e (e + d) a1.2
      rw [hid] at a2 a3 a4 ⊢
      refine ⟨a1.1, a2, a3, ?_⟩
      intro l hl
      rcases Nat.eq_zero_or_pos l with h0 | h0
      · subst h0; simp only [Nat.add_zero]; omega
      · have := a4 (l - 1) (by omega)
        have e1 : e + 1 + (l - 1) = e + l := by omega
        rw [e1] at this
        exact this
    · intro h
      rcases i10 h with a | a
      · simp only [Bool.or_eq_true, decide_eq_true_eq] at a
        rcases a with a | a
        · exact Or.inl a
        · right
          have := cx_weighted keys rids e (e + d) (by omega) (by omega) a
          exact lt_of_lt_of_le this.1 i8
      · right
        exact lt_of_le_of_lt hsum.2 a
theorem cx_seq_append (d : Nat) :
    ∀ (a b e : Nat) (st : List Nat × List Nat × Bool),
      cx_seq d (a + b) e st = cx_seq d b (e + a) (cx_seq d a e st) := by
  intro a
  induction a with
  | zero => intro b e st; simp [cx_seq]
  | succ a ih =>
    intro b e st
    obtain ⟨keys, rids, dirty⟩ := st
    have e1 : a + 1 + b = (a + b) + 1 := by omega
    have e2 : e + (a + 1) = e + 1 + a := by omega
    rw [e1, e2]
    simp only [cx_seq]
    rw [ih]

theorem cx_seq_dirty (d : Nat) :
    ∀ (n e : Nat) (keys rids : List Nat) (dirty : Bool),
      cx_seq d n e (keys, rids, dirty)
        = ((cx_seq d n e (keys, rids, false)).1, (cx_seq d n e (keys, rids, false)).2.1,
            dirty || (cx_seq d n e (keys, rids, false)).2.2) := by
  intro n
  induction n with
  | zero => intro e keys rids dirty; simp [cx_seq]
  | succ n ih =>
    intro e keys rids dirty
    simp only [cx_seq]
    rw [ih, ih (e + 1) _ _ (false || _)]
    simp only [Bool.false_or, Bool.or_assoc]

theorem cx_seq_dirty_false (d n e : Nat) (keys rids : List Nat) (dirty : Bool) :
    (cx_seq d n e (keys, rids, dirty)).2.2 = false ↔
      (dirty = false ∧ (cx_seq d n e (keys, rids, false)).2.2 = false) := by
  rw [cx_seq_dirty d n e keys rids dirty]
  simp only [Bool.or_eq_false_iff]

theorem mask_C_ne_zero : mk64 (2 ^ 63) (2 ^ 63) ≠ ⟨0, 0, 0, 0⟩ := by
  simp only [mk64, ne_eq, M128.mk.injEq]
  norm_num

/-- The middle loop of a comb pass performs the compare-exchanges of
`i + l` with `i + d + l` for `l < 4 * (m + 1)` and stops at `size_middle`. -/
theorem comb_middle_eq (d : Nat) (hd : 4 ≤ d) :
    ∀ (m fuel : Nat) (keys rids : List Nat) (swap : M128) (dirty : Bool) (i : Nat),
      m < fuel → i + d + 4 * (m + 1) ≤ keys.length → rids.length = keys.length →
      (∀ n, keys.getD n 0 < 2 ^ 64) → (∀ n, rids.getD n 0 < 2 ^ 64) →
      (swap = ⟨0, 0, 0, 0⟩ ↔ dirty = false) →
      ∃ swap', comb_middle (mk64 (2 ^ 63) (2 ^ 63)) (i + d + 4 * (m + 1)) fuel keys rids swap i (i + d)
          = some ((cx_seq d (4 * (m + 1)) i (keys, rids, dirty)).1,
              (cx_seq d (4 * (m + 1)) i (keys, rids, dirty)).2.1, swap',
              i + 4 * (m + 1), i + d + 4 * (m + 1)) ∧
        (swap' = ⟨0, 0, 0, 0⟩ ↔ (cx_seq d (4 * (m + 1)) i (keys, rids, dirty)).2.2 = false) := by
  intro m
  induction m with
  | zero =>
    intro fuel keys rids swap dirty i hf hlen hrl hk hr hsw
    obtain ⟨fuel, rfl⟩ : ∃ f, fuel = f + 1 := ⟨fuel - 1, by omega⟩
    have hv1 := comb_vector_keys keys rids swap i d hd (by omega) hrl hk
    have hv2 := comb_vector_rids keys rids swap i d hd (by omega) hrl hk hr
    have hv3 := comb_vector_swap keys rids swap i d hd (by omega) hrl hk
    refine ⟨(comb_vector (mk64 (2 ^ 63) (2 ^ 63)) keys rids swap i (i + d)).2.2, ?_, ?_⟩
    · simp only [comb_middle, Nat.zero_add, Nat.mul_one]
      rw [if_neg (by omega), cx_seq_dirty, ← hv1, ← hv2]
    · rw [hv3, hsw]
      exact (cx_seq_dirty_false d 4 i keys rids dirty).symm
  | succ m ih =>
    intro fuel keys rids swap dirty i hf hlen hrl hk hr hsw
    obtain ⟨fuel, rfl⟩ : ∃ f, fuel = f + 1 := ⟨fuel - 1, by omega⟩
    have hv1 := comb_vector_keys keys rids swap i d hd (by omega) hrl hk
    have hv2 := comb_vector_rids keys rids swap i d hd (by omega) hrl hk hr
    have hv3 := comb_vector_swap keys rids swap i d hd (by omega) hrl hk
    obtain ⟨q1, q2, _, _, q5, q6, _⟩ := cx_seq_props d keys.length (by omega) 4 i keys rids false
      (by omega) (le_refl _) hrl
    have hsw1 : (comb_vector (mk64 (2 ^ 63) (2 ^ 63)) keys rids swap i (i + d)).2.2 = ⟨0, 0, 0, 0⟩
        ↔ (cx_seq d 4 i (keys, rids, dirty)).2.2 = false := by
      rw [hv3, hsw]
      exact (cx_seq_dirty_false d 4 i keys rids dirty).symm
    have e4 : 4 * (m + 1 + 1) = 4 + 4 * (m + 1) := by omega
    have step := ih fuel (cx_seq d 4 i (keys, rids, false)).1 (cx_seq d 4 i (keys, rids, false)).2.1
      (comb_vector (mk64 (2 ^ 63) (2 ^ 63)) keys rids swap i (i + d)).2.2
      (cx_seq d 4 i (keys, rids, dirty)).2.2 (i + 4) (by omega) (by rw [q1]; omega)
      (by rw [q1, q2]; exact hrl) (q5 hk) (q6 hr) hsw1
    obtain ⟨swap', s1, s2⟩ := step
    have e5 : i + 4 + d + 4 * (m + 1) = i + d + 4 * (m + 1 + 1) := by omega
    have e6 : i + 4 + d = i + d + 4 := by omega
    have e7 : i + 4 + 4 * (m + 1) = i + 4 * (m + 1 + 1) := by omega
    rw [e5, e6, e7] at s1
    have comp : cx_seq d (4 * (m + 1 + 1)) i (keys, rids, dirty)
        = cx_seq d (4 * (m + 1)) (i + 4)
            ((cx_seq d 4 i (keys, rids, false)).1, (cx_seq d 4 i (keys, rids, false)).2.1,
              (cx_seq d 4 i (keys, rids, dirty)).2.2) := by
      rw [e4, cx_seq_append, cx_seq_dirty d 4 i keys rids dirty]
    refine ⟨swap', ?_, ?_⟩
    · rw [comp, ← s1]
      simp only [comb_middle]
      rw [if_pos (by omega), hv1, hv2]
    · rw [comp]; exact s2
theorem comb_end_eq (mask_C : M128) (hC : mask_C ≠ ⟨0, 0, 0, 0⟩) (i d : Nat) :
    ∀ (n c : Nat) (keys rids : List Nat) (swap : M128) (dirty : Bool),
      (swap = ⟨0, 0, 0, 0⟩ ↔ dirty = false) →
      ∃ swap', comb_end mask_C i (i + d) n c keys rids swap
          = ((cx_seq d n (c + i) (keys, rids, dirty)).1,
              (cx_seq d n (c + i) (keys, rids, dirty)).2.1, swap') ∧
        (swap' = ⟨0, 0, 0, 0⟩ ↔ (cx_seq d n (c + i) (keys, rids, dirty)).2.2 = false) := by
  intro n
  induction n with
  | zero =>
    intro c keys rids swap dirty hsw
    exact ⟨swap, rfl, hsw⟩
  | succ n ih =>
    intro c keys rids swap dirty hsw
    obtain ⟨swap1, h1, h2⟩ := comb_scalar_eq mask_C hC keys rids swap (c + i) (c + (i + d))
    have e1 : c + (i + d) = c + i + d := by omega
    rw [e1] at h1 h2
    have hsw1 : swap1 = ⟨0, 0, 0, 0⟩ ↔
        (dirty || decide (keys.getD (c + i) 0 > keys.getD (c + i + d) 0)) = false := by
      rw [h2, hsw, Bool.or_eq_false_iff]
    obtain ⟨swap2, g1, g2⟩ := ih (c + 1) (cx keys rids (c + i) (c + i + d)).1
      (cx keys rids (c + i) (c + i + d)).2 swap1 _ hsw1
    have e2 : c + 1 + i = c + i + 1 := by omega
    rw [e2] at g1 g2
    refine ⟨swap2, ?_, ?_⟩
    · simp only [comb_end, cx_seq]
      rw [e1, h1]
      exact g1
    · simp only [cx_seq]
      exact g2

/-- A pass of the comb loop with gap `gap` (in units of four elements):
the compare-exchanges of `e` with `e + 4 * gap` for `e` from `0` up to
`size - 4 * gap`, in this order. -/
theorem comb_pass_eq (size beg end_ gap m : Nat) (keys rids : List Nat) (hbeg : beg ≤ 1)
    (hgap : 1 ≤ gap) (hsz : size = beg + 4 * gap + 4 * (m + 1) + end_)
    (hlen : size ≤ keys.length) (h62 : size < 2 ^ 62) (hrl : rids.length = keys.length)
    (hk : ∀ n, keys.getD n 0 < 2 ^ 64) (hr : ∀ n, rids.getD n 0 < 2 ^ 64) :
    ∃ swap', comb_pass (mk64 (2 ^ 63) (2 ^ 63)) size beg end_ (size - end_) gap keys rids
        = some ((cx_seq (4 * gap) (size - 4 * gap) 0 (keys, rids, false)).1,
            (cx_seq (4 * gap) (size - 4 * gap) 0 (keys, rids, false)).2.1, swap') ∧
      (swap' = ⟨0, 0, 0, 0⟩ ↔
        (cx_seq (4 * gap) (size - 4 * gap) 0 (keys, rids, false)).2.2 = false) := by
  have hj : (gap <<< 2) % 2 ^ 64 = 4 * gap := by
    rw [Nat.shiftLeft_eq]; omega
  have hmid : size - end_ = beg + 4 * gap + 4 * (m + 1) := by omega
  -- the head
  have hhead : ∃ swap0,
      (if beg ≠ 0 then comb_scalar (mk64 (2 ^ 63) (2 ^ 63)) keys rids _mm_setzero_si128 0 (4 * gap)
        else (keys, rids, _mm_setzero_si128))
        = ((cx_seq (4 * gap) beg 0 (keys, rids, false)).1,
            (cx_seq (4 * gap) beg 0 (keys, rids, false)).2.1, swap0) ∧
      (swap0 = ⟨0, 0, 0, 0⟩ ↔ (cx_seq (4 * gap) beg 0 (keys, rids, false)).2.2 = false) := by
    have hb : beg = 0 ∨ beg = 1 := by omega
    rcases hb with hb | hb <;> subst hb
    · exact ⟨_mm_setzero_si128, by simp [cx_seq], by simp [cx_seq, _mm_setzero_si128]⟩
    · obtain ⟨s0, h1, h2⟩ := comb_scalar_eq (mk64 (2 ^ 63) (2 ^ 63)) mask_C_ne_zero keys rids
        _mm_setzero_si128 0 (4 * gap)
      refine ⟨s0, ?_, ?_⟩
      · simp only [cx_seq, Nat.zero_add, ne_eq, one_ne_zero, not_false_eq_true, if_true]
        exact h1
      · rw [h2]
        simp [cx_seq, _mm_setzero_si128]
  obtain ⟨swap0, hh1, hh2⟩ := hhead
  obtain ⟨q1, q2, _, _, q5, q6, _⟩ := cx_seq_props (4 * gap) keys.length (by omega) beg 0 keys rids
    false (by omega) (le_refl _) hrl
  -- the middle loop
  obtain ⟨swap1, hm1, hm2⟩ := comb_middle_eq (4 * gap) (by omega) m size
    (cx_seq (4 * gap) beg 0 (keys, rids, false)).1 (cx_seq (4 * gap) beg 0 (keys, rids, false)).2.1
    swap0 (cx_seq (4 * gap) beg 0 (keys, rids, false)).2.2 beg (by omega) (by rw [q1]; omega)
    (by rw [q1, q2]; exact hrl) (q5 hk) (q6 hr) hh2
  -- the end
  have c1 : cx_seq (4 * gap) (4 * (m + 1)) beg
      ((cx_seq (4 * gap) beg 0 (keys, rids, false)).1, (cx_seq (4 * gap) beg 0 (keys, rids, false)).2.1,
        (cx_seq (4 * gap) beg 0 (keys, rids, false)).2.2)
      = cx_seq (4 * gap) (beg + 4 * (m + 1)) 0 (keys, rids, false) := by
    rw [cx_seq_append, Nat.zero_add]
  rw [c1] at hm1 hm2
  obtain ⟨swap2, he1, he2⟩ := comb_end_eq (mk64 (2 ^ 63) (2 ^ 63)) mask_C_ne_zero
    (beg + 4 * (m + 1)) (4 * gap) end_ 0
    (cx_seq (4 * gap) (beg + 4 * (m + 1)) 0 (keys, rids, false)).1
    (cx_seq (4 * gap) (beg + 4 * (m + 1)) 0 (keys, rids, false)).2.1 swap1
    (cx_seq (4 * gap) (beg + 4 * (m + 1)) 0 (keys, rids, false)).2.2 hm2
  have c2 : cx_seq (4 * gap) end_ (0 + (beg + 4 * (m + 1)))
      ((cx_seq (4 * gap) (beg + 4 * (m + 1)) 0 (keys, rids, false)).1,
        (cx_seq (4 * gap) (beg + 4 * (m + 1)) 0 (keys, rids, false)).2.1,
        (cx_seq (4 * gap) (beg + 4 * (m + 1)) 0 (keys, rids, false)).2.2)
      = cx_seq (4 * gap) (size - 4 * gap) 0 (keys, rids, false) := by
    have : size - 4 * gap = beg + 4 * (m + 1) + end_ := by omega
    rw [this, cx_seq_append (4 * gap) (beg + 4 * (m + 1)) end_]
  rw [c2] at he1 he2
  refine ⟨swap2, ?_, he2⟩
  simp only [comb_pass, hj, hmid]
  rw [hh1]
  have e3 : 4 * gap + beg = beg + 4 * gap := by omega
  have e4 : beg + 4 * (m + 1) + 4 * gap = beg + 4 * gap + 4 * (m + 1) := by omega
  simp only [e3]
  rw [hm1]
  simp only []
  rw [← e4, he1]
theorem bit_length_loop_spec :
    ∀ (fuel n : Nat), 0 < n → n < 2 ^ fuel →
      1 ≤ bit_length_loop fuel n ∧ 2 ^ (bit_length_loop fuel n - 1) ≤ n ∧
        n < 2 ^ bit_length_loop fuel n := by
  intro fuel
  induction fuel with
  | zero => intro n h0 h1; simp at h1; omega
  | succ fuel ih =>
    intro n h0 h1
    have hn : n ≠ 0 := by omega
    simp only [bit_length_loop, if_neg hn]
    by_cases h2 : n / 2 = 0
    · have h3 : n = 1 := by omega
      subst h3
      cases fuel <;> simp [bit_length_loop]
    · have h4 : n / 2 < 2 ^ fuel := by
        rw [pow_succ] at h1; omega
      obtain ⟨a, b, c⟩ := ih (n / 2) (by omega) h4
      refine ⟨by omega, ?_, ?_⟩
      · have e : 1 + bit_length_loop fuel (n / 2) - 1 = (bit_length_loop fuel (n / 2) - 1) + 1 := by
          omega
        rw [e, pow_succ]; omega
      · have e : 1 + bit_length_loop fuel (n / 2) = bit_length_loop fuel (n / 2) + 1 := by omega
        rw [e, pow_succ]; omega

/-- The rounding error of `round53` is below one unit in the last place
`T`, and `T * 2^52` is at most the argument. -/
theorem round53_bounds (p : Nat) (h1 : 2 ^ 53 ≤ p) (h2 : p < 2 ^ 256) :
    ∃ T, T * 2 ^ 52 ≤ p ∧ round53 p ≤ p + T ∧ p < round53 p + T := by
  obtain ⟨a, b, c⟩ := bit_length_loop_spec 256 p (by omega) h2
  have hbl : 54 ≤ bit_length p := by
    by_contra hlt
    have : bit_length_loop 256 p ≤ 53 := by
      simp only [bit_length] at hlt; omega
    have := Nat.pow_le_pow_right (show 1 ≤ 2 by omega) this
    omega
  simp only [bit_length] at hbl
  refine ⟨2 ^ (bit_length_loop 256 p - 53), ?_, ?_, ?_⟩
  · rw [← pow_add]
    have e : bit_length_loop 256 p - 53 + 52 = bit_length_loop 256 p - 1 := by omega
    rw [e]; exact b
  · simp only [round53, if_neg (not_lt.mpr h1), bit_length]
    have hT : 0 < 2 ^ (bit_length_loop 256 p - 53) := Nat.pow_pos (by omega)
    have hd := Nat.div_add_mod p (2 ^ (bit_length_loop 256 p - 53))
    have hm := Nat.mod_lt p hT
    rw [Nat.mul_comm] at hd
    split
    · rw [Nat.add_mul]; omega
    · omega
  · simp only [round53, if_neg (not_lt.mpr h1), bit_length]
    have hT : 0 < 2 ^ (bit_length_loop 256 p - 53) := Nat.pow_pos (by omega)
    have hd := Nat.div_add_mod p (2 ^ (bit_length_loop 256 p - 53))
    have hm := Nat.mod_lt p hT
    rw [Nat.mul_comm] at hd
    split
    · rw [Nat.add_mul]; omega
    · omega

/-- Multiplying a gap of at least two by `shrink` makes it smaller, and
leaves it positive. -/
theorem mul_shrink_bounds (g : Nat) (h1 : 2 ≤ g) (h2 : g < 2 ^ 53) :
    1 ≤ mul_shrink g ∧ mul_shrink g < g := by
  have e1 : round53 g = g := by simp only [round53, if_pos h2]
  simp only [mul_shrink, e1]
  obtain ⟨T, a, b, c⟩ := round53_bounds (g * 6935543426150564) (by omega) (by omega)
  constructor
  · rw [Nat.le_div_iff_mul_le (by norm_num)]
    omega
  · rw [Nat.div_lt_iff_lt_mul (by norm_num)]
    omega
/-- The comb loop terminates: every exchanging pass raises the weighted sum
of the keys, which is bounded, and the gap shrinks to one. On exit the
arrays hold a permutation of the pairs with every key at most the key four
places further. -/
theorem comb_loop_spec (size beg end_ n4 : Nat) (hbeg : beg ≤ 1)
    (hsz : size = beg + 4 * n4 + end_) (h62 : size < 2 ^ 53) :
    ∀ (fuel gap : Nat) (keys rids : List Nat),
      1 ≤ gap → gap < n4 → size ≤ keys.length → rids.length = keys.length →
      (∀ n, keys.getD n 0 < 2 ^ 64) → (∀ n, rids.getD n 0 < 2 ^ 64) →
      (keys.length * keys.sum - weighted_sum 0 keys) + gap < fuel →
      ∃ keys' rids',
        comb_loop (mk64 (2 ^ 63) (2 ^ 63)) size beg end_ (size - end_) fuel gap keys rids
          = some (keys', rids') ∧
        keys'.length = keys.length ∧ rids'.length = keys.length ∧
        List.Perm (pairs keys' rids' size) (pairs keys rids size) ∧
        (∀ x, size ≤ x → keys'.getD x 0 = keys.getD x 0 ∧ rids'.getD x 0 = rids.getD x 0) ∧
        (∀ x, keys'.getD x 0 < 2 ^ 64) ∧ (∀ x, rids'.getD x 0 < 2 ^ 64) ∧
        (∀ e, e + 4 < size → keys'.getD e 0 ≤ keys'.getD (e + 4) 0) := by
  intro fuel
  induction fuel with
  | zero => intro gap keys rids _ _ _ _ _ _ h; omega
  | succ fuel ih =>
    intro gap keys rids hg1 hg2 hlen hrl hk hr hfuel
    obtain ⟨swap, hp1, hp2⟩ := comb_pass_eq size beg end_ gap (n4 - gap - 1) keys rids hbeg hg1
      (by omega) hlen (by have : (2:Nat) ^ 53 < 2 ^ 62 := by norm_num
                          omega) hrl hk hr
    obtain ⟨q1, q2, q3, q4, q5, q6, q7, q8, q9, q10⟩ := cx_seq_props (4 * gap) size (by omega)
      (size - 4 * gap) 0 keys rids false (by omega) hlen hrl
    have hws := weighted_sum_le (cx_seq (4 * gap) (size - 4 * gap) 0 (keys, rids, false)).1 0
    rw [Nat.zero_add, q1, q7] at hws
    simp only [comb_loop, hp1]
    by_cases hgt : gap > 1
    · rw [if_pos hgt]
      obtain ⟨b1, b2⟩ := mul_shrink_bounds gap (by omega) (by omega)
      obtain ⟨keys', rids', r1, r2, r3, r4, r5, r6, r7, r8⟩ := ih (mul_shrink gap) _ _ b1
        (by omega) (by rw [q1]; exact hlen) (by rw [q1, q2]; exact hrl) (q5 hk) (q6 hr)
        (by rw [q1, q7]; omega)
      refine ⟨keys', rids', r1, by rw [r2, q1], by rw [r3, q1], r4.trans q3, ?_, r6, r7, r8⟩
      intro x hx
      rw [(r5 x hx).1, (r5 x hx).2]
      exact q4 x hx
    · rw [if_neg hgt]
      have hg : gap = 1 := by omega
      by_cases hz : swap = ⟨0, 0, 0, 0⟩
      · rw [if_pos ((testz_self swap).mpr hz)]
        obtain ⟨_, c2, c3, c4⟩ := q9 (hp2.mp hz)
        refine ⟨_, _, rfl, q1, by rw [q2, hrl], q3, q4, q5 hk, q6 hr, ?_⟩
        intro e he
        rw [c2]
        have := c4 e (by omega)
        rw [hg] at this
        simpa using this
      · rw [if_neg (fun h => hz ((testz_self swap).mp h))]
        have hd : (cx_seq (4 * gap) (size - 4 * gap) 0 (keys, rids, false)).2.2 = true := by
          cases h : (cx_seq (4 * gap) (size - 4 * gap) 0 (keys, rids, false)).2.2
          · exact absurd (hp2.mpr h) hz
          · rfl
        have hlt := (q10 hd).resolve_left (by simp)
        obtain ⟨keys', rids', r1, r2, r3, r4, r5, r6, r7, r8⟩ := ih gap _ _ hg1
          hg2 (by rw [q1]; exact hlen) (by rw [q1, q2]; exact hrl) (q5 hk) (q6 hr)
          (by rw [q1, q7]; omega)
        refine ⟨keys', rids', r1, by rw [r2, q1], by rw [r3, q1], r4.trans q3, ?_, r6, r7, r8⟩
        intro x hx
        rw [(r5 x hx).1, (r5 x hx).2]
        exact q4 x hx
theorem shuffle_1032 (a : M128) :
    _mm_shuffle_epi32 a (MM_SHUFFLE 1 0 3 2) = ⟨a.e2, a.e3, a.e0, a.e1⟩ := rfl

theorem shuffle_2301 (a : M128) :
    _mm_shuffle_epi32 a (MM_SHUFFLE 2 3 0 1) = ⟨a.e1, a.e0, a.e3, a.e2⟩ := rfl

theorem shuffle_1100 (a : M128) :
    _mm_shuffle_epi32 a (MM_SHUFFLE 1 1 0 0) = ⟨a.e0, a.e0, a.e1, a.e1⟩ := rfl

theorem shuffle_3322 (a : M128) :
    _mm_shuffle_epi32 a (MM_SHUFFLE 3 3 2 2) = ⟨a.e2, a.e2, a.e3, a.e3⟩ := rfl

theorem shuffle_0 (a : M128) : _mm_shuffle_epi32 a 0 = ⟨a.e0, a.e0, a.e0, a.e0⟩ := rfl

theorem shuffle_1032_mk64 (a b : Nat) :
    _mm_shuffle_epi32 (mk64 a b) (MM_SHUFFLE 1 0 3 2) = mk64 b a := rfl

theorem biased_min (a c : Nat) :
    (if decide (a > c) = true then (c + 2 ^ 63) % 2 ^ 64 else (a + 2 ^ 63) % 2 ^ 64)
      = (min a c + 2 ^ 63) % 2 ^ 64 := by
  simp only [decide_eq_true_eq]
  split
  · rw [Nat.min_eq_right (by omega)]
  · rw [Nat.min_eq_left (by omega)]

/-- The block "get leftmost and valid minimum key": both lanes of `m_key`
hold the unsigned minimum of the four keys. -/
theorem merge_min_key_eq (k0 k1 k2 k3 : Nat) (h0 : k0 < 2 ^ 64) (h1 : k1 < 2 ^ 64)
    (h2 : k2 < 2 ^ 64) (h3 : k3 < 2 ^ 64) :
    merge_min_key (mk64 (2 ^ 63) (2 ^ 63)) (mk64 k0 k1) (mk64 k2 k3)
      = mk64 (min (min k0 k2) (min k1 k3)) (min (min k0 k2) (min k1 k3)) := by
  have a1 : min k0 k2 < 2 ^ 64 := by omega
  have a2 : min k1 k3 < 2 ^ 64 := by omega
  have a3 : min (min k0 k2) (min k1 k3) < 2 ^ 64 := by omega
  simp only [merge_min_key]
  rw [sub_mask_C k0 k1 h0 h1, sub_mask_C k2 k3 h2 h3, cmpgt_biased k0 k1 k2 k3 h0 h1 h2 h3,
    blendv_mk64, biased_min, biased_min, shuffle_1032_mk64,
    cmpgt_biased _ _ _ _ a1 a2 a2 a1, blendv_mk64, biased_min, biased_min,
    Nat.min_comm (min k1 k3) (min k0 k2), add_mask_C _ _ a3 a3]

theorem pack_mask (p : Bool) : sat_i16 (mask32 p) + 2 ^ 16 * sat_i16 (mask32 p) = mask32 p := by
  cases p <;> decide

theorem xor_mask (p : Bool) : mask32 p ^^^ (2 ^ 32 - 1) = mask32 (!p) := by
  cases p <;> decide

theorem or_ones32 (x : Nat) (hx : x < 2 ^ 32) : x ||| (2 ^ 32 - 1) = 2 ^ 32 - 1 := by
  apply Nat.eq_of_testBit_eq
  intro i
  rw [Nat.testBit_or, Nat.testBit_two_pow_sub_one]
  by_cases hi : i < 32
  · simp [hi]
  · have : x < 2 ^ i := lt_of_lt_of_le hx (Nat.pow_le_pow_right (by omega) (by omega))
    simp [hi, Nat.testBit_lt_two_pow this]

theorem ones_or32 (x : Nat) (hx : x < 2 ^ 32) : (2 ^ 32 - 1) ||| x = 2 ^ 32 - 1 := by
  rw [Nat.lor_comm]; exact or_ones32 x hx

theorem mask_or (p : Bool) (l : Nat) (hl : l < 2 ^ 32) :
    mask32 (!p) ||| l = if p then l else 2 ^ 32 - 1 := by
  cases p
  · simp only [Bool.not_false, mask32, if_true]
    rw [ones_or32 l hl]; simp
  · simp [mask32]

/-- The block "get min index": every element of `m_loc` is the smallest
location among the lanes whose key equals `m`. -/
theorem merge_min_loc_eq (m k0 k1 k2 k3 l0 l1 l2 l3 : Nat) (hm : m < 2 ^ 64)
    (h0 : k0 < 2 ^ 64) (h1 : k1 < 2 ^ 64) (h2 : k2 < 2 ^ 64) (h3 : k3 < 2 ^ 64)
    (g0 : l0 < 2 ^ 32) (g1 : l1 < 2 ^ 32) (g2 : l2 < 2 ^ 32) (g3 : l3 < 2 ^ 32) :
    merge_min_loc ⟨2 ^ 32 - 1, 2 ^ 32 - 1, 2 ^ 32 - 1, 2 ^ 32 - 1⟩ (mk64 m m)
        (mk64 k0 k1) (mk64 k2 k3) ⟨l0, l1, l2, l3⟩
      = ⟨min (min (if m = k0 then l0 else 2 ^ 32 - 1) (if m = k1 then l1 else 2 ^ 32 - 1))
            (min (if m = k2 then l2 else 2 ^ 32 - 1) (if m = k3 then l3 else 2 ^ 32 - 1)),
         min (min (if m = k0 then l0 else 2 ^ 32 - 1) (if m = k1 then l1 else 2 ^ 32 - 1))
            (min (if m = k2 then l2 else 2 ^ 32 - 1) (if m = k3 then l3 else 2 ^ 32 - 1)),
         min (min (if m = k0 then l0 else 2 ^ 32 - 1) (if m = k1 then l1 else 2 ^ 32 - 1))
            (min (if m = k2 then l2 else 2 ^ 32 - 1) (if m = k3 then l3 else 2 ^ 32 - 1)),
         min (min (if m = k0 then l0 else 2 ^ 32 - 1) (if m = k1 then l1 else 2 ^ 32 - 1))
            (min (if m = k2 then l2 else 2 ^ 32 - 1) (if m = k3 then l3 else 2 ^ 32 - 1))⟩ := by
  simp only [merge_min_loc, _mm_cmpeq_epi64, lo64_mk64 _ _ hm, hi64_mk64 _ _ hm,
    lo64_mk64 _ _ h0, hi64_mk64 _ _ h1, lo64_mk64 _ _ h2, hi64_mk64 _ _ h3, mk64_mask,
    _mm_packs_epi32, pack_mask, _mm_xor_si128, xor_mask, _mm_or_si128, mask_or _ _ g0,
    mask_or _ _ g1, mask_or _ _ g2, mask_or _ _ g3, shuffle_2301, shuffle_1032, _mm_min_epu32,
    decide_eq_true_eq]
  simp only [M128.mk.injEq]
  generalize (if m = k0 then l0 else 2 ^ 32 - 1) = c0
  generalize (if m = k1 then l1 else 2 ^ 32 - 1) = c1
  generalize (if m = k2 then l2 else 2 ^ 32 - 1) = c2
  generalize (if m = k3 then l3 else 2 ^ 32 - 1) = c3
  refine ⟨trivial, ?_, ?_, ?_⟩ <;> simp only [inf_comm, inf_left_comm, inf_assoc]

/-! ## The pass schedule -/

set_option maxRecDepth 100000 in
/-- Both limit tables give a schedule with the stated properties, for every
`bits` in `[1, 64]` and `numa` in `[1, 8]`: checked by evaluation. -/
theorem schedule_all :
    (List.range 64).all (fun b => (List.range 8).all (fun n => schedule_check (b + 1) (n + 1)))
      = true := by
  decide

theorem schedule_check_all (bits numa : Nat) (hb1 : 1 ≤ bits) (hb : bits ≤ 64) (hn1 : 1 ≤ numa)
    (hn : numa ≤ 8) : schedule_check bits numa = true := by
  have h := schedule_all
  rw [List.all_eq_true] at h
  have h1 := h (bits - 1) (List.mem_range.mpr (by omega))
  rw [List.all_eq_true] at h1
  have h2 := h1 (numa - 1) (List.mem_range.mpr (by omega))
  have e1 : bits - 1 + 1 = bits := by omega
  have e2 : numa - 1 + 1 = numa := by omega
  rw [e1, e2] at h2
  exact h2

theorem schedule_ok_spec (bits : Nat) (r : Option (Nat × List Int))
    (h : schedule_ok bits r = true) :
    ∃ k pass, r = some (k, pass) ∧ 1 ≤ k ∧ k ≤ 6 ∧ pass.getD k 1 = 0 ∧
      (∀ p, p < k → 1 ≤ pass.getD p 0) ∧ (pass.take k).sum = (bits : Int) := by
  match r, h with
  | some (k, pass), h =>
    simp only [schedule_ok, Bool.and_eq_true, decide_eq_true_eq, List.all_eq_true] at h
    obtain ⟨⟨⟨⟨⟨h1, h2⟩, h3⟩, h4⟩, h5⟩, h6⟩ := h
    refine ⟨k, pass, rfl, h1, h2, h4, ?_, h6⟩
    intro p hp
    have hp2 : p < pass.length := by omega
    have hp3 : p < (pass.take k).length := by rw [List.length_take]; omega
    have hm : (pass.take k)[p] ∈ pass.take k := List.getElem_mem _
    rw [List.getElem_take] at hm
    have := h5 _ hm
    rw [List.getD_eq_getElem _ _ hp2]
    exact this

theorem schedule_fits_spec (numa : Nat) (r : Option (Nat × List Int)) (k : Nat)
    (pass : List Int) (hr : r = some (k, pass)) (hlen : k < pass.length)
    (h : schedule_fits numa r = true) :
    pass.getD 0 0 + (ceil_log_2 numa : Int) ≤ 16 ∧ ∀ p, 1 ≤ p → p < k → pass.getD p 0 ≤ 16 := by
  subst hr
  simp only [schedule_fits, Bool.and_eq_true, decide_eq_true_eq, List.all_eq_true] at h
  refine ⟨h.1, ?_⟩
  intro p hp1 hp
  have hp2 : p < pass.length := by omega
  have hp3 : p - 1 < ((pass.take k).drop 1).length := by
    rw [List.length_drop, List.length_take]; omega
  have hm : ((pass.take k).drop 1)[p - 1] ∈ (pass.take k).drop 1 := List.getElem_mem _
  rw [List.getElem_drop, List.getElem_take] at hm
  have := h.2 _ hm
  rw [List.getD_eq_getElem _ _ hp2]
  have e : 1 + (p - 1) = p := by omega
  simp only [e] at this
  exact this
theorem and_mk64_mask (a b : Nat) (p q : Bool) :
    _mm_and_si128 (mk64 a b) (mk64 (mask64 p) (mask64 q))
      = mk64 (if p then a else 0) (if q then b else 0) := by
  rw [mk64_mask]
  have e : ∀ x : Nat, x % 2 ^ 32 &&& (2 ^ 32 - 1) = x % 2 ^ 32 := by
    intro x
    rw [Nat.and_pow_two_sub_one_eq_mod, Nat.mod_mod]
  norm_num at e
  cases p <;> cases q <;> simp [_mm_and_si128, mk64, mask32, e]

theorem or_mk64_mask (a b : Nat) (p q : Bool) :
    _mm_or_si128 (mk64 a b) (mk64 (mask64 p) (mask64 q))
      = mk64 (if p then 2 ^ 64 - 1 else a) (if q then 2 ^ 64 - 1 else b) := by
  rw [mk64_mask]
  have e : ∀ x : Nat, x % 2 ^ 32 ||| (2 ^ 32 - 1) = 2 ^ 32 - 1 := by
    intro x
    exact or_ones32 _ (Nat.mod_lt _ (by norm_num))
  norm_num at e
  cases p <;> cases q <;> simp [_mm_or_si128, mk64, mask32, e]

theorem or_mk64_lo_hi (a b : Nat) : _mm_or_si128 (mk64 a 0) (mk64 0 b) = mk64 a b := by
  simp [_mm_or_si128, mk64]

theorem or_mk64_hi_lo (a b : Nat) : _mm_or_si128 (mk64 0 b) (mk64 a 0) = mk64 a b := by
  simp [_mm_or_si128, mk64]

theorem or_mk64_zero (a b : Nat) : _mm_or_si128 (mk64 a b) (mk64 0 0) = mk64 a b := by
  simp [_mm_or_si128, mk64]

theorem zero_or_mk64 (a b : Nat) : _mm_or_si128 (mk64 0 0) (mk64 a b) = mk64 a b := by
  simp [_mm_or_si128, mk64]

theorem unpacklo_mk64 (x : Nat) : _mm_unpacklo_epi64 (mk64 x 0) (mk64 x 0) = mk64 x x := by
  simp [_mm_unpacklo_epi64, mk64]

theorem toInt32_small (x : Nat) (hx : x < 2 ^ 31) : toInt32 x = (x : Int) := by
  simp only [toInt32, if_pos hx]

theorem mask_pair (p q : Bool) :
    (⟨mask32 p, mask32 p, mask32 q, mask32 q⟩ : M128) = mk64 (mask64 p) (mask64 q) :=
  (mk64_mask p q).symm
theorem or_mk64 (a b c d : Nat) :
    _mm_or_si128 (mk64 a b) (mk64 c d) = mk64 (a ||| c) (b ||| d) := by
  have e1 : ∀ x y : Nat, x % 2 ^ 32 ||| y % 2 ^ 32 = (x ||| y) % 2 ^ 32 := by
    intro x y
    apply Nat.eq_of_testBit_eq
    intro i
    simp only [Nat.testBit_or, Nat.testBit_mod_two_pow]
    by_cases h : i < 32 <;> simp [h]
  have e2 : ∀ x y : Nat, x / 2 ^ 32 ||| y / 2 ^ 32 = (x ||| y) / 2 ^ 32 := by
    intro x y
    rw [← Nat.shiftRight_eq_div_pow, ← Nat.shiftRight_eq_div_pow, ← Nat.shiftRight_eq_div_pow]
    apply Nat.eq_of_testBit_eq
    intro i
    simp only [Nat.testBit_or, Nat.testBit_shiftRight]
  simp only [_mm_or_si128, mk64, e1, e2]
theorem merge_step_eq (keys rids : List Nat) (s m μ k0 k1 k2 k3 r0 r1 r2 r3 l0 l1 l2 l3 : Nat)
    (hs : s < 2 ^ 31)
    (h0 : k0 < 2 ^ 64) (h1 : k1 < 2 ^ 64) (h2 : k2 < 2 ^ 64) (h3 : k3 < 2 ^ 64)
    (g0 : l0 < 2 ^ 31) (g1 : l1 < 2 ^ 31) (g2 : l2 < 2 ^ 31) (g3 : l3 < 2 ^ 31)
    (hm : min (min k0 k2) (min k1 k3) = m)
    (hμ : min (min (if m = k0 then l0 else 2 ^ 32 - 1) (if m = k1 then l1 else 2 ^ 32 - 1))
      (min (if m = k2 then l2 else 2 ^ 32 - 1) (if m = k3 then l3 else 2 ^ 32 - 1)) = μ)
    (hμ4 : μ + 4 < 2 ^ 31) :
    merge_step keys rids (mk64 (2 ^ 63) (2 ^ 63)) ⟨2 ^ 32 - 1, 2 ^ 32 - 1, 2 ^ 32 - 1, 2 ^ 32 - 1⟩
        ⟨4, 4, 4, 4⟩ ⟨s, s, s, s⟩ ⟨mk64 k0 k1, mk64 k2 k3, mk64 r0 r1, mk64 r2 r3, ⟨l0, l1, l2, l3⟩⟩
      = (⟨mk64 (lane_key keys s μ l0 k0) (lane_key keys s μ l1 k1),
          mk64 (lane_key keys s μ l2 k2) (lane_key keys s μ l3 k3),
          mk64 (lane_rid rids μ l0 r0) (lane_rid rids μ l1 r1),
          mk64 (lane_rid rids μ l2 r2) (lane_rid rids μ l3 r3),
          ⟨lane_loc μ l0, lane_loc μ l1, lane_loc μ l2, lane_loc μ l3⟩⟩,
         m, ((lane_pick μ l0 r0 ||| lane_pick μ l2 r2) ||| (lane_pick μ l1 r1 ||| lane_pick μ l3 r3))
            % 2 ^ 64) := by
  have hm64 : m < 2 ^ 64 := by omega
  simp only [merge_step]
  rw [merge_min_key_eq k0 k1 k2 k3 h0 h1 h2 h3, hm,
    merge_min_loc_eq m k0 k1 k2 k3 l0 l1 l2 l3 hm64 h0 h1 h2 h3 (by omega) (by omega) (by omega)
      (by omega), hμ]
  have f1 : _mm_add_epi32 ⟨μ, μ, μ, μ⟩ ⟨4, 4, 4, 4⟩ = ⟨μ + 4, μ + 4, μ + 4, μ + 4⟩ := by
    have e : (μ + 4) % 2 ^ 32 = μ + 4 := Nat.mod_eq_of_lt (by omega)
    simp only [_mm_add_epi32, e]
  have f2 : _mm_cmpeq_epi32 ⟨μ, μ, μ, μ⟩ ⟨l0, l1, l2, l3⟩
      = ⟨mask32 (decide (μ = l0)), mask32 (decide (μ = l1)), mask32 (decide (μ = l2)),
          mask32 (decide (μ = l3))⟩ := rfl
  have b : ∀ l : Nat, l < 2 ^ 31 → blend32 l (μ + 4) (mask32 (decide (μ = l))) = lane_loc μ l := by
    intro l hl
    rw [blend32_mask _ _ _ (by omega) (by omega)]
    simp only [lane_loc, decide_eq_true_eq]
  have f4 : _mm_blendv_epi8 ⟨l0, l1, l2, l3⟩ ⟨μ + 4, μ + 4, μ + 4, μ + 4⟩
      ⟨mask32 (decide (μ = l0)), mask32 (decide (μ = l1)), mask32 (decide (μ = l2)),
          mask32 (decide (μ = l3))⟩
      = ⟨lane_loc μ l0, lane_loc μ l1, lane_loc μ l2, lane_loc μ l3⟩ := by
    simp only [_mm_blendv_epi8, b l0 g0, b l1 g1, b l2 g2, b l3 g3]
  have c : ∀ l : Nat, l < 2 ^ 31 → lane_loc μ l < 2 ^ 31 := by
    intro l hl
    simp only [lane_loc]
    split <;> omega
  have t : ∀ l : Nat, l < 2 ^ 31 →
      decide (toInt32 (lane_loc μ l) > toInt32 s) = decide (lane_loc μ l > s) := by
    intro l hl
    rw [toInt32_small _ (c l hl), toInt32_small _ hs]
    simp
  have f5 : _mm_cmpgt_epi32 ⟨lane_loc μ l0, lane_loc μ l1, lane_loc μ l2, lane_loc μ l3⟩ ⟨s, s, s, s⟩
      = ⟨mask32 (decide (lane_loc μ l0 > s)), mask32 (decide (lane_loc μ l1 > s)),
          mask32 (decide (lane_loc μ l2 > s)), mask32 (decide (lane_loc μ l3 > s))⟩ := by
    simp only [_mm_cmpgt_epi32, t l0 g0, t l1 g1, t l2 g2, t l3 g3]
  rw [f1, f2, f4, f5]
  simp only [movd, _mm_loadl_epi64, unpacklo_mk64, shuffle_1100, shuffle_3322, mask_pair,
    blendv_mk64, or_mk64_mask]
  simp only [merge_min_rid, and_mk64_mask, or_mk64, shuffle_1032_mk64, movq, lo64_mk64_mod,
    Nat.mod_eq_of_lt hm64, lane_key, lane_rid, lane_pick, decide_eq_true_eq]
theorem min4_eq (c0 c1 c2 c3 x : Nat) (h0 : x ≤ c0) (h1 : x ≤ c1) (h2 : x ≤ c2) (h3 : x ≤ c3)
    (hx : c0 = x ∨ c1 = x ∨ c2 = x ∨ c3 = x) : min (min c0 c1) (min c2 c3) = x := by
  omega

/-- One iteration of the merging loop, lane by lane: lane `τ`, the lane of
smallest location among those holding the smallest key, is emitted and
reloaded from `L τ + 4`; lanes whose location is above `s` are invalidated. -/
theorem merge_step_lane (keys rids : List Nat) (s : Nat) (K R L : Nat → Nat) (τ : Nat)
    (hτ : τ < 4) (hs : s < 2 ^ 31)
    (hK : ∀ j, j < 4 → K j < 2 ^ 64) (hR : ∀ j, j < 4 → R j < 2 ^ 64)
    (hL : ∀ j, j < 4 → L j + 4 < 2 ^ 31)
    (hmin : ∀ j, j < 4 → K τ ≤ K j) (hloc : ∀ j, j < 4 → K j = K τ → L τ ≤ L j)
    (hdist : ∀ j, j < 4 → L j = L τ → j = τ) :
    merge_step keys rids (mk64 (2 ^ 63) (2 ^ 63)) ⟨2 ^ 32 - 1, 2 ^ 32 - 1, 2 ^ 32 - 1, 2 ^ 32 - 1⟩
        ⟨4, 4, 4, 4⟩ ⟨s, s, s, s⟩ (merge_regs K R L)
      = (merge_regs (fun j => lane_key keys s (L τ) (L j) (K j))
          (fun j => lane_rid rids (L τ) (L j) (R j)) (fun j => lane_loc (L τ) (L j)),
          K τ, R τ) := by
  have hm : min (min (K 0) (K 2)) (min (K 1) (K 3)) = K τ := by
    have a0 := hmin 0 (by omega)
    have a1 := hmin 1 (by omega)
    have a2 := hmin 2 (by omega)
    have a3 := hmin 3 (by omega)
    interval_cases τ <;> omega
  have hc : ∀ j, j < 4 → L τ ≤ (if K τ = K j then L j else 2 ^ 32 - 1) := by
    intro j hj
    split
    · rename_i h; exact hloc j hj h.symm
    · have := hL τ hτ; omega
  have hμ : min (min (if K τ = K 0 then L 0 else 2 ^ 32 - 1) (if K τ = K 1 then L 1 else 2 ^ 32 - 1))
      (min (if K τ = K 2 then L 2 else 2 ^ 32 - 1) (if K τ = K 3 then L 3 else 2 ^ 32 - 1))
      = L τ := by
    have a0 := hc 0 (by omega)
    have a1 := hc 1 (by omega)
    have a2 := hc 2 (by omega)
    have a3 := hc 3 (by omega)
    apply min4_eq _ _ _ _ _ a0 a1 a2 a3
    interval_cases τ
    · exact Or.inl (if_pos rfl)
    · exact Or.inr (Or.inl (if_pos rfl))
    · exact Or.inr (Or.inr (Or.inl (if_pos rfl)))
    · exact Or.inr (Or.inr (Or.inr (if_pos rfl)))
  have hl0 := hL 0 (by omega)
  have hl1 := hL 1 (by omega)
  have hl2 := hL 2 (by omega)
  have hl3 := hL 3 (by omega)
  have hlt := hL τ hτ
  have hp : ∀ j, j < 4 → lane_pick (L τ) (L j) (R j) = if j = τ then R τ else 0 := by
    intro j hj
    simp only [lane_pick]
    by_cases h : j = τ
    · subst h; simp
    · have : L τ ≠ L j := fun e => h (hdist j hj e.symm)
      rw [if_neg this, if_neg h]
  have hρ : ((lane_pick (L τ) (L 0) (R 0) ||| lane_pick (L τ) (L 2) (R 2)) |||
      (lane_pick (L τ) (L 1) (R 1) ||| lane_pick (L τ) (L 3) (R 3))) % 2 ^ 64 = R τ := by
    rw [hp 0 (by omega), hp 1 (by omega), hp 2 (by omega), hp 3 (by omega)]
    have := hR τ hτ
    interval_cases τ <;> simp <;> omega
  have key := merge_step_eq keys rids s (K τ) (L τ) (K 0) (K 1) (K 2) (K 3) (R 0) (R 1) (R 2) (R 3)
    (L 0) (L 1) (L 2) (L 3) hs (hK 0 (by omega)) (hK 1 (by omega)) (hK 2 (by omega))
    (hK 3 (by omega)) (by omega) (by omega) (by omega) (by omega) hm hμ (by omega)
  rw [hρ] at key
  exact key
/-- While fewer than `size` indices were emitted, some lane is at a location
below `size`. -/
theorem merge_valid_lane (keys rids : List Nat) (size : Nat) (K R L : Nat → Nat) (E : List Nat)
    (hinv : merge_inv keys rids size K R L E) (hE : E.length < size) :
    ∃ v, v < 4 ∧ L v < size := by
  obtain ⟨_, _, _, _, _, hnd, hmem, _, _⟩ := hinv
  by_contra hcon
  have hall : ∀ v, v < 4 → size ≤ L v := by
    intro v hv
    by_contra h
    exact hcon ⟨v, hv, by omega⟩
  have hsub : List.range size ⊆ E := by
    intro e he
    rw [List.mem_range] at he
    rw [hmem]
    have := hall (e % 4) (Nat.mod_lt _ (by omega))
    exact ⟨he, by omega⟩
  have hle := (List.subperm_of_subset (List.nodup_range size) hsub).length_le
  rw [List.length_range] at hle
  omega

/-- The lane with the smallest key, and among equal keys the smallest location. -/
theorem merge_argmin (K L : Nat → Nat) (hL : ∀ j, j < 4 → L j < 2 ^ 32) :
    ∃ τ, τ < 4 ∧ (∀ j, j < 4 → K τ ≤ K j) ∧ (∀ j, j < 4 → K j = K τ → L τ ≤ L j) := by
  obtain ⟨τ, hτ, hmin⟩ := Finset.exists_min_image (Finset.range 4)
    (fun j => K j * 2 ^ 32 + L j) ⟨0, by simp⟩
  rw [Finset.mem_range] at hτ
  refine ⟨τ, hτ, ?_, ?_⟩
  · intro j hj
    have := hmin j (Finset.mem_range.mpr hj)
    have a := hL j hj
    have b := hL τ hτ
    simp only at this
    omega
  · intro j hj hk
    have := hmin j (Finset.mem_range.mpr hj)
    simp only at this
    rw [hk] at this
    omega
/-- One iteration of the merging loop keeps the invariant and emits the pair
at a new index below `size`. -/
theorem merge_step_inv (keys rids : List Nat) (size : Nat) (K R L : Nat → Nat) (E : List Nat)
    (hsize : size ≤ 0x7FFFFFF0) (hs1 : 1 ≤ size)
    (hkeys : ∀ n, keys.getD n 0 < 2 ^ 64) (hrids : ∀ n, rids.getD n 0 < 2 ^ 64)
    (hsorted : ∀ e, e + 4 < size → keys.getD e 0 ≤ keys.getD (e + 4) 0)
    (hinv : merge_inv keys rids size K R L E) (hE : E.length < size) :
    ∃ τ K' R' L', τ < 4 ∧ L τ < size ∧
      merge_step keys rids (mk64 (2 ^ 63) (2 ^ 63))
          ⟨2 ^ 32 - 1, 2 ^ 32 - 1, 2 ^ 32 - 1, 2 ^ 32 - 1⟩ ⟨4, 4, 4, 4⟩
          ⟨size - 1, size - 1, size - 1, size - 1⟩ (merge_regs K R L)
        = (merge_regs K' R' L', keys.getD (L τ) 0, rids.getD (L τ) 0) ∧
      merge_inv keys rids size K' R' L' (E ++ [L τ]) := by
  obtain ⟨v, hv, hvs⟩ := merge_valid_lane keys rids size K R L E hinv hE
  obtain ⟨i1, i2, i3, i4, i5, i6, i7, i8, i9⟩ := hinv
  have hLb : ∀ j, j < 4 → L j + 4 < 2 ^ 31 := by
    intro j hj
    have := i2 j hj
    omega
  have hKb : ∀ j, j < 4 → K j < 2 ^ 64 := by
    intro j hj
    by_cases h : L j < size
    · rw [(i3 j hj h).1]; exact hkeys _
    · rw [i4 j hj (by omega)]; norm_num
  obtain ⟨τ, hτ, hmin, hloc⟩ := merge_argmin K L (fun j hj => by have := hLb j hj; omega)
  have hτs : L τ < size := by
    by_contra h
    have e1 := i4 τ hτ (by omega)
    have e2 := hmin v hv
    have e3 := hKb v hv
    have e4 := hloc v hv (by omega)
    omega
  have hdist : ∀ j, j < 4 → L j = L τ → j = τ := by
    intro j hj h
    have a := i1 j hj
    have b := i1 τ hτ
    rw [h] at a
    omega
  have hstep := merge_step_lane keys rids (size - 1) K R L τ hτ (by omega) hKb i5 hLb hmin hloc hdist
  have hKτ := (i3 τ hτ hτs).1
  have hRτ := (i3 τ hτ hτs).2
  rw [hKτ, hRτ] at hstep
  have hloc' : ∀ j, lane_loc (L τ) (L j) = if L τ = L j then L τ + 4 else L j := fun j => rfl
  refine ⟨τ, _, _, _, hτ, hτs, hstep, ?_, ?_, ?_, ?_, ?_, ?_, ?_, ?_, ?_⟩
  · intro j hj
    have a := i1 j hj
    have b := i1 τ hτ
    simp only [lane_loc]
    split <;> omega
  · intro j hj
    have a := i2 j hj
    simp only [lane_loc]
    split <;> omega
  · intro j hj hlt
    dsimp only at hlt ⊢
    simp only [lane_key, lane_rid]
    rw [if_neg (by omega)]
    simp only [lane_loc] at hlt ⊢
    by_cases h : L τ = L j
    · rw [if_pos h] at hlt
      rw [if_pos h, if_pos h, if_pos h]
      exact ⟨rfl, rfl⟩
    · rw [if_neg h] at hlt
      rw [if_neg h, if_neg h, if_neg h]
      exact i3 j hj hlt
  · intro j hj hge
    dsimp only at hge ⊢
    simp only [lane_key]
    rw [if_pos (by omega)]
  · intro j hj
    simp only [lane_rid]
    split
    · exact hrids _
    · exact i5 j hj
  · rw [List.nodup_append]
    refine ⟨i6, List.nodup_singleton _, ?_⟩
    intro a ha hb
    rw [List.mem_singleton] at hb
    subst hb
    have := (i7 (L τ)).mp ha
    rw [i1 τ hτ] at this
    omega
  · intro e
    rw [List.mem_append, List.mem_singleton, i7 e]
    have b := i1 τ hτ
    have hm4 : e % 4 < 4 := Nat.mod_lt _ (by omega)
    have c := i1 (e % 4) hm4
    simp only [lane_loc]
    by_cases h : L τ = L (e % 4)
    · rw [if_pos h]
      have : e % 4 = τ := hdist _ hm4 h.symm
      constructor
      · rintro (⟨h1, h2⟩ | h1) <;> omega
      · rintro ⟨h1, h2⟩
        by_cases h3 : e = L τ
        · exact Or.inr h3
        · left; omega
    · rw [if_neg h]
      constructor
      · rintro (h1 | h1)
        · exact h1
        · exfalso
          apply h
          rw [h1, b]
      · intro h1
        exact Or.inl h1
  · intro e he j hj
    have hτle : ∀ e', e' ∈ E → keys.getD e' 0 ≤ keys.getD (L τ) 0 := by
      intro e' he'
      have := i8 e' he' τ hτ
      rw [hKτ] at this
      exact this
    have hnext : lane_loc (L τ) (L j) ≤ size - 1 → L τ = L j →
        keys.getD (L τ) 0 ≤ keys.getD (L τ + 4) 0 := by
      intro h1 h2
      apply hsorted
      simp only [lane_loc, if_pos h2] at h1
      omega
    have hbase : keys.getD e 0 ≤ keys.getD (L τ) 0 := by
      rw [List.mem_append, List.mem_singleton] at he
      rcases he with he | he
      · exact hτle e he
      · rw [he]
    have hKj : keys.getD (L τ) 0 ≤ K j := by
      have := hmin j hj
      rw [hKτ] at this
      exact this
    simp only [lane_key]
    split
    · have := hkeys e; omega
    · rename_i hgt
      split
      · rename_i heq
        exact le_trans hbase (hnext (by omega) heq)
      · exact le_trans hbase hKj
  · rw [List.map_append, List.pairwise_append]
    refine ⟨i9, by simp, ?_⟩
    intro a ha b hb
    simp only [List.map_cons, List.map_nil, List.mem_singleton] at hb
    rw [List.mem_map] at ha
    obtain ⟨e, he, rfl⟩ := ha
    rw [hb]
    have := i8 e he τ hτ
    rw [hKτ] at this
    exact this
/-- The merging loop emits `n` further pairs: all emitted indices are
different and below `size`, and the emitted keys are in order. -/
theorem merge_loop_spec (keys rids : List Nat) (size : Nat)
    (hsize : size ≤ 0x7FFFFFF0) (hs1 : 1 ≤ size)
    (hkeys : ∀ n, keys.getD n 0 < 2 ^ 64) (hrids : ∀ n, rids.getD n 0 < 2 ^ 64)
    (hsorted : ∀ e, e + 4 < size → keys.getD e 0 ≤ keys.getD (e + 4) 0) :
    ∀ (n : Nat) (K R L : Nat → Nat) (E : List Nat),
      merge_inv keys rids size K R L E → E.length + n ≤ size →
      ∃ E' : List Nat, merge_loop keys rids (mk64 (2 ^ 63) (2 ^ 63))
            ⟨2 ^ 32 - 1, 2 ^ 32 - 1, 2 ^ 32 - 1, 2 ^ 32 - 1⟩ ⟨4, 4, 4, 4⟩
            ⟨size - 1, size - 1, size - 1, size - 1⟩ n (merge_regs K R L)
            (E.map (fun e => keys.getD e 0)) (E.map (fun e => rids.getD e 0))
          = (E'.map (fun e => keys.getD e 0), E'.map (fun e => rids.getD e 0)) ∧
        E'.length = E.length + n ∧ E'.Nodup ∧ (∀ e, e ∈ E' → e < size) ∧
        List.Pairwise (fun a b => a ≤ b) (E'.map (fun e => keys.getD e 0)) := by
  intro n
  induction n with
  | zero =>
    intro K R L E hinv _
    obtain ⟨_, _, _, _, _, i6, i7, _, i9⟩ := hinv
    exact ⟨E, rfl, rfl, i6, fun e he => ((i7 e).mp he).1, i9⟩
  | succ n ih =>
    intro K R L E hinv hn
    obtain ⟨τ, K', R', L', hτ, hτs, hstep, hinv'⟩ :=
      merge_step_inv keys rids size K R L E hsize hs1 hkeys hrids hsorted hinv (by omega)
    obtain ⟨E', h1, h2, h3, h4, h5⟩ := ih K' R' L' (E ++ [L τ]) hinv'
      (by rw [List.length_append, List.length_singleton]; omega)
    refine ⟨E', ?_, ?_, h3, h4, h5⟩
    · simp only [merge_loop, hstep]
      simp only [List.map_append, List.map_cons, List.map_nil] at h1
      exact h1
    · rw [h2, List.length_append, List.length_singleton]; omega

/-- The 4-way merge of `simd_combsort`: when every key is at most the key
four places further, the output is in order and holds the input pairs. -/
theorem simd_merge_spec (keys rids : List Nat) (size : Nat)
    (hsize : size ≤ 0x7FFFFFF0) (hs4 : 4 ≤ size)
    (hkeys : ∀ n, keys.getD n 0 < 2 ^ 64) (hrids : ∀ n, rids.getD n 0 < 2 ^ 64)
    (hsorted : ∀ e, e + 4 < size → keys.getD e 0 ≤ keys.getD (e + 4) 0) :
    (simd_merge (mk64 (2 ^ 63) (2 ^ 63)) ⟨2 ^ 32 - 1, 2 ^ 32 - 1, 2 ^ 32 - 1, 2 ^ 32 - 1⟩
        keys rids size).1.length = size ∧
    (simd_merge (mk64 (2 ^ 63) (2 ^ 63)) ⟨2 ^ 32 - 1, 2 ^ 32 - 1, 2 ^ 32 - 1, 2 ^ 32 - 1⟩
        keys rids size).2.length = size ∧
    List.Pairwise (fun a b => a ≤ b)
      (simd_merge (mk64 (2 ^ 63) (2 ^ 63)) ⟨2 ^ 32 - 1, 2 ^ 32 - 1, 2 ^ 32 - 1, 2 ^ 32 - 1⟩
        keys rids size).1 ∧
    List.Perm
      ((simd_merge (mk64 (2 ^ 63) (2 ^ 63)) ⟨2 ^ 32 - 1, 2 ^ 32 - 1, 2 ^ 32 - 1, 2 ^ 32 - 1⟩
        keys rids size).1.zip
       (simd_merge (mk64 (2 ^ 63) (2 ^ 63)) ⟨2 ^ 32 - 1, 2 ^ 32 - 1, 2 ^ 32 - 1, 2 ^ 32 - 1⟩
        keys rids size).2) (pairs keys rids size) := by
  have hinit : merge_inv keys rids size (fun j => keys.getD j 0) (fun j => rids.getD j 0)
      (fun j => j) [] := by
    refine ⟨fun j hj => Nat.mod_eq_of_lt hj, fun j hj => by dsimp only; omega,
      fun j hj _ => ⟨rfl, rfl⟩, fun j hj h => by dsimp only at h; omega, fun j _ => hrids j,
      List.nodup_nil, ?_, ?_, ?_⟩
    · intro e
      have := Nat.mod_le e 4
      simp only [List.not_mem_nil, false_iff, not_and]
      intro _
      omega
    · intro e he; cases he
    · simp
  obtain ⟨E, h1, h2, h3, h4, h5⟩ := merge_loop_spec keys rids size hsize (by omega) hkeys hrids
    hsorted size _ _ _ [] hinit (by simp)
  have e1 : _mm_shuffle_epi32 (_mm_cvtepi8_epi32 (_mm_cvtsi64_si128 0x07060504)) 0
      = ⟨4, 4, 4, 4⟩ := by decide
  have e2 : _mm_sub_epi32 (_mm_cvtepi8_epi32 (_mm_cvtsi64_si128 0x07060504)) ⟨4, 4, 4, 4⟩
      = ⟨0, 1, 2, 3⟩ := by decide
  have e3 : _mm_shuffle_epi32 (_mm_cvtsi64_si128 (size - 1)) 0
      = ⟨size - 1, size - 1, size - 1, size - 1⟩ := by
    have : (size - 1) % 2 ^ 64 % 2 ^ 32 = size - 1 := by omega
    simp only [shuffle_0, _mm_cvtsi64_si128, mk64, this]
  have hm : simd_merge (mk64 (2 ^ 63) (2 ^ 63)) ⟨2 ^ 32 - 1, 2 ^ 32 - 1, 2 ^ 32 - 1, 2 ^ 32 - 1⟩
      keys rids size = (E.map (fun e => keys.getD e 0), E.map (fun e => rids.getD e 0)) := by
    simp only [simd_merge, e1, e2, e3]
    exact h1
  rw [hm]
  have hperm : List.Perm E (List.range size) := by
    apply (List.subperm_of_subset h3 ?_).perm_of_length_le
    · rw [List.length_range, h2]; simp
    · intro e he
      exact List.mem_range.mpr (h4 e he)
  refine ⟨by simp [h2], by simp [h2], h5, ?_⟩
  rw [List.zip_map']
  exact hperm.map _
/-- Reading a list of `n` values through a permutation of the indices gives a
permutation of the values. -/
theorem perm_of_reindex {α : Type} (f : Nat → α) (σ : Nat → Nat) (n : Nat)
    (hinj : ∀ x y, x < n → y < n → σ x = σ y → x = y) (hrange : ∀ x, x < n → σ x < n) :
    List.Perm ((List.range n).map (fun x => f (σ x))) ((List.range n).map f) := by
  have h1 : ((List.range n).map σ).Nodup := by
    rw [List.nodup_map_iff_inj_on (List.nodup_range n)]
    intro x hx y hy h
    exact hinj x y (List.mem_range.mp hx) (List.mem_range.mp hy) h
  have h2 : (List.range n).map σ ⊆ List.range n := by
    intro y hy
    rw [List.mem_map] at hy
    obtain ⟨x, hx, rfl⟩ := hy
    exact List.mem_range.mpr (hrange x (List.mem_range.mp hx))
  have h3 : List.Perm ((List.range n).map σ) (List.range n) :=
    (List.subperm_of_subset h1 h2).perm_of_length_le (by simp)
  have h4 := h3.map f
  rw [List.map_map] at h4
  exact h4

/-- The inner loop of `insertsort`: the keys from the returned position `p`
to `j` move one place up, all of them are above `next_key`, and the key
before `p` is not. -/
theorem insertsort_shift_spec (next_key : Nat) :
    ∀ (j temp_key : Nat) (keys rids : List Nat),
      temp_key = keys.getD j 0 → j + 1 < keys.length → rids.length = keys.length →
      (insertsort_shift next_key j temp_key keys rids).2.2 ≤ j ∧
      (insertsort_shift next_key j temp_key keys rids).1.length = keys.length ∧
      (insertsort_shift next_key j temp_key keys rids).2.1.length = keys.length ∧
      (∀ x, (insertsort_shift next_key j temp_key keys rids).1.getD x 0
        = if (insertsort_shift next_key j temp_key keys rids).2.2 < x ∧ x ≤ j + 1
          then keys.getD (x - 1) 0 else keys.getD x 0) ∧
      (∀ x, (insertsort_shift next_key j temp_key keys rids).2.1.getD x 0
        = if (insertsort_shift next_key j temp_key keys rids).2.2 < x ∧ x ≤ j + 1
          then rids.getD (x - 1) 0 else rids.getD x 0) ∧
      ((insertsort_shift next_key j temp_key keys rids).2.2 = 0 ∨
        ¬ next_key < keys.getD ((insertsort_shift next_key j temp_key keys rids).2.2 - 1) 0) ∧
      (∀ x, (insertsort_shift next_key j temp_key keys rids).2.2 ≤ x → x < j →
        next_key < keys.getD x 0) := by
  intro j
  induction j with
  | zero =>
    intro temp_key keys rids ht hlen hrl
    rw [show insertsort_shift next_key 0 temp_key keys rids
      = (keys.set 1 temp_key, rids.set 1 (rids.getD 0 0), 0) from rfl]
    refine ⟨le_refl _, by simp, by simp [hrl], ?_, ?_, Or.inl rfl, ?_⟩
    · intro x
      rw [getD_set, ht]
      by_cases h : x = 1
      · subst h; simp [hlen]
      · have : ¬ (0 < x ∧ x ≤ 0 + 1) := by omega
        rw [if_neg this, if_neg (by intro h2; exact h h2.1.symm)]
    · intro x
      rw [getD_set]
      by_cases h : x = 1
      · subst h; simp [hrl, hlen]
      · have : ¬ (0 < x ∧ x ≤ 0 + 1) := by omega
        rw [if_neg this, if_neg (by intro h2; exact h h2.1.symm)]
    · intro x h1 h2; omega
  | succ j ih =>
    intro temp_key keys rids ht hlen hrl
    have hk1 : ∀ x, (keys.set (j + 1 + 1) temp_key).getD x 0
        = if x = j + 2 then keys.getD (j + 1) 0 else keys.getD x 0 := by
      intro x
      rw [getD_set, ht]
      by_cases h : x = j + 2
      · subst h; simp [hlen]
      · rw [if_neg (by intro h2; exact h h2.1.symm), if_neg h]
    have hr1 : ∀ x, (rids.set (j + 1 + 1) (rids.getD (j + 1) 0)).getD x 0
        = if x = j + 2 then rids.getD (j + 1) 0 else rids.getD x 0 := by
      intro x
      rw [getD_set]
      by_cases h : x = j + 2
      · subst h; simp [hrl, hlen]
      · rw [if_neg (by intro h2; exact h h2.1.symm), if_neg h]
    have hkj : (keys.set (j + 1 + 1) temp_key).getD j 0 = keys.getD j 0 := by
      rw [hk1, if_neg (by omega)]
    have hunf : insertsort_shift next_key (j + 1) temp_key keys rids
        = if next_key < keys.getD j 0 then
            insertsort_shift next_key j (keys.getD j 0) (keys.set (j + 1 + 1) temp_key)
              (rids.set (j + 1 + 1) (rids.getD (j + 1) 0))
          else (keys.set (j + 1 + 1) temp_key, rids.set (j + 1 + 1) (rids.getD (j + 1) 0), j + 1) := by
      simp only [insertsort_shift, hkj]
    rw [hunf]
    by_cases hlt : next_key < keys.getD j 0
    · rw [if_pos hlt]
      obtain ⟨a1, a2, a3, a4, a5, a6, a7⟩ := ih (keys.getD j 0) (keys.set (j + 1 + 1) temp_key)
        (rids.set (j + 1 + 1) (rids.getD (j + 1) 0)) hkj.symm
        (by rw [List.length_set]; omega) (by rw [List.length_set, List.length_set]; exact hrl)
      rw [List.length_set] at a2 a3
      refine ⟨by omega, a2, a3, ?_, ?_, ?_, ?_⟩
      · intro x
        rw [a4 x, hk1, hk1]
        by_cases h1 : x = j + 2
        · subst h1
          rw [if_neg (by omega), if_pos rfl, if_pos (by omega)]
          rfl
        · by_cases h2 : (insertsort_shift next_key j (keys.getD j 0)
              (keys.set (j + 1 + 1) temp_key)
              (rids.set (j + 1 + 1) (rids.getD (j + 1) 0))).2.2 < x ∧ x ≤ j + 1
          · rw [if_pos h2, if_neg (by omega), if_pos (by omega)]
          · rw [if_neg h2, if_neg h1, if_neg (by omega)]
      · intro x
        rw [a5 x, hr1, hr1]
        by_cases h1 : x = j + 2
        · subst h1
          rw [if_neg (by omega), if_pos rfl, if_pos (by omega)]
          rfl
        · by_cases h2 : (insertsort_shift next_key j (keys.getD j 0)
              (keys.set (j + 1 + 1) temp_key)
              (rids.set (j + 1 + 1) (rids.getD (j + 1) 0))).2.2 < x ∧ x ≤ j + 1
          · rw [if_pos h2, if_neg (by omega), if_pos (by omega)]
          · rw [if_neg h2, if_neg h1, if_neg (by omega)]
      · rcases a6 with a6 | a6
        · exact Or.inl a6
        · right
          rw [hk1, if_neg (by omega)] at a6
          exact a6
      · intro x h1 h2
        by_cases h3 : x = j
        · subst h3; exact hlt
        · have := a7 x h1 (by omega)
          rw [hk1, if_neg (by omega)] at this
          exact this
    · rw [if_neg hlt]
      dsimp only
      refine ⟨le_refl _, by simp, by simp [hrl], ?_, ?_,
        Or.inr (by simpa using hlt), ?_⟩
      · intro x
        rw [hk1]
        by_cases h1 : x = j + 2
        · subst h1
          rw [if_pos rfl, if_pos (by omega)]
          rfl
        · rw [if_neg h1, if_neg (by omega)]
      · intro x
        rw [hr1]
        by_cases h1 : x = j + 2
        · subst h1
          rw [if_pos rfl, if_pos (by omega)]
          rfl
        · rw [if_neg h1, if_neg (by omega)]
      · intro x h1 h2; omega
/-- The outer loop of `insertsort` from index `i`, with `keys[0 .. i)` in
order: afterwards `keys[0 .. size)` is in order and the pairs are permuted. -/
theorem insertsort_loop_spec (size : Nat) :
    ∀ (n i prev_key : Nat) (keys rids : List Nat),
      i + n = size → 1 ≤ i → size ≤ keys.length → rids.length = keys.length →
      prev_key = keys.getD (i - 1) 0 →
      (∀ x, x + 1 < i → keys.getD x 0 ≤ keys.getD (x + 1) 0) →
      (insertsort_loop n i prev_key keys rids).1.length = keys.length ∧
      (insertsort_loop n i prev_key keys rids).2.length = keys.length ∧
      (∀ x, x + 1 < size → (insertsort_loop n i prev_key keys rids).1.getD x 0
        ≤ (insertsort_loop n i prev_key keys rids).1.getD (x + 1) 0) ∧
      List.Perm (pairs (insertsort_loop n i prev_key keys rids).1
        (insertsort_loop n i prev_key keys rids).2 size) (pairs keys rids size) ∧
      (∀ x, size ≤ x → (insertsort_loop n i prev_key keys rids).1.getD x 0 = keys.getD x 0 ∧
        (insertsort_loop n i prev_key keys rids).2.getD x 0 = rids.getD x 0) := by
  intro n
  induction n with
  | zero =>
    intro i prev_key keys rids hi h1 hlen hrl hprev hs
    rw [show insertsort_loop 0 i prev_key keys rids = (keys, rids) from rfl]
    refine ⟨rfl, hrl, ?_, List.Perm.refl _, fun x _ => ⟨rfl, rfl⟩⟩
    intro x hx
    exact hs x (by omega)
  | succ n ih =>
    intro i prev_key keys rids hi h1 hlen hrl hprev hs
    by_cases hge : keys.getD i 0 ≥ prev_key
    · have hunf : insertsort_loop (n + 1) i prev_key keys rids
          = insertsort_loop n (i + 1) (keys.getD i 0) keys rids := by
        simp only [insertsort_loop, if_pos hge]
      rw [hunf]
      apply ih (i + 1) (keys.getD i 0) keys rids (by omega) (by omega) hlen hrl (by simp)
      intro x hx
      by_cases h : x + 1 = i
      · have e : x = i - 1 := by omega
        rw [h, e, ← hprev]
        exact hge
      · exact hs x (by omega)
    · obtain ⟨a1, a2, a3, a4, a5, a6, a7⟩ := insertsort_shift_spec (keys.getD i 0) (i - 1)
        prev_key keys rids hprev (by omega) hrl
      have ei : i - 1 + 1 = i := by omega
      rw [ei] at a4 a5
      have hunf : insertsort_loop (n + 1) i prev_key keys rids
          = insertsort_loop n (i + 1) prev_key
              ((insertsort_shift (keys.getD i 0) (i - 1) prev_key keys rids).1.set
                (insertsort_shift (keys.getD i 0) (i - 1) prev_key keys rids).2.2 (keys.getD i 0))
              ((insertsort_shift (keys.getD i 0) (i - 1) prev_key keys rids).2.1.set
                (insertsort_shift (keys.getD i 0) (i - 1) prev_key keys rids).2.2 (rids.getD i 0)) := by
        simp only [insertsort_loop, if_neg hge]
      rw [hunf]
      generalize (insertsort_shift (keys.getD i 0) (i - 1) prev_key keys rids).1 = k1 at *
      generalize (insertsort_shift (keys.getD i 0) (i - 1) prev_key keys rids).2.1 = r1 at *
      generalize (insertsort_shift (keys.getD i 0) (i - 1) prev_key keys rids).2.2 = p at *
      have hk2 : ∀ x, (k1.set p (keys.getD i 0)).getD x 0
          = keys.getD (if x = p then i else if p < x ∧ x ≤ i then x - 1 else x) 0 := by
        intro x
        rw [getD_set, a4 x]
        by_cases h : x = p
        · subst h
          rw [if_pos ⟨rfl, by omega⟩, if_pos rfl]
        · rw [if_neg (by intro h2; exact h h2.1.symm), if_neg h]
          split <;> rfl
      have hr2 : ∀ x, (r1.set p (rids.getD i 0)).getD x 0
          = rids.getD (if x = p then i else if p < x ∧ x ≤ i then x - 1 else x) 0 := by
        intro x
        rw [getD_set, a5 x]
        by_cases h : x = p
        · subst h
          rw [if_pos ⟨rfl, by omega⟩, if_pos rfl]
        · rw [if_neg (by intro h2; exact h h2.1.symm), if_neg h]
          split <;> rfl
      have hltp : keys.getD i 0 < prev_key := by omega
      obtain ⟨b1, b2, b3, b4, b5⟩ := ih (i + 1) prev_key (k1.set p (keys.getD i 0))
        (r1.set p (rids.getD i 0)) (by omega) (by omega) (by rw [List.length_set, a2]; exact hlen)
        (by rw [List.length_set, List.length_set, a2, a3])
        (by rw [hk2, if_neg (by omega), if_pos (by omega)]
            have : i + 1 - 1 - 1 = i - 1 := by omega
            rw [this]; exact hprev)
        (by
          intro x hx
          rw [hk2, hk2]
          by_cases c1 : x = p
          · subst c1
            rw [if_pos rfl, if_neg (by omega), if_pos (by omega)]
            have e : x + 1 - 1 = x := by omega
            rw [e]
            by_cases c2 : x = i - 1
            · rw [c2, ← hprev]; omega
            · exact le_of_lt (a7 x (le_refl _) (by omega))
          · rw [if_neg c1]
            by_cases c3 : x + 1 = p
            · rw [if_pos c3, if_neg (by omega)]
              rcases a6 with a6 | a6
              · omega
              · have e : p - 1 = x := by omega
                rw [e] at a6
                omega
            · rw [if_neg c3]
              by_cases c4 : p < x
              · rw [if_pos ⟨c4, by omega⟩, if_pos ⟨by omega, by omega⟩]
                have e : x + 1 - 1 = x - 1 + 1 := by omega
                rw [e]
                exact hs (x - 1) (by omega)
              · rw [if_neg (by omega), if_neg (by omega)]
                exact hs x (by omega))
      rw [List.length_set] at b1 b2
      refine ⟨by rw [b1, a2], by rw [b2, a2], b3, b4.trans ?_, ?_⟩
      · have hp : pairs (k1.set p (keys.getD i 0)) (r1.set p (rids.getD i 0)) size
            = (List.range size).map (fun x => (fun y => (keys.getD y 0, rids.getD y 0))
                (if x = p then i else if p < x ∧ x ≤ i then x - 1 else x)) := by
          simp only [pairs, hk2, hr2]
        rw [hp, show pairs keys rids size
          = (List.range size).map (fun y => (keys.getD y 0, rids.getD y 0)) from rfl]
        refine perm_of_reindex (fun y => (keys.getD y 0, rids.getD y 0))
          (fun x => if x = p then i else if p < x ∧ x ≤ i then x - 1 else x) size ?_ ?_
        · intro x y hx hy hxy
          dsimp only at hxy
          split at hxy <;> split at hxy <;> (try split at hxy) <;> (try split at hxy) <;> omega
        · intro x hx
          dsimp only
          split
          · omega
          · split <;> omega
      · intro x hx
        rw [(b5 x hx).1, (b5 x hx).2, hk2, hr2, if_neg (by omega), if_neg (by omega)]
        exact ⟨rfl, rfl⟩
theorem zip_take_eq_pairs (keys rids : List Nat) (size : Nat) (hlen : size ≤ keys.length)
    (hrl : rids.length = keys.length) :
    (keys.take size).zip (rids.take size) = pairs keys rids size := by
  apply List.ext_getElem
  · simp [pairs, hrl, hlen]
  · intro n h1 h2
    have hn : n < size := by simpa [pairs] using h2
    simp only [pairs, List.getElem_zip, List.getElem_take, List.getElem_map, List.getElem_range]
    rw [getD_of_lt keys n (by omega), getD_of_lt rids n (by omega)]

theorem pairwise_adjacent (l : List Nat) (h : List.Pairwise (fun a b => a ≤ b) l) (i : Nat)
    (hi : i + 1 < l.length) : l.getD i 0 ≤ l.getD (i + 1) 0 := by
  rw [getD_of_lt l i (by omega), getD_of_lt l (i + 1) hi]
  exact List.pairwise_iff_getElem.mp h i (i + 1) (by omega) hi (by omega)

/-- `insertsort` puts `keys[0 .. size)` in order and permutes the pairs. -/
theorem insertsort_spec (keys rids : List Nat) (size : Nat) (hlen : size ≤ keys.length)
    (hrl : rids.length = keys.length) :
    (insertsort keys rids size).1.length = keys.length ∧
    (insertsort keys rids size).2.length = keys.length ∧
    (∀ x, x + 1 < size → (insertsort keys rids size).1.getD x 0
      ≤ (insertsort keys rids size).1.getD (x + 1) 0) ∧
    List.Perm (pairs (insertsort keys rids size).1 (insertsort keys rids size).2 size)
      (pairs keys rids size) := by
  by_cases h : size ≤ 1
  · rw [show insertsort keys rids size = (keys, rids) by simp only [insertsort, if_pos h]]
    exact ⟨rfl, hrl, fun x hx => by omega, List.Perm.refl _⟩
  · rw [show insertsort keys rids size = insertsort_loop (size - 1) 1 (keys.getD 0 0) keys rids by
      simp only [insertsort, if_neg h]]
    obtain ⟨a, b, c, d, _⟩ := insertsort_loop_spec size (size - 1) 1 (keys.getD 0 0) keys rids
      (by omega) (le_refl _) hlen hrl rfl (fun x hx => by omega)
    exact ⟨a, b, c, d⟩
/-- `simd_combsort` returns, given enough passes: `keys_out` is in order and
the output pairs are a permutation of the input pairs. -/
theorem simd_combsort_spec (kpos : Nat) (keys rids : List Nat) (size : Nat)
    (hsize : size ≤ 0x7FFFFFF0) (hlen : size ≤ keys.length) (hrl : rids.length = keys.length)
    (hk : ∀ n, keys.getD n 0 < 2 ^ 64) (hr : ∀ n, rids.getD n 0 < 2 ^ 64) :
    ∃ fuel0, ∀ fuel, fuel0 ≤ fuel →
      ∃ keys' rids' keys_out rids_out,
        simd_combsort fuel kpos keys rids size = some (keys', rids', keys_out, rids_out) ∧
        keys_out.length = size ∧ rids_out.length = size ∧
        (∀ i, i + 1 < size → keys_out.getD i 0 ≤ keys_out.getD (i + 1) 0) ∧
        List.Perm (keys_out.zip rids_out) (pairs keys rids size) := by
  by_cases h9 : size ≤ 9
  · refine ⟨0, fun fuel _ => ?_⟩
    obtain ⟨a, b, c, d⟩ := insertsort_spec keys rids size hlen hrl
    refine ⟨(insertsort keys rids size).1, (insertsort keys rids size).2,
      (insertsort keys rids size).1.take size, (insertsort keys rids size).2.take size, ?_, ?_, ?_,
      ?_, ?_⟩
    · simp only [simd_combsort, if_pos h9]
    · rw [List.length_take, a]; omega
    · rw [List.length_take, b]; omega
    · intro i hi
      have e : ∀ x, x < size → ((insertsort keys rids size).1.take size).getD x 0
          = (insertsort keys rids size).1.getD x 0 := by
        intro x hx
        rw [getD_of_lt _ x (by rw [List.length_take, a]; omega),
          getD_of_lt _ x (by rw [a]; omega), List.getElem_take]
      rw [e i (by omega), e (i + 1) hi]
      exact c i hi
    · rw [zip_take_eq_pairs _ _ size (by rw [a]; exact hlen) (by rw [a, b])]
      exact d
  · have hu : (15 &&& (8 * kpos)) >>> 3 = kpos % 2 := by
      rw [and_15_mul_8, Nat.shiftRight_eq_div_pow]; omega
    have hend : ∀ x : Nat, x &&& 3 = x % 4 := by
      intro x
      have := Nat.and_pow_two_sub_one_eq_mod x 2
      simpa using this
    have hsh : ∀ x : Nat, x >>> 2 = x / 4 := by
      intro x
      rw [Nat.shiftRight_eq_div_pow]
    obtain ⟨beg, hb⟩ : ∃ beg, beg = (if kpos % 2 = 0 then 0 else 2 - kpos % 2) := ⟨_, rfl⟩
    obtain ⟨end_, he⟩ : ∃ end_, end_ = (size - beg) % 4 := ⟨_, rfl⟩
    obtain ⟨n4, hn4⟩ : ∃ n4, n4 = (size - beg - end_) / 4 := ⟨_, rfl⟩
    have hbeg : beg ≤ 1 := by rw [hb]; split <;> omega
    have hsz : size = beg + 4 * n4 + end_ := by omega
    have hn2 : 2 ≤ n4 := by omega
    obtain ⟨g1, g2⟩ := mul_shrink_bounds n4 hn2 (by omega)
    refine ⟨keys.length * keys.sum - weighted_sum 0 keys + mul_shrink n4 + 1, fun fuel hfuel => ?_⟩
    obtain ⟨keys', rids', c1, c2, c3, c4, c5, c6, c7, c8⟩ := comb_loop_spec size beg end_ n4 hbeg hsz
      (by omega) fuel (mul_shrink n4) keys rids g1 g2 hlen hrl hk hr (by omega)
    obtain ⟨m1, m2, m3, m4⟩ := simd_merge_spec keys' rids' size hsize (by omega) c6 c7 c8
    refine ⟨keys', rids', _, _, ?_, m1, m2, ?_, m4.trans c4⟩
    · have hC := mask_C_eq
      rw [mask_I_eq] at hC
      simp only [simd_combsort, if_neg h9, if_pos hsize, hu, hend, hsh, mask_I_eq, hC,
        ← hb, ← he, ← hn4, c1]
    · intro i hi
      exact pairwise_adjacent _ m3 i (by rw [m1]; exact hi)

/-! ## Lemmas on the range histograms -/

theorem cmpgt_mk64 (a b c d : Nat) :
    _mm_cmpgt_epi64 (mk64 a b) (mk64 c d) = mk64 (mask64 (sgt a c)) (mask64 (sgt b d)) := by
  simp only [_mm_cmpgt_epi64, lo64_mk64_mod, hi64_mk64_mod, sgt]

theorem set1_mk64 (x : Nat) : _mm_set1_epi64x x = mk64 x x := by
  simp only [_mm_set1_epi64x, mk64]
  have h1 : x % 2 ^ 64 % 2 ^ 32 = x % 2 ^ 32 := by omega
  have h2 : x % 2 ^ 64 / 2 ^ 32 % 2 ^ 32 = x / 2 ^ 32 % 2 ^ 32 := by omega
  rw [h1, h2]

theorem packs_mk64_mask (p q r s : Bool) :
    _mm_packs_epi32 (mk64 (mask64 p) (mask64 q)) (mk64 (mask64 r) (mask64 s))
      = ⟨mask32 p, mask32 q, mask32 r, mask32 s⟩ := by
  cases p <;> cases q <;> cases r <;> cases s <;> decide

theorem packs_mask32 (p q r s t u v w : Bool) :
    _mm_packs_epi32 ⟨mask32 p, mask32 q, mask32 r, mask32 s⟩ ⟨mask32 t, mask32 u, mask32 v, mask32 w⟩
      = ⟨mask32 p % 2 ^ 16 + 2 ^ 16 * (mask32 q % 2 ^ 16), mask32 r % 2 ^ 16 + 2 ^ 16 * (mask32 s % 2 ^ 16),
         mask32 t % 2 ^ 16 + 2 ^ 16 * (mask32 u % 2 ^ 16), mask32 v % 2 ^ 16 + 2 ^ 16 * (mask32 w % 2 ^ 16)⟩ := by
  have h : ∀ b : Bool, sat_i16 (mask32 b) = mask32 b % 2 ^ 16 := by
    intro b; cases b <;> decide
  simp only [_mm_packs_epi32, h]

theorem root_combine (a1 b1 c1 a2 b2 c2 : Bool) :
    op16 (fun x y => x + 2 ^ 16 - y)
      (op16 (· + ·)
        (op16 (fun x y => x + 2 ^ 16 - y)
          (op16 (· + ·)
            (op16 (fun x y => x + 2 ^ 16 - y) (0 ^^^ 0)
              (mask32 a1 % 2 ^ 16 + 2 ^ 16 * (mask32 a2 % 2 ^ 16)))
            (op16 (fun x y => x + 2 ^ 16 - y) (0 ^^^ 0)
              (mask32 a1 % 2 ^ 16 + 2 ^ 16 * (mask32 a2 % 2 ^ 16))))
          (mask32 b1 % 2 ^ 16 + 2 ^ 16 * (mask32 b2 % 2 ^ 16)))
        (op16 (fun x y => x + 2 ^ 16 - y)
          (op16 (· + ·)
            (op16 (fun x y => x + 2 ^ 16 - y) (0 ^^^ 0)
              (mask32 a1 % 2 ^ 16 + 2 ^ 16 * (mask32 a2 % 2 ^ 16)))
            (op16 (fun x y => x + 2 ^ 16 - y) (0 ^^^ 0)
              (mask32 a1 % 2 ^ 16 + 2 ^ 16 * (mask32 a2 % 2 ^ 16))))
          (mask32 b1 % 2 ^ 16 + 2 ^ 16 * (mask32 b2 % 2 ^ 16))))
      (mask32 c1 % 2 ^ 16 + 2 ^ 16 * (mask32 c2 % 2 ^ 16))
      = (4 * a1.toNat + 2 * b1.toNat + c1.toNat) + 2 ^ 16 * (4 * a2.toNat + 2 * b2.toNat + c2.toNat) := by
  cases a1 <;> cases b1 <;> cases c1 <;> cases a2 <;> cases b2 <;> cases c2 <;> decide

theorem histogram_root_eq (x1 x2 x3 x4 x5 x6 x7 x8 D1 D2 D3 D4 D5 D6 D7 : Nat) :
    histogram_root (mk64 x1 x2) (mk64 x3 x4) (mk64 x5 x6) (mk64 x7 x8)
        (mk64 D1 D1) (mk64 D2 D2) (mk64 D3 D3) (mk64 D4 D4) (mk64 D5 D5) (mk64 D6 D6) (mk64 D7 D7)
      = ⟨root_tag D1 D2 D3 D4 D5 D6 D7 x1 + 2 ^ 16 * root_tag D1 D2 D3 D4 D5 D6 D7 x2,
         root_tag D1 D2 D3 D4 D5 D6 D7 x3 + 2 ^ 16 * root_tag D1 D2 D3 D4 D5 D6 D7 x4,
         root_tag D1 D2 D3 D4 D5 D6 D7 x5 + 2 ^ 16 * root_tag D1 D2 D3 D4 D5 D6 D7 x6,
         root_tag D1 D2 D3 D4 D5 D6 D7 x7 + 2 ^ 16 * root_tag D1 D2 D3 D4 D5 D6 D7 x8⟩ := by
  simp only [histogram_root, cmpgt_mk64, blendv_mk64, packs_mk64_mask, packs_mask32,
    _mm_sub_epi16, _mm_add_epi16, _mm_xor_si128, _mm_setzero_si128, root_combine, root_tag]
theorem mask_epi64_mk64 (p q : Bool) :
    _mm_mask_epi64 (mk64 (mask64 p) (mask64 q)) = p.toNat + 2 * q.toNat := by
  cases p <;> cases q <;> decide

theorem mask_epi32_mask (p q r s : Bool) :
    _mm_mask_epi32 ⟨mask32 p, mask32 q, mask32 r, mask32 s⟩
      = p.toNat + 2 * q.toNat + 4 * r.toNat + 8 * s.toNat := by
  cases p <;> cases q <;> cases r <;> cases s <;> decide

theorem bsf_level_3 (p q : Bool) (h : q = true → p = true) :
    bsf ((p.toNat + 2 * q.toNat) ^^^ 7) = p.toNat + q.toNat := by
  revert h
  cases p <;> cases q <;> decide

theorem bsf_level_5 (p q r s : Bool) (h1 : q = true → p = true) (h2 : r = true → q = true)
    (h3 : s = true → r = true) :
    bsf ((p.toNat + 2 * q.toNat + 4 * r.toNat + 8 * s.toNat) ^^^ 31)
      = p.toNat + q.toNat + r.toNat + s.toNat := by
  revert h1 h2 h3
  cases p <;> cases q <;> cases r <;> cases s <;> decide

theorem tree_level_3_eq (index : List Nat) (L y p : Nat) (hp : p < 2 ^ 32)
    (h : sgt y (index.getD (L + 2 * p + 1) 0) = true → sgt y (index.getD (L + 2 * p) 0) = true) :
    tree_level_3 index L (mk64 y y) p
      = 3 * p + (sgt y (index.getD (L + 2 * p) 0)).toNat
          + (sgt y (index.getD (L + 2 * p + 1) 0)).toNat := by
  have e1 : (p <<< 1) % 2 ^ 64 = 2 * p := by
    rw [Nat.shiftLeft_eq]; omega
  simp only [tree_level_3, e1, _mm_load_si128, cmpgt_mk64, mask_epi64_mk64]
  rw [Nat.add_assoc L (2 * p) 1, bsf_level_3 _ _ (by rw [← Nat.add_assoc]; exact h)]
  have b1 : (sgt y (index.getD (L + 2 * p) 0)).toNat ≤ 1 := Bool.toNat_le _
  have b2 : (sgt y (index.getD (L + (2 * p + 1)) 0)).toNat ≤ 1 := Bool.toNat_le _
  omega

theorem tree_level_5_eq (index : List Nat) (L y p : Nat) (hp : p < 2 ^ 32)
    (h1 : sgt y (index.getD (L + 4 * p + 1) 0) = true → sgt y (index.getD (L + 4 * p) 0) = true)
    (h2 : sgt y (index.getD (L + 4 * p + 2) 0) = true → sgt y (index.getD (L + 4 * p + 1) 0) = true)
    (h3 : sgt y (index.getD (L + 4 * p + 3) 0) = true → sgt y (index.getD (L + 4 * p + 2) 0) = true) :
    tree_level_5 index L (mk64 y y) p
      = 5 * p + (sgt y (index.getD (L + 4 * p) 0)).toNat
          + (sgt y (index.getD (L + 4 * p + 1) 0)).toNat
          + (sgt y (index.getD (L + 4 * p + 2) 0)).toNat
          + (sgt y (index.getD (L + 4 * p + 3) 0)).toNat := by
  have e1 : (p <<< 2) % 2 ^ 64 = 4 * p := by
    rw [Nat.shiftLeft_eq]; omega
  have e2 : (4 * p + 2) % 2 ^ 64 = 4 * p + 2 := by omega
  have e3 : L + (4 * p + 2) = L + 4 * p + 2 := by omega
  have e4 : L + 4 * p + 2 + 1 = L + 4 * p + 3 := by omega
  simp only [tree_level_5, e1, e2, e3, e4, _mm_load_si128, cmpgt_mk64, packs_mk64_mask,
    mask_epi32_mask]
  rw [bsf_level_5 _ _ _ _ h1 h2 h3]
  have b1 : (sgt y (index.getD (L + 4 * p) 0)).toNat ≤ 1 := Bool.toNat_le _
  have b2 : (sgt y (index.getD (L + 4 * p + 1) 0)).toNat ≤ 1 := Bool.toNat_le _
  have b3 : (sgt y (index.getD (L + 4 * p + 2) 0)).toNat ≤ 1 := Bool.toNat_le _
  have b4 : (sgt y (index.getD (L + 4 * p + 3) 0)).toNat ≤ 1 := Bool.toNat_le _
  omega

theorem sgt_biased (key dl : Nat) (hk : key < 2 ^ 64) (hd : dl < 2 ^ 64) :
    sgt ((key + 2 ^ 63) % 2 ^ 64) ((dl + 2 ^ 64 - 1 <<< 63) % 2 ^ 64) = decide (dl < key) := by
  have e : (dl + 2 ^ 64 - 1 <<< 63) % 2 ^ 64 = (dl + 2 ^ 63) % 2 ^ 64 := by
    rw [Nat.shiftLeft_eq]; omega
  rw [e]
  simp only [sgt, Nat.mod_mod, toInt64_biased _ _ hk hd, gt_iff_lt]
theorem rank_lt_iff (delim : List Nat) (key : Nat) (hs : List.Sorted (· ≤ ·) delim) :
    ∀ j, j < delim.length → (delim.getD j 0 < key ↔ j < first_delimiter_ge delim key) := by
  intro j hj
  obtain ⟨gle, g1, g2⟩ := first_delimiter_ge_spec delim key
  constructor
  · intro h
    by_contra hc
    have hge : first_delimiter_ge delim key ≤ j := by omega
    have h2 := g2 (by omega)
    rcases Nat.eq_or_lt_of_le hge with e | e
    · rw [e] at h2; omega
    · have hp := List.pairwise_iff_getElem.mp hs _ j (by omega) hj e
      rw [getD_of_lt _ _ (show first_delimiter_ge delim key < delim.length by omega)] at h2
      rw [getD_of_lt _ _ hj] at h
      omega
  · exact g1 j

theorem binary_search_eq_rank (delim : List Nat) (key : Nat)
    (hs : List.Sorted (· ≤ ·) delim) (hn : delim.length < 2 ^ 63) :
    binary_search delim delim.length key = some (first_delimiter_ge delim key) := by
  obtain ⟨p, hp, hle, h1, h2⟩ := binary_search_sorted delim key hs hn
  obtain ⟨gle, g1, g2⟩ := first_delimiter_ge_spec delim key
  have hpq : p = first_delimiter_ge delim key := by
    rcases Nat.lt_trichotomy p (first_delimiter_ge delim key) with h | h | h
    · have a := g1 p h
      have b := h2 p (le_refl _) (by omega)
      omega
    · exact h
    · have a := h1 _ h
      have b := g2 (by omega)
      omega
  rw [hp, hpq]

/-- The signed comparison of the biased key with a biased delimiter says
whether the delimiter is below the rank of the key. -/
theorem sgt_rank (delim : List Nat) (key : Nat) (hs : List.Sorted (· ≤ ·) delim)
    (hd : ∀ d ∈ delim, d < 2 ^ 64) (hk : key < 2 ^ 64) :
    ∀ j, j < delim.length →
      sgt ((key + 2 ^ 63) % 2 ^ 64) (delim_biased delim j)
        = decide (j < first_delimiter_ge delim key) := by
  intro j hj
  unfold delim_biased
  rw [sgt_biased _ _ hk (getD_lt_of_forall delim hd j)]
  exact decide_eq_decide.mpr (rank_lt_iff delim key hs j hj)

theorem tree_level_3_rank (idx delim : List Nat) (L x p ρ j0 j1 : Nat) (hp : p < 2 ^ 32)
    (hsgt : ∀ j, j < delim.length → sgt x (delim_biased delim j) = decide (j < ρ))
    (h0 : idx.getD (L + 2 * p) 0 = delim_biased delim j0)
    (h1 : idx.getD (L + 2 * p + 1) 0 = delim_biased delim j1)
    (hj : j0 ≤ j1) (hj1 : j1 < delim.length) :
    tree_level_3 idx L (mk64 x x) p
      = 3 * p + (if j0 < ρ then 1 else 0) + (if j1 < ρ then 1 else 0) := by
  rw [tree_level_3_eq idx L x p hp]
  · rw [h0, h1, hsgt j0 (by omega), hsgt j1 hj1]
    by_cases c0 : j0 < ρ <;> by_cases c1 : j1 < ρ <;> simp [c0, c1]
  · rw [h0, h1, hsgt j0 (by omega), hsgt j1 hj1]
    simp only [decide_eq_true_eq]
    omega

theorem tree_level_5_rank (idx delim : List Nat) (L x p ρ j0 j1 j2 j3 : Nat) (hp : p < 2 ^ 32)
    (hsgt : ∀ j, j < delim.length → sgt x (delim_biased delim j) = decide (j < ρ))
    (h0 : idx.getD (L + 4 * p) 0 = delim_biased delim j0)
    (h1 : idx.getD (L + 4 * p + 1) 0 = delim_biased delim j1)
    (h2 : idx.getD (L + 4 * p + 2) 0 = delim_biased delim j2)
    (h3 : idx.getD (L + 4 * p + 3) 0 = delim_biased delim j3)
    (hj01 : j0 ≤ j1) (hj12 : j1 ≤ j2) (hj23 : j2 ≤ j3) (hj3 : j3 < delim.length) :
    tree_level_5 idx L (mk64 x x) p
      = 5 * p + (if j0 < ρ then 1 else 0) + (if j1 < ρ then 1 else 0)
          + (if j2 < ρ then 1 else 0) + (if j3 < ρ then 1 else 0) := by
  rw [tree_level_5_eq idx L x p hp]
  · rw [h0, h1, h2, h3, hsgt j0 (by omega), hsgt j1 (by omega), hsgt j2 (by omega), hsgt j3 hj3]
    by_cases c0 : j0 < ρ <;> by_cases c1 : j1 < ρ <;> by_cases c2 : j2 < ρ <;>
      by_cases c3 : j3 < ρ <;> simp [c0, c1, c2, c3]
  · rw [h0, h1, hsgt j0 (by omega), hsgt j1 (by omega)]
    simp only [decide_eq_true_eq]
    omega
  · rw [h1, h2, hsgt j1 (by omega), hsgt j2 (by omega)]
    simp only [decide_eq_true_eq]
    omega
  · rw [h2, h3, hsgt j2 (by omega), hsgt j3 (by omega)]
    simp only [decide_eq_true_eq]
    omega

theorem root_tag_rank (delim : List Nat) (x ρ j1 j2 j3 j4 j5 j6 j7 : Nat)
    (hsgt : ∀ j, j < delim.length → sgt x (delim_biased delim j) = decide (j < ρ))
    (h12 : j1 ≤ j2) (h23 : j2 ≤ j3) (h34 : j3 ≤ j4) (h45 : j4 ≤ j5) (h56 : j5 ≤ j6)
    (h67 : j6 ≤ j7) (h7 : j7 < delim.length) :
    root_tag (delim_biased delim j1) (delim_biased delim j2) (delim_biased delim j3)
        (delim_biased delim j4) (delim_biased delim j5) (delim_biased delim j6)
        (delim_biased delim j7) x
      = (if j1 < ρ then 1 else 0) + (if j2 < ρ then 1 else 0) + (if j3 < ρ then 1 else 0)
        + (if j4 < ρ then 1 else 0) + (if j5 < ρ then 1 else 0) + (if j6 < ρ then 1 else 0)
        + (if j7 < ρ then 1 else 0) := by
  unfold root_tag
  simp only [apply_ite (sgt x), hsgt j1 (by omega), hsgt j2 (by omega), hsgt j3 (by omega),
    hsgt j4 (by omega), hsgt j5 (by omega), hsgt j6 (by omega), hsgt j7 h7]
  by_cases c1 : j1 < ρ <;> by_cases c2 : j2 < ρ <;> by_cases c3 : j3 < ρ <;>
    by_cases c4 : j4 < ρ <;> by_cases c5 : j5 < ρ <;> by_cases c6 : j6 < ρ <;>
    by_cases c7 : j7 < ρ <;> first | omega | simp [c1, c2, c3, c4, c5, c6, c7]

theorem pos_slot_360 (i : Nat) (hi : i < 359) : pos_360 (slot_360 i) = i := by
  unfold slot_360 pos_360
  split_ifs <;> omega

theorem slot_360_lt (i : Nat) (hi : i < 359) : slot_360 i < 360 := by
  unfold slot_360
  split_ifs <;> omega

theorem slot_360_digits (i a b c d : Nat) :
    i = 45 * a + 15 * b + 5 * c + d → b < 3 → c < 3 → d < 5 →
    slot_360 i = (if d ≠ 4 then 72 + (36 * a + 12 * b + 4 * c + d)
        else if c ≠ 2 then 24 + (6 * a + 2 * b + c) else if b ≠ 2 then 8 + (2 * a + b) else a) := by
  intro hi hb hc hd
  subst hi
  unfold slot_360
  have h1 : (45 * a + 15 * b + 5 * c + d) % 5 = d := by omega
  have h2 : (45 * a + 15 * b + 5 * c + d) / 5 = 9 * a + 3 * b + c := by omega
  have h3 : (45 * a + 15 * b + 5 * c + d) / 15 = 3 * a + b := by omega
  have h4 : (45 * a + 15 * b + 5 * c + d) / 45 = a := by omega
  have h5 : (9 * a + 3 * b + c) % 3 = c := by omega
  have h6 : (3 * a + b) % 3 = b := by omega
  rw [h1, h2, h3, h4, h5, h6]
  split_ifs <;> omega

set_option maxHeartbeats 1000000 in
theorem index_fill_360_spec (val : Nat → Nat) :
    ∀ (steps i a b c d : Nat) (idx : List Nat),
      i = 45 * a + 15 * b + 5 * c + d → b < 3 → c < 3 → d < 5 →
      i + steps ≤ 359 → 360 ≤ idx.length →
      ∃ a' b' c' d' idx', i + steps = 45 * a' + 15 * b' + 5 * c' + d' ∧ b' < 3 ∧ c' < 3 ∧ d' < 5 ∧
        index_fill_360 val steps i
            (2 - b, 2 - c, 4 - d, a, 2 * a + b, 6 * a + 2 * b + c, 36 * a + 12 * b + 4 * c + d, idx)
          = (2 - b', 2 - c', 4 - d', a', 2 * a' + b', 6 * a' + 2 * b' + c',
              36 * a' + 12 * b' + 4 * c' + d', idx') ∧
        idx'.length = idx.length ∧
        (∀ j, i ≤ j → j < i + steps → idx'.getD (slot_360 j) 0 = val j) ∧
        (∀ k, (∀ j, i ≤ j → j < i + steps → slot_360 j ≠ k) → idx'.getD k 0 = idx.getD k 0) := by
  intro steps
  induction steps with
  | zero =>
    intro i a b c d idx hi hb hc hd _ _
    exact ⟨a, b, c, d, idx, hi, hb, hc, hd, rfl, rfl, fun j a b => by omega, fun k _ => rfl⟩
  | succ n ih =>
    intro i a b c d idx hi hb hc hd hn hl
    have key : ∀ (r1 r2 r3 i0 i1 i2 i3 s a1 b1 c1 d1 : Nat),
        i + 1 = 45 * a1 + 15 * b1 + 5 * c1 + d1 → b1 < 3 → c1 < 3 → d1 < 5 →
        r1 = 2 - b1 → r2 = 2 - c1 → r3 = 4 - d1 → i0 = a1 → i1 = 2 * a1 + b1 →
        i2 = 6 * a1 + 2 * b1 + c1 → i3 = 36 * a1 + 12 * b1 + 4 * c1 + d1 → s = slot_360 i →
        ∃ a' b' c' d' idx', i + (n + 1) = 45 * a' + 15 * b' + 5 * c' + d' ∧ b' < 3 ∧ c' < 3 ∧ d' < 5 ∧
          index_fill_360 val n (i + 1) (r1, r2, r3, i0, i1, i2, i3, idx.set s (val i))
          = (2 - b', 2 - c', 4 - d', a', 2 * a' + b', 6 * a' + 2 * b' + c',
              36 * a' + 12 * b' + 4 * c' + d', idx') ∧
        idx'.length = idx.length ∧
        (∀ j, i ≤ j → j < i + (n + 1) → idx'.getD (slot_360 j) 0 = val j) ∧
        (∀ k, (∀ j, i ≤ j → j < i + (n + 1) → slot_360 j ≠ k) → idx'.getD k 0 = idx.getD k 0) := by
      intro r1 r2 r3 i0 i1 i2 i3 s a1 b1 c1 d1 g1 g2 g3 g4 q1 q2 q3 q4 q5 q6 q7 gs
      rw [q1, q2, q3, q4, q5, q6, q7]
      obtain ⟨a', b', c', d', idx', e0, eb, ec, ed, e1, e2, e3, e4⟩ :=
        ih (i + 1) a1 b1 c1 d1 (idx.set s (val i)) g1 g2 g3 g4 (by omega) (by simpa using hl)
      have hsl : slot_360 i < idx.length := by
        have := slot_360_lt i (by omega)
        omega
      refine ⟨a', b', c', d', idx', by omega, eb, ec, ed, e1, by simpa using e2, ?_, ?_⟩
      · intro j hj1 hj2
        rcases Nat.eq_or_lt_of_le hj1 with hij | hij
        · subst hij
          rw [e4 (slot_360 i) (fun j a b c => by
            have h1 := pos_slot_360 j (by omega)
            have h2 := pos_slot_360 i (by omega)
            rw [c] at h1; omega), gs, getD_set]
          simp [hsl]
        · exact e3 j (by omega) (by omega)
      · intro k hk
        rw [e4 k (fun j a b => hk j (by omega) (by omega)), gs, getD_set]
        have := hk i (le_refl _) (by omega)
        simp [this]
    have hs := slot_360_digits i a b c d hi hb hc hd
    simp only [index_fill_360]
    split_ifs with c1 c2 c3
    · exact key _ _ _ _ _ _ _ _ a b c (d + 1) (by omega) (by omega) (by omega) (by omega)
        (by omega) (by omega) (by omega) (by omega) (by omega) (by omega) (by omega)
        (by rw [hs, if_pos (by omega)])
    · exact key _ _ _ _ _ _ _ _ a b (c + 1) 0 (by omega) (by omega) (by omega) (by omega)
        (by omega) (by omega) (by omega) (by omega) (by omega) (by omega) (by omega)
        (by rw [hs, if_neg (by omega), if_pos (by omega)])
    · exact key _ _ _ _ _ _ _ _ a (b + 1) 0 0 (by omega) (by omega) (by omega) (by omega)
        (by omega) (by omega) (by omega) (by omega) (by omega) (by omega) (by omega)
        (by rw [hs, if_neg (by omega), if_neg (by omega), if_pos (by omega)])
    · exact key _ _ _ _ _ _ _ _ (a + 1) 0 0 0 (by omega) (by omega) (by omega) (by omega)
        (by omega) (by omega) (by omega) (by omega) (by omega) (by omega) (by omega)
        (by rw [hs, if_neg (by omega), if_neg (by omega), if_neg (by omega)])

theorem pos_slot_1000 (i : Nat) (hi : i < 999) : pos_1000 (slot_1000 i) = i := by
  unfold slot_1000 pos_1000
  split_ifs <;> omega

theorem slot_1000_lt (i : Nat) (hi : i < 999) : slot_1000 i < 1000 := by
  unfold slot_1000
  split_ifs <;> omega

theorem slot_1000_digits (i a b c d : Nat) :
    i = 125 * a + 25 * b + 5 * c + d → b < 5 → c < 5 → d < 5 →
    slot_1000 i = (if d ≠ 4 then 200 + (100 * a + 20 * b + 4 * c + d)
        else if c ≠ 4 then 40 + (20 * a + 4 * b + c) else if b ≠ 4 then 8 + (4 * a + b) else a) := by
  intro hi hb hc hd
  subst hi
  unfold slot_1000
  have h1 : (125 * a + 25 * b + 5 * c + d) % 5 = d := by omega
  have h2 : (125 * a + 25 * b + 5 * c + d) / 5 = 25 * a + 5 * b + c := by omega
  have h3 : (125 * a + 25 * b + 5 * c + d) / 25 = 5 * a + b := by omega
  have h4 : (125 * a + 25 * b + 5 * c + d) / 125 = a := by omega
  have h5 : (25 * a + 5 * b + c) % 5 = c := by omega
  have h6 : (5 * a + b) % 5 = b := by omega
  rw [h1, h2, h3, h4, h5, h6]
  split_ifs <;> omega

set_option maxHeartbeats 1000000 in
theorem index_fill_1000_spec (val : Nat → Nat) :
    ∀ (steps i a b c d : Nat) (idx : List Nat),
      i = 125 * a + 25 * b + 5 * c + d → b < 5 → c < 5 → d < 5 →
      i + steps ≤ 999 → 1000 ≤ idx.length →
      ∃ a' b' c' d' idx', i + steps = 125 * a' + 25 * b' + 5 * c' + d' ∧ b' < 5 ∧ c' < 5 ∧ d' < 5 ∧
        index_fill_1000 val steps i
            (4 - b, 4 - c, 4 - d, a, 4 * a + b, 20 * a + 4 * b + c, 100 * a + 20 * b + 4 * c + d, idx)
          = (4 - b', 4 - c', 4 - d', a', 4 * a' + b', 20 * a' + 4 * b' + c',
              100 * a' + 20 * b' + 4 * c' + d', idx') ∧
        idx'.length = idx.length ∧
        (∀ j, i ≤ j → j < i + steps → idx'.getD (slot_1000 j) 0 = val j) ∧
        (∀ k, (∀ j, i ≤ j → j < i + steps → slot_1000 j ≠ k) → idx'.getD k 0 = idx.getD k 0) := by
  intro steps
  induction steps with
  | zero =>
    intro i a b c d idx hi hb hc hd _ _
    exact ⟨a, b, c, d, idx, hi, hb, hc, hd, rfl, rfl, fun j a b => by omega, fun k _ => rfl⟩
  | succ n ih =>
    intro i a b c d idx hi hb hc hd hn hl
    have key : ∀ (r1 r2 r3 i0 i1 i2 i3 s a1 b1 c1 d1 : Nat),
        i + 1 = 125 * a1 + 25 * b1 + 5 * c1 + d1 → b1 < 5 → c1 < 5 → d1 < 5 →
        r1 = 4 - b1 → r2 = 4 - c1 → r3 = 4 - d1 → i0 = a1 → i1 = 4 * a1 + b1 →
        i2 = 20 * a1 + 4 * b1 + c1 → i3 = 100 * a1 + 20 * b1 + 4 * c1 + d1 → s = slot_1000 i →
        ∃ a' b' c' d' idx', i + (n + 1) = 125 * a' + 25 * b' + 5 * c' + d' ∧ b' < 5 ∧ c' < 5 ∧ d' < 5 ∧
          index_fill_1000 val n (i + 1) (r1, r2, r3, i0, i1, i2, i3, idx.set s (val i))
          = (4 - b', 4 - c', 4 - d', a', 4 * a' + b', 20 * a' + 4 * b' + c',
              100 * a' + 20 * b' + 4 * c' + d', idx') ∧
        idx'.length = idx.length ∧
        (∀ j, i ≤ j → j < i + (n + 1) → idx'.getD (slot_1000 j) 0 = val j) ∧
        (∀ k, (∀ j, i ≤ j → j < i + (n + 1) → slot_1000 j ≠ k) → idx'.getD k 0 = idx.getD k 0) := by
      intro r1 r2 r3 i0 i1 i2 i3 s a1 b1 c1 d1 g1 g2 g3 g4 q1 q2 q3 q4 q5 q6 q7 gs
      rw [q1, q2, q3, q4, q5, q6, q7]
      obtain ⟨a', b', c', d', idx', e0, eb, ec, ed, e1, e2, e3, e4⟩ :=
        ih (i + 1) a1 b1 c1 d1 (idx.set s (val i)) g1 g2 g3 g4 (by omega) (by simpa using hl)
      have hsl : slot_1000 i < idx.length := by
        have := slot_1000_lt i (by omega)
        omega
      refine ⟨a', b', c', d', idx', by omega, eb, ec, ed, e1, by simpa using e2, ?_, ?_⟩
      · intro j hj1 hj2
        rcases Nat.eq_or_lt_of_le hj1 with hij | hij
        · subst hij
          rw [e4 (slot_1000 i) (fun j a b c => by
            have h1 := pos_slot_1000 j (by omega)
            have h2 := pos_slot_1000 i (by omega)
            rw [c] at h1; omega), gs, getD_set]
          simp [hsl]
        · exact e3 j (by omega) (by omega)
      · intro k hk
        rw [e4 k (fun j a b => hk j (by omega) (by omega)), gs, getD_set]
        have := hk i (le_refl _) (by omega)
        simp [this]
    have hs := slot_1000_digits i a b c d hi hb hc hd
    simp only [index_fill_1000]
    split_ifs with c1 c2 c3
    · exact key _ _ _ _ _ _ _ _ a b c (d + 1) (by omega) (by omega) (by omega) (by omega)
        (by omega) (by omega) (by omega) (by omega) (by omega) (by omega) (by omega)
        (by rw [hs, if_pos (by omega)])
    · exact key _ _ _ _ _ _ _ _ a b (c + 1) 0 (by omega) (by omega) (by omega) (by omega)
        (by omega) (by omega) (by omega) (by omega) (by omega) (by omega) (by omega)
        (by rw [hs, if_neg (by omega), if_pos (by omega)])
    · exact key _ _ _ _ _ _ _ _ a (b + 1) 0 0 (by omega) (by omega) (by omega) (by omega)
        (by omega) (by omega) (by omega) (by omega) (by omega) (by omega) (by omega)
        (by rw [hs, if_neg (by omega), if_neg (by omega), if_pos (by omega)])
    · exact key _ _ _ _ _ _ _ _ (a + 1) 0 0 0 (by omega) (by omega) (by omega) (by omega)
        (by omega) (by omega) (by omega) (by omega) (by omega) (by omega) (by omega)
        (by rw [hs, if_neg (by omega), if_neg (by omega), if_neg (by omega)])

theorem pos_slot_1800 (i : Nat) (hi : i < 1799) : pos_1800 (slot_1800 i) = i := by
  unfold slot_1800 pos_1800
  split_ifs <;> omega

theorem slot_1800_lt (i : Nat) (hi : i < 1799) : slot_1800 i < 1800 := by
  unfold slot_1800
  split_ifs <;> omega

theorem slot_1800_digits (i a b c d e : Nat) :
    i = 225 * a + 75 * b + 25 * c + 5 * d + e → b < 3 → c < 3 → d < 5 → e < 5 →
    slot_1800 i = (if e ≠ 4 then 360 + (180 * a + 60 * b + 20 * c + 4 * d + e)
        else if d ≠ 4 then 72 + (36 * a + 12 * b + 4 * c + d)
        else if c ≠ 2 then 24 + (6 * a + 2 * b + c) else if b ≠ 2 then 8 + (2 * a + b) else a) := by
  intro hi hb hc hd he
  subst hi
  unfold slot_1800
  have h1 : (225 * a + 75 * b + 25 * c + 5 * d + e) % 5 = e := by omega
  have h2 : (225 * a + 75 * b + 25 * c + 5 * d + e) / 5 = 45 * a + 15 * b + 5 * c + d := by omega
  have h3 : (225 * a + 75 * b + 25 * c + 5 * d + e) / 25 = 9 * a + 3 * b + c := by omega
  have h4 : (225 * a + 75 * b + 25 * c + 5 * d + e) / 75 = 3 * a + b := by omega
  have h5 : (225 * a + 75 * b + 25 * c + 5 * d + e) / 225 = a := by omega
  have h6 : (45 * a + 15 * b + 5 * c + d) % 5 = d := by omega
  have h7 : (9 * a + 3 * b + c) % 3 = c := by omega
  have h8 : (3 * a + b) % 3 = b := by omega
  rw [h1, h2, h3, h4, h5, h6, h7, h8]
  split_ifs <;> omega

set_option maxHeartbeats 1000000 in
theorem index_fill_1800_spec (val : Nat → Nat) :
    ∀ (steps i a b c d e : Nat) (idx : List Nat),
      i = 225 * a + 75 * b + 25 * c + 5 * d + e → b < 3 → c < 3 → d < 5 → e < 5 →
      i + steps ≤ 1799 → 1800 ≤ idx.length →
      ∃ a' b' c' d' e' idx', i + steps = 225 * a' + 75 * b' + 25 * c' + 5 * d' + e' ∧
        b' < 3 ∧ c' < 3 ∧ d' < 5 ∧ e' < 5 ∧
        index_fill_1800 val steps i
            (2 - b, 2 - c, 4 - d, 4 - e, a, 2 * a + b, 6 * a + 2 * b + c,
              36 * a + 12 * b + 4 * c + d, 180 * a + 60 * b + 20 * c + 4 * d + e, idx)
          = (2 - b', 2 - c', 4 - d', 4 - e', a', 2 * a' + b', 6 * a' + 2 * b' + c',
              36 * a' + 12 * b' + 4 * c' + d', 180 * a' + 60 * b' + 20 * c' + 4 * d' + e', idx') ∧
        idx'.length = idx.length ∧
        (∀ j, i ≤ j → j < i + steps → idx'.getD (slot_1800 j) 0 = val j) ∧
        (∀ k, (∀ j, i ≤ j → j < i + steps → slot_1800 j ≠ k) → idx'.getD k 0 = idx.getD k 0) := by
  intro steps
  induction steps with
  | zero =>
    intro i a b c d e idx hi hb hc hd he _ _
    exact ⟨a, b, c, d, e, idx, hi, hb, hc, hd, he, rfl, rfl, fun j a b => by omega, fun k _ => rfl⟩
  | succ n ih =>
    intro i a b c d e idx hi hb hc hd he hn hl
    have key : ∀ (r1 r2 r3 r4 i0 i1 i2 i3 i4 s a1 b1 c1 d1 e1 : Nat),
        i + 1 = 225 * a1 + 75 * b1 + 25 * c1 + 5 * d1 + e1 → b1 < 3 → c1 < 3 → d1 < 5 → e1 < 5 →
        r1 = 2 - b1 → r2 = 2 - c1 → r3 = 4 - d1 → r4 = 4 - e1 → i0 = a1 → i1 = 2 * a1 + b1 →
        i2 = 6 * a1 + 2 * b1 + c1 → i3 = 36 * a1 + 12 * b1 + 4 * c1 + d1 →
        i4 = 180 * a1 + 60 * b1 + 20 * c1 + 4 * d1 + e1 → s = slot_1800 i →
        ∃ a' b' c' d' e' idx', i + (n + 1) = 225 * a' + 75 * b' + 25 * c' + 5 * d' + e' ∧
          b' < 3 ∧ c' < 3 ∧ d' < 5 ∧ e' < 5 ∧
          index_fill_1800 val n (i + 1) (r1, r2, r3, r4, i0, i1, i2, i3, i4, idx.set s (val i))
          = (2 - b', 2 - c', 4 - d', 4 - e', a', 2 * a' + b', 6 * a' + 2 * b' + c',
              36 * a' + 12 * b' + 4 * c' + d', 180 * a' + 60 * b' + 20 * c' + 4 * d' + e', idx') ∧
        idx'.length = idx.length ∧
        (∀ j, i ≤ j → j < i + (n + 1) → idx'.getD (slot_1800 j) 0 = val j) ∧
        (∀ k, (∀ j, i ≤ j → j < i + (n + 1) → slot_1800 j ≠ k) → idx'.getD k 0 = idx.getD k 0) := by
      intro r1 r2 r3 r4 i0 i1 i2 i3 i4 s a1 b1 c1 d1 e1 g1 g2 g3 g4 g5 q1 q2 q3 q4 q5 q6 q7 q8 q9 gs
      rw [q1, q2, q3, q4, q5, q6, q7, q8, q9]
      obtain ⟨a', b', c', d', e', idx', e0, eb, ec, ed, ee, e1, e2, e3, e4⟩ :=
        ih (i + 1) a1 b1 c1 d1 e1 (idx.set s (val i)) g1 g2 g3 g4 g5 (by omega) (by simpa using hl)
      have hsl : slot_1800 i < idx.length := by
        have := slot_1800_lt i (by omega)
        omega
      refine ⟨a', b', c', d', e', idx', by omega, eb, ec, ed, ee, e1, by simpa using e2, ?_, ?_⟩
      · intro j hj1 hj2
        rcases Nat.eq_or_lt_of_le hj1 with hij | hij
        · subst hij
          rw [e4 (slot_1800 i) (fun j a b c => by
            have h1 := pos_slot_1800 j (by omega)
            have h2 := pos_slot_1800 i (by omega)
            rw [c] at h1; omega), gs, getD_set]
          simp [hsl]
        · exact e3 j (by omega) (by omega)
      · intro k hk
        rw [e4 k (fun j a b => hk j (by omega) (by omega)), gs, getD_set]
        have := hk i (le_refl _) (by omega)
        simp [this]
    have hs := slot_1800_digits i a b c d e hi hb hc hd he
    simp only [index_fill_1800]
    split_ifs with c1 c2 c3 c4
    · exact key _ _ _ _ _ _ _ _ _ _ a b c d (e + 1) (by omega) (by omega) (by omega) (by omega)
        (by omega) (by omega) (by omega) (by omega) (by omega) (by omega) (by omega) (by omega)
        (by omega) (by omega) (by rw [hs, if_pos (by omega)])
    · exact key _ _ _ _ _ _ _ _ _ _ a b c (d + 1) 0 (by omega) (by omega) (by omega) (by omega)
        (by omega) (by omega) (by omega) (by omega) (by omega) (by omega) (by omega) (by omega)
        (by omega) (by omega) (by rw [hs, if_neg (by omega), if_pos (by omega)])
    · exact key _ _ _ _ _ _ _ _ _ _ a b (c + 1) 0 0 (by omega) (by omega) (by omega) (by omega)
        (by omega) (by omega) (by omega) (by omega) (by omega) (by omega) (by omega) (by omega)
        (by omega) (by omega)
        (by rw [hs, if_neg (by omega), if_neg (by omega), if_pos (by omega)])
    · exact key _ _ _ _ _ _ _ _ _ _ a (b + 1) 0 0 0 (by omega) (by omega) (by omega) (by omega)
        (by omega) (by omega) (by omega) (by omega) (by omega) (by omega) (by omega) (by omega)
        (by omega) (by omega)
        (by rw [hs, if_neg (by omega), if_neg (by omega), if_neg (by omega),
          if_pos (by omega)])
    · exact key _ _ _ _ _ _ _ _ _ _ (a + 1) 0 0 0 0 (by omega) (by omega) (by omega) (by omega)
        (by omega) (by omega) (by omega) (by omega) (by omega) (by omega) (by omega) (by omega)
        (by omega) (by omega)
        (by rw [hs, if_neg (by omega), if_neg (by omega), if_neg (by omega),
          if_neg (by omega)])
theorem slot_360_L0 (r : Nat) : slot_360 (45 * r + 44) = r := by
  unfold slot_360
  split_ifs <;> omega

theorem slot_360_L1_0 (m : Nat) : slot_360 (45 * m + 14) = 8 + 2 * m := by
  unfold slot_360
  split_ifs <;> omega

theorem slot_360_L1_1 (m : Nat) : slot_360 (45 * m + 29) = 8 + 2 * m + 1 := by
  unfold slot_360
  split_ifs <;> omega

theorem slot_360_L2_0 (m : Nat) : slot_360 (15 * m + 4) = 24 + 2 * m := by
  unfold slot_360
  split_ifs <;> omega

theorem slot_360_L2_1 (m : Nat) : slot_360 (15 * m + 9) = 24 + 2 * m + 1 := by
  unfold slot_360
  split_ifs <;> omega

theorem slot_360_L3_0 (m : Nat) : slot_360 (5 * m + 0) = 72 + 4 * m := by
  unfold slot_360
  split_ifs <;> omega

theorem slot_360_L3_1 (m : Nat) : slot_360 (5 * m + 1) = 72 + 4 * m + 1 := by
  unfold slot_360
  split_ifs <;> omega

theorem slot_360_L3_2 (m : Nat) : slot_360 (5 * m + 2) = 72 + 4 * m + 2 := by
  unfold slot_360
  split_ifs <;> omega

theorem slot_360_L3_3 (m : Nat) : slot_360 (5 * m + 3) = 72 + 4 * m + 3 := by
  unfold slot_360
  split_ifs <;> omega

theorem root_360 (idx delim : List Nat) (x ρ : Nat) (hlen : delim.length = 359)
    (hsgt : ∀ j, j < delim.length → sgt x (delim_biased delim j) = decide (j < ρ))
    (hidx : ∀ j, j < 359 → idx.getD (slot_360 j) 0 = delim_biased delim j) (hρ : ρ ≤ 359) :
    root_tag (idx.getD 0 0) (idx.getD 1 0) (idx.getD 2 0) (idx.getD 3 0) (idx.getD 4 0)
      (idx.getD 5 0) (idx.getD 6 0) x = ρ / 45 := by
  have e := fun r (h : r < 7) => hidx (45 * r + 44) (by omega)
  simp only [slot_360_L0] at e
  rw [e 0 (by omega), e 1 (by omega), e 2 (by omega), e 3 (by omega), e 4 (by omega), e 5 (by omega), e 6 (by omega),
    root_tag_rank delim x ρ _ _ _ _ _ _ _ hsgt (by omega) (by omega) (by omega) (by omega)
      (by omega) (by omega) (by omega)]
  split_ifs <;> omega

theorem walk_360 (idx delim : List Nat) (x ρ : Nat) (hlen : delim.length = 359)
    (hsgt : ∀ j, j < delim.length → sgt x (delim_biased delim j) = decide (j < ρ))
    (hidx : ∀ j, j < 359 → idx.getD (slot_360 j) 0 = delim_biased delim j) (hρ : ρ ≤ 359) :
    tree_level_5 idx 72 (mk64 x x) (tree_level_3 idx 24 (mk64 x x) (tree_level_3 idx 8 (mk64 x x) (ρ / 45))) = ρ := by
  have a10 := hidx (45 * (ρ / 45) + 14) (by omega)
  rw [slot_360_L1_0] at a10
  have a11 := hidx (45 * (ρ / 45) + 29) (by omega)
  rw [slot_360_L1_1] at a11
  have l1 : tree_level_3 idx 8 (mk64 x x) (ρ / 45) = ρ / 15 := by
    rw [tree_level_3_rank idx delim 8 x (ρ / 45) ρ _ _ (by omega) hsgt
      a10 a11 (by omega) (by omega)]
    split_ifs <;> omega
  rw [l1]
  have a20 := hidx (15 * (ρ / 15) + 4) (by omega)
  rw [slot_360_L2_0] at a20
  have a21 := hidx (15 * (ρ / 15) + 9) (by omega)
  rw [slot_360_L2_1] at a21
  have l2 : tree_level_3 idx 24 (mk64 x x) (ρ / 15) = ρ / 5 := by
    rw [tree_level_3_rank idx delim 24 x (ρ / 15) ρ _ _ (by omega) hsgt
      a20 a21 (by omega) (by omega)]
    split_ifs <;> omega
  rw [l2]
  have a30 := hidx (5 * (ρ / 5) + 0) (by omega)
  rw [slot_360_L3_0] at a30
  have a31 := hidx (5 * (ρ / 5) + 1) (by omega)
  rw [slot_360_L3_1] at a31
  have a32 := hidx (5 * (ρ / 5) + 2) (by omega)
  rw [slot_360_L3_2] at a32
  have a33 := hidx (5 * (ρ / 5) + 3) (by omega)
  rw [slot_360_L3_3] at a33
  have l3 : tree_level_5 idx 72 (mk64 x x) (ρ / 5) = ρ := by
    rw [tree_level_5_rank idx delim 72 x (ρ / 5) ρ _ _ _ _ (by omega) hsgt
      a30 a31 a32 a33 (by omega) (by omega) (by omega) (by omega)]
    split_ifs <;> omega
  rw [l3]

theorem slot_1000_L0 (r : Nat) : slot_1000 (125 * r + 124) = r := by
  unfold slot_1000
  split_ifs <;> omega

theorem slot_1000_L1_0 (m : Nat) : slot_1000 (125 * m + 24) = 8 + 4 * m := by
  unfold slot_1000
  split_ifs <;> omega

theorem slot_1000_L1_1 (m : Nat) : slot_1000 (125 * m + 49) = 8 + 4 * m + 1 := by
  unfold slot_1000
  split_ifs <;> omega

theorem slot_1000_L1_2 (m : Nat) : slot_1000 (125 * m + 74) = 8 + 4 * m + 2 := by
  unfold slot_1000
  split_ifs <;> omega

theorem slot_1000_L1_3 (m : Nat) : slot_1000 (125 * m + 99) = 8 + 4 * m + 3 := by
  unfold slot_1000
  split_ifs <;> omega

theorem slot_1000_L2_0 (m : Nat) : slot_1000 (25 * m + 4) = 40 + 4 * m := by
  unfold slot_1000
  split_ifs <;> omega

theorem slot_1000_L2_1 (m : Nat) : slot_1000 (25 * m + 9) = 40 + 4 * m + 1 := by
  unfold slot_1000
  split_ifs <;> omega

theorem slot_1000_L2_2 (m : Nat) : slot_1000 (25 * m + 14) = 40 + 4 * m + 2 := by
  unfold slot_1000
  split_ifs <;> omega

theorem slot_1000_L2_3 (m : Nat) : slot_1000 (25 * m + 19) = 40 + 4 * m + 3 := by
  unfold slot_1000
  split_ifs <;> omega

theorem slot_1000_L3_0 (m : Nat) : slot_1000 (5 * m + 0) = 200 + 4 * m := by
  unfold slot_1000
  split_ifs <;> omega

theorem slot_1000_L3_1 (m : Nat) : slot_1000 (5 * m + 1) = 200 + 4 * m + 1 := by
  unfold slot_1000
  split_ifs <;> omega

theorem slot_1000_L3_2 (m : Nat) : slot_1000 (5 * m + 2) = 200 + 4 * m + 2 := by
  unfold slot_1000
  split_ifs <;> omega

theorem slot_1000_L3_3 (m : Nat) : slot_1000 (5 * m + 3) = 200 + 4 * m + 3 := by
  unfold slot_1000
  split_ifs <;> omega

theorem root_1000 (idx delim : List Nat) (x ρ : Nat) (hlen : delim.length = 999)
    (hsgt : ∀ j, j < delim.length → sgt x (delim_biased delim j) = decide (j < ρ))
    (hidx : ∀ j, j < 999 → idx.getD (slot_1000 j) 0 = delim_biased delim j) (hρ : ρ ≤ 999) :
    root_tag (idx.getD 0 0) (idx.getD 1 0) (idx.getD 2 0) (idx.getD 3 0) (idx.getD 4 0)
      (idx.getD 5 0) (idx.getD 6 0) x = ρ / 125 := by
  have e := fun r (h : r < 7) => hidx (125 * r + 124) (by omega)
  simp only [slot_1000_L0] at e
  rw [e 0 (by omega), e 1 (by omega), e 2 (by omega), e 3 (by omega), e 4 (by omega), e 5 (by omega), e 6 (by omega),
    root_tag_rank delim x ρ _ _ _ _ _ _ _ hsgt (by omega) (by omega) (by omega) (by omega)
      (by omega) (by omega) (by omega)]
  split_ifs <;> omega

theorem walk_1000 (idx delim : List Nat) (x ρ : Nat) (hlen : delim.length = 999)
    (hsgt : ∀ j, j < delim.length → sgt x (delim_biased delim j) = decide (j < ρ))
    (hidx : ∀ j, j < 999 → idx.getD (slot_1000 j) 0 = delim_biased delim j) (hρ : ρ ≤ 999) :
    tree_level_5 idx 200 (mk64 x x) (tree_level_5 idx 40 (mk64 x x) (tree_level_5 idx 8 (mk64 x x) (ρ / 125))) = ρ := by
  have a10 := hidx (125 * (ρ / 125) + 24) (by omega)
  rw [slot_1000_L1_0] at a10
  have a11 := hidx (125 * (ρ / 125) + 49) (by omega)
  rw [slot_1000_L1_1] at a11
  have a12 := hidx (125 * (ρ / 125) + 74) (by omega)
  rw [slot_1000_L1_2] at a12
  have a13 := hidx (125 * (ρ / 125) + 99) (by omega)
  rw [slot_1000_L1_3] at a13
  have l1 : tree_level_5 idx 8 (mk64 x x) (ρ / 125) = ρ / 25 := by
    rw [tree_level_5_rank idx delim 8 x (ρ / 125) ρ _ _ _ _ (by omega) hsgt
      a10 a11 a12 a13 (by omega) (by omega) (by omega) (by omega)]
    split_ifs <;> omega
  rw [l1]
  have a20 := hidx (25 * (ρ / 25) + 4) (by omega)
  rw [slot_1000_L2_0] at a20
  have a21 := hidx (25 * (ρ / 25) + 9) (by omega)
  rw [slot_1000_L2_1] at a21
  have a22 := hidx (25 * (ρ / 25) + 14) (by omega)
  rw [slot_1000_L2_2] at a22
  have a23 := hidx (25 * (ρ / 25) + 19) (by omega)
  rw [slot_1000_L2_3] at a23
  have l2 : tree_level_5 idx 40 (mk64 x x) (ρ / 25) = ρ / 5 := by
    rw [tree_level_5_rank idx delim 40 x (ρ / 25) ρ _ _ _ _ (by omega) hsgt
      a20 a21 a22 a23 (by omega) (by omega) (by omega) (by omega)]
    split_ifs <;> omega
  rw [l2]
  have a30 := hidx (5 * (ρ / 5) + 0) (by omega)
  rw [slot_1000_L3_0] at a30
  have a31 := hidx (5 * (ρ / 5) + 1) (by omega)
  rw [slot_1000_L3_1] at a31
  have a32 := hidx (5 * (ρ / 5) + 2) (by omega)
  rw [slot_1000_L3_2] at a32
  have a33 := hidx (5 * (ρ / 5) + 3) (by omega)
  rw [slot_1000_L3_3] at a33
  have l3 : tree_level_5 idx 200 (mk64 x x) (ρ / 5) = ρ := by
    rw [tree_level_5_rank idx delim 200 x (ρ / 5) ρ _ _ _ _ (by omega) hsgt
      a30 a31 a32 a33 (by omega) (by omega) (by omega) (by omega)]
    split_ifs <;> omega
  rw [l3]

theorem slot_1800_L0 (r : Nat) : slot_1800 (225 * r + 224) = r := by
  unfold slot_1800
  split_ifs <;> omega

theorem slot_1800_L1_0 (m : Nat) : slot_1800 (225 * m + 74) = 8 + 2 * m := by
  unfold slot_1800
  split_ifs <;> omega

theorem slot_1800_L1_1 (m : Nat) : slot_1800 (225 * m + 149) = 8 + 2 * m + 1 := by
  unfold slot_1800
  split_ifs <;> omega

theorem slot_1800_L2_0 (m : Nat) : slot_1800 (75 * m + 24) = 24 + 2 * m := by
  unfold slot_1800
  split_ifs <;> omega

theorem slot_1800_L2_1 (m : Nat) : slot_1800 (75 * m + 49) = 24 + 2 * m + 1 := by
  unfold slot_1800
  split_ifs <;> omega

theorem slot_1800_L3_0 (m : Nat) : slot_1800 (25 * m + 4) = 72 + 4 * m := by
  unfold slot_1800
  split_ifs <;> omega

theorem slot_1800_L3_1 (m : Nat) : slot_1800 (25 * m + 9) = 72 + 4 * m + 1 := by
  unfold slot_1800
  split_ifs <;> omega

theorem slot_1800_L3_2 (m : Nat) : slot_1800 (25 * m + 14) = 72 + 4 * m + 2 := by
  unfold slot_1800
  split_ifs <;> omega

theorem slot_1800_L3_3 (m : Nat) : slot_1800 (25 * m + 19) = 72 + 4 * m + 3 := by
  unfold slot_1800
  split_ifs <;> omega

theorem slot_1800_L4_0 (m : Nat) : slot_1800 (5 * m + 0) = 360 + 4 * m := by
  unfold slot_1800
  split_ifs <;> omega

theorem slot_1800_L4_1 (m : Nat) : slot_1800 (5 * m + 1) = 360 + 4 * m + 1 := by
  unfold slot_1800
  split_ifs <;> omega

theorem slot_1800_L4_2 (m : Nat) : slot_1800 (5 * m + 2) = 360 + 4 * m + 2 := by
  unfold slot_1800
  split_ifs <;> omega

theorem slot_1800_L4_3 (m : Nat) : slot_1800 (5 * m + 3) = 360 + 4 * m + 3 := by
  unfold slot_1800
  split_ifs <;> omega

theorem root_1800 (idx delim : List Nat) (x ρ : Nat) (hlen : delim.length = 1799)
    (hsgt : ∀ j, j < delim.length → sgt x (delim_biased delim j) = decide (j < ρ))
    (hidx : ∀ j, j < 1799 → idx.getD (slot_1800 j) 0 = delim_biased delim j) (hρ : ρ ≤ 1799) :
    root_tag (idx.getD 0 0) (idx.getD 1 0) (idx.getD 2 0) (idx.getD 3 0) (idx.getD 4 0)
      (idx.getD 5 0) (idx.getD 6 0) x = ρ / 225 := by
  have e := fun r (h : r < 7) => hidx (225 * r + 224) (by omega)
  simp only [slot_1800_L0] at e
  rw [e 0 (by omega), e 1 (by omega), e 2 (by omega), e 3 (by omega), e 4 (by omega), e 5 (by omega), e 6 (by omega),
    root_tag_rank delim x ρ _ _ _ _ _ _ _ hsgt (by omega) (by omega) (by omega) (by omega)
      (by omega) (by omega) (by omega)]
  split_ifs <;> omega

theorem walk_1800 (idx delim : List Nat) (x ρ : Nat) (hlen : delim.length = 1799)
    (hsgt : ∀ j, j < delim.length → sgt x (delim_biased delim j) = decide (j < ρ))
    (hidx : ∀ j, j < 1799 → idx.getD (slot_1800 j) 0 = delim_biased delim j) (hρ : ρ ≤ 1799) :
    tree_level_5 idx 360 (mk64 x x) (tree_level_5 idx 72 (mk64 x x) (tree_level_3 idx 24 (mk64 x x) (tree_level_3 idx 8 (mk64 x x) (ρ / 225)))) = ρ := by
  have a10 := hidx (225 * (ρ / 225) + 74) (by omega)
  rw [slot_1800_L1_0] at a10
  have a11 := hidx (225 * (ρ / 225) + 149) (by omega)
  rw [slot_1800_L1_1] at a11
  have l1 : tree_level_3 idx 8 (mk64 x x) (ρ / 225) = ρ / 75 := by
    rw [tree_level_3_rank idx delim 8 x (ρ / 225) ρ _ _ (by omega) hsgt
      a10 a11 (by omega) (by omega)]
    split_ifs <;> omega
  rw [l1]
  have a20 := hidx (75 * (ρ / 75) + 24) (by omega)
  rw [slot_1800_L2_0] at a20
  have a21 := hidx (75 * (ρ / 75) + 49) (by omega)
  rw [slot_1800_L2_1] at a21
  have l2 : tree_level_3 idx 24 (mk64 x x) (ρ / 75) = ρ / 25 := by
    rw [tree_level_3_rank idx delim 24 x (ρ / 75) ρ _ _ (by omega) hsgt
      a20 a21 (by omega) (by omega)]
    split_ifs <;> omega
  rw [l2]
  have a30 := hidx (25 * (ρ / 25) + 4) (by omega)
  rw [slot_1800_L3_0] at a30
  have a31 := hidx (25 * (ρ / 25) + 9) (by omega)
  rw [slot_1800_L3_1] at a31
  have a32 := hidx (25 * (ρ / 25) + 14) (by omega)
  rw [slot_1800_L3_2] at a32
  have a33 := hidx (25 * (ρ / 25) + 19) (by omega)
  rw [slot_1800_L3_3] at a33
  have l3 : tree_level_5 idx 72 (mk64 x x) (ρ / 25) = ρ / 5 := by
    rw [tree_level_5_rank idx delim 72 x (ρ / 25) ρ _ _ _ _ (by omega) hsgt
      a30 a31 a32 a33 (by omega) (by omega) (by omega) (by omega)]
    split_ifs <;> omega
  rw [l3]
  have a40 := hidx (5 * (ρ / 5) + 0) (by omega)
  rw [slot_1800_L4_0] at a40
  have a41 := hidx (5 * (ρ / 5) + 1) (by omega)
  rw [slot_1800_L4_1] at a41
  have a42 := hidx (5 * (ρ / 5) + 2) (by omega)
  rw [slot_1800_L4_2] at a42
  have a43 := hidx (5 * (ρ / 5) + 3) (by omega)
  rw [slot_1800_L4_3] at a43
  have l4 : tree_level_5 idx 360 (mk64 x x) (ρ / 5) = ρ := by
    rw [tree_level_5_rank idx delim 360 x (ρ / 5) ρ _ _ _ _ (by omega) hsgt
      a40 a41 a42 a43 (by omega) (by omega) (by omega) (by omega)]
    split_ifs <;> omega
  rw [l4]
theorem tally_tags_succ (tag : Nat → Nat) (i rem : Nat) (count : List Nat) :
    tally_tags tag i (rem + 1) count = tally_tags tag (i + 1) rem (count_incr count (tag i)) := by
  simp only [tally_tags, List.range'_succ, List.foldl_cons]

theorem store_tags_succ (tag : Nat → Nat) (i rem : Nat) (ranges : List Nat) :
    store_tags tag i (rem + 1) ranges = store_tags tag (i + 1) rem (ranges.set i (tag i)) := by
  simp only [store_tags, List.range'_succ, List.foldl_cons]

theorem tally_tags_add (tag : Nat → Nat) (i a b : Nat) (count : List Nat) :
    tally_tags tag i (a + b) count = tally_tags tag (i + a) b (tally_tags tag i a count) := by
  induction a generalizing i count with
  | zero => simp [tally_tags]
  | succ a ih =>
    rw [show a + 1 + b = (a + b) + 1 by omega, tally_tags_succ, tally_tags_succ, ih,
      show i + 1 + a = i + (a + 1) by omega]

theorem store_tags_add (tag : Nat → Nat) (i a b : Nat) (ranges : List Nat) :
    store_tags tag i (a + b) ranges = store_tags tag (i + a) b (store_tags tag i a ranges) := by
  induction a generalizing i ranges with
  | zero => simp [store_tags]
  | succ a ih =>
    rw [show a + 1 + b = (a + b) + 1 by omega, store_tags_succ, store_tags_succ, ih,
      show i + 1 + a = i + (a + 1) by omega]

theorem rank_le (delim : List Nat) (key : Nat) : first_delimiter_ge delim key ≤ delim.length :=
  (first_delimiter_ge_spec delim key).1

theorem histogram_scalar_tail (delim keys : List Nat) (n rpos : Nat)
    (hs : List.Sorted (· ≤ ·) delim) (hn : delim.length = n) (hn16 : n < 2 ^ 16) :
    ∀ (rem i : Nat) (count ranges : List Nat),
      histogram_scalar delim n keys false rpos rem i count ranges
        = some (i + rem,
            tally_tags (fun j => first_delimiter_ge delim (keys.getD j 0)) i rem count,
            store_tags (fun j => first_delimiter_ge delim (keys.getD j 0)) i rem ranges) := by
  intro rem
  induction rem with
  | zero => intro i count ranges; simp [histogram_scalar, tally_tags, store_tags]
  | succ rem ih =>
    intro i count ranges
    have hb := binary_search_eq_rank delim (keys.getD i 0) hs (by omega)
    rw [hn] at hb
    have hr := rank_le delim (keys.getD i 0)
    simp only [histogram_scalar, Bool.false_eq_true, false_and, if_false, hb]
    rw [ih, tally_tags_succ, store_tags_succ, Nat.mod_eq_of_lt (show first_delimiter_ge delim (keys.getD i 0) < 2 ^ 16 by omega)]
    simp only [show i + 1 + rem = i + (rem + 1) by omega]

theorem and_7_ranges (x : Nat) : (7 &&& (2 * x) = 0) ↔ x % 4 = 0 := by
  rw [Nat.and_comm, show (7 : Nat) = 2 ^ 3 - 1 by norm_num, Nat.and_pow_two_sub_one_eq_mod]
  omega

theorem histogram_scalar_head (delim keys : List Nat) (n rpos : Nat)
    (hs : List.Sorted (· ≤ ·) delim) (hn : delim.length = n) (hn16 : n < 2 ^ 16) :
    ∀ (rem i : Nat) (count ranges : List Nat),
      histogram_scalar delim n keys true rpos rem i count ranges
        = some (i + min rem ((4 - (rpos + i) % 4) % 4),
            tally_tags (fun j => first_delimiter_ge delim (keys.getD j 0)) i
              (min rem ((4 - (rpos + i) % 4) % 4)) count,
            store_tags (fun j => first_delimiter_ge delim (keys.getD j 0)) i
              (min rem ((4 - (rpos + i) % 4) % 4)) ranges) := by
  intro rem
  induction rem with
  | zero => intro i count ranges; simp [histogram_scalar, tally_tags, store_tags]
  | succ rem ih =>
    intro i count ranges
    have hb := binary_search_eq_rank delim (keys.getD i 0) hs (by omega)
    rw [hn] at hb
    have hr := rank_le delim (keys.getD i 0)
    simp only [histogram_scalar, true_and, and_7_ranges]
    by_cases ha : (rpos + i) % 4 = 0
    · have e : min (rem + 1) ((4 - (rpos + i) % 4) % 4) = 0 := by
        rw [ha]; simp
      rw [if_pos ha, e]
      simp [tally_tags, store_tags]
    · have e : min (rem + 1) ((4 - (rpos + i) % 4) % 4)
          = min rem ((4 - (rpos + (i + 1)) % 4) % 4) + 1 := by
        have h4 : (rpos + i) % 4 = 1 ∨ (rpos + i) % 4 = 2 ∨ (rpos + i) % 4 = 3 := by omega
        rcases h4 with h4 | h4 | h4
        · rw [h4, show (rpos + (i + 1)) % 4 = 2 by omega]
          simp only [show (4 - 1) % 4 = 3 by norm_num, show (4 - 2) % 4 = 2 by norm_num]
          rw [Nat.min_def, Nat.min_def]; split_ifs <;> omega
        · rw [h4, show (rpos + (i + 1)) % 4 = 3 by omega]
          simp only [show (4 - 3) % 4 = 1 by norm_num, show (4 - 2) % 4 = 2 by norm_num]
          rw [Nat.min_def, Nat.min_def]; split_ifs <;> omega
        · rw [h4, show (rpos + (i + 1)) % 4 = 0 by omega]
          simp only [show (4 - 3) % 4 = 1 by norm_num, show (4 - 0) % 4 = 0 by norm_num]
          rw [Nat.min_def, Nat.min_def]; split_ifs <;> omega
      rw [if_neg ha, e]
      simp only [hb]
      rw [ih, tally_tags_succ, store_tags_succ, Nat.mod_eq_of_lt (show first_delimiter_ge delim (keys.getD i 0) < 2 ^ 16 by omega)]
      generalize min rem ((4 - (rpos + (i + 1)) % 4) % 4) = m
      rw [show i + 1 + m = i + (m + 1) by omega]
theorem shuffle_lo_x2 (a b : Nat) : _mm_shuffle_epi32 (mk64 a b) (MM_SHUFFLE 1 0 1 0) = mk64 a a := rfl

theorem shuffle_hi_x2 (a b : Nat) : _mm_shuffle_epi32 (mk64 a b) (MM_SHUFFLE 3 2 3 2) = mk64 b b := rfl

theorem stream_ranges_tags (ranges : List Nat) (ri p1 p2 p3 p4 : Nat) (h1 : p1 < 2 ^ 16)
    (h2 : p2 < 2 ^ 16) (h3 : p3 < 2 ^ 16) (h4 : p4 < 2 ^ 16) :
    stream_ranges ranges ri
        (p1 ||| (p2 <<< 16) % 2 ^ 64 ||| (p3 <<< 32) % 2 ^ 64 ||| (p4 <<< 48) % 2 ^ 64)
      = (((ranges.set ri p1).set (ri + 1) p2).set (ri + 2) p3).set (ri + 3) p4 := by
  have e2 : (p2 <<< 16) % 2 ^ 64 = 2 ^ 16 * p2 := by
    rw [Nat.shiftLeft_eq]; omega
  have e3 : (p3 <<< 32) % 2 ^ 64 = 2 ^ 32 * p3 := by
    rw [Nat.shiftLeft_eq]; omega
  have e4 : (p4 <<< 48) % 2 ^ 64 = 2 ^ 48 * p4 := by
    rw [Nat.shiftLeft_eq]; omega
  have o2 : p1 ||| 2 ^ 16 * p2 = 2 ^ 16 * p2 + p1 := by
    rw [Nat.lor_comm, Nat.mul_add_lt_is_or h1]
  have o3 : 2 ^ 16 * p2 + p1 ||| 2 ^ 32 * p3 = 2 ^ 32 * p3 + (2 ^ 16 * p2 + p1) := by
    rw [Nat.lor_comm]
    exact (Nat.mul_add_lt_is_or (show 2 ^ 16 * p2 + p1 < 2 ^ 32 by omega) p3).symm
  have o4 : 2 ^ 32 * p3 + (2 ^ 16 * p2 + p1) ||| 2 ^ 48 * p4
      = 2 ^ 48 * p4 + (2 ^ 32 * p3 + (2 ^ 16 * p2 + p1)) := by
    rw [Nat.lor_comm]
    exact (Nat.mul_add_lt_is_or (show 2 ^ 32 * p3 + (2 ^ 16 * p2 + p1) < 2 ^ 48 by omega) p4).symm
  rw [e2, e3, e4, o2, o3, o4]
  simp only [stream_ranges]
  rw [show (2 ^ 48 * p4 + (2 ^ 32 * p3 + (2 ^ 16 * p2 + p1))) % 2 ^ 16 = p1 by omega,
    show (2 ^ 48 * p4 + (2 ^ 32 * p3 + (2 ^ 16 * p2 + p1))) / 2 ^ 16 % 2 ^ 16 = p2 by omega,
    show (2 ^ 48 * p4 + (2 ^ 32 * p3 + (2 ^ 16 * p2 + p1))) / 2 ^ 32 % 2 ^ 16 = p3 by omega,
    show (2 ^ 48 * p4 + (2 ^ 32 * p3 + (2 ^ 16 * p2 + p1))) / 2 ^ 48 % 2 ^ 16 = p4 by omega]

theorem movd_shuffle (t1 t2 t3 t4 : Nat) :
    movd ⟨t1, t2, t3, t4⟩ = t1 ∧ movd (_mm_shuffle_epi32 ⟨t1, t2, t3, t4⟩ 1) = t2 ∧
    movd (_mm_shuffle_epi32 ⟨t1, t2, t3, t4⟩ 2) = t3 ∧
    movd (_mm_shuffle_epi32 ⟨t1, t2, t3, t4⟩ 3) = t4 := ⟨rfl, rfl, rfl, rfl⟩

theorem histogram_part_eq (walk : M128 → Nat → Nat) (y1 y2 y3 y4 t1 t2 t3 t4 : Nat)
    (count ranges : List Nat) (ri : Nat)
    (h1 : walk (mk64 y1 y1) t1 < 2 ^ 16) (h2 : walk (mk64 y2 y2) t2 < 2 ^ 16)
    (h3 : walk (mk64 y3 y3) t3 < 2 ^ 16) (h4 : walk (mk64 y4 y4) t4 < 2 ^ 16) :
    histogram_part walk (mk64 y1 y2) (mk64 y3 y4) ⟨t1, t2, t3, t4⟩ count ranges ri
      = (count_incr (count_incr (count_incr (count_incr count (walk (mk64 y1 y1) t1))
            (walk (mk64 y2 y2) t2)) (walk (mk64 y3 y3) t3)) (walk (mk64 y4 y4) t4),
         (((ranges.set ri (walk (mk64 y1 y1) t1)).set (ri + 1) (walk (mk64 y2 y2) t2)).set (ri + 2)
            (walk (mk64 y3 y3) t3)).set (ri + 3) (walk (mk64 y4 y4) t4)) := by
  simp only [histogram_part, shuffle_lo_x2, shuffle_hi_x2, (movd_shuffle t1 t2 t3 t4).1,
    (movd_shuffle t1 t2 t3 t4).2.1, (movd_shuffle t1 t2 t3 t4).2.2.1, (movd_shuffle t1 t2 t3 t4).2.2.2]
  rw [stream_ranges_tags _ _ _ _ _ _ h1 h2 h3 h4]

theorem root_tag_le (D1 D2 D3 D4 D5 D6 D7 x : Nat) : root_tag D1 D2 D3 D4 D5 D6 D7 x ≤ 7 := by
  unfold root_tag
  have h := fun b : Bool => Bool.toNat_le b
  have a := h (sgt x D4)
  have b := h (sgt x (if sgt x D4 = true then D6 else D2))
  have c := h (sgt x (if sgt x (if sgt x D4 = true then D6 else D2) = true
    then (if sgt x D4 = true then D7 else D3) else (if sgt x D4 = true then D5 else D1)))
  simp only
  omega

theorem cvt_root (a b c d e f g h : Nat) (ha : a ≤ 7) (hb : b ≤ 7) (hc : c ≤ 7) (hd : d ≤ 7) :
    _mm_cvtepi16_epi32 ⟨a + 2 ^ 16 * b, c + 2 ^ 16 * d, e + 2 ^ 16 * f, g + 2 ^ 16 * h⟩
      = ⟨a, b, c, d⟩ := by
  simp only [_mm_cvtepi16_epi32, sext16]
  rw [show (a + 2 ^ 16 * b) % 2 ^ 16 = a by omega, show (a + 2 ^ 16 * b) / 2 ^ 16 % 2 ^ 16 = b by omega,
    show (c + 2 ^ 16 * d) % 2 ^ 16 = c by omega, show (c + 2 ^ 16 * d) / 2 ^ 16 % 2 ^ 16 = d by omega,
    if_pos (by omega), if_pos (by omega), if_pos (by omega), if_pos (by omega)]

theorem tally_tags_4 (tag : Nat → Nat) (i : Nat) (count : List Nat) :
    tally_tags tag i 4 count
      = count_incr (count_incr (count_incr (count_incr count (tag i)) (tag (i + 1))) (tag (i + 2)))
          (tag (i + 3)) := by
  simp [tally_tags, List.range'_succ]

theorem store_tags_4 (tag : Nat → Nat) (i : Nat) (ranges : List Nat) :
    store_tags tag i 4 ranges
      = (((ranges.set i (tag i)).set (i + 1) (tag (i + 1))).set (i + 2) (tag (i + 2))).set (i + 3)
          (tag (i + 3)) := by
  simp [store_tags, List.range'_succ]

/-- The loop over groups of eight keys tags and counts as the scalar loop
does, when the walk of every key ends at its rank. -/
theorem histogram_groups_eq (walk : M128 → Nat → Nat) (idx keys delim : List Nat)
    (hk : ∀ k ∈ keys, k < 2 ^ 64) (hn : delim.length < 2 ^ 16)
    (hw : ∀ key, key < 2 ^ 64 →
      walk (mk64 ((key + 2 ^ 63) % 2 ^ 64) ((key + 2 ^ 63) % 2 ^ 64))
        (root_tag (idx.getD 0 0) (idx.getD 1 0) (idx.getD 2 0) (idx.getD 3 0) (idx.getD 4 0)
          (idx.getD 5 0) (idx.getD 6 0) ((key + 2 ^ 63) % 2 ^ 64))
        = first_delimiter_ge delim key) :
    ∀ (g i : Nat) (count ranges : List Nat),
      histogram_groups (histogram_part walk) idx keys g i count ranges
        = (tally_tags (fun j => first_delimiter_ge delim (keys.getD j 0)) i (8 * g) count,
           store_tags (fun j => first_delimiter_ge delim (keys.getD j 0)) i (8 * g) ranges) := by
  intro g
  induction g with
  | zero => intro i count ranges; simp [histogram_groups, tally_tags, store_tags]
  | succ g ih =>
    intro i count ranges
    have hk' := getD_lt_of_forall keys hk
    have hsign : _mm_set1_epi64x (1 <<< 63) = mk64 (2 ^ 63) (2 ^ 63) := by
      rw [set1_mk64]; rfl
    have hr := fun key => rank_le delim key
    have hw' : ∀ j, walk (mk64 ((keys.getD j 0 + 2 ^ 63) % 2 ^ 64) ((keys.getD j 0 + 2 ^ 63) % 2 ^ 64))
        (root_tag (idx.getD 0 0) (idx.getD 1 0) (idx.getD 2 0) (idx.getD 3 0) (idx.getD 4 0)
          (idx.getD 5 0) (idx.getD 6 0) ((keys.getD j 0 + 2 ^ 63) % 2 ^ 64))
        = first_delimiter_ge delim (keys.getD j 0) := fun j => hw _ (hk' j)
    have hlt : ∀ j, first_delimiter_ge delim (keys.getD j 0) < 2 ^ 16 := fun j => by
      have := hr (keys.getD j 0); omega
    simp only [histogram_groups, hsign, set1_mk64, _mm_load_si128,
      sub_mask_C _ _ (hk' _) (hk' _), histogram_root_eq, shuffle_1032,
      cvt_root _ _ _ _ _ _ _ _ (root_tag_le ..) (root_tag_le ..) (root_tag_le ..) (root_tag_le ..)]
    rw [histogram_part_eq walk _ _ _ _ _ _ _ _ _ _ _ (by rw [hw']; exact hlt _)
      (by rw [hw']; exact hlt _) (by rw [hw']; exact hlt _) (by rw [hw']; exact hlt _)]
    simp only []
    rw [histogram_part_eq walk _ _ _ _ _ _ _ _ _ _ _ (by rw [hw']; exact hlt _)
      (by rw [hw']; exact hlt _) (by rw [hw']; exact hlt _) (by rw [hw']; exact hlt _)]
    simp only [hw']
    rw [ih, show 8 * (g + 1) = 4 + (4 + 8 * g) by omega, tally_tags_add, tally_tags_add,
      store_tags_add, store_tags_add, tally_tags_4, tally_tags_4, store_tags_4, store_tags_4]
theorem and_15_keys (x : Nat) : (15 &&& (8 * x) ≠ 0) ↔ x % 2 ≠ 0 := by
  rw [Nat.and_comm, show (15 : Nat) = 2 ^ 4 - 1 by norm_num, Nat.and_pow_two_sub_one_eq_mod]
  omega

theorem and_not_7 (x : Nat) : and_not x 7 = x - x % 8 := by
  rw [and_not, show (7 : Nat) = 2 ^ 3 - 1 by norm_num, Nat.and_pow_two_sub_one_eq_mod]

/-- The three loops over the keys tag and count every key by its rank when
the keys pointer is 16-byte aligned after the scalar head, and stop at the
assertion otherwise. -/
theorem histogram_keys_eq (walk : M128 → Nat → Nat) (idx keys delim : List Nat)
    (n kpos rpos size : Nat) (count ranges : List Nat)
    (hs : List.Sorted (· ≤ ·) delim) (hn : delim.length = n) (hn16 : n < 2 ^ 16)
    (hk : ∀ k ∈ keys, k < 2 ^ 64)
    (hw : ∀ key, key < 2 ^ 64 →
      walk (mk64 ((key + 2 ^ 63) % 2 ^ 64) ((key + 2 ^ 63) % 2 ^ 64))
        (root_tag (idx.getD 0 0) (idx.getD 1 0) (idx.getD 2 0) (idx.getD 3 0) (idx.getD 4 0)
          (idx.getD 5 0) (idx.getD 6 0) ((key + 2 ^ 63) % 2 ^ 64))
        = first_delimiter_ge delim key) :
    histogram_keys n (histogram_part walk) kpos rpos keys size delim count ranges idx
      = if (kpos + min size ((4 - rpos % 4) % 4)) % 2 = 0 then
          some (tally_tags (fun j => first_delimiter_ge delim (keys.getD j 0)) 0 size count,
            store_tags (fun j => first_delimiter_ge delim (keys.getD j 0)) 0 size ranges)
        else none := by
  unfold histogram_keys
  rw [histogram_scalar_head delim keys n rpos hs hn hn16]
  simp only [Nat.add_zero, Nat.zero_add, and_15_keys]
  generalize hh : min size ((4 - rpos % 4) % 4) = h
  have hle : h ≤ size := by rw [← hh]; exact Nat.min_le_left _ _
  by_cases ha : (kpos + h) % 2 = 0
  · rw [if_neg (by omega), if_pos ha, histogram_groups_eq walk idx keys delim hk (by omega) hw,
      histogram_scalar_tail delim keys n rpos hs hn hn16, and_not_7]
    simp only
    have e : size = h + (8 * ((size - h - (size - h) % 8) / 8)
        + (size - h - (size - h - (size - h) % 8))) := by omega
    conv_rhs => rw [e, tally_tags_add, tally_tags_add, store_tags_add, store_tags_add]
    simp only [Nat.zero_add]
    rw [show h + 8 * ((size - h - (size - h) % 8) / 8) = h + (size - h - (size - h) % 8) by omega]
  · rw [if_pos (by omega), if_neg ha]

theorem store_tags_getD (tag : Nat → Nat) :
    ∀ (rem i0 : Nat) (ranges : List Nat) (j : Nat),
      (store_tags tag i0 rem ranges).getD j 0
        = if i0 ≤ j ∧ j < i0 + rem ∧ j < ranges.length then tag j else ranges.getD j 0 := by
  intro rem
  induction rem with
  | zero =>
    intro i0 ranges j
    have : ¬ (i0 ≤ j ∧ j < i0 + 0 ∧ j < ranges.length) := by omega
    rw [if_neg this]
    simp [store_tags]
  | succ rem ih =>
    intro i0 ranges j
    rw [store_tags_succ, ih, getD_set, List.length_set]
    by_cases h1 : i0 = j
    · subst h1
      by_cases h2 : i0 < ranges.length
      · simp [h2]
      · simp [h2]
    · by_cases h2 : i0 + 1 ≤ j ∧ j < i0 + 1 + rem ∧ j < ranges.length
      · rw [if_pos h2, if_pos (by omega)]
      · rw [if_neg h2, if_neg (by omega), if_neg (by omega)]

theorem store_tags_length (tag : Nat → Nat) :
    ∀ (rem i0 : Nat) (ranges : List Nat), (store_tags tag i0 rem ranges).length = ranges.length := by
  intro rem
  induction rem with
  | zero => intro i0 ranges; simp [store_tags]
  | succ rem ih => intro i0 ranges; rw [store_tags_succ, ih, List.length_set]

theorem sum_indicator (P a : Nat) (ha : a < P) :
    ((List.range P).map (fun p => if a = p then 1 else 0)).sum = 1 := by
  induction P with
  | zero => omega
  | succ P ih =>
    rw [List.range_succ, List.map_append, List.sum_append]
    by_cases h : a < P
    · rw [ih h]
      have : a ≠ P := by omega
      simp [this]
    · have e : a = P := by omega
      have z : ((List.range P).map (fun p => if a = p then 1 else 0)).sum = 0 := by
        apply List.sum_eq_zero
        intro x hx
        simp only [List.mem_map, List.mem_range] at hx
        obtain ⟨p, hp, rfl⟩ := hx
        rw [if_neg (by omega)]
      rw [z]
      simp [e]

/-- Counting a list of tags below `P` per tag and adding the counts gives
the length of the list. -/
theorem sum_countP_tags (f : Nat → Nat) (P : Nat) (idxs : List Nat) (h : ∀ j ∈ idxs, f j < P) :
    ((List.range P).map (fun p => idxs.countP (fun j => decide (f j = p)))).sum = idxs.length := by
  induction idxs with
  | nil => simp
  | cons a l ih =>
    have e : (fun p => (a :: l).countP (fun j => decide (f j = p)))
        = (fun p => l.countP (fun j => decide (f j = p)) + (if f a = p then 1 else 0)) := by
      funext p
      rw [List.countP_cons]
      simp
    rw [e, List.sum_map_add, ih (fun j hj => h j (List.mem_cons_of_mem _ hj)),
      sum_indicator P (f a) (h a (List.mem_cons_self _ _))]
    simp

/-- The counters of a range histogram that starts from zero counters. -/
theorem tally_tags_zero (tag : Nat → Nat) (size P : Nat) (count : List Nat)
    (hc : ∀ c ∈ count, c = 0) (hP : P ≤ count.length) (hsz : size < 2 ^ 64)
    (ht : ∀ j, tag j < P) :
    (∀ p, p < P → (tally_tags tag 0 size count).getD p 0
        = (List.range size).countP (fun j => decide (tag j = p))) ∧
    ((List.range P).map (fun p => (tally_tags tag 0 size count).getD p 0)).sum = size := by
  have hz : ∀ p, count.getD p 0 = 0 := by
    intro p
    by_cases hp : p < count.length
    · rw [getD_of_lt _ _ hp]; exact hc _ (List.getElem_mem _)
    · rw [getD_of_ge _ _ (by omega)]
  have h1 : ∀ p, p < P → (tally_tags tag 0 size count).getD p 0
        = (List.range size).countP (fun j => decide (tag j = p)) := by
    intro p hp
    have := (tally_spec tag (List.range' 0 size) count p (by omega) (by rw [hz]; norm_num)).2
    rw [tally_tags, this, hz, Nat.zero_add, List.range_eq_range']
    apply Nat.mod_eq_of_lt
    have := List.countP_le_length (fun j => decide (tag j = p)) (l := List.range' 0 size)
    rw [List.length_range'] at this
    omega
  refine ⟨h1, ?_⟩
  have e : (List.range P).map (fun p => (tally_tags tag 0 size count).getD p 0)
      = (List.range P).map (fun p => (List.range size).countP (fun j => decide (tag j = p))) := by
    apply List.map_congr_left
    intro p hp
    exact h1 p (List.mem_range.mp hp)
  rw [e, sum_countP_tags tag P (List.range size) (fun j _ => ht j), List.length_range]

/-- `histogram_360` on a non-decreasing delimiter array: the index fill ends
with the asserted level counts, and the call tags and counts every key by
its rank when the keys pointer is 16-byte aligned after the scalar head; it
stops at the assertion otherwise. -/
theorem histogram_360_eq (kpos rpos : Nat) (keys : List Nat) (size : Nat)
    (delim count ranges index : List Nat)
    (hs : List.Sorted (· ≤ ·) delim) (hlen : delim.length = 359) (hd : ∀ d ∈ delim, d < 2 ^ 64)
    (hk : ∀ k ∈ keys, k < 2 ^ 64) (hi : 360 ≤ index.length) :
    ∃ idx', index_fill_360 (delim_biased delim) 359 0 (2, 2, 4, 0, 0, 0, 0, index) = (0, 0, 0, 7, 16, 48, 288, idx') ∧
      histogram_360 kpos rpos keys size delim count ranges index
        = if (kpos + min size ((4 - rpos % 4) % 4)) % 2 = 0 then
            some (tally_tags (fun j => first_delimiter_ge delim (keys.getD j 0)) 0 size count,
              store_tags (fun j => first_delimiter_ge delim (keys.getD j 0)) 0 size ranges, idx')
          else none := by
  obtain ⟨a', b', c', d', idx', h0, gb, gc, gd, e, _, e3, _⟩ :=
    index_fill_360_spec (delim_biased delim) 359 0 0 0 0 0 index rfl (by omega) (by omega) (by omega)
      (by omega) hi
  obtain rfl : a' = 7 := by omega
  obtain rfl : b' = 2 := by omega
  obtain rfl : c' = 2 := by omega
  obtain rfl : d' = 4 := by omega
  simp only [Nat.sub_zero, Nat.mul_zero, Nat.add_zero, Nat.sub_self, Nat.reduceMul, Nat.reduceAdd,
    Nat.reduceSub] at e
  refine ⟨idx', e, ?_⟩
  unfold histogram_360
  rw [e]
  simp only [and_self, if_true]
  rw [show (fun k12 k34 r count ranges ri =>
        histogram_8_3_3_5_part k12 k34 r idx' 8 24 72 count ranges ri)
      = histogram_part (fun k_x2 p => tree_level_5 idx' 72 k_x2 (tree_level_3 idx' 24 k_x2 (tree_level_3 idx' 8 k_x2 p))) from rfl,
    histogram_keys_eq _ idx' keys delim 359 kpos rpos size count ranges hs hlen (by norm_num) hk]
  · by_cases ha : (kpos + min size ((4 - rpos % 4) % 4)) % 2 = 0 <;>
      simp only [ha, if_true, if_false]
  · intro key hkey
    have hsgt := sgt_rank delim key hs hd hkey
    have hidx : ∀ j, j < 359 → idx'.getD (slot_360 j) 0 = delim_biased delim j :=
      fun j hj => e3 j (Nat.zero_le _) (by omega)
    have hρ : first_delimiter_ge delim key ≤ 359 := by
      rw [← hlen]; exact rank_le delim key
    rw [root_360 idx' delim _ _ hlen hsgt hidx hρ]
    exact walk_360 idx' delim _ _ hlen hsgt hidx hρ

/-- `histogram_1000` on a non-decreasing delimiter array: the index fill ends
with the asserted level counts, and the call tags and counts every key by
its rank when the keys pointer is 16-byte aligned after the scalar head; it
stops at the assertion otherwise. -/
theorem histogram_1000_eq (kpos rpos : Nat) (keys : List Nat) (size : Nat)
    (delim count ranges index : List Nat)
    (hs : List.Sorted (· ≤ ·) delim) (hlen : delim.length = 999) (hd : ∀ d ∈ delim, d < 2 ^ 64)
    (hk : ∀ k ∈ keys, k < 2 ^ 64) (hi : 1000 ≤ index.length) :
    ∃ idx', index_fill_1000 (delim_biased delim) 999 0 (4, 4, 4, 0, 0, 0, 0, index) = (0, 0, 0, 7, 32, 160, 800, idx') ∧
      histogram_1000 kpos rpos keys size delim count ranges index
        = if (kpos + min size ((4 - rpos % 4) % 4)) % 2 = 0 then
            some (tally_tags (fun j => first_delimiter_ge delim (keys.getD j 0)) 0 size count,
              store_tags (fun j => first_delimiter_ge delim (keys.getD j 0)) 0 size ranges, idx')
          else none := by
  obtain ⟨a', b', c', d', idx', h0, gb, gc, gd, e, _, e3, _⟩ :=
    index_fill_1000_spec (delim_biased delim) 999 0 0 0 0 0 index rfl (by omega) (by omega) (by omega)
      (by omega) hi
  obtain rfl : a' = 7 := by omega
  obtain rfl : b' = 4 := by omega
  obtain rfl : c' = 4 := by omega
  obtain rfl : d' = 4 := by omega
  simp only [Nat.sub_zero, Nat.mul_zero, Nat.add_zero, Nat.sub_self, Nat.reduceMul, Nat.reduceAdd,
    Nat.reduceSub] at e
  refine ⟨idx', e, ?_⟩
  unfold histogram_1000
  rw [e]
  simp only [and_self, if_true]
  rw [show (fun k12 k34 r count ranges ri =>
        histogram_8_5_5_5_part k12 k34 r idx' 8 40 200 count ranges ri)
      = histogram_part (fun k_x2 p => tree_level_5 idx' 200 k_x2 (tree_level_5 idx' 40 k_x2 (tree_level_5 idx' 8 k_x2 p))) from rfl,
    histogram_keys_eq _ idx' keys delim 999 kpos rpos size count ranges hs hlen (by norm_num) hk]
  · by_cases ha : (kpos + min size ((4 - rpos % 4) % 4)) % 2 = 0 <;>
      simp only [ha, if_true, if_false]
  · intro key hkey
    have hsgt := sgt_rank delim key hs hd hkey
    have hidx : ∀ j, j < 999 → idx'.getD (slot_1000 j) 0 = delim_biased delim j :=
      fun j hj => e3 j (Nat.zero_le _) (by omega)
    have hρ : first_delimiter_ge delim key ≤ 999 := by
      rw [← hlen]; exact rank_le delim key
    rw [root_1000 idx' delim _ _ hlen hsgt hidx hρ]
    exact walk_1000 idx' delim _ _ hlen hsgt hidx hρ

/-- `histogram_1800` on a non-decreasing delimiter array: the index fill ends
with the asserted level counts, and the call tags and counts every key by
its rank when the keys pointer is 16-byte aligned after the scalar head; it
stops at the assertion otherwise. -/
theorem histogram_1800_eq (kpos rpos : Nat) (keys : List Nat) (size : Nat)
    (delim count ranges index : List Nat)
    (hs : List.Sorted (· ≤ ·) delim) (hlen : delim.length = 1799) (hd : ∀ d ∈ delim, d < 2 ^ 64)
    (hk : ∀ k ∈ keys, k < 2 ^ 64) (hi : 1800 ≤ index.length) :
    ∃ idx', index_fill_1800 (delim_biased delim) 1799 0 (2, 2, 4, 4, 0, 0, 0, 0, 0, index) = (0, 0, 0, 0, 7, 16, 48, 288, 1440, idx') ∧
      histogram_1800 kpos rpos keys size delim count ranges index
        = if (kpos + min size ((4 - rpos % 4) % 4)) % 2 = 0 then
            some (tally_tags (fun j => first_delimiter_ge delim (keys.getD j 0)) 0 size count,
              store_tags (fun j => first_delimiter_ge delim (keys.getD j 0)) 0 size ranges, idx')
          else none := by
  obtain ⟨a', b', c', d', e', idx', h0, gb, gc, gd, ge, e, _, e3, _⟩ :=
    index_fill_1800_spec (delim_biased delim) 1799 0 0 0 0 0 0 index rfl (by omega) (by omega) (by omega) (by omega)
      (by omega) hi
  obtain rfl : a' = 7 := by omega
  obtain rfl : b' = 2 := by omega
  obtain rfl : c' = 2 := by omega
  obtain rfl : d' = 4 := by omega
  obtain rfl : e' = 4 := by omega
  simp only [Nat.sub_zero, Nat.mul_zero, Nat.add_zero, Nat.sub_self, Nat.reduceMul, Nat.reduceAdd,
    Nat.reduceSub] at e
  refine ⟨idx', e, ?_⟩
  unfold histogram_1800
  rw [e]
  simp only [and_self, if_true]
  rw [show (fun k12 k34 r count ranges ri =>
        histogram_8_3_3_5_5_part k12 k34 r idx' 8 24 72 360 count ranges ri)
      = histogram_part (fun k_x2 p => tree_level_5 idx' 360 k_x2 (tree_level_5 idx' 72 k_x2 (tree_level_3 idx' 24 k_x2 (tree_level_3 idx' 8 k_x2 p)))) from rfl,
    histogram_keys_eq _ idx' keys delim 1799 kpos rpos size count ranges hs hlen (by norm_num) hk]
  · by_cases ha : (kpos + min size ((4 - rpos % 4) % 4)) % 2 = 0 <;>
      simp only [ha, if_true, if_false]
  · intro key hkey
    have hsgt := sgt_rank delim key hs hd hkey
    have hidx : ∀ j, j < 1799 → idx'.getD (slot_1800 j) 0 = delim_biased delim j :=
      fun j hj => e3 j (Nat.zero_le _) (by omega)
    have hρ : first_delimiter_ge delim key ≤ 1799 := by
      rw [← hlen]; exact rank_le delim key
    rw [root_1800 idx' delim _ _ hlen hsgt hidx hρ]
    exact walk_1800 idx' delim _ _ hlen hsgt hidx hρ

theorem sorted_range' (s n : Nat) : List.Sorted (· ≤ ·) (List.range' s n) :=
  (List.pairwise_lt_range' s n).imp (fun h => Nat.le_of_lt h)

theorem range'_lt (s n b : Nat) (h : s + n ≤ b) : ∀ d ∈ List.range' s n, d < b := by
  intro d hd
  rw [List.mem_range'_1] at hd
  omega
theorem calculatePattern_eq (n : Int) (hn : 0 ≤ n) :
    calculatePattern n = n / 128 * 128 + n % 128 / 16 + n % 128 % 16 * 8 := by
  have h1 : Int.tdiv n 128 = n / 128 := Int.tdiv_eq_ediv hn (by norm_num)
  have h2 : Int.tmod n 128 = n % 128 := Int.tmod_eq_emod hn (by norm_num)
  have h3 : Int.tdiv (n % 128) 16 = n % 128 / 16 := Int.tdiv_eq_ediv (by omega) (by norm_num)
  have h4 : Int.tmod (n % 128) 16 = n % 128 % 16 := Int.tmod_eq_emod (by omega) (by norm_num)
  have h5 : Int.tdiv 128 16 = 8 := by decide
  simp only [calculatePattern, h1, h2, h3, h4, h5]

theorem calculatePattern_nonneg (n : Int) (hn : 0 ≤ n) : 0 ≤ calculatePattern n := by
  rw [calculatePattern_eq n hn]; omega

theorem chiplet_eq (n : Int) (hn : 0 ≤ n) :
    Int.tdiv (calculatePattern n) CORES_PER_CHIPLET = n / 128 * 16 + n % 16 := by
  rw [Int.tdiv_eq_ediv (calculatePattern_nonneg n hn) (by decide), calculatePattern_eq n hn]
  simp only [CORES_PER_CHIPLET]
  have ha : 0 ≤ n % 128 / 16 ∧ n % 128 / 16 ≤ 7 := by omega
  have hb : n % 128 % 16 = n % 16 := by omega
  have hr : 0 ≤ n % 16 := by omega
  rw [hb]
  generalize n % 128 / 16 = a at ha
  generalize n % 16 = r at hr
  generalize n / 128 = q
  omega

theorem prefix_size_succ (part : List Nat) (j : Nat) (hj : j < part.length) :
    prefix_size part (j + 1) = prefix_size part j + part.getD j 0 := by
  unfold prefix_size
  rw [List.take_succ, List.sum_append, getD_of_lt _ _ hj, List.getElem?_eq_getElem hj]
  simp

theorem prefix_size_mono (part : List Nat) : ∀ i j, i ≤ j → prefix_size part i ≤ prefix_size part j := by
  intro i j hij
  unfold prefix_size
  have e : List.take i (List.take j part) = List.take i part := by
    rw [List.take_take, min_eq_left hij]
  rw [← e, ← List.sum_take_add_sum_drop (List.take j part) i]
  exact Nat.le_add_right _ _

theorem prefix_size_total (part : List Nat) : prefix_size part part.length = part.sum := by
  unfold prefix_size; rw [List.take_length]

theorem prefix_size_zero (part : List Nat) : prefix_size part 0 = 0 := by
  simp [prefix_size]

/-- The scan stops at the first partition whose inclusion reaches `g`. -/
theorem cut_scan_spec (part : List Nat) (g : Nat) (hs : part.sum < 2 ^ 64) :
    ∀ (rem p : Nat), p + rem = part.length →
      (∀ j, j < p → prefix_size part (j + 1) < g) →
      ∃ p', cut_scan part g rem p (prefix_size part p) = (p', prefix_size part p') ∧
        p ≤ p' ∧ p' ≤ part.length ∧
        (∀ j, j < p' → prefix_size part (j + 1) < g) ∧
        (p' < part.length → g ≤ prefix_size part (p' + 1)) := by
  intro rem
  induction rem with
  | zero =>
    intro p hp h
    exact ⟨p, rfl, le_refl _, by omega, h, by omega⟩
  | succ rem ih =>
    intro p hp h
    have hlt : p < part.length := by omega
    have hb : prefix_size part (p + 1) < 2 ^ 64 := by
      have := prefix_size_mono part (p + 1) part.length (by omega)
      rw [prefix_size_total] at this
      omega
    have e := prefix_size_succ part p hlt
    unfold cut_scan
    rw [← e, Nat.mod_eq_of_lt hb]
    by_cases hg : prefix_size part (p + 1) ≥ g
    · rw [if_pos hg]
      exact ⟨p, rfl, le_refl _, by omega, h, fun _ => hg⟩
    · rw [if_neg hg]
      obtain ⟨p', h1, h2, h3, h4, h5⟩ := ih (p + 1) (by omega) (by
        intro j hj
        rcases Nat.eq_or_lt_of_le (Nat.lt_succ_iff.mp hj) with h' | h'
        · rw [h']; omega
        · exact h j h')
      exact ⟨p', h1, by omega, h3, h4, h5⟩

/-- The cut of a node for the target `g`: its index `c`, with the size of
the first `c` partitions nearest to `g`. -/
theorem node_cut_spec (part : List Nat) (partitions_1 total_size numa n : Nat)
    (hl : part.length = partitions_1) (hs : part.sum = total_size) (ht : total_size < 2 ^ 64)
    (hn : n + 1 ≤ numa) :
    ∃ c p', node_cut part partitions_1 total_size numa n = (c, prefix_size part c) ∧
      c ≤ partitions_1 ∧ p' ≤ partitions_1 ∧
      (∀ j, j < p' → prefix_size part (j + 1) < total_size / numa * (n + 1)) ∧
      (p' < partitions_1 → total_size / numa * (n + 1) ≤ prefix_size part (p' + 1)) ∧
      (c = p' + 1 ↔ (p' < partitions_1 ∧
        prefix_size part (p' + 1) - total_size / numa * (n + 1)
          < total_size / numa * (n + 1) - prefix_size part p')) ∧
      (c = p' ∨ c = p' + 1) ∧
      prefix_size part p' ≤ total_size / numa * (n + 1) := by
  have hg : total_size / numa * (n + 1) ≤ total_size := by
    calc total_size / numa * (n + 1) ≤ total_size / numa * numa := Nat.mul_le_mul_left _ hn
      _ ≤ total_size := Nat.div_mul_le_self _ _
  obtain ⟨p', h1, _, h3, h4, h5⟩ := cut_scan_spec part (total_size / numa * (n + 1))
    (by omega) partitions_1 0 (by omega) (by intro j hj; omega)
  rw [prefix_size_zero] at h1
  have hle : prefix_size part p' ≤ total_size / numa * (n + 1) := by
    rcases Nat.eq_zero_or_pos p' with h0 | h0
    · rw [h0, prefix_size_zero]; exact Nat.zero_le _
    · have := h4 (p' - 1) (by omega)
      rw [show p' - 1 + 1 = p' by omega] at this
      omega
  have hb : ∀ j, prefix_size part j < 2 ^ 64 := by
    intro j
    by_cases hj : j ≤ part.length
    · have := prefix_size_mono part j part.length hj
      rw [prefix_size_total] at this; omega
    · have := prefix_size_mono part part.length j (by omega)
      unfold prefix_size at *
      rw [List.take_of_length_le (by omega)]
      rw [List.take_length] at this
      omega
  simp only [node_cut]
  rw [Nat.mod_eq_of_lt (show total_size / numa * (n + 1) < 2 ^ 64 by omega), h1]
  simp only
  by_cases hp : p' < partitions_1
  · have e := prefix_size_succ part p' (by omega)
    have h5' := h5 (by omega)
    have hb1 := hb (p' + 1)
    have hb0 := hb p'
    rw [Nat.add_comm (part.getD p' 0), ← e, Nat.mod_eq_of_lt hb1,
      show (prefix_size part (p' + 1) + 2 ^ 64 - total_size / numa * (n + 1)) % 2 ^ 64
        = prefix_size part (p' + 1) - total_size / numa * (n + 1) by omega,
      show (total_size / numa * (n + 1) + 2 ^ 64 - prefix_size part p') % 2 ^ 64
        = total_size / numa * (n + 1) - prefix_size part p' by omega]
    by_cases hc : prefix_size part (p' + 1) - total_size / numa * (n + 1)
        < total_size / numa * (n + 1) - prefix_size part p'
    · rw [if_pos ⟨by omega, hc⟩]
      exact ⟨p' + 1, p', rfl, by omega, by omega, h4, fun _ => h5', by simp [hp, hc], Or.inr rfl, hle⟩
    · rw [if_neg (by intro h; exact hc h.2)]
      exact ⟨p', p', rfl, by omega, by omega, h4, fun _ => h5',
        ⟨fun h => by omega, fun h => absurd h.2 hc⟩, Or.inl rfl, hle⟩
  · have : p' = partitions_1 := by omega
    rw [if_neg (by intro h; exact h.1 this)]
    exact ⟨p', p', rfl, by omega, by omega, h4, fun h => by omega,
      ⟨fun h => by omega, fun h => by omega⟩, Or.inl rfl, hle⟩

theorem node_cut_mono (part : List Nat) (partitions_1 total_size numa n m : Nat)
    (hl : part.length = partitions_1) (hs : part.sum = total_size) (ht : total_size < 2 ^ 64)
    (hnm : n ≤ m) (hm : m + 1 ≤ numa) :
    (node_cut part partitions_1 total_size numa n).1
      ≤ (node_cut part partitions_1 total_size numa m).1 := by
  obtain ⟨c, p, e, _, hp, h4, h5, h6, h7, h8⟩ :=
    node_cut_spec part partitions_1 total_size numa n hl hs ht (by omega)
  obtain ⟨c2, p2, e2, _, hp2, g4, g5, g6, g7, g8⟩ :=
    node_cut_spec part partitions_1 total_size numa m hl hs ht hm
  rw [e, e2]
  simp only
  have hg : total_size / numa * (n + 1) ≤ total_size / numa * (m + 1) :=
    Nat.mul_le_mul_left _ (by omega)
  have hpp : p ≤ p2 := by
    by_contra hc
    have a := h4 p2 (by omega)
    have b := g5 (by omega)
    omega
  rcases Nat.eq_or_lt_of_le hpp with h | h
  · subst h
    rcases h7 with h7 | h7
    · rcases g7 with g7 | g7 <;> omega
    · have := h6.mp h7
      have : c2 = p + 1 := g6.mpr ⟨this.1, by omega⟩
      omega
  · rcases h7 with h7 | h7 <;> rcases g7 with g7 | g7 <;> omega

theorem node_cut_nearest (part : List Nat) (partitions_1 total_size numa n : Nat)
    (hl : part.length = partitions_1) (hs : part.sum = total_size) (ht : total_size < 2 ^ 64)
    (hn : n + 1 ≤ numa) :
    ∀ j, j ≤ partitions_1 →
      dist_size (prefix_size part (node_cut part partitions_1 total_size numa n).1)
          (total_size / numa * (n + 1))
        ≤ dist_size (prefix_size part j) (total_size / numa * (n + 1)) := by
  obtain ⟨c, p, e, _, hp, h4, h5, h6, h7, h8⟩ :=
    node_cut_spec part partitions_1 total_size numa n hl hs ht hn
  intro j hj
  rw [e]
  simp only [dist_size]
  by_cases hjp : j ≤ p
  · have m1 := prefix_size_mono part j p hjp
    rcases h7 with h7 | h7
    · rw [h7]; omega
    · have := h6.mp h7
      have m2 := h5 this.1
      rw [h7]; omega
  · have hplt : p < partitions_1 := by omega
    have m1 := prefix_size_mono part (p + 1) j (by omega)
    have m2 := h5 hplt
    rcases h7 with h7 | h7
    · have : ¬ (prefix_size part (p + 1) - total_size / numa * (n + 1)
          < total_size / numa * (n + 1) - prefix_size part p) := by
        intro hc
        have := h6.mpr ⟨hplt, hc⟩
        omega
      rw [h7]; omega
    · rw [h7]; omega

theorem node_first_succ (part : List Nat) (partitions_1 total_size numa n : Nat)
    (hn : n + 1 < numa) :
    node_first part partitions_1 total_size numa (n + 1)
      = (node_cut part partitions_1 total_size numa n).1 := by
  unfold node_first
  rw [if_neg (by omega), if_neg (by omega)]
  rfl

theorem node_first_le (part : List Nat) (partitions_1 total_size numa n : Nat)
    (hl : part.length = partitions_1) (hs : part.sum = total_size) (ht : total_size < 2 ^ 64) :
    node_first part partitions_1 total_size numa n ≤ partitions_1 := by
  unfold node_first
  split_ifs with h1 h2
  · omega
  · exact le_refl _
  · obtain ⟨c, p, e, hc, _⟩ :=
      node_cut_spec part partitions_1 total_size numa (n - 1) hl hs ht (by omega)
    rw [e]; exact hc

theorem node_first_step (part : List Nat) (partitions_1 total_size numa n : Nat)
    (hl : part.length = partitions_1) (hs : part.sum = total_size) (ht : total_size < 2 ^ 64) :
    node_first part partitions_1 total_size numa n
      ≤ node_first part partitions_1 total_size numa (n + 1) := by
  by_cases h0 : n = 0
  · subst h0; simp [node_first]
  · by_cases h1 : numa ≤ n + 1
    · have : node_first part partitions_1 total_size numa (n + 1) = partitions_1 := by
        unfold node_first
        rw [if_neg (by omega), if_pos h1]
      rw [this]
      exact node_first_le part partitions_1 total_size numa n hl hs ht
    · rw [node_first_succ part partitions_1 total_size numa n (by omega)]
      unfold node_first
      rw [if_neg h0, if_neg (by omega)]
      have := node_cut_mono part partitions_1 total_size numa (n - 1) n hl hs ht (by omega)
        (by omega)
      exact this

theorem node_first_mono (part : List Nat) (partitions_1 total_size numa : Nat)
    (hl : part.length = partitions_1) (hs : part.sum = total_size) (ht : total_size < 2 ^ 64) :
    ∀ n m, n ≤ m → node_first part partitions_1 total_size numa n
      ≤ node_first part partitions_1 total_size numa m := by
  intro n m hnm
  induction m with
  | zero => have : n = 0 := by omega
            subst this; exact le_refl _
  | succ m ih =>
    rcases Nat.eq_or_lt_of_le hnm with h | h
    · rw [h]
    · exact le_trans (ih (by omega)) (node_first_step part partitions_1 total_size numa m hl hs ht)

theorem getD_append_one (l : List Nat) (x m : Nat) :
    (l ++ [x]).getD m 0 = if m < l.length then l.getD m 0 else if m = l.length then x else 0 := by
  by_cases h : m < l.length
  · rw [if_pos h, List.getD_eq_getElem?_getD, List.getD_eq_getElem?_getD,
      List.getElem?_append_left h]
  · rw [if_neg h, List.getD_eq_getElem?_getD, List.getElem?_append_right (by omega)]
    by_cases h2 : m = l.length
    · rw [if_pos h2, h2]; simp
    · rw [if_neg h2]
      have : m - l.length ≠ 0 := by omega
      rw [List.getElem?_eq_none (by simp; omega)]
      rfl

/-- The loop over the nodes writes, for each node, the number and the total
size of the partitions between its first partition and the next node's. -/
theorem assign_loop_spec (part : List Nat) (partitions_1 total_size numa : Nat)
    (hl : part.length = partitions_1) (hs : part.sum = total_size) (ht : total_size < 2 ^ 64)
    (hp : partitions_1 < 2 ^ 64) :
    ∀ (steps n : Nat) (ppn spn : List Nat), n + steps + 1 = numa →
      ppn.length = n → spn.length = n →
      (∀ m, m < n → ppn.getD m 0 = node_first part partitions_1 total_size numa (m + 1)
          - node_first part partitions_1 total_size numa m) →
      (∀ m, m < n → spn.getD m 0
          = prefix_size part (node_first part partitions_1 total_size numa (m + 1))
            - prefix_size part (node_first part partitions_1 total_size numa m)) →
      ppn.sum = node_first part partitions_1 total_size numa n →
      spn.sum = prefix_size part (node_first part partitions_1 total_size numa n) →
      ∃ ppn' spn', assign_loop part partitions_1 total_size numa steps n
          (node_first part partitions_1 total_size numa n)
          (prefix_size part (node_first part partitions_1 total_size numa n)) ppn spn
        = (node_first part partitions_1 total_size numa (numa - 1),
            prefix_size part (node_first part partitions_1 total_size numa (numa - 1)),
            ppn', spn') ∧
        ppn'.length = numa - 1 ∧ spn'.length = numa - 1 ∧
        (∀ m, m < numa - 1 → ppn'.getD m 0 = node_first part partitions_1 total_size numa (m + 1)
          - node_first part partitions_1 total_size numa m) ∧
        (∀ m, m < numa - 1 → spn'.getD m 0
          = prefix_size part (node_first part partitions_1 total_size numa (m + 1))
            - prefix_size part (node_first part partitions_1 total_size numa m)) ∧
        ppn'.sum = node_first part partitions_1 total_size numa (numa - 1) ∧
        spn'.sum = prefix_size part (node_first part partitions_1 total_size numa (numa - 1)) := by
  intro steps
  induction steps with
  | zero =>
    intro n ppn spn hn h1 h2 h3 h4 h5 h6
    have : n = numa - 1 := by omega
    subst this
    exact ⟨ppn, spn, rfl, h1, h2, h3, h4, h5, h6⟩
  | succ steps ih =>
    intro n ppn spn hn h1 h2 h3 h4 h5 h6
    obtain ⟨c, p, e, _⟩ := node_cut_spec part partitions_1 total_size numa n hl hs ht (by omega)
    have hf := node_first_succ part partitions_1 total_size numa n (by omega)
    have hc : c = node_first part partitions_1 total_size numa (n + 1) := by
      rw [hf, e]
    have hmono := node_first_step part partitions_1 total_size numa n hl hs ht
    have hle := node_first_le part partitions_1 total_size numa (n + 1) hl hs ht
    have hpm := prefix_size_mono part _ _ hmono
    have hpb : prefix_size part (node_first part partitions_1 total_size numa (n + 1)) < 2 ^ 64 := by
      have hle' : node_first part partitions_1 total_size numa (n + 1) ≤ part.length := by
        rw [hl]; exact hle
      have := prefix_size_mono part _ part.length hle'
      rw [prefix_size_total] at this
      omega
    simp only [assign_loop]
    rw [e]
    simp only
    rw [hc, show (node_first part partitions_1 total_size numa (n + 1) + 2 ^ 64
          - node_first part partitions_1 total_size numa n) % 2 ^ 64
        = node_first part partitions_1 total_size numa (n + 1)
          - node_first part partitions_1 total_size numa n by omega,
      show (prefix_size part (node_first part partitions_1 total_size numa (n + 1)) + 2 ^ 64
          - prefix_size part (node_first part partitions_1 total_size numa n)) % 2 ^ 64
        = prefix_size part (node_first part partitions_1 total_size numa (n + 1))
          - prefix_size part (node_first part partitions_1 total_size numa n) by omega]
    apply ih (n + 1) _ _ (by omega) (by simp [h1]) (by simp [h2])
    · intro m hm
      rw [getD_append_one, h1]
      by_cases hmn : m < n
      · rw [if_pos hmn]; exact h3 m hmn
      · have : m = n := by omega
        rw [if_neg hmn, if_pos this, this]
    · intro m hm
      rw [getD_append_one, h2]
      by_cases hmn : m < n
      · rw [if_pos hmn]; exact h4 m hmn
      · have : m = n := by omega
        rw [if_neg hmn, if_pos this, this]
    · rw [List.sum_append, h5]; simp; omega
    · rw [List.sum_append, h6]; simp; omega

theorem sum_take_drop (part : List Nat) (a b : Nat) (hab : a ≤ b) :
    ((part.take b).drop a).sum = prefix_size part b - prefix_size part a := by
  unfold prefix_size
  have e : List.take a (List.take b part) = List.take a part := by
    rw [List.take_take, min_eq_left hab]
  have := List.sum_take_add_sum_drop (List.take b part) a
  rw [e] at this
  omega

theorem sum64_foldl (l : List Nat) : ∀ a, a + l.sum < 2 ^ 64 →
    l.foldl (fun a x => (a + x) % 2 ^ 64) a = a + l.sum := by
  induction l with
  | nil => intro a _; simp
  | cons x xs ih =>
    intro a h
    simp only [List.foldl_cons, List.sum_cons] at h ⊢
    rw [Nat.mod_eq_of_lt (by omega), ih (a + x) (by omega)]
    omega

theorem sum64_eq (l : List Nat) (h : l.sum < 2 ^ 64) : sum64 l = l.sum := by
  unfold sum64
  rw [sum64_foldl l 0 (by omega)]
  omega

theorem range_sum_succ (f : Nat → Nat) (n : Nat) : range_sum f (n + 1) = range_sum f n + f n := by
  simp [range_sum, List.range_succ]

theorem range_sum_zero (f : Nat → Nat) : range_sum f 0 = 0 := by
  simp [range_sum]

theorem range_sum_mono (f : Nat → Nat) : ∀ n m, n ≤ m → range_sum f n ≤ range_sum f m := by
  intro n m h
  induction m with
  | zero => have : n = 0 := by omega
            subst this; exact le_refl _
  | succ m ih =>
    rcases Nat.eq_or_lt_of_le h with e | e
    · rw [e]
    · have := ih (by omega)
      rw [range_sum_succ]; omega

theorem range_sum_ge (f : Nat → Nat) (n i : Nat) (h : i < n) : f i ≤ range_sum f n := by
  have := range_sum_mono f (i + 1) n h
  rw [range_sum_succ] at this
  omega

theorem range_sum_add (f : Nat → Nat) (a : Nat) :
    ∀ b, range_sum f (a + b) = range_sum f a + range_sum (fun q => f (a + q)) b := by
  intro b
  induction b with
  | zero => simp [range_sum_zero]
  | succ b ih => rw [← Nat.add_assoc, range_sum_succ, ih, range_sum_succ]; omega

theorem range_sum_congr (f g : Nat → Nat) (n : Nat) (h : ∀ i, i < n → f i = g i) :
    range_sum f n = range_sum g n := by
  induction n with
  | zero => simp [range_sum_zero]
  | succ n ih =>
    rw [range_sum_succ, range_sum_succ, ih (fun i hi => h i (by omega)), h n (by omega)]

theorem sum_flatMap_range (g : Nat → List Nat) (n : Nat) :
    ((List.range n).flatMap g).sum = range_sum (fun i => (g i).sum) n := by
  induction n with
  | zero => simp [range_sum_zero]
  | succ n ih =>
    rw [List.range_succ, List.flatMap_append, List.sum_append, ih, range_sum_succ]
    simp

theorem getD_map_range (f : Nat → Nat) (n j : Nat) (h : j < n) :
    ((List.range n).map f).getD j 0 = f j := by
  rw [List.getD_eq_getElem?_getD, List.getElem?_map, List.getElem?_range h]
  rfl

theorem prefix_size_map_range (f : Nat → Nat) (n : Nat) :
    ∀ j, j ≤ n → prefix_size ((List.range n).map f) j = range_sum f j := by
  intro j
  induction j with
  | zero => intro _; rw [prefix_size_zero, range_sum_zero]
  | succ j ih =>
    intro h
    rw [prefix_size_succ _ j (by simp; omega), ih (by omega), range_sum_succ,
      getD_map_range f n j (by omega)]

theorem range_sum_head (f : Nat → Nat) (s : Nat) :
    range_sum f (s + 1) = f 0 + range_sum (fun i => f (i + 1)) s := by
  have := range_sum_add f 1 s
  rw [Nat.add_comm 1 s] at this
  rw [this, range_sum_succ, range_sum_zero]
  simp only [Nat.zero_add]
  congr 1
  exact range_sum_congr _ _ _ (fun i _ => by rw [Nat.add_comm])

theorem transfers_contiguous_append (trs : List Transfer) (lo n src size : Nat)
    (h : transfers_contiguous trs lo) :
    transfers_contiguous (trs ++ [⟨n, src, lo, size⟩]) (lo + size) := by
  obtain ⟨h1, h2⟩ := h
  constructor
  · simp [h1]
  · intro k hk
    simp only [List.length_append, List.length_singleton] at hk
    simp only [List.map_append, List.map_cons, List.map_nil]
    by_cases hlt : k < trs.length
    · rw [List.getD_eq_getElem?_getD, List.getElem?_append_left (by simpa using hlt),
        List.take_append_of_le_length (by simp; omega), ← List.getD_eq_getElem?_getD]
      exact h2 k hlt
    · have e : k = trs.length := by omega
      rw [List.getD_eq_getElem?_getD, List.getElem?_append_right (by simp; omega),
        List.take_append_of_le_length (by simp; omega), List.take_of_length_le (by simp; omega),
        ← h1]
      simp [e]

/-- The descriptors of one partition: one per node in node order, of the
size counted by the threads of that node, laid out contiguously. -/
theorem transfer_nodes_spec (count : Nat → Nat → Nat → Nat) (tpn lp : Nat) :
    ∀ (steps n : Nat) (ro : List Nat) (lo : Nat) (trs : List Transfer),
      transfers_contiguous trs lo →
      lo + range_sum (fun i => range_sum (fun t => count (n + i) t lp) tpn) steps < 2 ^ 64 →
      ∃ ro' new, transfer_nodes count tpn lp steps n ro lo trs
          = (ro', lo + range_sum (fun i => range_sum (fun t => count (n + i) t lp) tpn) steps,
              trs ++ new) ∧
        transfers_contiguous (trs ++ new)
          (lo + range_sum (fun i => range_sum (fun t => count (n + i) t lp) tpn) steps) ∧
        new.map (fun t => (t.src_node, t.size))
          = (List.range steps).map (fun i => (n + i, range_sum (fun t => count (n + i) t lp) tpn)) := by
  intro steps
  induction steps with
  | zero =>
    intro n ro lo trs h _
    refine ⟨ro, [], ?_, ?_, rfl⟩
    · simp [transfer_nodes, range_sum_zero]
    · simpa [range_sum_zero] using h
  | succ steps ih =>
    intro n ro lo trs h hb
    rw [range_sum_head] at hb ⊢
    simp only [Nat.add_zero] at hb ⊢
    have hT : thread_sum count tpn n lp = range_sum (fun t => count n t lp) tpn := by
      unfold thread_sum
      rw [sum64_eq _ (by unfold range_sum at hb; omega)]
      rfl
    have e : ∀ i, n + (i + 1) = n + 1 + i := fun i => by omega
    have e' : (fun i => range_sum (fun t => count (n + (i + 1)) t lp) tpn)
        = (fun i => range_sum (fun t => count (n + 1 + i) t lp) tpn) := by
      funext i; rw [e i]
    rw [e'] at hb ⊢
    obtain ⟨ro', new, h1, h2, h3⟩ := ih (n + 1) (ro.set n ((ro.getD n 0
        + range_sum (fun t => count n t lp) tpn) % 2 ^ 64))
      (lo + range_sum (fun t => count n t lp) tpn)
      (trs ++ [⟨n, ro.getD n 0, lo, range_sum (fun t => count n t lp) tpn⟩])
      (transfers_contiguous_append trs lo n _ _ h) (by omega)
    refine ⟨ro', ⟨n, ro.getD n 0, lo, range_sum (fun t => count n t lp) tpn⟩ :: new, ?_, ?_, ?_⟩
    · simp only [transfer_nodes]
      rw [hT, Nat.mod_eq_of_lt (show lo + range_sum (fun t => count n t lp) tpn < 2 ^ 64 by omega),
        h1]
      simp [Nat.add_assoc]
    · rw [← Nat.add_assoc]
      simpa using h2
    · rw [List.map_cons, h3, List.range_succ_eq_map, List.map_cons, List.map_map]
      simp only [Nat.add_zero]
      congr 1
      apply List.map_congr_left
      intro i _
      simp only [Function.comp, Nat.succ_eq_add_one]
      rw [e i]

theorem blocks_spec {α : Type} (g : Nat → Nat → α) (m : Nat) :
    ∀ a, ((List.range a).flatMap (fun q => (List.range m).map (g q))).length = a * m ∧
      ∀ q n, q < a → n < m →
        ((List.range a).flatMap (fun q => (List.range m).map (g q)))[q * m + n]? = some (g q n) := by
  intro a
  induction a with
  | zero => exact ⟨by simp, fun q n hq _ => by omega⟩
  | succ a ih =>
    obtain ⟨h1, h2⟩ := ih
    rw [List.range_succ, List.flatMap_append]
    simp only [List.flatMap_singleton]
    refine ⟨by rw [List.length_append, h1, List.length_map, List.length_range, Nat.succ_mul], ?_⟩
    intro q n hq hn
    have hqm : q * m + n < (q + 1) * m := by rw [Nat.succ_mul]; omega
    by_cases hqa : q < a
    · have : (q + 1) * m ≤ a * m := Nat.mul_le_mul_right m hqa
      rw [List.getElem?_append_left (by rw [h1]; omega)]
      exact h2 q n hqa hn
    · have e : q = a := by omega
      subst e
      rw [List.getElem?_append_right (by rw [h1]; omega), h1,
        show q * m + n - q * m = n by omega, List.getElem?_map, List.getElem?_range hn]
      rfl

/-- The descriptors of the partitions of a node: `numa` per partition in
partition order, laid out contiguously. -/
theorem transfer_parts_spec (count : Nat → Nat → Nat → Nat) (tpn numa prev : Nat) :
    ∀ (steps p : Nat) (ro : List Nat) (lo : Nat) (trs : List Transfer),
      transfers_contiguous trs lo → p + steps + prev < 2 ^ 64 →
      lo + range_sum (fun q => range_sum (fun n => range_sum
        (fun t => count n t (p + q + prev)) tpn) numa) steps < 2 ^ 64 →
      ∃ ro' new, transfer_parts count tpn numa prev steps p ro lo trs
          = (ro', lo + range_sum (fun q => range_sum (fun n => range_sum
              (fun t => count n t (p + q + prev)) tpn) numa) steps, trs ++ new) ∧
        transfers_contiguous (trs ++ new)
          (lo + range_sum (fun q => range_sum (fun n => range_sum
              (fun t => count n t (p + q + prev)) tpn) numa) steps) ∧
        new.map (fun t => (t.src_node, t.size))
          = (List.range steps).flatMap (fun q => (List.range numa).map
              (fun n => (n, range_sum (fun t => count n t (p + q + prev)) tpn))) := by
  intro steps
  induction steps with
  | zero =>
    intro p ro lo trs h _ _
    refine ⟨ro, [], ?_, ?_, rfl⟩
    · simp [transfer_parts, range_sum_zero]
    · simpa [range_sum_zero] using h
  | succ steps ih =>
    intro p ro lo trs h hp hb
    rw [range_sum_head] at hb ⊢
    simp only [Nat.add_zero] at hb ⊢
    have e : ∀ q, p + (q + 1) + prev = p + 1 + q + prev := fun q => by omega
    have e' : (fun q => range_sum (fun n => range_sum
          (fun t => count n t (p + (q + 1) + prev)) tpn) numa)
        = (fun q => range_sum (fun n => range_sum
          (fun t => count n t (p + 1 + q + prev)) tpn) numa) := by
      funext q; rw [e q]
    rw [e'] at hb ⊢
    obtain ⟨ro1, new1, g1, g2, g3⟩ := transfer_nodes_spec count tpn (p + prev) numa 0 ro lo trs h
      (by simp only [Nat.zero_add]; omega)
    simp only [Nat.zero_add] at g1 g2 g3
    obtain ⟨ro2, new2, k1, k2, k3⟩ := ih (p + 1) ro1 _ (trs ++ new1) g2 (by omega) (by omega)
    refine ⟨ro2, new1 ++ new2, ?_, ?_, ?_⟩
    · simp only [transfer_parts]
      rw [Nat.mod_eq_of_lt (show p + prev < 2 ^ 64 by omega), g1]
      simp only
      rw [k1, List.append_assoc, Nat.add_assoc]
    · rw [← List.append_assoc, ← Nat.add_assoc]
      exact k2
    · rw [List.map_append, g3, k3, List.range_succ_eq_map, List.flatMap_cons, List.flatMap_map]
      simp only [Nat.add_zero]
      congr 1
      apply List.flatMap_congr
      intro q _
      apply List.map_congr_left
      intro n _
      simp only [Nat.succ_eq_add_one]
      rw [e q]

theorem part_totals_eq (count : Nat → Nat → Nat → Nat) (numa tpn partitions_1 total_size : Nat)
    (ht : total_size < 2 ^ 64)
    (hsum : range_sum (fun p => range_sum (fun n => range_sum (fun t => count n t p) tpn) numa)
      partitions_1 = total_size) :
    part_totals count numa tpn partitions_1
      = (List.range partitions_1).map
          (fun p => range_sum (fun n => range_sum (fun t => count n t p) tpn) numa) := by
  unfold part_totals
  apply List.map_congr_left
  intro p hp
  have hlt := List.mem_range.mp hp
  have hb := range_sum_ge (fun p => range_sum (fun n => range_sum (fun t => count n t p) tpn) numa)
    partitions_1 p hlt
  simp only at hb
  have e : ((List.range numa).flatMap (fun n => (List.range tpn).map (fun t => count n t p))).sum
      = range_sum (fun n => range_sum (fun t => count n t p) tpn) numa := by
    rw [sum_flatMap_range]
    rfl
  rw [sum64_eq _ (by rw [e]; omega), e]

theorem prefix_telescope (l : List Nat) (F : Nat → Nat) (n : Nat) (hl : l.length = n)
    (h0 : F 0 = 0) (hm : ∀ i, F i ≤ F (i + 1)) (hg : ∀ i, i < n → l.getD i 0 = F (i + 1) - F i) :
    ∀ k, k ≤ n → prefix_size l k = F k := by
  intro k
  induction k with
  | zero => intro _; rw [prefix_size_zero, h0]
  | succ k ih =>
    intro hk
    have := hm k
    rw [prefix_size_succ l k (by omega), ih (by omega), hg k (by omega)]
    omega

/-- The outer loop of `insertsort` is stable: the array after the loop reads
the array before it through an index map `σ` that keeps the order of equal
keys. -/
theorem insertsort_loop_stable (size : Nat) :
    ∀ (n i prev_key : Nat) (keys rids : List Nat),
      i + n = size → 1 ≤ i → size ≤ keys.length → rids.length = keys.length →
      prev_key = keys.getD (i - 1) 0 →
      (∀ x, x + 1 < i → keys.getD x 0 ≤ keys.getD (x + 1) 0) →
      ∃ σ : Nat → Nat,
        (∀ x, x < size → σ x < size) ∧
        (∀ x y, x < size → y < size → σ x = σ y → x = y) ∧
        (∀ x, x < size →
          (insertsort_loop n i prev_key keys rids).1.getD x 0 = keys.getD (σ x) 0 ∧
          (insertsort_loop n i prev_key keys rids).2.getD x 0 = rids.getD (σ x) 0) ∧
        (∀ x y, x < y → y < size →
          (insertsort_loop n i prev_key keys rids).1.getD x 0
            = (insertsort_loop n i prev_key keys rids).1.getD y 0 → σ x < σ y) := by
  intro n
  induction n with
  | zero =>
    intro i prev_key keys rids hi h1 hlen hrl hprev hs
    rw [show insertsort_loop 0 i prev_key keys rids = (keys, rids) from rfl]
    exact ⟨fun x => x, fun x hx => hx, fun x y _ _ h => h, fun x _ => ⟨rfl, rfl⟩,
      fun x y hxy _ _ => hxy⟩
  | succ n ih =>
    intro i prev_key keys rids hi h1 hlen hrl hprev hs
    by_cases hge : keys.getD i 0 ≥ prev_key
    · have hunf : insertsort_loop (n + 1) i prev_key keys rids
          = insertsort_loop n (i + 1) (keys.getD i 0) keys rids := by
        simp only [insertsort_loop, if_pos hge]
      rw [hunf]
      apply ih (i + 1) (keys.getD i 0) keys rids (by omega) (by omega) hlen hrl (by simp)
      intro x hx
      by_cases h : x + 1 = i
      · have e : x = i - 1 := by omega
        rw [h, e, ← hprev]
        exact hge
      · exact hs x (by omega)
    · obtain ⟨a1, a2, a3, a4, a5, a6, a7⟩ := insertsort_shift_spec (keys.getD i 0) (i - 1)
        prev_key keys rids hprev (by omega) hrl
      have ei : i - 1 + 1 = i := by omega
      rw [ei] at a4 a5
      have hunf : insertsort_loop (n + 1) i prev_key keys rids
          = insertsort_loop n (i + 1) prev_key
              ((insertsort_shift (keys.getD i 0) (i - 1) prev_key keys rids).1.set
                (insertsort_shift (keys.getD i 0) (i - 1) prev_key keys rids).2.2 (keys.getD i 0))
              ((insertsort_shift (keys.getD i 0) (i - 1) prev_key keys rids).2.1.set
                (insertsort_shift (keys.getD i 0) (i - 1) prev_key keys rids).2.2 (rids.getD i 0)) := by
        simp only [insertsort_loop, if_neg hge]
      rw [hunf]
      generalize (insertsort_shift (keys.getD i 0) (i - 1) prev_key keys rids).1 = k1 at *
      generalize (insertsort_shift (keys.getD i 0) (i - 1) prev_key keys rids).2.1 = r1 at *
      generalize (insertsort_shift (keys.getD i 0) (i - 1) prev_key keys rids).2.2 = p at *
      have hk2 : ∀ x, (k1.set p (keys.getD i 0)).getD x 0
          = keys.getD (if x = p then i else if p < x ∧ x ≤ i then x - 1 else x) 0 := by
        intro x
        rw [getD_set, a4 x]
        by_cases h : x = p
        · subst h
          rw [if_pos ⟨rfl, by omega⟩, if_pos rfl]
        · rw [if_neg (by intro h2; exact h h2.1.symm), if_neg h]
          split <;> rfl
      have hr2 : ∀ x, (r1.set p (rids.getD i 0)).getD x 0
          = rids.getD (if x = p then i else if p < x ∧ x ≤ i then x - 1 else x) 0 := by
        intro x
        rw [getD_set, a5 x]
        by_cases h : x = p
        · subst h
          rw [if_pos ⟨rfl, by omega⟩, if_pos rfl]
        · rw [if_neg (by intro h2; exact h h2.1.symm), if_neg h]
          split <;> rfl
      have hltp : keys.getD i 0 < prev_key := by omega
      -- every key moved one place up is above the inserted key
      have habove : ∀ x, p ≤ x → x < i → keys.getD i 0 < keys.getD x 0 := by
        intro x hx1 hx2
        by_cases c : x = i - 1
        · rw [c, ← hprev]; exact hltp
        · exact a7 x hx1 (by omega)
      obtain ⟨σ, s1, s2, s3, s4⟩ := ih (i + 1) prev_key (k1.set p (keys.getD i 0))
        (r1.set p (rids.getD i 0)) (by omega) (by omega) (by rw [List.length_set, a2]; exact hlen)
        (by rw [List.length_set, List.length_set, a2, a3])
        (by rw [hk2, if_neg (by omega), if_pos (by omega)]
            have : i + 1 - 1 - 1 = i - 1 := by omega
            rw [this]; exact hprev)
        (by
          intro x hx
          rw [hk2, hk2]
          by_cases c1 : x = p
          · subst c1
            rw [if_pos rfl, if_neg (by omega), if_pos (by omega)]
            have e : x + 1 - 1 = x := by omega
            rw [e]
            exact le_of_lt (habove x (le_refl _) (by omega))
          · rw [if_neg c1]
            by_cases c3 : x + 1 = p
            · rw [if_pos c3, if_neg (by omega)]
              rcases a6 with a6 | a6
              · omega
              · have e : p - 1 = x := by omega
                rw [e] at a6
                omega
            · rw [if_neg c3]
              by_cases c4 : p < x
              · rw [if_pos ⟨c4, by omega⟩, if_pos ⟨by omega, by omega⟩]
                have e : x + 1 - 1 = x - 1 + 1 := by omega
                rw [e]
                exact hs (x - 1) (by omega)
              · rw [if_neg (by omega), if_neg (by omega)]
                exact hs x (by omega))
      refine ⟨fun x => (fun z => if z = p then i else if p < z ∧ z ≤ i then z - 1 else z) (σ x),
        ?_, ?_, ?_, ?_⟩
      · intro x hx
        have := s1 x hx
        dsimp only
        split
        · omega
        · split <;> omega
      · intro x y hx hy hxy
        apply s2 x y hx hy
        have b1 := s1 x hx
        have b2 := s1 y hy
        dsimp only at hxy
        split at hxy <;> split at hxy <;> (try split at hxy) <;> (try split at hxy) <;> omega
      · intro x hx
        rw [(s3 x hx).1, (s3 x hx).2, hk2, hr2]
        exact ⟨rfl, rfl⟩
      · intro x y hxy hy heq
        have c := s4 x y hxy hy heq
        have hx : x < size := by omega
        rw [(s3 x hx).1, (s3 y hy).1, hk2, hk2] at heq
        have b1 := s1 x hx
        have b2 := s1 y hy
        dsimp only
        generalize σ x = a at *
        generalize σ y = b at *
        by_cases ca : a = p
        · subst ca
          rw [if_pos rfl] at heq ⊢
          rw [if_neg (by omega)] at heq ⊢
          by_cases cb : a < b ∧ b ≤ i
          · rw [if_pos cb] at heq
            have := habove (b - 1) (by omega) (by omega)
            omega
          · rw [if_neg cb]; omega
        · rw [if_neg ca]
          by_cases cb : b = p
          · subst cb
            rw [if_pos rfl, if_neg (by omega)]
            omega
          · rw [if_neg cb]
            split <;> split <;> omega

theorem take_getD (l : List Nat) (size x : Nat) (hx : x < size) (hl : size ≤ l.length) :
    (l.take size).getD x 0 = l.getD x 0 := by
  rw [getD_of_lt _ x (by rw [List.length_take]; omega), getD_of_lt _ x (by omega),
    List.getElem_take]

theorem insertsort_stable_image (keys rids : List Nat) (size : Nat) (hlen : size ≤ keys.length)
    (hrl : rids.length = keys.length) :
    stable_image keys rids (insertsort keys rids size).1 (insertsort keys rids size).2 size := by
  by_cases h : size ≤ 1
  · rw [show insertsort keys rids size = (keys, rids) by simp only [insertsort, if_pos h]]
    exact ⟨fun x => x, fun x hx => hx, fun x y _ _ h => h, fun x _ => ⟨rfl, rfl⟩,
      fun x y hxy _ _ => hxy⟩
  · rw [show insertsort keys rids size = insertsort_loop (size - 1) 1 (keys.getD 0 0) keys rids by
      simp only [insertsort, if_neg h]]
    exact insertsort_loop_stable size (size - 1) 1 (keys.getD 0 0) keys rids
      (by omega) (le_refl _) hlen hrl rfl (fun x hx => by omega)

/-- Compare-exchanges on keys that are already in order at distance `d`
exchange nothing. -/
theorem cx_seq_sorted (d : Nat) :
    ∀ (n e : Nat) (keys rids : List Nat) (dirty : Bool),
      (∀ l, l < n → keys.getD (e + l) 0 ≤ keys.getD (e + l + d) 0) →
      cx_seq d n e (keys, rids, dirty) = (keys, rids, dirty) := by
  intro n
  induction n with
  | zero => intro e keys rids dirty _; rfl
  | succ n ih =>
    intro e keys rids dirty h
    have h0 : ¬ keys.getD e 0 > keys.getD (e + d) 0 := by
      have := h 0 (by omega)
      simp only [Nat.add_zero] at this
      omega
    simp only [cx_seq]
    rw [cx_id keys rids e (e + d) h0]
    have hd : (dirty || decide (keys.getD e 0 > keys.getD (e + d) 0)) = dirty := by
      simp only [h0, decide_False, Bool.or_false]
    rw [hd]
    apply ih
    intro l hl
    have := h (l + 1) (by omega)
    have e1 : e + (l + 1) = e + 1 + l := by omega
    rw [e1] at this
    exact this

/-- Keys in order place by place are in order at every distance. -/
theorem sorted_mono (keys : List Nat) (size : Nat)
    (hs : ∀ i, i + 1 < size → keys.getD i 0 ≤ keys.getD (i + 1) 0) :
    ∀ d x, x + d < size → keys.getD x 0 ≤ keys.getD (x + d) 0 := by
  intro d
  induction d with
  | zero => intro x _; exact le_refl _
  | succ d ih =>
    intro x hx
    exact le_trans (ih x (by omega)) (hs (x + d) (by omega))

/-- On keys that are in order the comb loop exchanges nothing and stops
after at most `gap` passes. -/
theorem comb_loop_sorted (size beg end_ n4 : Nat) (hbeg : beg ≤ 1)
    (hsz : size = beg + 4 * n4 + end_) (h53 : size < 2 ^ 53) (keys rids : List Nat)
    (hlen : size ≤ keys.length) (hrl : rids.length = keys.length)
    (hk : ∀ n, keys.getD n 0 < 2 ^ 64) (hr : ∀ n, rids.getD n 0 < 2 ^ 64)
    (hs : ∀ i, i + 1 < size → keys.getD i 0 ≤ keys.getD (i + 1) 0) :
    ∀ (fuel gap : Nat), 1 ≤ gap → gap < n4 → gap ≤ fuel →
      comb_loop (mk64 (2 ^ 63) (2 ^ 63)) size beg end_ (size - end_) fuel gap keys rids
        = some (keys, rids) := by
  intro fuel
  induction fuel with
  | zero => intro gap h1 _ h; omega
  | succ fuel ih =>
    intro gap hg1 hg2 hfuel
    obtain ⟨swap, hp1, hp2⟩ := comb_pass_eq size beg end_ gap (n4 - gap - 1) keys rids hbeg hg1
      (by omega) hlen (by have : (2:Nat) ^ 53 < 2 ^ 62 := by norm_num
                          omega) hrl hk hr
    have hcx : cx_seq (4 * gap) (size - 4 * gap) 0 (keys, rids, false) = (keys, rids, false) := by
      apply cx_seq_sorted
      intro l hl
      rw [Nat.zero_add]
      exact sorted_mono keys size hs (4 * gap) l (by omega)
    rw [hcx] at hp1 hp2
    have hz : swap = ⟨0, 0, 0, 0⟩ := hp2.mpr rfl
    simp only [comb_loop, hp1]
    by_cases hgt : gap > 1
    · rw [if_pos hgt]
      obtain ⟨b1, b2⟩ := mul_shrink_bounds gap (by omega) (by omega)
      exact ih (mul_shrink gap) b1 (by omega) (by omega)
    · rw [if_neg hgt, if_pos ((testz_self swap).mpr hz)]

/-- The merging loop on keys that are in order: with the indices below `e`
emitted and the lanes at the four locations from `e` on, it emits the
indices in ascending order. -/
theorem merge_loop_sorted (keys rids : List Nat) (size : Nat)
    (hsize : size ≤ 0x7FFFFFF0) (hs1 : 1 ≤ size)
    (hkeys : ∀ n, keys.getD n 0 < 2 ^ 64) (hrids : ∀ n, rids.getD n 0 < 2 ^ 64)
    (hs : ∀ i, i + 1 < size → keys.getD i 0 ≤ keys.getD (i + 1) 0) :
    ∀ (n e : Nat) (K R L : Nat → Nat),
      e + n ≤ size →
      (∀ j, j < 4 → L j = e + (j + 4 - e % 4) % 4) →
      (∀ j, j < 4 → K j = if L j < size then keys.getD (L j) 0 else 2 ^ 64 - 1) →
      (∀ j, j < 4 → R j = rids.getD (L j) 0) →
      merge_loop keys rids (mk64 (2 ^ 63) (2 ^ 63))
          ⟨2 ^ 32 - 1, 2 ^ 32 - 1, 2 ^ 32 - 1, 2 ^ 32 - 1⟩ ⟨4, 4, 4, 4⟩
          ⟨size - 1, size - 1, size - 1, size - 1⟩ n (merge_regs K R L)
          ((List.range e).map (fun e => keys.getD e 0)) ((List.range e).map (fun e => rids.getD e 0))
        = ((List.range (e + n)).map (fun e => keys.getD e 0),
           (List.range (e + n)).map (fun e => rids.getD e 0)) := by
  intro n
  induction n with
  | zero => intro e K R L _ _ _ _; rfl
  | succ n ih =>
    intro e K R L hn hL hK hR
    have hτ : e % 4 < 4 := Nat.mod_lt _ (by omega)
    have hLτ : L (e % 4) = e := by
      rw [hL _ hτ]; omega
    have hKτ : K (e % 4) = keys.getD e 0 := by
      rw [hK _ hτ, hLτ, if_pos (by omega)]
    have hRτ : R (e % 4) = rids.getD e 0 := by
      rw [hR _ hτ, hLτ]
    have hLge : ∀ j, j < 4 → e ≤ L j ∧ L j < e + 4 := by
      intro j hj
      rw [hL j hj]; omega
    have hstep := merge_step_lane keys rids (size - 1) K R L (e % 4) hτ (by omega)
      (fun j hj => by
        rw [hK j hj]
        split
        · exact hkeys _
        · norm_num)
      (fun j hj => by rw [hR j hj]; exact hrids _)
      (fun j hj => by have := (hLge j hj).2; omega)
      (fun j hj => by
        rw [hKτ, hK j hj]
        split
        · rename_i hlt
          have h1 := (hLge j hj).1
          have := sorted_mono keys size hs (L j - e) e (by omega)
          have e1 : e + (L j - e) = L j := by omega
          rw [e1] at this
          exact this
        · have := hkeys e
          omega)
      (fun j hj _ => by rw [hLτ]; exact (hLge j hj).1)
      (fun j hj h => by
        rw [hLτ, hL j hj] at h
        omega)
    simp only [merge_loop, hstep]
    rw [hLτ, hKτ, hRτ]
    have e1 : e + (n + 1) = e + 1 + n := by omega
    rw [e1]
    have a1 : (List.range e).map (fun e => keys.getD e 0) ++ [keys.getD e 0]
        = (List.range (e + 1)).map (fun e => keys.getD e 0) := by
      rw [List.range_succ, List.map_append]; rfl
    have a2 : (List.range e).map (fun e => rids.getD e 0) ++ [rids.getD e 0]
        = (List.range (e + 1)).map (fun e => rids.getD e 0) := by
      rw [List.range_succ, List.map_append]; rfl
    rw [a1, a2]
    have hL' : ∀ j, j < 4 → lane_loc e (L j) = e + 1 + (j + 4 - (e + 1) % 4) % 4 := by
      intro j hj
      simp only [lane_loc]
      rw [hL j hj]
      split <;> omega
    apply ih (e + 1) _ _ _ (by omega)
    · intro j hj
      exact hL' j hj
    · intro j hj
      dsimp only
      have hl := hL' j hj
      simp only [lane_key]
      rw [hl]
      by_cases c1 : e + 1 + (j + 4 - (e + 1) % 4) % 4 > size - 1
      · rw [if_pos c1, if_neg (by omega)]
      · rw [if_neg c1]
        by_cases c2 : e = L j
        · rw [if_pos c2, if_pos (by omega)]
          simp only [lane_loc, if_pos c2] at hl
          rw [← hl]
        · rw [if_neg c2, if_pos (by omega)]
          simp only [lane_loc, if_neg c2] at hl
          rw [hK j hj, ← hl, if_pos (by omega)]
    · intro j hj
      dsimp only
      simp only [lane_rid, lane_loc]
      by_cases c2 : e = L j
      · rw [if_pos c2, if_pos c2]
      · rw [if_neg c2, if_neg c2]
        exact hR j hj

theorem map_range_getD (l : List Nat) (size : Nat) (hl : size ≤ l.length) :
    (List.range size).map (fun e => l.getD e 0) = l.take size := by
  apply List.ext_getElem
  · simp [hl]
  · intro n h1 h2
    have hn : n < size := by simpa using h1
    simp only [List.getElem_map, List.getElem_range, List.getElem_take]
    exact getD_of_lt l n (by omega)

/-- The 4-way merge of `simd_combsort` on keys that are in order copies the
first `size` pairs. -/
theorem simd_merge_sorted (keys rids : List Nat) (size : Nat)
    (hsize : size ≤ 0x7FFFFFF0) (hs4 : 4 ≤ size) (hlen : size ≤ keys.length)
    (hrl : rids.length = keys.length)
    (hkeys : ∀ n, keys.getD n 0 < 2 ^ 64) (hrids : ∀ n, rids.getD n 0 < 2 ^ 64)
    (hs : ∀ i, i + 1 < size → keys.getD i 0 ≤ keys.getD (i + 1) 0) :
    simd_merge (mk64 (2 ^ 63) (2 ^ 63)) ⟨2 ^ 32 - 1, 2 ^ 32 - 1, 2 ^ 32 - 1, 2 ^ 32 - 1⟩
        keys rids size = (keys.take size, rids.take size) := by
  have h := merge_loop_sorted keys rids size hsize (by omega) hkeys hrids hs size 0
    (fun j => keys.getD j 0) (fun j => rids.getD j 0) (fun j => j) (by omega)
    (fun j hj => by dsimp only; omega) (fun j hj => by dsimp only; rw [if_pos (by omega)])
    (fun j hj => rfl)
  have e1 : _mm_shuffle_epi32 (_mm_cvtepi8_epi32 (_mm_cvtsi64_si128 0x07060504)) 0
      = ⟨4, 4, 4, 4⟩ := by decide
  have e2 : _mm_sub_epi32 (_mm_cvtepi8_epi32 (_mm_cvtsi64_si128 0x07060504)) ⟨4, 4, 4, 4⟩
      = ⟨0, 1, 2, 3⟩ := by decide
  have e3 : _mm_shuffle_epi32 (_mm_cvtsi64_si128 (size - 1)) 0
      = ⟨size - 1, size - 1, size - 1, size - 1⟩ := by
    have : (size - 1) % 2 ^ 64 % 2 ^ 32 = size - 1 := by omega
    simp only [shuffle_0, _mm_cvtsi64_si128, mk64, this]
  rw [Nat.zero_add, map_range_getD keys size hlen, map_range_getD rids size (by omega)] at h
  simp only [simd_merge, e1, e2, e3]
  exact h

/-- `simd_combsort` on keys that are in order: the arrays are left as they
are and `keys_out`, `rids_out` receive the first `size` pairs. -/
theorem simd_combsort_sorted_id (kpos : Nat) (keys rids : List Nat) (size : Nat)
    (hsize : size ≤ 0x7FFFFFF0) (hlen : size ≤ keys.length) (hrl : rids.length = keys.length)
    (hk : ∀ n, keys.getD n 0 < 2 ^ 64) (hr : ∀ n, rids.getD n 0 < 2 ^ 64)
    (hs : ∀ i, i + 1 < size → keys.getD i 0 ≤ keys.getD (i + 1) 0) :
    ∀ fuel, size ≤ fuel →
      simd_combsort fuel kpos keys rids size = some (keys, rids, keys.take size, rids.take size) := by
  intro fuel hfuel
  by_cases h9 : size ≤ 9
  · have hi : insertsort keys rids size = (keys, rids) := by
      by_cases h1 : size ≤ 1
      · simp only [insertsort, if_pos h1]
      · simp only [insertsort, if_neg h1]
        have : ∀ (n i : Nat), i + n = size → 1 ≤ i →
            insertsort_loop n i (keys.getD (i - 1) 0) keys rids = (keys, rids) := by
          intro n
          induction n with
          | zero => intro i _ _; rfl
          | succ n ih =>
            intro i hi h1
            have hge : keys.getD i 0 ≥ keys.getD (i - 1) 0 := by
              have := hs (i - 1) (by omega)
              have e : i - 1 + 1 = i := by omega
              rw [e] at this
              exact this
            simp only [insertsort_loop, if_pos hge]
            have := ih (i + 1) (by omega) (by omega)
            simpa using this
        exact this (size - 1) 1 (by omega) (le_refl _)
    simp only [simd_combsort, if_pos h9, hi]
  · have hu : (15 &&& (8 * kpos)) >>> 3 = kpos % 2 := by
      rw [and_15_mul_8, Nat.shiftRight_eq_div_pow]; omega
    have hend : ∀ x : Nat, x &&& 3 = x % 4 := by
      intro x
      have := Nat.and_pow_two_sub_one_eq_mod x 2
      simpa using this
    have hsh : ∀ x : Nat, x >>> 2 = x / 4 := by
      intro x
      rw [Nat.shiftRight_eq_div_pow]
    obtain ⟨beg, hb⟩ : ∃ beg, beg = (if kpos % 2 = 0 then 0 else 2 - kpos % 2) := ⟨_, rfl⟩
    obtain ⟨end_, he⟩ : ∃ end_, end_ = (size - beg) % 4 := ⟨_, rfl⟩
    obtain ⟨n4, hn4⟩ : ∃ n4, n4 = (size - beg - end_) / 4 := ⟨_, rfl⟩
    have hbeg : beg ≤ 1 := by rw [hb]; split <;> omega
    have hsz : size = beg + 4 * n4 + end_ := by omega
    have hn2 : 2 ≤ n4 := by omega
    obtain ⟨g1, g2⟩ := mul_shrink_bounds n4 hn2 (by omega)
    have c1 := comb_loop_sorted size beg end_ n4 hbeg hsz (by omega) keys rids hlen hrl hk hr hs
      fuel (mul_shrink n4) g1 g2 (by omega)
    have m := simd_merge_sorted keys rids size hsize (by omega) hlen hrl hk hr hs
    have hC := mask_C_eq
    rw [mask_I_eq] at hC
    simp only [simd_combsort, if_neg h9, if_pos hsize, hu, hend, hsh, mask_I_eq, hC,
      ← hb, ← he, ← hn4, c1, m]

/-- The values streamed by `simd_combsort` are 64-bit values when the inputs
are. -/
theorem perm_pairs_bounds (keys rids keys_out rids_out : List Nat) (size : Nat)
    (hk : ∀ n, keys.getD n 0 < 2 ^ 64) (hr : ∀ n, rids.getD n 0 < 2 ^ 64)
    (h2 : keys_out.length = size) (h3 : rids_out.length = size)
    (hp : List.Perm (keys_out.zip rids_out) (pairs keys rids size)) :
    (∀ k ∈ keys_out, k < 2 ^ 64) ∧ (∀ r ∈ rids_out, r < 2 ^ 64) := by
  have e1 : (keys_out.zip rids_out).map Prod.fst = keys_out :=
    List.map_fst_zip _ _ (by rw [h2, h3])
  have e2 : (keys_out.zip rids_out).map Prod.snd = rids_out :=
    List.map_snd_zip _ _ (by rw [h2, h3])
  constructor
  · intro k hkm
    rw [← e1] at hkm
    have := (hp.map Prod.fst).subset hkm
    simp only [pairs, List.map_map, List.mem_map, List.mem_range, Function.comp] at this
    obtain ⟨e, _, he⟩ := this
    rw [← he]
    exact hk e
  · intro r hrm
    rw [← e2] at hrm
    have := (hp.map Prod.snd).subset hrm
    simp only [pairs, List.map_map, List.mem_map, List.mem_range, Function.comp] at this
    obtain ⟨e, _, he⟩ := this
    rw [← he]
    exact hr e

/-! ## Lemmas on the doubles of `extract_delimiters`

The value `m / 2^k` of a pair `(m, k)` is handled through its multiple
`m * 2^(70 - k)`. -/

theorem dy_strip_spec :
    ∀ (fuel m k : Nat),
      (dy_strip fuel (m, k)).2 ≤ k ∧
      (dy_strip fuel (m, k)).1 * 2 ^ (k - (dy_strip fuel (m, k)).2) = m := by
  intro fuel
  induction fuel with
  | zero => intro m k; simp [dy_strip]
  | succ fuel ih =>
    intro m k
    by_cases h : m % 2 = 0 ∧ k ≠ 0 ∧ m ≠ 0
    · have hunf : dy_strip (fuel + 1) (m, k) = dy_strip fuel (m / 2, k - 1) := by
        simp only [dy_strip, if_pos h]
      rw [hunf]
      obtain ⟨a, b⟩ := ih (m / 2) (k - 1)
      refine ⟨by omega, ?_⟩
      have e : k - (dy_strip fuel (m / 2, k - 1)).2
          = (k - 1 - (dy_strip fuel (m / 2, k - 1)).2) + 1 := by omega
      rw [e, pow_succ, ← Nat.mul_assoc, b]
      omega
    · have hunf : dy_strip (fuel + 1) (m, k) = (m, k) := by
        simp only [dy_strip, if_neg h]
      rw [hunf]
      simp

/-- Stripping keeps the value. -/
theorem dy_strip_val (fuel m k : Nat) (hk : k ≤ 70) :
    (dy_strip fuel (m, k)).2 ≤ k ∧
    (dy_strip fuel (m, k)).1 * 2 ^ (70 - (dy_strip fuel (m, k)).2) = m * 2 ^ (70 - k) := by
  obtain ⟨a, b⟩ := dy_strip_spec fuel m k
  refine ⟨a, ?_⟩
  have e : 70 - (dy_strip fuel (m, k)).2 = (k - (dy_strip fuel (m, k)).2) + (70 - k) := by omega
  rw [e, pow_add, ← Nat.mul_assoc, b]

/-- The rounding error of `round53`, scaled by `F`. -/
theorem round53_scaled (y F : Nat) (hy : y < 2 ^ 256) :
    ∃ T, T * 2 ^ 52 ≤ y * F ∧ round53 y * F ≤ y * F + T ∧ y * F ≤ round53 y * F + T := by
  by_cases h : y < 2 ^ 53
  · refine ⟨0, by omega, ?_, ?_⟩
    · simp only [round53, if_pos h]; omega
    · simp only [round53, if_pos h]; omega
  · obtain ⟨T, a, b, c⟩ := round53_bounds y (by omega) hy
    refine ⟨T * F, ?_, ?_, ?_⟩
    · have := Nat.mul_le_mul_right F a
      calc T * F * 2 ^ 52 = T * 2 ^ 52 * F := by ring
        _ ≤ y * F := this
    · have := Nat.mul_le_mul_right F b
      calc round53 y * F ≤ (y + T) * F := this
        _ = y * F + T * F := by ring
    · have := Nat.mul_le_mul_right F (le_of_lt c)
      calc y * F ≤ (round53 y + T) * F := this
        _ = round53 y * F + T * F := by ring

theorem round53_le (S : Nat) (hS : S < 2 ^ 64) :
    ∃ T, T * 2 ^ 52 ≤ S ∧ round53 S ≤ S + T ∧ S ≤ round53 S + T := by
  obtain ⟨T, a, b, c⟩ := round53_scaled S 1 (by
    have : (2:Nat) ^ 64 < 2 ^ 256 := by norm_num
    omega)
  exact ⟨T, by omega, by omega, by omega⟩

/-- The quotient `(double) S / (double) d` for `2 ≤ d ≤ 8`: its value times
`d` is `round53 S` up to the rounding errors. -/
theorem dy_div_val (S d : Nat) (hS : S < 2 ^ 64) (hd2 : 2 ≤ d) (hd8 : d ≤ 8) :
    (dy_div S d).2 ≤ 65 ∧
    ∃ T, T * 2 ^ 52 * d ≤ round53 S * 2 ^ 70 + d * 2 ^ 7 ∧
      d * ((dy_div S d).1 * 2 ^ (70 - (dy_div S d).2)) ≤ round53 S * 2 ^ 70 + d * T + d * 2 ^ 7 ∧
      round53 S * 2 ^ 70 ≤ d * ((dy_div S d).1 * 2 ^ (70 - (dy_div S d).2)) + d * T + d * 2 ^ 7 := by
  obtain ⟨T0, t1, t2, t3⟩ := round53_le S hS
  have hrd : round53 d = d := by simp only [round53, if_pos (show d < 2 ^ 53 by omega)]
  obtain ⟨b, hb, hb2, hb4⟩ : ∃ b, bit_length d = b ∧ 2 ≤ b ∧ b ≤ 4 := by
    interval_cases d <;> exact ⟨_, rfl, by decide, by decide⟩
  simp only [dy_div, hrd, hb]
  generalize hq : round53 S * 2 ^ (60 + b) / d = q
  generalize hst : (if round53 S * 2 ^ (60 + b) % d = 0 then 0 else 1) = sticky
  obtain ⟨s1, s2⟩ := dy_strip_val 256 (round53 (2 * q + sticky)) (60 + b + 1) (by omega)
  have hpow : (2:Nat) ^ (60 + b) * 2 ^ (70 - (60 + b + 1)) = 2 ^ 69 := by
    rw [← pow_add]; congr 1; omega
  have hF : (2:Nat) ^ (70 - (60 + b + 1)) ≤ 2 ^ 7 :=
    Nat.pow_le_pow_right (by norm_num) (by omega)
  have hFpos : 0 < (2:Nat) ^ (70 - (60 + b + 1)) := Nat.pow_pos (by norm_num)
  have hN : round53 S * 2 ^ (60 + b) < 2 ^ 65 * 2 ^ 64 := by
    have h1 : round53 S < 2 ^ 65 := by omega
    have h2 : (2:Nat) ^ (60 + b) ≤ 2 ^ 64 := Nat.pow_le_pow_right (by norm_num) (by omega)
    calc round53 S * 2 ^ (60 + b) ≤ round53 S * 2 ^ 64 := Nat.mul_le_mul_left _ h2
      _ < 2 ^ 65 * 2 ^ 64 := Nat.mul_lt_mul_of_pos_right h1 (by norm_num)
  have hdm := Nat.div_add_mod (round53 S * 2 ^ (60 + b)) d
  have hml := Nat.mod_lt (round53 S * 2 ^ (60 + b)) (show 0 < d by omega)
  rw [hq] at hdm
  have hstk : sticky ≤ 1 ∧ (sticky = 0 → round53 S * 2 ^ (60 + b) % d = 0) ∧
      (sticky = 1 → 0 < round53 S * 2 ^ (60 + b) % d) := by
    rw [← hst]
    split
    · rename_i h; exact ⟨by omega, fun _ => h, fun h => by omega⟩
    · rename_i h; exact ⟨le_refl _, fun h => by omega, fun _ => by omega⟩
  have hqle : d * q ≤ round53 S * 2 ^ (60 + b) := by omega
  have hy : 2 * q + sticky < 2 ^ 256 := by
    have : q ≤ round53 S * 2 ^ (60 + b) := by
      rw [← hq]; exact Nat.div_le_self _ _
    have : (2:Nat) ^ 65 * 2 ^ 64 * 2 + 1 < 2 ^ 256 := by norm_num
    omega
  obtain ⟨T, r1, r2, r3⟩ := round53_scaled (2 * q + sticky) (2 ^ (70 - (60 + b + 1))) hy
  have hW : round53 S * 2 ^ 70
      = 2 * (round53 S * 2 ^ (60 + b) * 2 ^ (70 - (60 + b + 1))) := by
    rw [Nat.mul_assoc, hpow]
    have : (2:Nat) ^ 70 = 2 ^ 69 * 2 := by norm_num
    rw [this]; ring
  refine ⟨s1.trans (by omega), T, ?_, ?_, ?_⟩ <;> (try rw [s2]) <;> rw [hW]
  all_goals
    generalize round53 (2 * q + sticky) * 2 ^ (70 - (60 + b + 1)) = V at *
    generalize hFd : (2:Nat) ^ (70 - (60 + b + 1)) = F at *
    generalize hNd : round53 S * 2 ^ (60 + b) = N at *
    generalize hrem : N % d = rem at *
    have hNq : N = d * q + rem := by omega
    have e1 : (2 * q + sticky) * F = 2 * (q * F) + sticky * F := by ring
    have e2 : N * F = d * (q * F) + rem * F := by rw [hNq]; ring
    rw [e1] at r1 r2 r3
    rw [e2]
    have hsF : sticky = 1 → sticky * F = F ∧ F ≤ rem * F := by
      intro h
      refine ⟨by rw [h, Nat.one_mul], ?_⟩
      calc F = 1 * F := (Nat.one_mul F).symm
        _ ≤ rem * F := Nat.mul_le_mul_right F (hstk.2.2 h)
    have hrF : rem * F + F ≤ d * F := by
      calc rem * F + F = (rem + 1) * F := by ring
        _ ≤ d * F := Nat.mul_le_mul_right F hml
    have hrF0 : sticky = 0 → rem * F = 0 ∧ sticky * F = 0 := by
      intro h; rw [hstk.2.1 h, h]; simp
    generalize q * F = QF at *
    generalize rem * F = RF at *
    generalize sticky * F = SF at *
    clear hy hN hdm hNq hq hst hrd hb hW s1 s2 e1 e2 hqle hml hFpos hrem
    have hs01 : sticky = 0 ∨ sticky = 1 := by omega
    rcases hs01 with h0 | h1
    · obtain ⟨z1, z2⟩ := hrF0 h0
      subst z1 z2
      clear hrF0 hsF hstk
      interval_cases d <;> linarith
    · obtain ⟨z1, z2⟩ := hsF h1
      subst z1
      clear hrF0 hsF hstk
      interval_cases d <;> linarith

/-- The product `x * (double) n`: its value is `n` times the value of `x` up
to the rounding error. -/
theorem dy_mul_val (x : Nat × Nat) (n : Nat) (hk : x.2 ≤ 70) (hx : x.1 < 2 ^ 180)
    (hn : n < 2 ^ 53) :
    (dy_mul x n).2 ≤ x.2 ∧
    ∃ T, T * 2 ^ 52 ≤ x.1 * 2 ^ (70 - x.2) * n ∧
      (dy_mul x n).1 * 2 ^ (70 - (dy_mul x n).2) ≤ x.1 * 2 ^ (70 - x.2) * n + T ∧
      x.1 * 2 ^ (70 - x.2) * n ≤ (dy_mul x n).1 * 2 ^ (70 - (dy_mul x n).2) + T := by
  have hrn : round53 n = n := by simp only [round53, if_pos hn]
  simp only [dy_mul, hrn]
  obtain ⟨s1, s2⟩ := dy_strip_val 256 (round53 (x.1 * n)) x.2 hk
  have hy : x.1 * n < 2 ^ 256 := by
    calc x.1 * n < 2 ^ 180 * 2 ^ 53 := by
          apply Nat.mul_lt_mul'' hx hn
      _ < 2 ^ 256 := by norm_num
  obtain ⟨T, r1, r2, r3⟩ := round53_scaled (x.1 * n) (2 ^ (70 - x.2)) hy
  have e : x.1 * n * 2 ^ (70 - x.2) = x.1 * 2 ^ (70 - x.2) * n := by ring
  rw [e] at r1 r2 r3
  exact ⟨s1, T, r1, by rw [s2]; exact r2, by rw [s2]; exact r3⟩

/-- The conversion `(uint64_t) (x - 0.001)`: zero below 0.001, else the
integer part of a value within the rounding error of `x - 0.001`. -/
theorem dy_sub_milli_trunc_val (x : Nat × Nat) (hk : x.2 ≤ 70) (hx : x.1 < 2 ^ 180) :
    (x.1 * 2 ^ (70 - x.2) < 4611686018427388 * 2 ^ 8 → dy_sub_milli_trunc x = 0) ∧
    (4611686018427388 * 2 ^ 8 ≤ x.1 * 2 ^ (70 - x.2) →
      ∃ T R, T * 2 ^ 52 ≤ x.1 * 2 ^ (70 - x.2) - 4611686018427388 * 2 ^ 8 ∧
        R ≤ x.1 * 2 ^ (70 - x.2) - 4611686018427388 * 2 ^ 8 + T ∧
        x.1 * 2 ^ (70 - x.2) - 4611686018427388 * 2 ^ 8 ≤ R + T ∧
        dy_sub_milli_trunc x = R / 2 ^ 70 % 2 ^ 64) := by
  obtain ⟨K, hK⟩ : ∃ K, K = max x.2 62 := ⟨_, rfl⟩
  have hK1 : x.2 ≤ K := hK ▸ le_max_left _ _
  have hK2 : 62 ≤ K := hK ▸ le_max_right _ _
  have hK3 : K ≤ 70 := hK ▸ max_le hk (by norm_num)
  have hG : 0 < (2:Nat) ^ (70 - K) := Nat.pow_pos (by norm_num)
  have ea : x.1 * 2 ^ (K - x.2) * 2 ^ (70 - K) = x.1 * 2 ^ (70 - x.2) := by
    rw [Nat.mul_assoc, ← pow_add]; congr 2; omega
  have ec : 4611686018427388 * 2 ^ (K - 62) * 2 ^ (70 - K) = 4611686018427388 * 2 ^ 8 := by
    rw [Nat.mul_assoc, ← pow_add]; congr 2; omega
  have e70 : (2:Nat) ^ 70 = 2 ^ K * 2 ^ (70 - K) := by
    rw [← pow_add]; congr 1; omega
  simp only [dy_sub_milli_trunc, ← hK]
  constructor
  · intro h
    rw [← ea, ← ec] at h
    have := Nat.lt_of_mul_lt_mul_right h
    rw [if_pos this]
  · intro h
    rw [← ea, ← ec] at h
    have hge := Nat.le_of_mul_le_mul_right h hG
    rw [if_neg (by omega)]
    have hy : x.1 * 2 ^ (K - x.2) - 4611686018427388 * 2 ^ (K - 62) < 2 ^ 256 := by
      have h1 : (2:Nat) ^ (K - x.2) ≤ 2 ^ 70 := Nat.pow_le_pow_right (by norm_num) (by omega)
      have h2 : x.1 * 2 ^ (K - x.2) ≤ 2 ^ 180 * 2 ^ 70 := Nat.mul_le_mul (le_of_lt hx) h1
      have h3 : (2:Nat) ^ 180 * 2 ^ 70 < 2 ^ 256 := by norm_num
      exact lt_of_le_of_lt (Nat.sub_le _ _) (lt_of_le_of_lt h2 h3)
    obtain ⟨T, r1, r2, r3⟩ := round53_scaled
      (x.1 * 2 ^ (K - x.2) - 4611686018427388 * 2 ^ (K - 62)) (2 ^ (70 - K)) hy
    rw [Nat.sub_mul, ea, ec] at r1 r2 r3
    refine ⟨T, _, r1, r2, r3, ?_⟩
    rw [e70, Nat.mul_div_mul_right _ _ hG]

/-- The index `percentile * n - 0.001` of `extract_delimiters`, for the
percentile `S / d` with `2 ≤ d ≤ 8` and `n < d`: it is below `S`, and it
is the integer part of a value `R / 2^70` within the rounding errors of
`X * n - 0.001`, `X` the percentile. -/
theorem extract_index_core (S d n : Nat) (hS1 : 1 ≤ S) (hS : S < 2 ^ 64) (hd2 : 2 ≤ d)
    (hd8 : d ≤ 8) (hnd : n < d) :
    ∃ V T, T * 2 ^ 52 ≤ (dy_div S d).1 * 2 ^ (70 - (dy_div S d).2) * n ∧
      V ≤ (dy_div S d).1 * 2 ^ (70 - (dy_div S d).2) * n + T ∧
      (dy_div S d).1 * 2 ^ (70 - (dy_div S d).2) * n ≤ V + T ∧
      ((V < 4611686018427388 * 2 ^ 8 ∧ dy_sub_milli_trunc (dy_mul (dy_div S d) n) = 0) ∨
       (4611686018427388 * 2 ^ 8 ≤ V ∧
        ∃ T' R, T' * 2 ^ 52 ≤ V - 4611686018427388 * 2 ^ 8 ∧
          R ≤ V - 4611686018427388 * 2 ^ 8 + T' ∧ V - 4611686018427388 * 2 ^ 8 ≤ R + T' ∧
          R < S * 2 ^ 70 ∧ dy_sub_milli_trunc (dy_mul (dy_div S d) n) = R / 2 ^ 70)) := by
  obtain ⟨T0, t1, t2, t3⟩ := round53_le S hS
  obtain ⟨k1, T1, a1, a2, a3⟩ := dy_div_val S d hS hd2 hd8
  have hXn : (dy_div S d).1 * 2 ^ (70 - (dy_div S d).2) * n + (dy_div S d).1 * 2 ^ (70 - (dy_div S d).2)
      ≤ (dy_div S d).1 * 2 ^ (70 - (dy_div S d).2) * d := by
    calc (dy_div S d).1 * 2 ^ (70 - (dy_div S d).2) * n + (dy_div S d).1 * 2 ^ (70 - (dy_div S d).2)
        = (dy_div S d).1 * 2 ^ (70 - (dy_div S d).2) * (n + 1) := by ring
      _ ≤ (dy_div S d).1 * 2 ^ (70 - (dy_div S d).2) * d := Nat.mul_le_mul_left _ hnd
  have hxle : (dy_div S d).1 ≤ (dy_div S d).1 * 2 ^ (70 - (dy_div S d).2) :=
    Nat.le_mul_of_pos_right _ (Nat.pow_pos (by norm_num))
  have hx200 : (dy_div S d).1 < 2 ^ 180 := by
    have h1 : d * ((dy_div S d).1 * 2 ^ (70 - (dy_div S d).2)) < 2 ^ 180 := by
      have : (2:Nat) ^ 66 * 2 ^ 70 + 8 * 2 ^ 7 + 8 * 2 ^ 90 < 2 ^ 180 := by norm_num
      have hT1 : d * T1 ≤ 8 * 2 ^ 90 := by
        have : T1 < 2 ^ 90 := by
          have h2 : T1 * 2 ^ 52 * 2 ≤ T1 * 2 ^ 52 * d := Nat.mul_le_mul_left _ hd2
          omega
        calc d * T1 ≤ 8 * T1 := Nat.mul_le_mul_right _ hd8
          _ ≤ 8 * 2 ^ 90 := Nat.mul_le_mul_left _ (le_of_lt this)
      omega
    have h2 : 1 * ((dy_div S d).1 * 2 ^ (70 - (dy_div S d).2))
        ≤ d * ((dy_div S d).1 * 2 ^ (70 - (dy_div S d).2)) := Nat.mul_le_mul_right _ (by omega)
    omega
  obtain ⟨k2, T2, b1, b2, b3⟩ := dy_mul_val (dy_div S d) n (by omega) hx200 (by omega)
  have hy200 : (dy_mul (dy_div S d) n).1 < 2 ^ 180 := by
    have h0 : (dy_mul (dy_div S d) n).1
        ≤ (dy_mul (dy_div S d) n).1 * 2 ^ (70 - (dy_mul (dy_div S d) n).2) :=
      Nat.le_mul_of_pos_right _ (Nat.pow_pos (by norm_num))
    have h1 : (dy_div S d).1 * 2 ^ (70 - (dy_div S d).2) * n < 2 ^ 179 := by
      have h2 : (dy_div S d).1 * 2 ^ (70 - (dy_div S d).2) < 2 ^ 140 := by
        have h3 : 1 * ((dy_div S d).1 * 2 ^ (70 - (dy_div S d).2))
            ≤ d * ((dy_div S d).1 * 2 ^ (70 - (dy_div S d).2)) := Nat.mul_le_mul_right _ (by omega)
        have hT1 : d * T1 ≤ 8 * 2 ^ 90 := by
          have : T1 < 2 ^ 90 := by
            have h2 : T1 * 2 ^ 52 * 2 ≤ T1 * 2 ^ 52 * d := Nat.mul_le_mul_left _ hd2
            omega
          calc d * T1 ≤ 8 * T1 := Nat.mul_le_mul_right _ hd8
            _ ≤ 8 * 2 ^ 90 := Nat.mul_le_mul_left _ (le_of_lt this)
        omega
      calc (dy_div S d).1 * 2 ^ (70 - (dy_div S d).2) * n
          < 2 ^ 140 * 2 ^ 4 := Nat.mul_lt_mul'' h2 (by omega)
        _ < 2 ^ 179 := by norm_num
    have : T2 ≤ (dy_div S d).1 * 2 ^ (70 - (dy_div S d).2) * n := by
      have : T2 * 1 ≤ T2 * 2 ^ 52 := Nat.mul_le_mul_left _ (by norm_num)
      omega
    omega
  obtain ⟨c1, c2⟩ := dy_sub_milli_trunc_val (dy_mul (dy_div S d) n) (by omega) hy200
  refine ⟨_, T2, b1, b2, b3, ?_⟩
  by_cases hV : (dy_mul (dy_div S d) n).1 * 2 ^ (70 - (dy_mul (dy_div S d) n).2)
      < 4611686018427388 * 2 ^ 8
  · exact Or.inl ⟨hV, c1 hV⟩
  · right
    obtain ⟨T3, R, e1, e2, e3, e4⟩ := c2 (by omega)
    have hR : R < S * 2 ^ 70 := by
      generalize (dy_mul (dy_div S d) n).1 * 2 ^ (70 - (dy_mul (dy_div S d) n).2) = V at *
      generalize (dy_div S d).1 * 2 ^ (70 - (dy_div S d).2) * n = Xn at *
      generalize (dy_div S d).1 * 2 ^ (70 - (dy_div S d).2) = X at *
      generalize round53 S = S' at *
      clear e4 c1 c2 hx200 hy200 hxle k1 k2
      interval_cases d <;> omega
    refine ⟨by omega, T3, R, e1, e2, e3, hR, ?_⟩
    rw [e4]
    apply Nat.mod_eq_of_lt
    have : R / 2 ^ 70 < S := (Nat.div_lt_iff_lt_mul (by norm_num)).mpr hR
    omega

/-- Every index of `extract_delimiters` lies inside a non-empty sample. -/
theorem extract_index_lt (S parts i : Nat) (hS1 : 1 ≤ S) (hS : S < 2 ^ 64) (hp : parts ≤ 7)
    (hi : i < parts) :
    dy_sub_milli_trunc (dy_mul (dy_div S (parts + 1)) (i + 1)) < S := by
  obtain ⟨V, T, _, _, _, h⟩ := extract_index_core S (parts + 1) (i + 1) hS1 hS (by omega)
    (by omega) (by omega)
  rcases h with ⟨_, h0⟩ | ⟨_, T', R, _, _, _, hR, he⟩
  · rw [h0]; omega
  · rw [he]
    exact (Nat.div_lt_iff_lt_mul (by norm_num)).mpr hR

/-- The indices of `extract_delimiters` are non-decreasing. -/
theorem extract_index_mono (S parts i : Nat) (hS1 : 1 ≤ S) (hS : S < 2 ^ 64) (hp : parts ≤ 7)
    (hi : i + 1 < parts) :
    dy_sub_milli_trunc (dy_mul (dy_div S (parts + 1)) (i + 1))
      ≤ dy_sub_milli_trunc (dy_mul (dy_div S (parts + 1)) (i + 1 + 1)) := by
  obtain ⟨V, T, a1, a2, a3, h⟩ := extract_index_core S (parts + 1) (i + 1) hS1 hS (by omega)
    (by omega) (by omega)
  obtain ⟨V', T', b1, b2, b3, h'⟩ := extract_index_core S (parts + 1) (i + 1 + 1) hS1 hS
    (by omega) (by omega) (by omega)
  rcases h with ⟨_, h0⟩ | ⟨hC, T3, R, e1, e2, e3, hR, he⟩
  · rw [h0]; omega
  · have hsucc : (dy_div S (parts + 1)).1 * 2 ^ (70 - (dy_div S (parts + 1)).2) * (i + 1 + 1)
        = (dy_div S (parts + 1)).1 * 2 ^ (70 - (dy_div S (parts + 1)).2) * (i + 1)
          + (dy_div S (parts + 1)).1 * 2 ^ (70 - (dy_div S (parts + 1)).2) := by ring
    have hle : (dy_div S (parts + 1)).1 * 2 ^ (70 - (dy_div S (parts + 1)).2) * (i + 1 + 1)
        ≤ (dy_div S (parts + 1)).1 * 2 ^ (70 - (dy_div S (parts + 1)).2) * 7 :=
      Nat.mul_le_mul_left _ (by omega)
    have hge : (dy_div S (parts + 1)).1 * 2 ^ (70 - (dy_div S (parts + 1)).2) * 1
        ≤ (dy_div S (parts + 1)).1 * 2 ^ (70 - (dy_div S (parts + 1)).2) * (i + 1) :=
      Nat.mul_le_mul_left _ (by omega)
    rw [hsucc] at b1 b2 b3 hle
    generalize (dy_div S (parts + 1)).1 * 2 ^ (70 - (dy_div S (parts + 1)).2) * (i + 1) = Xn at *
    generalize (dy_div S (parts + 1)).1 * 2 ^ (70 - (dy_div S (parts + 1)).2) = X at *
    rcases h' with ⟨hlt, _⟩ | ⟨hC', T3', R', f1, f2, f3, hR', he'⟩
    · omega
    · rw [he, he']
      apply Nat.div_le_div_right
      omega

/-- With one delimiter and a sample of at most 100000 keys the index lies in
the first half of the sample. -/
theorem extract_index_half (S : Nat) (hS1 : 1 ≤ S) (hS : S ≤ 100000) :
    2 * dy_sub_milli_trunc (dy_mul (dy_div S 2) 1) < S := by
  obtain ⟨T0, t1, t2, t3⟩ := round53_le S (by omega)
  obtain ⟨k1, T1, a1, a2, a3⟩ := dy_div_val S 2 (by omega) (by omega) (by omega)
  obtain ⟨V, T, b1, b2, b3, h⟩ := extract_index_core S 2 1 hS1 (by omega) (by omega)
    (by omega) (by omega)
  rcases h with ⟨_, h0⟩ | ⟨hC, T3, R, e1, e2, e3, hR, he⟩
  · rw [h0]; omega
  · rw [he]
    rw [Nat.mul_one] at b1 b2 b3
    generalize (dy_div S 2).1 * 2 ^ (70 - (dy_div S 2).2) = X at *
    generalize round53 S = S' at *
    omega

theorem run_start_succ (sample : List Nat) (d idx : Nat) (h : sample.getD (idx + 1) 0 = d) :
    run_start sample d (idx + 1) = run_start sample d idx := by
  simp only [run_start, h, ne_eq, not_true_eq_false, if_false]

/-- The downward scan of `extract_delimiters` gives the same start from two
positions with only keys `d` between them. -/
theorem run_start_eq (sample : List Nat) (d : Nat) :
    ∀ (n idx : Nat), (∀ t, idx < t → t ≤ idx + n → sample.getD t 0 = d) →
      run_start sample d (idx + n) = run_start sample d idx := by
  intro n
  induction n with
  | zero => intro idx _; rfl
  | succ n ih =>
    intro idx h
    have e : idx + (n + 1) = idx + n + 1 := by omega
    rw [e, run_start_succ sample d (idx + n) (h _ (by omega) (by omega))]
    exact ih idx (fun t h1 h2 => h t h1 (by omega))

theorem run_start_le (sample : List Nat) (d : Nat) : ∀ idx, run_start sample d idx ≤ idx := by
  intro idx
  induction idx with
  | zero => simp [run_start]
  | succ idx ih =>
    simp only [run_start]
    split
    · exact le_refl _
    · omega

theorem run_end_step (sample : List Nat) (S d fuel e : Nat) (he : e ≠ S)
    (h : sample.getD e 0 = d) :
    run_end sample S d (fuel + 1) e = run_end sample S d fuel (e + 1) := by
  simp only [run_end, if_neg he, h, ne_eq, not_true_eq_false, if_false]

/-- The upward scan of `extract_delimiters` gives the same end from two
positions with only keys `d` between them. -/
theorem run_end_eq (sample : List Nat) (S d : Nat) :
    ∀ (n idx fuel : Nat), idx + n < S → (∀ t, idx ≤ t → t < idx + n → sample.getD t 0 = d) →
      run_end sample S d (fuel + n) idx = run_end sample S d fuel (idx + n) := by
  intro n
  induction n with
  | zero => intro idx fuel _ _; rfl
  | succ n ih =>
    intro idx fuel hS h
    have e : fuel + (n + 1) = fuel + n + 1 := by omega
    rw [e, run_end_step sample S d (fuel + n) idx (by omega) (h idx (le_refl _) (by omega)),
      ih (idx + 1) fuel (by omega) (fun t h1 h2 => h t (by omega) (by omega))]
    congr 1; omega

theorem run_end_ge (sample : List Nat) (S d : Nat) :
    ∀ (fuel e : Nat), e ≤ run_end sample S d fuel e := by
  intro fuel
  induction fuel with
  | zero => intro e; exact le_refl _
  | succ fuel ih =>
    intro e
    simp only [run_end]
    split
    · exact le_refl _
    · split
      · exact le_refl _
      · exact le_trans (by omega) (ih (e + 1))

/-- Two positions of a non-decreasing sample that hold the same key get
delimiters in order: if the later one is decremented, so is the earlier. -/
theorem extract_value_run (sample : List Nat) (S a b : Nat) (hab : a ≤ b) (hb : b < S)
    (hs : ∀ i, i + 1 < S → sample.getD i 0 ≤ sample.getD (i + 1) 0)
    (heq : sample.getD a 0 = sample.getD b 0) :
    extract_value sample S a ≤ extract_value sample S b := by
  have hbetween : ∀ t, a ≤ t → t ≤ b → sample.getD t 0 = sample.getD b 0 := by
    intro t h1 h2
    have m1 := sorted_mono sample S hs (t - a) a (by omega)
    have m2 := sorted_mono sample S hs (b - t) t (by omega)
    have e1 : a + (t - a) = t := by omega
    have e2 : t + (b - t) = b := by omega
    rw [e1] at m1
    rw [e2] at m2
    omega
  have hstart : run_start sample (sample.getD b 0) b = run_start sample (sample.getD b 0) a := by
    have := run_start_eq sample (sample.getD b 0) (b - a) a
      (fun t h1 h2 => hbetween t (by omega) (by omega))
    have e : a + (b - a) = b := by omega
    rw [e] at this
    exact this
  have hend : run_end sample S (sample.getD b 0) (S - a) a
      = run_end sample S (sample.getD b 0) (S - b) b := by
    have := run_end_eq sample S (sample.getD b 0) (b - a) a (S - b) (by omega)
      (fun t h1 h2 => hbetween t h1 (by omega))
    have e : a + (b - a) = b := by omega
    have e2 : S - b + (b - a) = S - a := by omega
    rw [e, e2] at this
    exact this
  simp only [extract_value]
  rw [heq, hstart, hend]
  have h1 := run_start_le sample (sample.getD b 0) a
  have h2 := run_end_ge sample S (sample.getD b 0) (S - b) b
  generalize run_start sample (sample.getD b 0) a = st at *
  generalize run_end sample S (sample.getD b 0) (S - b) b = en at *
  split <;> split <;> omega

/-- The delimiter stored for a position is the key there or one less, and
never wraps below zero. -/
theorem extract_value_bounds (sample : List Nat) (S index : Nat) :
    extract_value sample S index = sample.getD index 0 ∨
      (0 < sample.getD index 0 ∧ extract_value sample S index = sample.getD index 0 - 1) := by
  simp only [extract_value]
  split
  · rename_i h; exact Or.inr ⟨by omega, rfl⟩
  · exact Or.inl rfl

/-- The delimiters of a non-decreasing sample are in the order of their
positions. -/
theorem extract_value_mono (sample : List Nat) (S a b : Nat) (hab : a ≤ b) (hb : b < S)
    (hs : ∀ i, i + 1 < S → sample.getD i 0 ≤ sample.getD (i + 1) 0) :
    extract_value sample S a ≤ extract_value sample S b := by
  have hle : sample.getD a 0 ≤ sample.getD b 0 := by
    have := sorted_mono sample S hs (b - a) a (by omega)
    have e : a + (b - a) = b := by omega
    rw [e] at this
    exact this
  by_cases heq : sample.getD a 0 = sample.getD b 0
  · exact extract_value_run sample S a b hab hb hs heq
  · have h1 := extract_value_bounds sample S a
    have h2 := extract_value_bounds sample S b
    omega

theorem extract_loop_spec (sample : List Nat) (S parts : Nat) :
    ∀ (n i : Nat) (delimiter : List Nat),
      (∀ j, i ≤ j → j < i + n → extract_index S parts j < S ∧
        extract_index S parts j < sample.length) →
      ∃ out, extract_loop sample S (dy_div S (parts + 1)) n i delimiter = some out ∧
        out.length = delimiter.length ∧
        ∀ j, out.getD j 0
          = if i ≤ j ∧ j < i + n ∧ j < delimiter.length
            then extract_value sample S (extract_index S parts j) else delimiter.getD j 0 := by
  intro n
  induction n with
  | zero =>
    intro i delimiter _
    refine ⟨delimiter, rfl, rfl, fun j => ?_⟩
    rw [if_neg (by omega)]
  | succ n ih =>
    intro i delimiter h
    have hi := h i (le_refl _) (by omega)
    obtain ⟨out, o1, o2, o3⟩ := ih (i + 1)
      (delimiter.set i (extract_value sample S (extract_index S parts i)))
      (fun j h1 h2 => h j (by omega) (by omega))
    have hunf : extract_loop sample S (dy_div S (parts + 1)) (n + 1) i delimiter
        = if extract_index S parts i < S ∧ extract_index S parts i < sample.length then
            extract_loop sample S (dy_div S (parts + 1)) n (i + 1)
              (delimiter.set i (extract_value sample S (extract_index S parts i)))
          else none := rfl
    refine ⟨out, ?_, by rw [o2, List.length_set], ?_⟩
    · rw [hunf, if_pos hi]
      exact o1
    · intro j
      rw [o3, List.length_set, getD_set]
      by_cases c1 : i + 1 ≤ j ∧ j < i + 1 + n ∧ j < delimiter.length
      · rw [if_pos c1, if_pos (by omega)]
      · rw [if_neg c1]
        by_cases c2 : i = j ∧ i < delimiter.length
        · rw [if_pos c2, if_pos (by omega), c2.1]
        · rw [if_neg c2, if_neg (by omega)]

theorem count_parts_spec (delimiter : List Nat) (parts : Nat) (hpl : parts < delimiter.length)
    (hterm : delimiter.getD parts 0 = 2 ^ 64 - 1)
    (hnot : ∀ j, j < parts → delimiter.getD j 0 ≠ 2 ^ 64 - 1) :
    ∀ (fuel p : Nat), p ≤ parts → parts - p < fuel →
      count_parts delimiter fuel p = some parts := by
  intro fuel
  induction fuel with
  | zero => intro p _ h; omega
  | succ fuel ih =>
    intro p hp hf
    have hpl2 : p < delimiter.length := by omega
    have hg : delimiter[p]? = some (delimiter.getD p 0) := by
      rw [getD_of_lt _ _ hpl2]
      exact List.getElem?_eq_getElem hpl2
    simp only [count_parts, hg]
    by_cases hpp : p = parts
    · subst hpp
      rw [if_neg (by rw [hterm]; simp)]
    · rw [if_pos (hnot p (by omega))]
      exact ih (p + 1) (by omega) (by omega)

/-- The delimiters written by `extract_delimiters` for a non-empty sample. -/
theorem extract_delimiters_eq (sample : List Nat) (S : Nat) (delimiter : List Nat) (parts : Nat)
    (hS1 : 1 ≤ S) (hS : S < 2 ^ 64) (hlen : S ≤ sample.length) (hp7 : parts ≤ 7)
    (hpl : parts < delimiter.length) (hterm : delimiter.getD parts 0 = 2 ^ 64 - 1)
    (hnot : ∀ j, j < parts → delimiter.getD j 0 ≠ 2 ^ 64 - 1) :
    ∃ out, extract_delimiters sample S delimiter = some out ∧
      out.length = delimiter.length ∧
      ∀ j, out.getD j 0
        = if j < parts then extract_value sample S (extract_index S parts j)
          else delimiter.getD j 0 := by
  have hc := count_parts_spec delimiter parts hpl hterm hnot (delimiter.length + 1) 0
    (Nat.zero_le _) (by omega)
  obtain ⟨out, o1, o2, o3⟩ := extract_loop_spec sample S parts parts 0 delimiter
    (fun j _ hj => by
      have := extract_index_lt S parts j hS1 hS hp7 (by omega)
      exact ⟨this, by simp only [extract_index]; omega⟩)
  refine ⟨out, ?_, o2, ?_⟩
  · simp only [extract_delimiters, hc]
    exact o1
  · intro j
    rw [o3]
    by_cases c : j < parts
    · rw [if_pos c, if_pos ⟨Nat.zero_le _, by omega, by omega⟩]
    · rw [if_neg c, if_neg (by omega)]

/-! ## Lemmas on `histogram_numa_2` -/

theorem numa_2_index_eq (key r dl : Nat) :
    numa_2_index key r dl = key % 2 ^ r + (if key > dl then 1 else 0) * 2 ^ r := by
  unfold numa_2_index
  rw [one_shiftLeft_sub, Nat.and_pow_two_sub_one_eq_mod, Nat.shiftLeft_eq]
  have hlt : key % 2 ^ r < 2 ^ r := Nat.mod_lt _ (by positivity)
  have := Nat.mul_add_lt_is_or hlt (if key > dl then 1 else 0)
  rw [Nat.lor_comm, Nat.mul_comm, ← this]
  omega

theorem numa_2_index_lt (key r dl : Nat) : numa_2_index key r dl < 2 ^ (r + 1) := by
  rw [numa_2_index_eq, pow_succ]
  have hlt : key % 2 ^ r < 2 ^ r := Nat.mod_lt _ (by positivity)
  split <;> omega

theorem lane_or (x r : Nat) (hr : r ≤ 16) (p : Bool) :
    (x % 2 ^ r) |||
        ((((0 + 2 ^ 32 - mask32 p % 2 ^ 32) % 2 ^ 32) <<< r) % 2 ^ 32)
      = x % 2 ^ r + (if p = true then 1 else 0) * 2 ^ r := by
  have hlt : x % 2 ^ r < 2 ^ r := Nat.mod_lt _ (by positivity)
  have h16 : (2:Nat) ^ r ≤ 2 ^ 16 := Nat.pow_le_pow_right (by norm_num) hr
  cases p
  · simp [mask32]
  · have e1 : (0 + 2 ^ 32 - mask32 true % 2 ^ 32) % 2 ^ 32 = 1 := by decide
    have e2 : (1 <<< r) % 2 ^ 32 = 2 ^ r * 1 := by
      rw [Nat.shiftLeft_eq, Nat.one_mul, Nat.mul_one]
      exact Nat.mod_eq_of_lt (by omega)
    have := Nat.mul_add_lt_is_or hlt 1
    rw [e1, e2, Nat.lor_comm, ← this]
    simp only [if_true]
    omega

/-- The four counter indices computed by `histogram_numa_2` for the keys of
two registers. -/
theorem histogram_numa_2_hash_lanes (a b c d r dl : Nat) (hr : r ≤ 16)
    (ha : a < 2 ^ 64) (hb : b < 2 ^ 64) (hc : c < 2 ^ 64) (hd : d < 2 ^ 64) (hdl : dl < 2 ^ 64) :
    histogram_numa_2_hash (mk64 a b) (mk64 c d) (_mm_set_epi32 0 0 0 r)
        (_mm_set1_epi64x ((1 <<< r) - 1))
        (_mm_set1_epi64x ((dl + 2 ^ 64 - (1 <<< 63) % 2 ^ 64) % 2 ^ 64))
        (_mm_set1_epi64x ((1 <<< 63) % 2 ^ 64))
      = ⟨numa_2_index a r dl, numa_2_index b r dl, numa_2_index c r dl, numa_2_index d r dl⟩ := by
  have hs : (_mm_set_epi32 0 0 0 r).lo64 = r := by
    simp only [_mm_set_epi32, M128.lo64]; omega
  have hcv : _mm_set1_epi64x ((1 <<< 63) % 2 ^ 64) = mk64 (2 ^ 63) (2 ^ 63) := by decide
  have hdv : _mm_set1_epi64x ((dl + 2 ^ 64 - (1 <<< 63) % 2 ^ 64) % 2 ^ 64)
      = mk64 ((dl + 2 ^ 63) % 2 ^ 64) ((dl + 2 ^ 63) % 2 ^ 64) := by
    have e : (dl + 2 ^ 64 - (1 <<< 63) % 2 ^ 64) % 2 ^ 64 % 2 ^ 64 = (dl + 2 ^ 63) % 2 ^ 64 := by
      rw [Nat.shiftLeft_eq]; omega
    simp only [_mm_set1_epi64x, e]
  have h31 : ¬ r > 31 := by omega
  simp only [histogram_numa_2_hash, hcv, hdv, sub_mask_C _ _ ha hb, sub_mask_C _ _ hc hd,
    cmpgt_biased _ _ _ _ ha hb hdl hdl, cmpgt_biased _ _ _ _ hc hd hdl hdl, packs_mk64_mask,
    _mm_sll_epi32, hs, h31, if_false, one_shiftLeft_sub, numa_2_index_eq]
  simp only [_mm_and_si128, _mm_packus_epi32, _mm_set1_epi64x, mk64, _mm_setzero_si128,
    _mm_sub_epi32, _mm_or_si128, pack_digit _ r hr, lane_or _ r hr, decide_eq_true_eq]

theorem histogram_numa_2_aligned_eq (keys : List Nat) (r dl : Nat) (hr : r ≤ 16)
    (hdl : dl < 2 ^ 64) (hk : ∀ j, keys.getD j 0 < 2 ^ 64) :
    ∀ (n i : Nat) (count : List Nat),
      histogram_numa_2_aligned keys (_mm_set_epi32 0 0 0 r) (_mm_set1_epi64x ((1 <<< r) - 1))
          (_mm_set1_epi64x ((dl + 2 ^ 64 - (1 <<< 63) % 2 ^ 64) % 2 ^ 64))
          (_mm_set1_epi64x ((1 <<< 63) % 2 ^ 64)) n i count
        = (List.range' i (4 * n)).foldl
            (fun c j => count_incr c (numa_2_index (keys.getD j 0) r dl)) count := by
  intro n
  induction n with
  | zero => intro i count; rfl
  | succ n ih =>
    intro i count
    have e : 4 * (n + 1) = 4 * n + 1 + 1 + 1 + 1 := by omega
    rw [e]
    simp only [histogram_numa_2_aligned, load_si128_eq, List.range'_succ, List.foldl_cons]
    rw [histogram_numa_2_hash_lanes _ _ _ _ r dl hr (hk _) (hk _) (hk _) (hk _) hdl,
      histogram_lanes_eq 4 _ _ _ _ _ (le_refl _), ih]
    simp only [List.take, List.foldl_cons, List.foldl_nil]

theorem histogram_numa_2_unaligned_eq (uk : List Nat) (uc r dl : Nat) (hr : r ≤ 16)
    (hdl : dl < 2 ^ 64) (huc : uc ≤ 3) (hk : ∀ j, uk.getD j 0 < 2 ^ 64) (count : List Nat) :
    histogram_numa_2_unaligned uk uc (_mm_set_epi32 0 0 0 r) (_mm_set1_epi64x ((1 <<< r) - 1))
        (_mm_set1_epi64x ((dl + 2 ^ 64 - (1 <<< 63) % 2 ^ 64) % 2 ^ 64))
        (_mm_set1_epi64x ((1 <<< 63) % 2 ^ 64)) count
      = (List.range' 0 uc).foldl
          (fun c j => count_incr c (numa_2_index (uk.getD j 0) r dl)) count := by
  by_cases h0 : uc = 0
  · subst h0; rfl
  · simp only [histogram_numa_2_unaligned, if_pos h0, load_si128_eq]
    rw [histogram_numa_2_hash_lanes _ _ _ _ r dl hr (hk _) (hk _) (hk _) (hk _) hdl,
      histogram_lanes_eq uc _ _ _ _ _ (by omega)]
    have h4 : uc = 1 ∨ uc = 2 ∨ uc = 3 := by omega
    rcases h4 with h | h | h <;> subst h <;> rfl

theorem histogram_numa_2_head_eq (kpos : Nat) (keys : List Nat) (size : Nat) (stack : List Nat) :
    histogram_numa_2_head kpos keys size size 0 stack
      = if kpos % 2 = 1 ∧ 0 < size then (1, stack.set 0 (keys.getD 0 0)) else (0, stack) := by
  cases size with
  | zero => simp [histogram_numa_2_head]
  | succ n =>
    simp only [histogram_numa_2_head, and_15_mul_8, Nat.add_zero]
    by_cases hk : kpos % 2 = 1
    · have h1 : 8 * (kpos % 2) ≠ 0 ∧ 0 ≠ n + 1 := ⟨by omega, by omega⟩
      rw [if_pos h1, if_pos ⟨hk, by omega⟩]
      cases n with
      | zero => simp [histogram_numa_2_head]
      | succ m =>
        have h2 : ¬ (8 * ((kpos + (0 + 1)) % 2) ≠ 0 ∧ 0 + 1 ≠ m + 1 + 1) := by omega
        simp only [histogram_numa_2_head, and_15_mul_8, if_neg h2]
    · have h1 : ¬ (8 * (kpos % 2) ≠ 0 ∧ 0 ≠ n + 1) := by omega
      rw [if_neg h1, if_neg (by omega)]

/-- The body of `histogram_numa_2` after the head loop: the head keys, the
aligned groups, the gathered tail. -/
theorem histogram_numa_2_body (keys : List Nat) (r dl : Nat) (hr : r ≤ 16) (hdl : dl < 2 ^ 64)
    (hk : ∀ j, keys.getD j 0 < 2 ^ 64)
    (i0 size : Nat) (hi0 : i0 ≤ 1) (uk : List Nat) (huk : uk.length = 4)
    (hukv : ∀ j, uk.getD j 0 < 2 ^ 64) (hhead : ∀ j, j < i0 → uk.getD j 0 = keys.getD j 0)
    (count : List Nat) (p : Nat) (hp : p < count.length) (hc : count.getD p 0 < 2 ^ 64) :
    let s := _mm_set_epi32 0 0 0 r
    let m := _mm_set1_epi64x ((1 <<< r) - 1)
    let d := _mm_set1_epi64x ((dl + 2 ^ 64 - (1 <<< 63) % 2 ^ 64) % 2 ^ 64)
    let c := _mm_set1_epi64x ((1 <<< 63) % 2 ^ 64)
    let c1 := histogram_numa_2_unaligned uk i0 s m d c count
    let c2 := histogram_numa_2_aligned keys s m d c (and_not size 3 / 4) i0 c1
    let g := gather_unaligned keys (i0 + size - (i0 + and_not size 3)) (i0 + and_not size 3) uk 0
    (histogram_numa_2_unaligned g.1 g.2 s m d c c2).length = count.length ∧
    (histogram_numa_2_unaligned g.1 g.2 s m d c c2).getD p 0
      = (count.getD p 0 + (List.range (i0 + size)).countP
          (fun i => decide (numa_2_index (keys.getD i 0) r dl = p))) % 2 ^ 64 := by
  intro s m d c c1 c2 g
  have hrest : i0 + size - (i0 + and_not size 3) = size % 4 := by rw [and_not_3]; omega
  have hgrp : and_not size 3 / 4 = size / 4 := by rw [and_not_3]; omega
  have hae : i0 + and_not size 3 = i0 + 4 * (size / 4) := by rw [and_not_3]; omega
  obtain ⟨g2, glen, gval⟩ := gather_unaligned_spec keys (size % 4) (i0 + 4 * (size / 4)) uk 0
  have hg : g = gather_unaligned keys (size % 4) (i0 + 4 * (size / 4)) uk 0 := by
    show gather_unaligned keys _ _ uk 0 = _
    rw [hrest, hae]
  have hgv : ∀ j, g.1.getD j 0 < 2 ^ 64 := by
    intro j; rw [hg, gval]; split
    · exact hk _
    · exact hukv _
  have e1 : c1 = (List.range' 0 i0).foldl
      (fun c j => count_incr c (numa_2_index (keys.getD j 0) r dl)) count := by
    show histogram_numa_2_unaligned uk i0 _ _ _ _ count = _
    rw [histogram_numa_2_unaligned_eq uk i0 r dl hr hdl (by omega) hukv]
    apply tally_congr
    intro j hj
    rw [List.mem_range'_1] at hj
    rw [hhead j (by omega)]
  have e2 : c2 = (List.range' i0 (4 * (size / 4))).foldl
      (fun c j => count_incr c (numa_2_index (keys.getD j 0) r dl)) c1 := by
    show histogram_numa_2_aligned keys _ _ _ _ _ i0 c1 = _
    rw [hgrp]; exact histogram_numa_2_aligned_eq keys r dl hr hdl hk _ _ _
  have e3 : histogram_numa_2_unaligned g.1 g.2 s m d c c2 = (List.range' 0 (size % 4)).foldl
      (fun c j => count_incr c (numa_2_index (keys.getD (i0 + 4 * (size / 4) + j) 0) r dl)) c2 := by
    have hg2 : g.2 = size % 4 := by rw [hg, g2]; omega
    rw [hg2]
    show histogram_numa_2_unaligned g.1 (size % 4) (_mm_set_epi32 0 0 0 r)
      (_mm_set1_epi64x ((1 <<< r) - 1))
      (_mm_set1_epi64x ((dl + 2 ^ 64 - (1 <<< 63) % 2 ^ 64) % 2 ^ 64))
      (_mm_set1_epi64x ((1 <<< 63) % 2 ^ 64)) c2 = _
    rw [histogram_numa_2_unaligned_eq g.1 (size % 4) r dl hr hdl (by omega) hgv]
    apply tally_congr
    intro j hj
    rw [List.mem_range'_1] at hj
    rw [hg, gval]
    have : 0 ≤ j ∧ j < 0 + size % 4 ∧ j < uk.length := by omega
    simp only [this, and_self, if_true, Nat.sub_zero]
  obtain ⟨l1, v1⟩ := tally_spec (fun j => numa_2_index (keys.getD j 0) r dl)
    (List.range' 0 i0) count p hp hc
  rw [← e1] at l1 v1
  have hc1 : c1.getD p 0 < 2 ^ 64 := by rw [v1]; exact Nat.mod_lt _ (by norm_num)
  obtain ⟨l2, v2⟩ := tally_spec (fun j => numa_2_index (keys.getD j 0) r dl)
    (List.range' i0 (4 * (size / 4))) c1 p (by omega) hc1
  rw [← e2] at l2 v2
  have hc2 : c2.getD p 0 < 2 ^ 64 := by rw [v2]; exact Nat.mod_lt _ (by norm_num)
  obtain ⟨l3, v3⟩ := tally_spec
    (fun j => numa_2_index (keys.getD (i0 + 4 * (size / 4) + j) 0) r dl)
    (List.range' 0 (size % 4)) c2 p (by omega) hc2
  rw [← e3] at l3 v3
  refine ⟨by omega, ?_⟩
  rw [v3, v2, v1]
  have split : List.range (i0 + size)
      = List.range' 0 i0 ++ (List.range' i0 (4 * (size / 4))
          ++ List.range' (i0 + 4 * (size / 4)) (size % 4)) := by
    rw [List.range_eq_range']
    have a := List.range'_append i0 (4 * (size / 4)) (size % 4) 1
    have b := List.range'_append 0 i0 (size % 4 + 4 * (size / 4)) 1
    simp only [Nat.one_mul, Nat.zero_add] at a b
    rw [a, b]
    congr 1; omega
  have shift : (List.range' 0 (size % 4)).countP
      (fun j => decide (numa_2_index (keys.getD (i0 + 4 * (size / 4) + j) 0) r dl = p))
      = (List.range' (i0 + 4 * (size / 4)) (size % 4)).countP
          (fun i => decide (numa_2_index (keys.getD i 0) r dl = p)) := by
    have := List.map_add_range' (i0 + 4 * (size / 4)) 0 (size % 4) 1
    rw [Nat.add_zero] at this
    rw [← this, List.countP_map]
    rfl
  rw [split, List.countP_append, List.countP_append, shift]
  omega

/-- `histogram_numa_2` returns and increases `count[p]` by the number of keys
whose counter index is `p`. -/
theorem histogram_numa_2_counts (kpos : Nat) (keys : List Nat) (size : Nat) (count : List Nat)
    (r : Nat) (delim stack : List Nat) (hr : r ≤ 16)
    (hk : ∀ j, keys.getD j 0 < 2 ^ 64) (hdl : delim.getD 0 0 < 2 ^ 64)
    (hst : stack.length = 4) (hsv : ∀ j, stack.getD j 0 < 2 ^ 64)
    (hcl : 0 < count.length) (hc : ∀ j, count.getD j 0 < 2 ^ 64) :
    ∃ count', histogram_numa_2 kpos keys size count r delim stack = some count' ∧
      count'.length = count.length ∧
      ∀ p, p < count.length →
        count'.getD p 0 = (count.getD p 0 + (List.range size).countP
          (fun i => decide (numa_2_index (keys.getD i 0) r (delim.getD 0 0) = p))) % 2 ^ 64 := by
  unfold histogram_numa_2
  rw [if_pos hr, histogram_numa_2_head_eq]
  by_cases hh : kpos % 2 = 1 ∧ 0 < size
  · rw [if_pos hh]
    have hbody := fun p hp => histogram_numa_2_body keys r (delim.getD 0 0) hr hdl hk
      1 (size - 1) (le_refl _) (stack.set 0 (keys.getD 0 0)) (by simp [hst])
      (by
        intro j; rw [getD_set]; split
        · exact hk _
        · exact hsv _)
      (by
        intro j hj
        have : j = 0 := by omega
        subst this
        rw [getD_set, if_pos ⟨rfl, by omega⟩])
      count p hp (hc p)
    have e : List.range (1 + (size - 1)) = List.range size := by
      congr 1; omega
    refine ⟨_, rfl, (hbody 0 hcl).1, ?_⟩
    intro p hp
    have h := (hbody p hp).2
    rw [e] at h
    exact h
  · rw [if_neg hh]
    have hbody := fun p hp => histogram_numa_2_body keys r (delim.getD 0 0) hr hdl hk
      0 size (by omega) stack hst hsv (by intro j hj; omega) count p hp (hc p)
    have e : List.range (0 + size) = List.range size := by
      congr 1; omega
    refine ⟨_, rfl, (hbody 0 hcl).1, ?_⟩
    intro p hp
    have h := (hbody p hp).2
    rw [e] at h
    exact h

theorem getD_replicate (n v i : Nat) (h : i < n) : (List.replicate n v).getD i 0 = v := by
  rw [getD_of_lt _ _ (by simpa using h)]
  simp

theorem sorted_replicate (n v : Nat) : List.Sorted (· ≤ ·) (List.replicate n v) := by
  unfold List.Sorted
  rw [List.pairwise_replicate]
  exact Or.inr (le_refl _)

theorem rank_replicate (n v : Nat) : first_delimiter_ge (List.replicate (n + 1) v) v = 0 := by
  simp [first_delimiter_ge, List.replicate_succ, List.findIdx_cons]

/-- The first-pass delimiters of `sort_thread` for a sample of `S ≥ P` keys
that are all `v`: all `v`. -/
theorem first_pass_delimiters_replicate (S P v : Nat) (hP : 1 ≤ P) (hPS : P ≤ S)
    (hS : S < 2 ^ 64) :
    first_pass_delimiters (List.replicate S v) S P = some (List.replicate (P - 1) v) := by
  have hj : 1 ≤ S / P := (Nat.one_le_div_iff (by omega)).mpr hPS
  have hidx : ∀ i, i < P - 1 → delim_1_index S P i < S := by
    intro i hi
    have h1 : S / P * (i + 1) ≤ S / P * P := Nat.mul_le_mul_left _ (by omega)
    have h2 : S / P * P ≤ S := Nat.div_mul_le_self S P
    have h3 : 1 * (i + 1) ≤ S / P * (i + 1) := Nat.mul_le_mul_right _ hj
    simp only [delim_1_index]
    generalize S / P * (i + 1) = x at *
    omega
  have hf : ∀ i, i < P - 1 →
      (if delim_1_index S P i < S then (List.replicate S v)[delim_1_index S P i]? else none)
        = some v := by
    intro i hi
    rw [if_pos (hidx i hi), List.getElem?_eq_getElem (by simpa using hidx i hi)]
    simp
  have key : ∀ (l : List Nat), (∀ i ∈ l, i < P - 1) →
      l.mapM (fun i => if delim_1_index S P i < S then
        (List.replicate S v)[delim_1_index S P i]? else none)
        = some (List.replicate l.length v) := by
    intro l
    induction l with
    | nil => intro _; rfl
    | cons a t ih =>
      intro h
      rw [List.mapM_cons, hf a (h a (List.mem_cons_self _ _)),
        ih (fun i hi => h i (List.mem_cons_of_mem _ hi))]
      rfl
  have := key (List.range (P - 1)) (fun i hi => List.mem_range.mp hi)
  rw [List.length_range] at this
  exact this

theorem run_start_replicate (S v idx : Nat) (h : idx < S) :
    run_start (List.replicate S v) v idx = 0 := by
  have := run_start_eq (List.replicate S v) v idx 0
    (fun t _ h2 => getD_replicate S v t (by omega))
  rw [Nat.zero_add] at this
  rw [this]
  rfl

theorem run_end_replicate (S v idx : Nat) (h : idx < S) :
    run_end (List.replicate S v) S v (S - idx) idx = S := by
  have := run_end_eq (List.replicate S v) S v (S - 1 - idx) idx 1 (by omega)
    (fun t _ h2 => getD_replicate S v t (by omega))
  have e1 : 1 + (S - 1 - idx) = S - idx := by omega
  have e2 : idx + (S - 1 - idx) = S - 1 := by omega
  rw [e1, e2] at this
  rw [this]
  have h1 : S - 1 ≠ S := by omega
  have h2 : (List.replicate S v).getD (S - 1) 0 = v := getD_replicate S v _ (by omega)
  simp only [run_end, if_neg h1, h2, ne_eq, not_true_eq_false, if_false]
  omega

/-- The delimiter of `extract_delimiters` for a sample of `S` keys that are
all `v`, one delimiter: `v - 1`, or 0 for `v = 0`. -/
theorem extract_delimiters_replicate (S v : Nat) (hS1 : 1 ≤ S) (hS : S ≤ 100000) :
    extract_delimiters (List.replicate S v) S [0, 2 ^ 64 - 1] = some [v - 1, 2 ^ 64 - 1] := by
  obtain ⟨out, o1, o2, o3⟩ := extract_delimiters_eq (List.replicate S v) S [0, 2 ^ 64 - 1] 1
    hS1 (by omega) (by simp) (by omega) (by decide) (by decide) (by decide)
  rw [o1]
  congr 1
  apply list_ext_getD _ _ (by rw [o2]; rfl)
  intro j
  rw [o3]
  have hhalf := extract_index_half S hS1 hS
  have hidx : extract_index S 1 0 = dy_sub_milli_trunc (dy_mul (dy_div S 2) 1) := rfl
  rw [← hidx] at hhalf
  by_cases hj : j < 1
  · have : j = 0 := by omega
    subst this
    rw [if_pos hj]
    simp only [extract_value]
    rw [getD_replicate S v _ (by omega), run_start_replicate S v _ (by omega),
      run_end_replicate S v _ (by omega)]
    show _ = v - 1
    split <;> omega
  · rw [if_neg hj]
    rcases Nat.lt_or_ge j 2 with h | h
    · have : j = 1 := by omega
      subst this
      rfl
    · rw [getD_of_ge _ _ (by simpa using h), getD_of_ge _ _ (by simpa using h)]

theorem countP_const_keys (keys : List Nat) (size v : Nat) (f : Nat → Nat) (p : Nat)
    (h : ∀ i, i < size → keys.getD i 0 = v) :
    (List.range size).countP (fun i => decide (f (keys.getD i 0) = p))
      = if p = f v then size else 0 := by
  by_cases hp : p = f v
  · rw [if_pos hp]
    have : (List.range size).countP (fun i => decide (f (keys.getD i 0) = p))
        = (List.range size).length := by
      rw [List.countP_eq_length]
      intro i hi
      rw [h i (List.mem_range.mp hi), hp]
      simp
    rw [this, List.length_range]
  · rw [if_neg hp, List.countP_eq_zero]
    intro i hi
    rw [h i (List.mem_range.mp hi)]
    simp only [decide_eq_true_eq]
    exact fun e => hp e.symm

/-- The tags stored by a range histogram whose delimiters and keys are all
`v` are all 0. -/
theorem store_tags_replicate (n v : Nat) (hn : 1 ≤ n) (keys ranges : List Nat) (size : Nat)
    (hkv : ∀ i, i < size → keys.getD i 0 = v) (hr : size ≤ ranges.length) :
    ∀ i, i < size →
      (store_tags (fun j => first_delimiter_ge (List.replicate n v) (keys.getD j 0)) 0 size
        ranges).getD i 0 = 0 := by
  intro i hi
  rw [store_tags_getD, if_pos ⟨Nat.zero_le _, by omega, by omega⟩, hkv i hi]
  obtain ⟨m, rfl⟩ : ∃ m, n = m + 1 := ⟨n - 1, by omega⟩
  exact rank_replicate m v

/-! ## Lemmas on `mulhi` and the randomised order -/

theorem mulhi_eq (x y : Nat) (hx : x < 2 ^ 64) (hy : y < 2 ^ 64) :
    mulhi x y = x * y / 2 ^ 64 := by
  simp only [mulhi, mulq, Nat.mod_eq_of_lt hx, Nat.mod_eq_of_lt hy]
  apply Nat.mod_eq_of_lt
  rw [Nat.div_lt_iff_lt_mul (by norm_num)]
  exact Nat.mul_lt_mul'' hx hy

theorem mulhi_lt (x y : Nat) (hx : x < 2 ^ 64) (hy : y < 2 ^ 64) (hpos : 0 < y) :
    mulhi x y < y := by
  rw [mulhi_eq x y hx hy, Nat.div_lt_iff_lt_mul (by norm_num), Nat.mul_comm]
  exact Nat.mul_lt_mul_of_pos_left hx hpos

theorem mulhi_mod (x y : Nat) : mulhi x y = mulhi (x % 2 ^ 64) y := by
  simp only [mulhi, mulq, Nat.mod_mod]

theorem transfer_pick_bounds (r tu p : Nat) (htu : tu < 2 ^ 64) (hp : p < tu) :
    p ≤ transfer_pick r tu p ∧ transfer_pick r tu p < tu := by
  have e : (tu + 2 ^ 64 - p) % 2 ^ 64 = tu - p := by omega
  have h := mulhi_lt (r % 2 ^ 64) (tu - p) (Nat.mod_lt _ (by norm_num)) (by omega) (by omega)
  rw [← mulhi_mod] at h
  simp only [transfer_pick, e]
  omega

theorem randomize_transfers_spec (rand : Nat → Nat) (tu : Nat) (htu : tu < 2 ^ 64) :
    ∀ (n p : Nat) (transfers : List Transfer), p + n = tu → transfers.length = tu →
      ∃ out, randomize_transfers rand tu n p transfers = some out ∧ List.Perm out transfers := by
  intro n
  induction n with
  | zero => intro p transfers _ _; exact ⟨transfers, rfl, List.Perm.refl _⟩
  | succ n ih =>
    intro p transfers hp hl
    obtain ⟨b1, b2⟩ := transfer_pick_bounds (rand p) tu p htu (by omega)
    have h1 : transfers[p]? = some transfers[p] := List.getElem?_eq_getElem (by omega)
    have h2 : transfers[transfer_pick (rand p) tu p]?
        = some (transfers[transfer_pick (rand p) tu p]) := List.getElem?_eq_getElem (by omega)
    obtain ⟨out, o1, o2⟩ := ih (p + 1)
      ((transfers.set p (transfers[transfer_pick (rand p) tu p])).set
        (transfer_pick (rand p) tu p) transfers[p]) (by omega) (by simp [hl])
    refine ⟨out, ?_, o2.trans (swap_perm transfers p _ (by omega) (by omega))⟩
    simp only [randomize_transfers, h1, h2]
    exact o1

theorem randomize_transfers_congr (rand rand' : Nat → Nat) (tu : Nat) :
    ∀ (n p : Nat) (transfers : List Transfer), (∀ q, p ≤ q → q < p + n → rand' q = rand q) →
      randomize_transfers rand' tu n p transfers = randomize_transfers rand tu n p transfers := by
  intro n
  induction n with
  | zero => intro p transfers _; rfl
  | succ n ih =>
    intro p transfers h
    simp only [randomize_transfers, h p (le_refl _) (by omega)]
    split
    · exact ih _ _ (fun q h1 h2 => h q (by omega) (by omega))
    · rfl

theorem mapM_some_mem {α β : Type} (f : α → Option β) (P : β → Prop) :
    ∀ (l : List α), (∀ a ∈ l, ∃ b, f a = some b ∧ P b) →
      ∃ out, l.mapM f = some out ∧ out.length = l.length ∧ ∀ b ∈ out, P b := by
  intro l
  induction l with
  | nil => intro _; exact ⟨[], rfl, rfl, fun b hb => by cases hb⟩
  | cons a t ih =>
    intro h
    obtain ⟨b, hb, hP⟩ := h a (List.mem_cons_self _ _)
    obtain ⟨out, o1, o2, o3⟩ := ih (fun x hx => h x (List.mem_cons_of_mem _ hx))
    refine ⟨b :: out, ?_, by simp [o2], ?_⟩
    · rw [List.mapM_cons, hb, o1]; rfl
    · intro x hx
      rcases List.mem_cons.mp hx with h1 | h1
      · rw [h1]; exact hP
      · exact o3 x h1

/-! ## Lemmas on the course of `simd_combsort` -/

theorem comb_params_spec (kpos size : Nat) (h10 : 10 ≤ size) :
    ∃ beg end_ n4, comb_params kpos size = (beg, end_, mul_shrink n4, size - end_) ∧
      beg ≤ 1 ∧ end_ ≤ 3 ∧ size = beg + 4 * n4 + end_ ∧ 2 ≤ n4 := by
  have hu : (15 &&& (8 * kpos)) >>> 3 = kpos % 2 := by
    rw [and_15_mul_8, Nat.shiftRight_eq_div_pow]; omega
  have hend : ∀ x : Nat, x &&& 3 = x % 4 := by
    intro x
    have := Nat.and_pow_two_sub_one_eq_mod x 2
    simpa using this
  have hsh : ∀ x : Nat, x >>> 2 = x / 4 := by
    intro x
    rw [Nat.shiftRight_eq_div_pow]
  obtain ⟨beg, hb⟩ : ∃ beg, beg = (if kpos % 2 = 0 then 0 else 2 - kpos % 2) := ⟨_, rfl⟩
  obtain ⟨end_, he⟩ : ∃ end_, end_ = (size - beg) % 4 := ⟨_, rfl⟩
  obtain ⟨n4, hn4⟩ : ∃ n4, n4 = (size - beg - end_) / 4 := ⟨_, rfl⟩
  have hbeg : beg ≤ 1 := by rw [hb]; split <;> omega
  refine ⟨beg, end_, n4, ?_, hbeg, by omega, by omega, by omega⟩
  simp only [comb_params, hu, hend, hsh, ← hb, ← he, ← hn4]

/-- `simd_combsort` for `10 ≤ size ≤ 0x7FFFFFF0` is the comb loop with the
parameters of `comb_params` followed by the merge. -/
theorem simd_combsort_eq (fuel kpos : Nat) (keys rids : List Nat) (size : Nat) (h10 : 10 ≤ size)
    (hsize : size ≤ 0x7FFFFFF0) :
    simd_combsort fuel kpos keys rids size
      = match comb_loop (mk64 (2 ^ 63) (2 ^ 63)) size (comb_params kpos size).1
          (comb_params kpos size).2.1 (comb_params kpos size).2.2.2 fuel
          (comb_params kpos size).2.2.1 keys rids with
        | none => none
        | some (keys, rids) =>
          some (keys, rids,
            (simd_merge (mk64 (2 ^ 63) (2 ^ 63))
              ⟨2 ^ 32 - 1, 2 ^ 32 - 1, 2 ^ 32 - 1, 2 ^ 32 - 1⟩ keys rids size).1,
            (simd_merge (mk64 (2 ^ 63) (2 ^ 63))
              ⟨2 ^ 32 - 1, 2 ^ 32 - 1, 2 ^ 32 - 1, 2 ^ 32 - 1⟩ keys rids size).2) := by
  have hC := mask_C_eq
  rw [mask_I_eq] at hC
  simp only [simd_combsort, if_neg (show ¬ size ≤ 9 by omega), if_pos hsize, comb_params,
    mask_I_eq, hC]

/-- The registers of the merge after `n ≤ size` iterations satisfy the
invariant of the merging loop. -/
theorem merge_run_inv (keys rids : List Nat) (size : Nat)
    (hsize : size ≤ 0x7FFFFFF0) (hs4 : 4 ≤ size)
    (hkeys : ∀ n, keys.getD n 0 < 2 ^ 64) (hrids : ∀ n, rids.getD n 0 < 2 ^ 64)
    (hsorted : ∀ e, e + 4 < size → keys.getD e 0 ≤ keys.getD (e + 4) 0) :
    ∀ (n : Nat) (K R L : Nat → Nat) (E : List Nat),
      merge_inv keys rids size K R L E → E.length + n ≤ size →
      ∃ K' R' L' E', merge_run keys rids (mk64 (2 ^ 63) (2 ^ 63))
            ⟨2 ^ 32 - 1, 2 ^ 32 - 1, 2 ^ 32 - 1, 2 ^ 32 - 1⟩ ⟨4, 4, 4, 4⟩
            ⟨size - 1, size - 1, size - 1, size - 1⟩ n (merge_regs K R L)
          = merge_regs K' R' L' ∧ merge_inv keys rids size K' R' L' E' := by
  intro n
  induction n with
  | zero => intro K R L E hinv _; exact ⟨K, R, L, E, rfl, hinv⟩
  | succ n ih =>
    intro K R L E hinv hn
    obtain ⟨τ, K', R', L', hτ, hτs, hstep, hinv'⟩ :=
      merge_step_inv keys rids size K R L E hsize (by omega) hkeys hrids hsorted hinv (by omega)
    obtain ⟨K2, R2, L2, E2, h1, h2⟩ := ih K' R' L' (E ++ [L τ]) hinv'
      (by rw [List.length_append, List.length_singleton]; omega)
    refine ⟨K2, R2, L2, E2, ?_, h2⟩
    have hunf : ∀ (a b c d : M128) (s : MergeRegs), merge_run keys rids a b c d (n + 1) s
        = merge_run keys rids a b c d n (merge_step keys rids a b c d s).1 := fun _ _ _ _ _ => rfl
    rw [hunf, hstep]
    exact h1

/-- The locations held by the merge of `simd_combsort` stay below
`size + 4`. -/
theorem simd_merge_regs_loc (keys rids : List Nat) (size n : Nat)
    (hsize : size ≤ 0x7FFFFFF0) (hs4 : 4 ≤ size) (hn : n ≤ size)
    (hkeys : ∀ n, keys.getD n 0 < 2 ^ 64) (hrids : ∀ n, rids.getD n 0 < 2 ^ 64)
    (hsorted : ∀ e, e + 4 < size → keys.getD e 0 ≤ keys.getD (e + 4) 0) :
    (simd_merge_regs (mk64 (2 ^ 63) (2 ^ 63)) ⟨2 ^ 32 - 1, 2 ^ 32 - 1, 2 ^ 32 - 1, 2 ^ 32 - 1⟩
      keys rids size n).loc.e0 < size + 4 ∧
    (simd_merge_regs (mk64 (2 ^ 63) (2 ^ 63)) ⟨2 ^ 32 - 1, 2 ^ 32 - 1, 2 ^ 32 - 1, 2 ^ 32 - 1⟩
      keys rids size n).loc.e1 < size + 4 ∧
    (simd_merge_regs (mk64 (2 ^ 63) (2 ^ 63)) ⟨2 ^ 32 - 1, 2 ^ 32 - 1, 2 ^ 32 - 1, 2 ^ 32 - 1⟩
      keys rids size n).loc.e2 < size + 4 ∧
    (simd_merge_regs (mk64 (2 ^ 63) (2 ^ 63)) ⟨2 ^ 32 - 1, 2 ^ 32 - 1, 2 ^ 32 - 1, 2 ^ 32 - 1⟩
      keys rids size n).loc.e3 < size + 4 := by
  have hinit : merge_inv keys rids size (fun j => keys.getD j 0) (fun j => rids.getD j 0)
      (fun j => j) [] := by
    refine ⟨fun j hj => Nat.mod_eq_of_lt hj, fun j hj => by dsimp only; omega,
      fun j hj _ => ⟨rfl, rfl⟩, fun j hj h => by dsimp only at h; omega, fun j _ => hrids j,
      List.nodup_nil, ?_, ?_, ?_⟩
    · intro e
      have := Nat.mod_le e 4
      simp only [List.not_mem_nil, false_iff, not_and]
      intro _
      omega
    · intro e he; cases he
    · simp
  obtain ⟨K, R, L, E, h1, h2⟩ := merge_run_inv keys rids size hsize hs4 hkeys hrids hsorted n
    _ _ _ [] hinit (by simpa using hn)
  have e1 : _mm_shuffle_epi32 (_mm_cvtepi8_epi32 (_mm_cvtsi64_si128 0x07060504)) 0
      = ⟨4, 4, 4, 4⟩ := by decide
  have e2 : _mm_sub_epi32 (_mm_cvtepi8_epi32 (_mm_cvtsi64_si128 0x07060504)) ⟨4, 4, 4, 4⟩
      = ⟨0, 1, 2, 3⟩ := by decide
  have e3 : _mm_shuffle_epi32 (_mm_cvtsi64_si128 (size - 1)) 0
      = ⟨size - 1, size - 1, size - 1, size - 1⟩ := by
    have : (size - 1) % 2 ^ 64 % 2 ^ 32 = size - 1 := by omega
    simp only [shuffle_0, _mm_cvtsi64_si128, mk64, this]
  have hm : simd_merge_regs (mk64 (2 ^ 63) (2 ^ 63))
      ⟨2 ^ 32 - 1, 2 ^ 32 - 1, 2 ^ 32 - 1, 2 ^ 32 - 1⟩ keys rids size n = merge_regs K R L := by
    simp only [simd_merge_regs, e1, e2, e3]
    exact h1
  rw [hm]
  obtain ⟨_, i2, _⟩ := h2
  exact ⟨i2 0 (by omega), i2 1 (by omega), i2 2 (by omega), i2 3 (by omega)⟩

/-- The comb loop of `simd_combsort` for `10 ≤ size ≤ 0x7FFFFFF0`, given
enough passes: it returns arrays in which every key is at most the key four
places further, and a further pass with gap 1 exchanges nothing. -/
theorem simd_combsort_comb (kpos : Nat) (keys rids : List Nat) (size : Nat) (h10 : 10 ≤ size)
    (hsize : size ≤ 0x7FFFFFF0) (hlen : size ≤ keys.length) (hrl : rids.length = keys.length)
    (hk : ∀ n, keys.getD n 0 < 2 ^ 64) (hr : ∀ n, rids.getD n 0 < 2 ^ 64) :
    ∃ fuel0, ∀ fuel, fuel0 ≤ fuel →
      ∃ keys' rids',
        comb_loop (mk64 (2 ^ 63) (2 ^ 63)) size (comb_params kpos size).1
          (comb_params kpos size).2.1 (comb_params kpos size).2.2.2 fuel
          (comb_params kpos size).2.2.1 keys rids = some (keys', rids') ∧
        keys'.length = keys.length ∧ rids'.length = keys.length ∧
        List.Perm (pairs keys' rids' size) (pairs keys rids size) ∧
        (∀ x, keys'.getD x 0 < 2 ^ 64) ∧ (∀ x, rids'.getD x 0 < 2 ^ 64) ∧
        (∀ e, e + 4 < size → keys'.getD e 0 ≤ keys'.getD (e + 4) 0) ∧
        comb_pass (mk64 (2 ^ 63) (2 ^ 63)) size (comb_params kpos size).1
          (comb_params kpos size).2.1 (comb_params kpos size).2.2.2 1 keys' rids'
          = some (keys', rids', ⟨0, 0, 0, 0⟩) := by
  obtain ⟨beg, end_, n4, hp, hbeg, hend, hsz, hn2⟩ := comb_params_spec kpos size h10
  obtain ⟨g1, g2⟩ := mul_shrink_bounds n4 hn2 (by omega)
  refine ⟨keys.length * keys.sum - weighted_sum 0 keys + mul_shrink n4 + 1, fun fuel hfuel => ?_⟩
  obtain ⟨keys', rids', c1, c2, c3, c4, c5, c6, c7, c8⟩ := comb_loop_spec size beg end_ n4 hbeg hsz
    (by omega) fuel (mul_shrink n4) keys rids g1 g2 hlen hrl hk hr (by omega)
  rw [hp]
  refine ⟨keys', rids', c1, c2, c3, c4, c6, c7, c8, ?_⟩
  obtain ⟨swap, hp1, hp2⟩ := comb_pass_eq size beg end_ 1 (n4 - 1 - 1) keys' rids' hbeg
    (le_refl _) (by omega) (by rw [c2]; exact hlen) (by omega) (by rw [c2, c3]) c6 c7
  have hcx : cx_seq (4 * 1) (size - 4 * 1) 0 (keys', rids', false) = (keys', rids', false) := by
    apply cx_seq_sorted
    intro l hl
    rw [Nat.zero_add]
    exact c8 l (by omega)
  rw [hcx] at hp1 hp2
  rw [hp1, hp2.mpr rfl]

/-- The comb loop returns only from a pass with gap 1 whose swap register is
all zero. -/
theorem comb_loop_exit (mask_C : M128) (size beg end_ size_middle : Nat) :
    ∀ (fuel gap : Nat) (keys rids : List Nat) (out : List Nat × List Nat),
      1 ≤ gap → gap < 2 ^ 53 →
      comb_loop mask_C size beg end_ size_middle fuel gap keys rids = some out →
      ∃ k0 r0 swap, comb_pass mask_C size beg end_ size_middle 1 k0 r0
          = some (out.1, out.2, swap) ∧ _mm_testz_si128 swap swap = true := by
  intro fuel
  induction fuel with
  | zero => intro gap keys rids out _ _ h; cases h
  | succ fuel ih =>
    intro gap keys rids out hg1 hg2 h
    have hunf : comb_loop mask_C size beg end_ size_middle (fuel + 1) gap keys rids
        = match comb_pass mask_C size beg end_ size_middle gap keys rids with
          | none => none
          | some (keys, rids, swap) =>
            if gap > 1 then
              comb_loop mask_C size beg end_ size_middle fuel (mul_shrink gap) keys rids
            else if _mm_testz_si128 swap swap then some (keys, rids)
            else comb_loop mask_C size beg end_ size_middle fuel gap keys rids := rfl
    rw [hunf] at h
    cases hp : comb_pass mask_C size beg end_ size_middle gap keys rids with
    | none => rw [hp] at h; cases h
    | some res =>
      obtain ⟨k1, r1, swap⟩ := res
      rw [hp] at h
      dsimp only at h
      by_cases c : gap > 1
      · rw [if_pos c] at h
        obtain ⟨b1, b2⟩ := mul_shrink_bounds gap c hg2
        exact ih (mul_shrink gap) k1 r1 out b1 (by omega) h
      · rw [if_neg c] at h
        have hg : gap = 1 := by omega
        subst hg
        by_cases t : _mm_testz_si128 swap swap = true
        · rw [if_pos t] at h
          cases h
          exact ⟨keys, rids, swap, hp, t⟩
        · rw [if_neg t] at h
          exact ih 1 k1 r1 out hg1 hg2 h

/-! ## Lemmas on `partition_offsets` -/

theorem offsets_add_eq (count : Nat → Nat → Nat) (i : Nat) :
    ∀ n t p, t + n ≤ 2 ^ 64 → p + range_sum (fun k => count (t + k) i) n < 2 ^ 64 →
      offsets_add count i n t p = p + range_sum (fun k => count (t + k) i) n := by
  intro n
  induction n with
  | zero => intro t p _ _; rw [range_sum_zero]; rfl
  | succ n ih =>
    intro t p ht hp
    have hc : range_sum (fun k => count (t + (k + 1)) i) n
        = range_sum (fun k => count (t + 1 + k) i) n :=
      range_sum_congr _ _ _ (fun k _ => by rw [show t + (k + 1) = t + 1 + k by omega])
    have hh : range_sum (fun k => count (t + k) i) (n + 1)
        = count t i + range_sum (fun k => count (t + 1 + k) i) n := by
      rw [range_sum_head, Nat.add_zero, hc]
    rw [hh] at hp ⊢
    have hunf : offsets_add count i (n + 1) t p
        = offsets_add count i n ((t + 1) % 2 ^ 64) ((p + count t i) % 2 ^ 64) := rfl
    rw [hunf]
    by_cases hn : n = 0
    · subst hn
      rw [range_sum_zero] at hp ⊢
      rw [show offsets_add count i 0 ((t + 1) % 2 ^ 64) ((p + count t i) % 2 ^ 64)
        = (p + count t i) % 2 ^ 64 from rfl, Nat.mod_eq_of_lt (by omega)]
      omega
    · rw [Nat.mod_eq_of_lt (show t + 1 < 2 ^ 64 by omega),
        Nat.mod_eq_of_lt (show p + count t i < 2 ^ 64 by omega),
        ih (t + 1) (p + count t i) (by omega) (by omega)]
      omega

theorem partition_offsets_loop_spec (count : Nat → Nat → Nat) (id threads : Nat)
    (hid : id ≤ threads) (hth : threads < 2 ^ 64) :
    ∀ n i p offsets,
      p = range_sum (fun j => range_sum (fun t => count t j) threads) i →
      range_sum (fun j => range_sum (fun t => count t j) threads) (i + n) < 2 ^ 64 →
      (partition_offsets_loop count id threads n i p offsets).length = offsets.length ∧
      ∀ j, (partition_offsets_loop count id threads n i p offsets).getD j 0
        = if i ≤ j ∧ j < i + n ∧ j < offsets.length then
            range_sum (fun j => range_sum (fun t => count t j) threads) j
              + range_sum (fun t => count t j) id
          else offsets.getD j 0 := by
  intro n
  induction n with
  | zero =>
    intro i p offsets _ _
    refine ⟨rfl, fun j => ?_⟩
    rw [if_neg (by omega)]
    rfl
  | succ n ih =>
    intro i p offsets hp htot
    have hunf : partition_offsets_loop count id threads (n + 1) i p offsets
        = partition_offsets_loop count id threads n (i + 1)
            (offsets_add count i ((threads + 2 ^ 64 - id) % 2 ^ 64) id
              (offsets_add count i id 0 p))
            (offsets.set i (offsets_add count i id 0 p)) := rfl
    rw [hunf]
    have hm := range_sum_mono (fun j => range_sum (fun t => count t j) threads) (i + 1) (i + n + 1)
      (by omega)
    rw [range_sum_succ] at hm
    rw [← Nat.add_assoc] at htot
    have hsplit := range_sum_add (fun t => count t i) id (threads - id)
    rw [show id + (threads - id) = threads by omega] at hsplit
    have e1 : offsets_add count i id 0 p = p + range_sum (fun t => count t i) id := by
      have := offsets_add_eq count i id 0 p (by omega)
        (by simp only [Nat.zero_add]; omega)
      simp only [Nat.zero_add] at this
      exact this
    have e2 : offsets_add count i ((threads + 2 ^ 64 - id) % 2 ^ 64) id
        (p + range_sum (fun t => count t i) id)
        = range_sum (fun j => range_sum (fun t => count t j) threads) (i + 1) := by
      have e3 : (threads + 2 ^ 64 - id) % 2 ^ 64 = threads - id := by omega
      rw [e3, offsets_add_eq count i (threads - id) id _ (by omega)
        (by omega), range_sum_succ, hp]
      omega
    rw [e1, e2]
    obtain ⟨h1, h2⟩ := ih (i + 1) _ (offsets.set i (p + range_sum (fun t => count t i) id)) rfl
      (by rw [show i + 1 + n = i + n + 1 by omega]; exact htot)
    rw [List.length_set] at h1 h2
    refine ⟨h1, fun j => ?_⟩
    rw [h2 j, getD_set]
    by_cases c : i = j
    · subst c
      rw [if_neg (by omega)]
      by_cases c2 : i < offsets.length
      · rw [if_pos ⟨rfl, c2⟩, if_pos ⟨le_refl _, by omega, c2⟩, hp]
      · rw [if_neg (by omega), if_neg (by omega)]
    · by_cases c3 : i + 1 ≤ j ∧ j < i + 1 + n ∧ j < offsets.length
      · rw [if_pos c3, if_pos (by omega)]
      · rw [if_neg c3, if_neg (show ¬ (i = j ∧ i < offsets.length) by omega), if_neg (by omega)]

theorem partition_offsets_eq (count : Nat → Nat → Nat) (partitions id threads : Nat)
    (offsets : List Nat) (hid : id ≤ threads) (hth : threads < 2 ^ 64)
    (hlen : partitions ≤ offsets.length)
    (htot : range_sum (fun j => range_sum (fun t => count t j) threads) partitions < 2 ^ 64) :
    (partition_offsets count partitions id threads offsets).length = offsets.length ∧
    (∀ i, i < partitions →
      (partition_offsets count partitions id threads offsets).getD i 0
        = range_sum (fun j => range_sum (fun t => count t j) threads) i
            + range_sum (fun t => count t i) id) ∧
    (∀ i, partitions ≤ i →
      (partition_offsets count partitions id threads offsets).getD i 0 = offsets.getD i 0) := by
  obtain ⟨h1, h2⟩ := partition_offsets_loop_spec count id threads hid hth partitions 0 0 offsets
    (by rw [range_sum_zero]) (by rw [Nat.zero_add]; exact htot)
  refine ⟨h1, fun i hi => ?_, fun i hi => ?_⟩
  · rw [partition_offsets, h2 i, if_pos (by omega)]
  · rw [partition_offsets, h2 i, if_neg (by omega)]

/-! ## Lemmas on `histogram` and `histogram_old` -/

/-- Each element of the hash register depends on its own key only. -/
theorem histogram_hash_digits (a b c d : Nat) (s : M128) (v : Nat) :
    histogram_hash (mk64 a b) (mk64 c d) s (_mm_set1_epi64x v)
      = ⟨histogram_digit s (_mm_set1_epi64x v) a, histogram_digit s (_mm_set1_epi64x v) b,
         histogram_digit s (_mm_set1_epi64x v) c, histogram_digit s (_mm_set1_epi64x v) d⟩ := by
  simp only [histogram_digit, histogram_hash, _mm_srl_epi64, lo64_mk64_mod, hi64_mk64_mod]
  by_cases h : s.lo64 > 63
  · simp only [if_pos h]
    rfl
  · simp only [if_neg h]
    simp only [_mm_and_si128, _mm_packus_epi32, _mm_set1_epi64x, mk64]

theorem count_incr_comm (count : List Nat) (a b : Nat) :
    count_incr (count_incr count a) b = count_incr (count_incr count b) a := by
  by_cases hab : a = b
  · subst hab; rfl
  · apply list_ext_getD
    · simp only [count_incr_length]
    · intro n
      simp only [count_incr_getD, count_incr_length]
      by_cases c1 : b = n <;> by_cases c2 : a = n <;> by_cases c3 : a < count.length <;>
        by_cases c4 : b < count.length <;> simp [c1, c2, c3, c4, hab]

theorem foldl_count_incr_comm (l : List Nat) :
    ∀ (count : List Nat) (p : Nat),
      l.foldl count_incr (count_incr count p) = count_incr (l.foldl count_incr count) p := by
  induction l with
  | nil => intro count p; rfl
  | cons x xs ih =>
    intro count p
    simp only [List.foldl_cons]
    rw [count_incr_comm count p x, ih]

theorem histogram_lanes_comm (n : Nat) (h : M128) (count : List Nat) (p : Nat) (hn : n ≤ 4) :
    histogram_lanes n h (count_incr count p) = count_incr (histogram_lanes n h count) p := by
  obtain ⟨d0, d1, d2, d3⟩ := h
  rw [histogram_lanes_eq n d0 d1 d2 d3 _ hn, histogram_lanes_eq n d0 d1 d2 d3 _ hn,
    foldl_count_incr_comm]

theorem histogram_aligned_comm (keys : List Nat) (s m : M128) (p : Nat) :
    ∀ (n i : Nat) (count : List Nat),
      histogram_aligned keys s m n i (count_incr count p)
        = count_incr (histogram_aligned keys s m n i count) p := by
  intro n
  induction n with
  | zero => intro i count; rfl
  | succ n ih =>
    intro i count
    simp only [histogram_aligned]
    rw [histogram_lanes_comm 4 _ count p (le_refl _), ih]

theorem histogram_old_aligned_eq (keys : List Nat) (s m : M128) :
    ∀ (n i : Nat) (count : List Nat),
      histogram_old_aligned keys s m n i count = histogram_aligned keys s m n i count := by
  intro n
  induction n with
  | zero => intro i count; rfl
  | succ n ih =>
    intro i count
    simp only [histogram_old_aligned, histogram_aligned]
    rw [ih]

theorem histogram_old_head_eq (kpos : Nat) (keys : List Nat) (size : Nat) (stack : List Nat) :
    histogram_old_head kpos keys size size 0 stack
      = if kpos % 2 = 1 ∧ 0 < size then (1, stack.set 0 (keys.getD 0 0)) else (0, stack) := by
  cases size with
  | zero => simp [histogram_old_head]
  | succ n =>
    simp only [histogram_old_head, and_15_mul_8, Nat.add_zero]
    by_cases hk : kpos % 2 = 1
    · have h1 : 8 * (kpos % 2) ≠ 0 ∧ 0 ≠ n + 1 := ⟨by omega, by omega⟩
      rw [if_pos h1, if_pos ⟨hk, by omega⟩]
      cases n with
      | zero => simp [histogram_old_head]
      | succ m =>
        have h2 : ¬ (8 * ((kpos + (0 + 1)) % 2) ≠ 0 ∧ 0 + 1 ≠ m + 1 + 1) := by omega
        simp only [histogram_old_head, and_15_mul_8, if_neg h2]
    · have h1 : ¬ (8 * (kpos % 2) ≠ 0 ∧ 0 ≠ n + 1) := by omega
      rw [if_neg h1, if_neg (by omega)]

/-- The block that counts `n <= 3` keys of `unaligned_keys` in `histogram`:
one `count[p]++` for each of the first `n` keys. -/
theorem histogram_unaligned_digits (uk : List Nat) (n : Nat) (s : M128) (v : Nat)
    (count : List Nat) (hn : n ≤ 3) :
    histogram_unaligned uk n s (_mm_set1_epi64x v) count
      = (([uk.getD 0 0, uk.getD 1 0, uk.getD 2 0].take n).map
          (histogram_digit s (_mm_set1_epi64x v))).foldl count_incr count := by
  have h4 : n = 0 ∨ n = 1 ∨ n = 2 ∨ n = 3 := by omega
  have z : _mm_setzero_si128 = mk64 0 0 := rfl
  rcases h4 with h | h | h | h <;> subst h
  · rfl
  · simp only [histogram_unaligned, load_si128_eq]
    rw [if_pos (by omega), if_neg (by omega), z, histogram_hash_digits,
      histogram_lanes_eq 1 _ _ _ _ _ (by omega)]
    rfl
  · simp only [histogram_unaligned, load_si128_eq]
    rw [if_pos (by omega), if_neg (by omega), z, histogram_hash_digits,
      histogram_lanes_eq 2 _ _ _ _ _ (by omega)]
    rfl
  · simp only [histogram_unaligned, load_si128_eq]
    rw [if_pos (by omega), if_pos (by omega), histogram_hash_digits,
      histogram_lanes_eq 3 _ _ _ _ _ (by omega)]
    rfl

/-- The same for `histogram_old`, which loads both halves of the buffer. -/
theorem histogram_old_unaligned_digits (uk : List Nat) (n : Nat) (s : M128) (v : Nat)
    (count : List Nat) (hn : n ≤ 3) :
    histogram_old_unaligned uk n s (_mm_set1_epi64x v) count
      = (([uk.getD 0 0, uk.getD 1 0, uk.getD 2 0].take n).map
          (histogram_digit s (_mm_set1_epi64x v))).foldl count_incr count := by
  have h4 : n = 0 ∨ n = 1 ∨ n = 2 ∨ n = 3 := by omega
  rcases h4 with h | h | h | h <;> subst h
  · rfl
  · simp only [histogram_old_unaligned, load_si128_eq]
    rw [if_pos (by omega), histogram_hash_digits, histogram_lanes_eq 1 _ _ _ _ _ (by omega)]
    rfl
  · simp only [histogram_old_unaligned, load_si128_eq]
    rw [if_pos (by omega), histogram_hash_digits, histogram_lanes_eq 2 _ _ _ _ _ (by omega)]
    rfl
  · simp only [histogram_old_unaligned, load_si128_eq]
    rw [if_pos (by omega), histogram_hash_digits, histogram_lanes_eq 3 _ _ _ _ _ (by omega)]
    rfl

theorem take3_congr (uk uk' : List Nat) (n : Nat) (hn : n ≤ 3)
    (h : ∀ j, j < n → uk.getD j 0 = uk'.getD j 0) :
    [uk.getD 0 0, uk.getD 1 0, uk.getD 2 0].take n
      = [uk'.getD 0 0, uk'.getD 1 0, uk'.getD 2 0].take n := by
  have h4 : n = 0 ∨ n = 1 ∨ n = 2 ∨ n = 3 := by omega
  rcases h4 with h' | h' | h' | h' <;> subst h'
  · rfl
  · rw [h 0 (by omega)]; rfl
  · rw [h 0 (by omega), h 1 (by omega)]; rfl
  · rw [h 0 (by omega), h 1 (by omega), h 2 (by omega)]

/-- The two histograms after their head loops: the `i0 <= 1` head keys, the
aligned groups and the tail are counted, in a different order. -/
theorem histogram_old_body (keys : List Nat) (s : M128) (v : Nat) (i0 size : Nat) (hi0 : i0 ≤ 1)
    (uk uk' : List Nat) (huk : uk.length = 4) (huk' : uk'.length = 4)
    (hhead : ∀ j, j < i0 → uk.getD j 0 = uk'.getD j 0) (count : List Nat) :
    histogram_unaligned
        (gather_unaligned keys (i0 + size - (i0 + and_not size 3)) (i0 + and_not size 3) uk 0).1
        (gather_unaligned keys (i0 + size - (i0 + and_not size 3)) (i0 + and_not size 3) uk 0).2
        s (_mm_set1_epi64x v)
        (histogram_unaligned uk i0 s (_mm_set1_epi64x v)
          (histogram_aligned keys s (_mm_set1_epi64x v) (and_not size 3 / 4) i0 count))
      = histogram_old_unaligned
        (gather_unaligned keys (i0 + size - (i0 + and_not size 3)) (i0 + and_not size 3) uk' 0).1
        (gather_unaligned keys (i0 + size - (i0 + and_not size 3)) (i0 + and_not size 3) uk' 0).2
        s (_mm_set1_epi64x v)
        (histogram_old_aligned keys s (_mm_set1_epi64x v) (and_not size 3 / 4) i0
          (histogram_old_unaligned uk' i0 s (_mm_set1_epi64x v) count)) := by
  have hn : i0 + size - (i0 + and_not size 3) ≤ 3 := by
    rw [and_not_3]; omega
  generalize i0 + size - (i0 + and_not size 3) = n at hn
  obtain ⟨g1, g2, g3⟩ := gather_unaligned_spec keys n (i0 + and_not size 3) uk 0
  obtain ⟨g1', g2', g3'⟩ := gather_unaligned_spec keys n (i0 + and_not size 3) uk' 0
  rw [Nat.zero_add] at g1 g1'
  rw [g1, g1', histogram_unaligned_digits _ n s v _ hn, histogram_old_unaligned_digits _ n s v _ hn,
    histogram_old_aligned_eq,
    take3_congr _ (gather_unaligned keys n (i0 + and_not size 3) uk' 0).1 n hn
      (by intro j hj
          rw [g3 j, g3' j, if_pos ⟨by omega, by omega, by omega⟩,
            if_pos ⟨by omega, by omega, by omega⟩])]
  congr 1
  rw [histogram_unaligned_digits _ i0 s v _ (by omega),
    histogram_old_unaligned_digits _ i0 s v _ (by omega), take3_congr uk uk' i0 (by omega) hhead]
  have h2 : i0 = 0 ∨ i0 = 1 := by omega
  rcases h2 with h | h <;> subst h
  · rfl
  · simp only [List.take, List.map, List.foldl]
    rw [histogram_aligned_comm]

/-! ## Lemmas on `partition_keys` -/

theorem shuffle_3120 (a : M128) :
    _mm_shuffle_epi32 a (MM_SHUFFLE 3 1 2 0) = ⟨a.e0, a.e2, a.e1, a.e3⟩ := rfl

theorem shuffle_0321 (a : M128) :
    _mm_shuffle_epi32 a (MM_SHUFFLE 0 3 2 1) = ⟨a.e1, a.e2, a.e3, a.e0⟩ := rfl

/-- The body of the inner loop reads the elements 0 of its registers only. -/
theorem partition_keys_lane_e0 (h k_L k_H h' k_L' k_H' : M128) (buf keys_out : List Nat)
    (e1 : h.e0 = h'.e0) (e2 : k_L.e0 = k_L'.e0) (e3 : k_H.e0 = k_H'.e0) :
    partition_keys_lane h k_L k_H buf keys_out = partition_keys_lane h' k_L' k_H' buf keys_out := by
  simp only [partition_keys_lane, movd, _mm_unpacklo_epi32, _mm_storel_epi64, M128.lo64, e1, e2,
    e3]

theorem partition_keys_lanes_succ (n : Nat) (h k_L k_H : M128) (st : List Nat × List Nat) :
    partition_keys_lanes (n + 1) h k_L k_H st
      = partition_keys_lanes n (_mm_shuffle_epi32 h (MM_SHUFFLE 0 3 2 1))
          (_mm_shuffle_epi32 k_L (MM_SHUFFLE 0 3 2 1)) (_mm_shuffle_epi32 k_H (MM_SHUFFLE 0 3 2 1))
          (partition_keys_lane h k_L k_H st.1 st.2) := by
  obtain ⟨buf, out⟩ := st
  rfl

theorem partition_keys_lanes_zero (h k_L k_H : M128) (st : List Nat × List Nat) :
    partition_keys_lanes 0 h k_L k_H st = st := by
  obtain ⟨buf, out⟩ := st
  rfl

theorem partition_keys_lanes_4 (x0 x1 x2 x3 l0 l1 l2 l3 h0 h1 h2 h3 : Nat)
    (st : List Nat × List Nat) :
    partition_keys_lanes 4 ⟨x0, x1, x2, x3⟩ ⟨l0, l1, l2, l3⟩ ⟨h0, h1, h2, h3⟩ st
      = (fun st : List Nat × List Nat =>
          partition_keys_lane ⟨x3, 0, 0, 0⟩ ⟨l3, 0, 0, 0⟩ ⟨h3, 0, 0, 0⟩ st.1 st.2)
        ((fun st : List Nat × List Nat =>
          partition_keys_lane ⟨x2, 0, 0, 0⟩ ⟨l2, 0, 0, 0⟩ ⟨h2, 0, 0, 0⟩ st.1 st.2)
        ((fun st : List Nat × List Nat =>
          partition_keys_lane ⟨x1, 0, 0, 0⟩ ⟨l1, 0, 0, 0⟩ ⟨h1, 0, 0, 0⟩ st.1 st.2)
        ((fun st : List Nat × List Nat =>
          partition_keys_lane ⟨x0, 0, 0, 0⟩ ⟨l0, 0, 0, 0⟩ ⟨h0, 0, 0, 0⟩ st.1 st.2) st))) := by
  dsimp only
  rw [partition_keys_lanes_succ, partition_keys_lanes_succ, partition_keys_lanes_succ,
    partition_keys_lanes_succ, partition_keys_lanes_zero]
  simp only [shuffle_0321]
  rw [partition_keys_lane_e0 ⟨x0, x1, x2, x3⟩ ⟨l0, l1, l2, l3⟩ ⟨h0, h1, h2, h3⟩ ⟨x0, 0, 0, 0⟩
    ⟨l0, 0, 0, 0⟩ ⟨h0, 0, 0, 0⟩ st.1 st.2 rfl rfl rfl]
  generalize partition_keys_lane ⟨x0, 0, 0, 0⟩ ⟨l0, 0, 0, 0⟩ ⟨h0, 0, 0, 0⟩ st.1 st.2 = st1
  rw [partition_keys_lane_e0 ⟨x1, x2, x3, x0⟩ ⟨l1, l2, l3, l0⟩ ⟨h1, h2, h3, h0⟩ ⟨x1, 0, 0, 0⟩
    ⟨l1, 0, 0, 0⟩ ⟨h1, 0, 0, 0⟩ st1.1 st1.2 rfl rfl rfl]
  generalize partition_keys_lane ⟨x1, 0, 0, 0⟩ ⟨l1, 0, 0, 0⟩ ⟨h1, 0, 0, 0⟩ st1.1 st1.2 = st2
  rw [partition_keys_lane_e0 ⟨x2, x3, x0, x1⟩ ⟨l2, l3, l0, l1⟩ ⟨h2, h3, h0, h1⟩ ⟨x2, 0, 0, 0⟩
    ⟨l2, 0, 0, 0⟩ ⟨h2, 0, 0, 0⟩ st2.1 st2.2 rfl rfl rfl]
  generalize partition_keys_lane ⟨x2, 0, 0, 0⟩ ⟨l2, 0, 0, 0⟩ ⟨h2, 0, 0, 0⟩ st2.1 st2.2 = st3
  rw [partition_keys_lane_e0 ⟨x3, x0, x1, x2⟩ ⟨l3, l0, l1, l2⟩ ⟨h3, h0, h1, h2⟩ ⟨x3, 0, 0, 0⟩
    ⟨l3, 0, 0, 0⟩ ⟨h3, 0, 0, 0⟩ st3.1 st3.2 rfl rfl rfl]

theorem partition_keys_group_eq (a b c d sh r : Nat) (hr : r ≤ 16) (hsh : sh ≤ 64)
    (ha : a < 2 ^ 64) (hb : b < 2 ^ 64) (hc : c < 2 ^ 64) (hd : d < 2 ^ 64)
    (st : List Nat × List Nat) :
    partition_keys_group (mk64 a b) (mk64 c d) (_mm_set_epi32 0 0 0 sh)
        (_mm_set1_epi64x ((1 <<< r) - 1)) st
      = partition_keys_step sh r (partition_keys_step sh r (partition_keys_step sh r
          (partition_keys_step sh r st a) b) c) d := by
  have hh := histogram_hash_lanes a b c d sh r hr hsh ha hb hc hd
  unfold histogram_hash at hh
  unfold partition_keys_group
  simp only [hh]
  have h3 : ∀ x y z w : Nat, _mm_slli_epi32 ⟨x, y, z, w⟩ 3
      = ⟨(x <<< 3) % 2 ^ 32, (y <<< 3) % 2 ^ 32, (z <<< 3) % 2 ^ 32, (w <<< 3) % 2 ^ 32⟩ :=
    fun _ _ _ _ => rfl
  simp only [h3, shuffle_3120, mk64, _mm_unpacklo_epi64, _mm_unpackhi_epi64]
  rw [partition_keys_lanes_4]
  rfl

theorem partition_keys_loop_eq (keys : List Nat) (sh r : Nat) (hr : r ≤ 16) (hsh : sh ≤ 64) :
    ∀ (n i : Nat) (st : List Nat × List Nat),
      (∀ j, i ≤ j → j < i + 4 * n → keys.getD j 0 < 2 ^ 64) →
      partition_keys_loop keys (_mm_set_epi32 0 0 0 sh) (_mm_set1_epi64x ((1 <<< r) - 1)) n i st
        = ((List.range' i (4 * n)).map (fun j => keys.getD j 0)).foldl
            (partition_keys_step sh r) st := by
  intro n
  induction n with
  | zero => intro i st _; rfl
  | succ n ih =>
    intro i st hk
    have e : 4 * (n + 1) = 4 * n + 1 + 1 + 1 + 1 := by omega
    rw [e]
    simp only [partition_keys_loop, load_si128_eq, List.range'_succ, List.map_cons,
      List.foldl_cons]
    rw [partition_keys_group_eq _ _ _ _ sh r hr hsh (hk _ (by omega) (by omega))
      (hk _ (by omega) (by omega)) (hk _ (by omega) (by omega)) (hk _ (by omega) (by omega)),
      ih (i + 4) _ (fun j h1 h2 => hk j (by omega) (by omega))]

theorem partition_keys_count_eq (keys : List Nat) (sh r : Nat) (hr : r ≤ 16) (hsh : sh ≤ 64) :
    ∀ (n i : Nat) (count : List Nat),
      (∀ j, i ≤ j → j < i + 4 * n → keys.getD j 0 < 2 ^ 64) →
      partition_keys_count keys (_mm_set_epi32 0 0 0 sh) (_mm_set1_epi64x ((1 <<< r) - 1)) n i
          count
        = ((List.range' i (4 * n)).map (fun j => keys.getD j 0)).foldl
            (fun c k => count_incr c (radix_digit k sh r)) count := by
  intro n
  induction n with
  | zero => intro i count _; rfl
  | succ n ih =>
    intro i count hk
    have e : 4 * (n + 1) = 4 * n + 1 + 1 + 1 + 1 := by omega
    rw [e]
    simp only [partition_keys_count, load_si128_eq, List.range'_succ, List.map_cons,
      List.foldl_cons]
    have hh := histogram_hash_lanes (keys.getD i 0) (keys.getD (i + 1) 0) (keys.getD (i + 2) 0)
      (keys.getD (i + 2 + 1) 0) sh r hr hsh (hk _ (by omega) (by omega))
      (hk _ (by omega) (by omega)) (hk _ (by omega) (by omega)) (hk _ (by omega) (by omega))
    unfold histogram_hash at hh
    simp only [hh]
    rw [histogram_lanes_eq 4 _ _ _ _ _ (le_refl _), ih (i + 4) _
      (fun j h1 h2 => hk j (by omega) (by omega))]
    simp only [List.take, List.foldl_cons, List.foldl_nil]


/-- Eight consecutive stores. -/
theorem store_line_getD (out : List Nat) (dst v0 v1 v2 v3 v4 v5 v6 v7 x : Nat)
    (h : dst + 7 < out.length) :
    ((((((((out.set dst v0).set (dst + 1) v1).set (dst + 2) v2).set (dst + 2 + 1) v3).set
      (dst + 4) v4).set (dst + 4 + 1) v5).set (dst + 6) v6).set (dst + 6 + 1) v7).getD x 0
      = if dst ≤ x ∧ x ≤ dst + 7 then [v0, v1, v2, v3, v4, v5, v6, v7].getD (x - dst) 0
        else out.getD x 0 := by
  simp only [getD_set, List.length_set]
  by_cases c : dst ≤ x ∧ x ≤ dst + 7
  · rw [if_pos c]
    obtain ⟨i, hi⟩ : ∃ i, x = dst + i := ⟨x - dst, by omega⟩
    subst hi
    have hi8 : i < 8 := by omega
    rw [show dst + i - dst = i by omega]
    interval_cases i <;> (repeat rw [if_neg (by omega)]) <;> rw [if_pos ⟨rfl, by omega⟩] <;> rfl
  · rw [if_neg c]
    repeat rw [if_neg (by omega)]

theorem and_7 (x : Nat) : x &&& 7 = x % 8 := by
  have := Nat.and_pow_two_sub_one_eq_mod x 3
  simpa using this

/-- The body of the inner loop of the main partitioning loop for one key, in
terms of the entries of the buffer and of `keys_out`. -/
theorem partition_keys_step_spec (sh r key : Nat) (buf out : List Nat) (hr : r ≤ 16)
    (hkey : key < 2 ^ 64) (hbuf : buf.length = 8 * 2 ^ r)
    (hidx : buf.getD (8 * radix_digit key sh r + 7) 0 + 1 < 2 ^ 64)
    (hout : buf.getD (8 * radix_digit key sh r + 7) 0 < out.length) :
    (partition_keys_step sh r (buf, out) key).1.length = buf.length ∧
    (partition_keys_step sh r (buf, out) key).2.length = out.length ∧
    (∀ j, (partition_keys_step sh r (buf, out) key).1.getD j 0
      = if j = 8 * radix_digit key sh r + 7 then buf.getD (8 * radix_digit key sh r + 7) 0 + 1
        else if j = 8 * radix_digit key sh r + buf.getD (8 * radix_digit key sh r + 7) 0 % 8
          then key
        else buf.getD j 0) ∧
    (∀ x, (partition_keys_step sh r (buf, out) key).2.getD x 0
      = if buf.getD (8 * radix_digit key sh r + 7) 0 % 8 = 7
          ∧ buf.getD (8 * radix_digit key sh r + 7) 0 - 7 ≤ x
          ∧ x ≤ buf.getD (8 * radix_digit key sh r + 7) 0 then
          (if x = buf.getD (8 * radix_digit key sh r + 7) 0 then key
           else buf.getD (8 * radix_digit key sh r + x % 8) 0 % 2 ^ 64)
        else out.getD x 0) := by
  have hd := radix_digit_lt key sh r
  have hM : 2 ^ r ≤ 2 ^ 16 := Nat.pow_le_pow_right (by norm_num) hr
  have hp : (radix_digit key sh r <<< 3) % 2 ^ 32 = 8 * radix_digit key sh r := by
    rw [Nat.shiftLeft_eq]; omega
  have hk : key % 2 ^ 32 + 2 ^ 32 * (key / 2 ^ 32 % 2 ^ 32) = key := by omega
  simp only [partition_keys_step, partition_keys_lane, movd, _mm_unpacklo_epi32,
    _mm_storel_epi64, M128.lo64, and_7, hp, hk]
  generalize radix_digit key sh r = d at *
  generalize hI : buf.getD (8 * d + 7) 0 = index at *
  rw [Nat.mod_eq_of_lt hidx]
  by_cases c : index % 8 = 7
  · simp only [c, if_true]
    have hdst : index - 7 + 7 < out.length := by omega
    refine ⟨by simp only [List.length_set], ?_, ?_, ?_⟩
    · simp only [_mm_store_si128, List.length_set]
    · intro j
      rw [getD_set, getD_set, getD_set]
      simp only [List.length_set]
      by_cases cj : j = 8 * d + 7
      · subst cj
        rw [if_pos ⟨rfl, by omega⟩, if_pos rfl]
      · rw [if_neg (by omega), if_neg (by omega), if_neg (by omega), if_neg cj, if_neg cj]
    · intro x
      simp only [_mm_store_si128, load_si128_eq, lo64_mk64_mod, hi64_mk64_mod]
      rw [store_line_getD _ _ _ _ _ _ _ _ _ _ _ hdst]
      by_cases cx : index - 7 ≤ x ∧ x ≤ index
      · rw [if_pos ⟨by omega, by omega⟩, if_pos ⟨trivial, cx⟩]
        obtain ⟨i, hi⟩ : ∃ i, x = index - 7 + i := ⟨x - (index - 7), by omega⟩
        subst hi
        have hi8 : i < 8 := by omega
        rw [show index - 7 + i - (index - 7) = i by omega,
          show (index - 7 + i) % 8 = i by omega]
        have hB : ∀ q, q < 7 → ((buf.set (8 * d + 7) (index + 1)).set (8 * d + 7) key).getD
            (8 * d + q) 0 = buf.getD (8 * d + q) 0 := by
          intro q hq
          rw [getD_set, getD_set, if_neg (by omega), if_neg (by omega)]
        have hB7 : ((buf.set (8 * d + 7) (index + 1)).set (8 * d + 7) key).getD
            (8 * d + 6 + 1) 0 = key := by
          rw [getD_set, if_pos ⟨by omega, by rw [List.length_set]; omega⟩]
        have h0 := hB 0 (by omega)
        have h1 := hB 1 (by omega)
        have h2 := hB 2 (by omega)
        have h3 := hB 3 (by omega)
        have h4 := hB 4 (by omega)
        have h5 := hB 5 (by omega)
        have h6 := hB 6 (by omega)
        simp only [Nat.add_zero] at h0
        rw [show 8 * d + 3 = 8 * d + 2 + 1 by omega] at h3
        rw [show 8 * d + 5 = 8 * d + 4 + 1 by omega] at h5
        rw [h0, h1, h2, h3, h4, h5, h6, hB7]
        interval_cases i
        · rw [if_neg (by omega)]; rfl
        · rw [if_neg (by omega)]; rfl
        · rw [if_neg (by omega)]; rfl
        · rw [if_neg (by omega)]; rfl
        · rw [if_neg (by omega)]; rfl
        · rw [if_neg (by omega)]; rfl
        · rw [if_neg (by omega)]; rfl
        · rw [if_pos (by omega)]
          exact Nat.mod_eq_of_lt hkey
      · rw [if_neg (by omega), if_neg (by omega)]
  · simp only [if_neg c]
    refine ⟨by simp only [List.length_set], trivial, ?_, ?_⟩
    · intro j
      rw [getD_set, getD_set]
      simp only [List.length_set]
      by_cases cj : j = 8 * d + 7
      · subst cj
        rw [if_neg (by omega), if_pos ⟨rfl, by omega⟩, if_pos rfl]
      · rw [if_neg cj]
        by_cases cj2 : j = 8 * d + index % 8
        · subst cj2
          rw [if_pos ⟨rfl, by omega⟩, if_pos rfl]
        · rw [if_neg (by omega), if_neg (by omega), if_neg cj2]
    · intro x
      rw [if_neg (fun h => c h.1)]


theorem digit_keys_append (a b : List Nat) (sh r p : Nat) :
    digit_keys (a ++ b) sh r p = digit_keys a sh r p ++ digit_keys b sh r p := by
  simp only [digit_keys, List.filter_append]

theorem digit_keys_cons (k : Nat) (l : List Nat) (sh r p : Nat) :
    digit_keys (k :: l) sh r p
      = if radix_digit k sh r = p then k :: digit_keys l sh r p else digit_keys l sh r p := by
  simp only [digit_keys, List.filter_cons, decide_eq_true_eq]

theorem digit_keys_nil (sh r p : Nat) : digit_keys [] sh r p = [] := rfl

theorem digit_keys_lt (l : List Nat) (sh r p : Nat) (h : ∀ x ∈ l, x < 2 ^ 64) (j : Nat) :
    (digit_keys l sh r p).getD j 0 < 2 ^ 64 :=
  getD_lt_of_forall _ (fun x hx => h x (List.mem_of_mem_filter hx)) j

theorem digit_start_succ (l : List Nat) (sh r p : Nat) :
    digit_start l sh r (p + 1) = digit_start l sh r p + (digit_keys l sh r p).length := by
  simp only [digit_start, range_sum_succ]

theorem digit_start_mono (l : List Nat) (sh r p q : Nat) (h : p ≤ q) :
    digit_start l sh r p ≤ digit_start l sh r q :=
  range_sum_mono _ p q h

theorem digit_start_end_le (l : List Nat) (sh r p q : Nat) (h : p < q) :
    digit_start l sh r p + (digit_keys l sh r p).length ≤ digit_start l sh r q := by
  rw [← digit_start_succ]
  exact digit_start_mono l sh r (p + 1) q h

theorem range_sum_indicator (d : Nat) :
    ∀ n, range_sum (fun p => if d = p then 1 else 0) n = if d < n then 1 else 0 := by
  intro n
  induction n with
  | zero => rw [range_sum_zero, if_neg (by omega)]
  | succ n ih =>
    rw [range_sum_succ, ih]
    by_cases c : d < n
    · rw [if_pos c, if_neg (by omega), if_pos (by omega)]
    · rw [if_neg c]
      by_cases c2 : d = n
      · rw [if_pos c2, if_pos (by omega)]
      · rw [if_neg c2, if_neg (by omega)]

theorem range_sum_add_fun (f g : Nat → Nat) :
    ∀ n, range_sum (fun p => f p + g p) n = range_sum f n + range_sum g n := by
  intro n
  induction n with
  | zero => simp only [range_sum_zero]
  | succ n ih => rw [range_sum_succ, range_sum_succ, range_sum_succ, ih]; omega

theorem digit_start_total (l : List Nat) (sh r : Nat) :
    digit_start l sh r (2 ^ r) = l.length := by
  induction l with
  | nil =>
    simp only [digit_start, digit_keys_nil, List.length_nil]
    have := range_sum_congr (fun _ => 0) (fun p => if 2 ^ r = p then 1 else 0) (2 ^ r)
      (fun i hi => by
        show 0 = (if 2 ^ r = i then 1 else 0)
        rw [if_neg (by omega)])
    rw [this, range_sum_indicator, if_neg (by omega)]
  | cons k l ih =>
    have e : ∀ p, (digit_keys (k :: l) sh r p).length
        = (if radix_digit k sh r = p then 1 else 0) + (digit_keys l sh r p).length := by
      intro p
      rw [digit_keys_cons]
      split
      · rw [List.length_cons]; omega
      · omega
    simp only [digit_start] at ih ⊢
    rw [range_sum_congr _ _ _ (fun p _ => e p), range_sum_add_fun, range_sum_indicator,
      if_pos (radix_digit_lt k sh r), ih, List.length_cons]
    omega

/-- The main partitioning loop keeps its invariant when it places the next
key. -/
theorem partition_keys_inv_step (l pre post : List Nat) (k sh r : Nat)
    (hl : l = pre ++ k :: post) (hr : r ≤ 16) (hb : ∀ x ∈ l, x < 2 ^ 64)
    (hlen : l.length < 2 ^ 64) (st : List Nat × List Nat)
    (hinv : partition_keys_inv l sh r pre st) :
    partition_keys_inv l sh r (pre ++ [k]) (partition_keys_step sh r st k) := by
  obtain ⟨buf, out⟩ := st
  obtain ⟨i1, i2, i3⟩ := hinv
  dsimp only at i1 i2 i3
  have hk : k < 2 ^ 64 := hb k (by rw [hl]; simp)
  have hp0 := radix_digit_lt k sh r
  -- the keys of each digit in `pre`, `pre ++ [k]` and `l`
  have hC : ∀ p, (digit_keys (pre ++ [k]) sh r p).length
      = (digit_keys pre sh r p).length + (if radix_digit k sh r = p then 1 else 0) := by
    intro p
    rw [digit_keys_append, digit_keys_cons, digit_keys_nil, List.length_append]
    split <;> rfl
  have hT : ∀ p, digit_keys l sh r p
      = digit_keys pre sh r p ++ digit_keys (k :: post) sh r p := by
    intro p; rw [hl, digit_keys_append]
  have hT0 : (digit_keys l sh r (radix_digit k sh r)).length
      > (digit_keys pre sh r (radix_digit k sh r)).length := by
    rw [hT, digit_keys_cons, if_pos rfl, List.length_append, List.length_cons]; omega
  have hTle : ∀ p, (digit_keys pre sh r p).length ≤ (digit_keys l sh r p).length := by
    intro p; rw [hT, List.length_append]; omega
  have hitem : (digit_keys l sh r (radix_digit k sh r)).getD
      (digit_keys pre sh r (radix_digit k sh r)).length 0 = k := by
    rw [hT, digit_keys_cons, if_pos rfl, List.getD_eq_getElem?_getD,
      List.getElem?_append_right (le_refl _), Nat.sub_self]
    simp
  have hend := digit_start_end_le l sh r
  have htot := digit_start_total l sh r
  have hmono := digit_start_mono l sh r
  have hlt := digit_keys_lt l sh r
  obtain ⟨j1, j2⟩ := i3 _ hp0
  have hE : digit_start l sh r (radix_digit k sh r)
      + (digit_keys l sh r (radix_digit k sh r)).length ≤ l.length := by
    rw [← htot, ← digit_start_succ]
    exact hmono _ _ (by omega)
  obtain ⟨s1, s2, s3, s4⟩ := partition_keys_step_spec sh r k buf out hr hk i1
    (by rw [j1]; omega) (by rw [j1]; omega)
  rw [j1] at s3 s4
  refine ⟨by rw [s1]; exact i1, by rw [s2]; exact i2, fun p hp => ?_⟩
  obtain ⟨q1, q2⟩ := i3 p hp
  rw [hC p]
  generalize hS : digit_start l sh r p = S at *
  generalize hCp : (digit_keys pre sh r p).length = C at *
  generalize hS0 : digit_start l sh r (radix_digit k sh r) = S0 at *
  generalize hC0 : (digit_keys pre sh r (radix_digit k sh r)).length = C0 at *
  by_cases cp : radix_digit k sh r = p
  · -- the partition of the key
    rw [if_pos cp]
    have eS : S0 = S := by rw [← hS0, ← hS, cp]
    have eC : C0 = C := by rw [← hC0, ← hCp, cp]
    subst eS eC
    rw [cp] at s3 s4 hitem
    refine ⟨?_, fun x hx1 hx2 => ?_⟩
    · rw [s3, if_pos rfl]; omega
    · rw [s3, s4]
      by_cases cx : x = S0 + C0
      · subst cx
        rw [show S0 + C0 - S0 = C0 by omega, hitem]
        by_cases c7 : (S0 + C0) % 8 = 7
        · rw [if_neg (by omega), if_pos ⟨c7, by omega, le_refl _⟩, if_pos rfl]
        · rw [if_pos (by omega), if_neg (by omega), if_pos rfl]
      · have hold := q2 x hx1 (by omega)
        by_cases c7 : (S0 + C0) % 8 = 7
        · rw [if_neg (by omega)]
          by_cases cl : x / 8 = (S0 + C0) / 8
          · rw [if_pos ⟨c7, by omega, by omega⟩, if_neg cx]
            rw [if_pos cl] at hold
            rw [hold]
            exact Nat.mod_eq_of_lt (hlt p hb _)
          · rw [if_neg (by omega)]
            rw [if_neg cl] at hold
            exact hold
        · by_cases cl : x / 8 = (S0 + C0) / 8
          · rw [if_pos (by omega), if_neg (by omega), if_neg (by omega)]
            rw [if_pos cl] at hold
            exact hold
          · rw [if_neg (by omega), if_neg (fun h => c7 h.1)]
            rw [if_neg cl] at hold
            exact hold
  · -- another partition
    simp only [if_neg cp, Nat.add_zero]
    have hne : p ≠ radix_digit k sh r := fun h => cp h.symm
    refine ⟨?_, fun x hx1 hx2 => ?_⟩
    · rw [s3, if_neg (by omega), if_neg (by omega)]
      exact q1
    · have hold := q2 x hx1 hx2
      by_cases cl : x / 8 = (S + C) / 8
      · rw [if_pos cl] at hold ⊢
        rw [s3, if_neg (by omega), if_neg (by omega)]
        exact hold
      · rw [if_neg cl] at hold ⊢
        rw [s4, if_neg ?_]
        · exact hold
        · intro hc
          rcases Nat.lt_or_gt_of_ne hne with c | c
          · have a1 := hend p (radix_digit k sh r) c
            have a2 := hTle p
            rw [hS, hS0] at a1
            rw [hCp] at a2
            omega
          · have a1 := hend (radix_digit k sh r) p c
            rw [hS0, hS] at a1
            omega


theorem partition_keys_inv_foldl (l : List Nat) (sh r : Nat) (hr : r ≤ 16)
    (hb : ∀ x ∈ l, x < 2 ^ 64) (hlen : l.length < 2 ^ 64) :
    ∀ (post pre : List Nat) (st : List Nat × List Nat), l = pre ++ post →
      partition_keys_inv l sh r pre st →
      partition_keys_inv l sh r l (post.foldl (partition_keys_step sh r) st) := by
  intro post
  induction post with
  | nil =>
    intro pre st hl hinv
    rw [List.append_nil] at hl
    subst hl
    exact hinv
  | cons k post ih =>
    intro pre st hl hinv
    rw [List.foldl_cons]
    exact ih (pre ++ [k]) _ (by rw [hl]; simp)
      (partition_keys_inv_step l pre post k sh r hl hr hb hlen st hinv)

theorem partition_keys_zero_spec :
    ∀ (n p : Nat) (hist : List Nat),
      (partition_keys_zero n p hist).length = hist.length ∧
      ∀ j, (partition_keys_zero n p hist).getD j 0
        = if p ≤ j ∧ j < p + n then 0 else hist.getD j 0 := by
  intro n
  induction n with
  | zero =>
    intro p hist
    refine ⟨rfl, fun j => ?_⟩
    rw [if_neg (by omega)]
    rfl
  | succ n ih =>
    intro p hist
    obtain ⟨h1, h2⟩ := ih (p + 1) (hist.set p 0)
    have hunf : partition_keys_zero (n + 1) p hist = partition_keys_zero n (p + 1) (hist.set p 0) :=
      rfl
    rw [hunf]
    refine ⟨by rw [h1, List.length_set], fun j => ?_⟩
    rw [h2, getD_set]
    by_cases c : p + 1 ≤ j ∧ j < p + 1 + n
    · rw [if_pos c, if_pos (by omega)]
    · rw [if_neg c]
      by_cases c2 : p = j
      · subst c2
        by_cases c3 : p < hist.length
        · rw [if_pos ⟨rfl, c3⟩, if_pos (by omega)]
        · rw [if_neg (fun h => c3 h.2), if_pos (by omega), getD_of_ge _ _ (by omega)]
      · rw [if_neg (fun h => c2 h.1), if_neg (by omega)]

theorem shl3_or_7 (p : Nat) : (p <<< 3) ||| 7 = 8 * p + 7 := by
  rw [Nat.shiftLeft_eq, Nat.mul_comm]
  exact (Nat.mul_add_lt_is_or (show 7 < 2 ^ 3 by norm_num) p).symm

theorem partition_keys_init_spec (hist : List Nat) (S : Nat → Nat)
    (hS : ∀ q, S (q + 1) = S q + hist.getD q 0) :
    ∀ (n p : Nat) (buf : List Nat), S (p + n) < 2 ^ 64 → 8 * (p + n) ≤ buf.length →
      (partition_keys_init hist n p (S p) buf).1 = S (p + n) ∧
      (partition_keys_init hist n p (S p) buf).2.length = buf.length ∧
      ∀ j, (partition_keys_init hist n p (S p) buf).2.getD j 0
        = if j % 8 = 7 ∧ p ≤ j / 8 ∧ j / 8 < p + n then S (j / 8) else buf.getD j 0 := by
  intro n
  induction n with
  | zero =>
    intro p buf _ _
    refine ⟨rfl, rfl, fun j => ?_⟩
    rw [if_neg (by omega)]
    rfl
  | succ n ih =>
    intro p buf h64 hlen
    have hunf : partition_keys_init hist (n + 1) p (S p) buf
        = partition_keys_init hist n (p + 1) ((S p + hist.getD p 0) % 2 ^ 64)
            (buf.set ((p <<< 3) ||| 7) (S p)) := rfl
    have hmono : ∀ m, S (p + 1) ≤ S (p + 1 + m) := by
      intro m
      induction m with
      | zero => exact le_refl _
      | succ m ihm => rw [← Nat.add_assoc, hS (p + 1 + m)]; omega
    have h1 := hmono n
    rw [show p + 1 + n = p + (n + 1) by omega] at h1
    rw [hunf, ← hS, Nat.mod_eq_of_lt (by omega), shl3_or_7]
    obtain ⟨a1, a2, a3⟩ := ih (p + 1) (buf.set (8 * p + 7) (S p))
      (by rw [show p + 1 + n = p + (n + 1) by omega]; exact h64)
      (by rw [List.length_set]; omega)
    rw [List.length_set] at a2
    refine ⟨by rw [a1, show p + 1 + n = p + (n + 1) by omega], a2, fun j => ?_⟩
    rw [a3, getD_set]
    by_cases c : j % 8 = 7 ∧ p + 1 ≤ j / 8 ∧ j / 8 < p + 1 + n
    · rw [if_pos c, if_pos (by omega)]
    · rw [if_neg c]
      by_cases c2 : 8 * p + 7 = j
      · subst c2
        rw [if_pos ⟨rfl, by omega⟩, if_pos (by omega)]
        congr 1
        omega
      · rw [if_neg (by omega), if_neg (by omega)]

theorem partition_keys_copy_spec (buf : List Nat) (src : Nat) :
    ∀ (n offset index : Nat) (out : List Nat),
      (partition_keys_copy buf src n offset index out).length = out.length ∧
      ∀ x, (partition_keys_copy buf src n offset index out).getD x 0
        = if index ≤ x ∧ x < index + n ∧ x < out.length then
            buf.getD (src + offset + (x - index)) 0
          else out.getD x 0 := by
  intro n
  induction n with
  | zero =>
    intro offset index out
    refine ⟨rfl, fun x => ?_⟩
    rw [if_neg (by omega)]
    rfl
  | succ n ih =>
    intro offset index out
    have hunf : partition_keys_copy buf src (n + 1) offset index out
        = partition_keys_copy buf src n (offset + 1) (index + 1)
            (out.set index (buf.getD (src + offset) 0)) := rfl
    rw [hunf]
    obtain ⟨a1, a2⟩ := ih (offset + 1) (index + 1) (out.set index (buf.getD (src + offset) 0))
    rw [List.length_set] at a1 a2
    refine ⟨a1, fun x => ?_⟩
    rw [a2, getD_set]
    by_cases c : index + 1 ≤ x ∧ x < index + 1 + n ∧ x < out.length
    · rw [if_pos c, if_pos (by omega)]
      congr 1
      omega
    · rw [if_neg c]
      by_cases c2 : index = x
      · subst c2
        by_cases c3 : index < out.length
        · rw [if_pos ⟨rfl, c3⟩, if_pos (by omega), Nat.sub_self, Nat.add_zero]
        · rw [if_neg (by omega), if_neg (by omega)]
      · rw [if_neg (by omega), if_neg (by omega)]

/-- The final loop of `partition_keys` writes the keys that are left in the
buffer lines to their places. -/
theorem partition_keys_flush_spec (l : List Nat) (sh r : Nat) (hist buf : List Nat)
    (hh : ∀ p, p < 2 ^ r → hist.getD p 0 = (digit_keys l sh r p).length)
    (hB : ∀ p, p < 2 ^ r →
      buf.getD (8 * p + 7) 0 = digit_start l sh r p + (digit_keys l sh r p).length ∧
      ∀ x, digit_start l sh r p ≤ x →
        x < digit_start l sh r p + (digit_keys l sh r p).length →
        x / 8 = (digit_start l sh r p + (digit_keys l sh r p).length) / 8 →
        buf.getD (8 * p + x % 8) 0
          = (digit_keys l sh r p).getD (x - digit_start l sh r p) 0) :
    ∀ (n q : Nat) (out : List Nat), q + n ≤ 2 ^ r → l.length ≤ out.length →
      (∀ p, p < 2 ^ r → ∀ x, digit_start l sh r p ≤ x →
        x < digit_start l sh r p + (digit_keys l sh r p).length →
        (x / 8 ≠ (digit_start l sh r p + (digit_keys l sh r p).length) / 8 ∨ p < q) →
        out.getD x 0 = (digit_keys l sh r p).getD (x - digit_start l sh r p) 0) →
      (partition_keys_flush hist buf n q out).length = out.length ∧
      ∀ p, p < 2 ^ r → ∀ x, digit_start l sh r p ≤ x →
        x < digit_start l sh r p + (digit_keys l sh r p).length →
        (x / 8 ≠ (digit_start l sh r p + (digit_keys l sh r p).length) / 8 ∨ p < q + n) →
        (partition_keys_flush hist buf n q out).getD x 0
          = (digit_keys l sh r p).getD (x - digit_start l sh r p) 0 := by
  have hend := digit_start_end_le l sh r
  have htot := digit_start_total l sh r
  have hmono := digit_start_mono l sh r
  intro n
  induction n with
  | zero =>
    intro q out _ _ hO
    exact ⟨rfl, hO⟩
  | succ n ih =>
    intro q out hq hlen hO
    have hqP : q < 2 ^ r := by omega
    obtain ⟨b1, b2⟩ := hB q hqP
    have hE : digit_start l sh r q + (digit_keys l sh r q).length ≤ l.length := by
      rw [← htot, ← digit_start_succ]
      exact hmono _ _ (by omega)
    have hunf : partition_keys_flush hist buf (n + 1) q out
        = partition_keys_flush hist buf n (q + 1)
            (partition_keys_copy buf (q <<< 3)
              ((buf.getD ((q <<< 3) + 7) 0 &&& 7)
                - (if (buf.getD ((q <<< 3) + 7) 0 &&& 7) > hist.getD q 0
                    then (buf.getD ((q <<< 3) + 7) 0 &&& 7) - hist.getD q 0 else 0))
              (if (buf.getD ((q <<< 3) + 7) 0 &&& 7) > hist.getD q 0
                then (buf.getD ((q <<< 3) + 7) 0 &&& 7) - hist.getD q 0 else 0)
              (buf.getD ((q <<< 3) + 7) 0
                - ((buf.getD ((q <<< 3) + 7) 0 &&& 7)
                  - (if (buf.getD ((q <<< 3) + 7) 0 &&& 7) > hist.getD q 0
                      then (buf.getD ((q <<< 3) + 7) 0 &&& 7) - hist.getD q 0 else 0)))
              out) := rfl
    rw [hunf, show q <<< 3 = 8 * q by rw [Nat.shiftLeft_eq]; omega, b1, and_7, hh q hqP]
    generalize hS : digit_start l sh r q = S at *
    generalize hT : (digit_keys l sh r q).length = T at *
    generalize hoff : (if (S + T) % 8 > T then (S + T) % 8 - T else 0) = offset
    have hoff2 : offset = (S + T) % 8 - T := by
      rw [← hoff]; split <;> omega
    obtain ⟨c1, c2⟩ := partition_keys_copy_spec buf (8 * q) ((S + T) % 8 - offset) offset
      (S + T - ((S + T) % 8 - offset)) out
    generalize partition_keys_copy buf (8 * q) ((S + T) % 8 - offset) offset
      (S + T - ((S + T) % 8 - offset)) out = out1 at c1 c2
    obtain ⟨d1, d2⟩ := ih (q + 1) out1 (by omega) (by rw [c1]; exact hlen) (by
      intro p hp x hx1 hx2 hx3
      rw [c2]
      by_cases cp : p = q
      · subst cp
        rw [hS] at hx1 hx2 hx3 ⊢
        rw [hT] at hx2 hx3
        by_cases cl : x / 8 = (S + T) / 8
        · rw [if_pos ⟨by omega, by omega, by omega⟩]
          have := b2 x hx1 hx2 cl
          rw [← this]
          congr 1
          omega
        · rw [if_neg (by omega)]
          have := hO p hp x (by rw [hS]; exact hx1) (by rw [hS, hT]; exact hx2)
            (Or.inl (by rw [hS, hT]; exact cl))
          rw [hS] at this
          exact this
      · have hlt : p < q ∨ q < p := by omega
        rw [if_neg ?_]
        · exact hO p hp x hx1 hx2 (by
            rcases hx3 with h | h
            · exact Or.inl h
            · exact Or.inr (by omega))
        · intro hc
          rcases hlt with c | c
          · have a1 := hend p q c
            rw [hS] at a1
            omega
          · have a1 := hend q p c
            rw [hS, hT] at a1
            omega)
    refine ⟨by rw [d1, c1], fun p hp x hx1 hx2 hx3 => ?_⟩
    exact d2 p hp x hx1 hx2 (by
      rcases hx3 with h | h
      · exact Or.inl h
      · exact Or.inr (by omega))


theorem flatMap_range_length (f : Nat → List Nat) :
    ∀ n, ((List.range n).flatMap f).length = range_sum (fun q => (f q).length) n := by
  intro n
  induction n with
  | zero => simp [range_sum_zero]
  | succ n ih =>
    rw [List.range_succ, List.flatMap_append, List.length_append, ih, range_sum_succ]
    simp

theorem flatMap_range_getD (f : Nat → List Nat) :
    ∀ n p j, p < n → j < (f p).length →
      ((List.range n).flatMap f).getD (range_sum (fun q => (f q).length) p + j) 0
        = (f p).getD j 0 := by
  intro n
  induction n with
  | zero => intro p j hp _; omega
  | succ n ih =>
    intro p j hp hj
    have e : (List.range (n + 1)).flatMap f = (List.range n).flatMap f ++ f n := by
      rw [List.range_succ, List.flatMap_append]
      simp
    rw [e, List.getD_eq_getElem?_getD]
    by_cases c : p < n
    · have hlt : range_sum (fun q => (f q).length) p + j < ((List.range n).flatMap f).length := by
        rw [flatMap_range_length]
        have := range_sum_mono (fun q => (f q).length) (p + 1) n (by omega)
        rw [range_sum_succ] at this
        omega
      rw [List.getElem?_append_left hlt, ← List.getD_eq_getElem?_getD]
      exact ih p j c hj
    · have hpn : p = n := by omega
      subst hpn
      rw [List.getElem?_append_right (by rw [flatMap_range_length]; omega),
        flatMap_range_length, show range_sum (fun q => (f q).length) p + j
          - range_sum (fun q => (f q).length) p = j by omega, ← List.getD_eq_getElem?_getD]

theorem range_sum_cover (c : Nat → Nat) :
    ∀ n x, x < range_sum c n → ∃ p, p < n ∧ range_sum c p ≤ x ∧ x < range_sum c p + c p := by
  intro n
  induction n with
  | zero => intro x hx; rw [range_sum_zero] at hx; omega
  | succ n ih =>
    intro x hx
    rw [range_sum_succ] at hx
    by_cases h : x < range_sum c n
    · obtain ⟨p, h1, h2, h3⟩ := ih x h
      exact ⟨p, by omega, h2, h3⟩
    · exact ⟨n, by omega, by omega, hx⟩

theorem stable_partition_eq (l : List Nat) (sh r : Nat) :
    stable_partition l sh r = (List.range (2 ^ r)).flatMap (digit_keys l sh r) := rfl

theorem stable_partition_length (l : List Nat) (sh r : Nat) :
    (stable_partition l sh r).length = l.length := by
  rw [stable_partition_eq, flatMap_range_length]
  exact digit_start_total l sh r

/-- An array that holds the keys of every digit at the places of that digit
starts with the stable partition. -/
theorem stable_partition_of_getD (l out : List Nat) (sh r : Nat) (hlen : l.length ≤ out.length)
    (h : ∀ p, p < 2 ^ r → ∀ x, digit_start l sh r p ≤ x →
      x < digit_start l sh r p + (digit_keys l sh r p).length →
      out.getD x 0 = (digit_keys l sh r p).getD (x - digit_start l sh r p) 0) :
    out.take l.length = stable_partition l sh r := by
  apply List.ext_getElem
  · rw [List.length_take, stable_partition_length]; omega
  · intro x h1 h2
    rw [stable_partition_length] at h2
    have hx : x < digit_start l sh r (2 ^ r) := by rw [digit_start_total]; exact h2
    obtain ⟨p, hp, a1, a2⟩ := range_sum_cover _ (2 ^ r) x hx
    have e1 := h p hp x a1 a2
    have e2 := flatMap_range_getD (digit_keys l sh r) (2 ^ r) p (x - digit_start l sh r p) hp
      (by simp only [digit_start]; omega)
    rw [show range_sum (fun q => (digit_keys l sh r q).length) p + (x - digit_start l sh r p)
      = x by simp only [digit_start] at a1 ⊢; omega, ← stable_partition_eq] at e2
    rw [List.getElem_take, ← getD_of_lt out x (by omega), e1, ← e2,
      getD_of_lt _ x (by rw [stable_partition_length]; exact h2)]

theorem partition_keys_step_length (sh r : Nat) (st : List Nat × List Nat) (k : Nat) :
    (partition_keys_step sh r st k).2.length = st.2.length := by
  simp only [partition_keys_step, partition_keys_lane]
  split
  · simp only [_mm_store_si128, List.length_set]
  · rfl

theorem partition_keys_foldl_length (sh r : Nat) :
    ∀ (l : List Nat) (st : List Nat × List Nat),
      (l.foldl (partition_keys_step sh r) st).2.length = st.2.length := by
  intro l
  induction l with
  | nil => intro st; rfl
  | cons k l ih => intro st; rw [List.foldl_cons, ih, partition_keys_step_length]

theorem and_63_mul_8 (k : Nat) : 63 &&& (8 * k) = 8 * (k % 8) := by
  rw [Nat.and_comm]
  have := Nat.and_pow_two_sub_one_eq_mod (8 * k) 6
  simp only [show 2 ^ 6 - 1 = 63 by norm_num, show 2 ^ 6 = 64 by norm_num] at this
  rw [this]; omega

/-- One call of `partition_keys` for one thread: for aligned arrays and a
`size` that is a multiple of 4 it returns, and the first `size` entries of
`keys_out` are the stable partition of the first `size` keys by the digit. -/
theorem partition_keys_spec (kpos opos : Nat) (keys keys_out : List Nat) (size : Nat)
    (hist : List Nat) (sh r : Nat) (buf : List Nat)
    (hkp : kpos % 2 = 0) (hop : opos % 8 = 0) (h4 : size % 4 = 0) (hsz : size < 2 ^ 64)
    (hlen : size ≤ keys.length) (holen : size ≤ keys_out.length)
    (hb : ∀ x ∈ keys.take size, x < 2 ^ 64) (hr : r ≤ 16) (hsh : sh ≤ 64)
    (hhist : 2 ^ r ≤ hist.length) (hbuf : buf.length = 8 * 2 ^ r) :
    ∃ out h', partition_keys kpos opos keys keys_out size hist sh r buf = some (out, h') ∧
      out.length = keys_out.length ∧ h'.length = hist.length ∧
      out.take size = stable_partition (keys.take size) sh r := by
  have hL : (List.range' 0 (4 * (size / 4))).map (fun j => keys.getD j 0) = keys.take size := by
    rw [← List.range_eq_range', show 4 * (size / 4) = size by omega]
    exact map_range_getD keys size hlen
  have hLlen : (keys.take size).length = size := by rw [List.length_take]; omega
  have hkj : ∀ j, 0 ≤ j → j < 0 + 4 * (size / 4) → keys.getD j 0 < 2 ^ 64 := by
    intro j _ hj
    have hj2 : j < size := by omega
    apply hb
    rw [← hL]
    exact List.mem_map.mpr ⟨j, by rw [List.mem_range'_1]; omega, rfl⟩
  generalize hLdef : keys.take size = L at *
  -- the histogram
  obtain ⟨z1, z2⟩ := partition_keys_zero_spec (2 ^ r) 0 hist
  have hcount := partition_keys_count_eq keys sh r hr hsh (size / 4) 0
    (partition_keys_zero (2 ^ r) 0 hist) hkj
  rw [hL] at hcount
  generalize hH : partition_keys_count keys (_mm_set_epi32 0 0 0 sh)
    (_mm_set1_epi64x ((1 <<< r) - 1)) (size / 4) 0 (partition_keys_zero (2 ^ r) 0 hist) = H
    at hcount
  have hHlen : H.length = hist.length := by
    rw [hcount]
    have hfold : ∀ (idxs : List Nat) (c : List Nat),
        (idxs.foldl (fun c k => count_incr c (radix_digit k sh r)) c).length = c.length := by
      intro idxs
      induction idxs with
      | nil => intro c; rfl
      | cons a t ih => intro c; rw [List.foldl_cons, ih, count_incr_length]
    rw [hfold, z1]
  have hHget : ∀ p, p < 2 ^ r → H.getD p 0 = (digit_keys L sh r p).length := by
    intro p hp
    have := (tally_spec (fun k => radix_digit k sh r) L (partition_keys_zero (2 ^ r) 0 hist) p
      (by rw [z1]; omega) (by rw [z2, if_pos (by omega)]; norm_num)).2
    beta_reduce at this
    rw [← hcount, z2, if_pos (by omega), Nat.zero_add, List.countP_eq_length_filter] at this
    rw [this]
    have hle : (digit_keys L sh r p).length ≤ L.length := List.length_filter_le _ _
    have hdk : (List.filter (fun j => decide (radix_digit j sh r = p)) L).length
        = (digit_keys L sh r p).length := rfl
    rw [hdk]
    exact Nat.mod_eq_of_lt (by omega)
  -- the initial buffer
  obtain ⟨S, hS0, hSs, hSeq⟩ : ∃ S : Nat → Nat, S 0 = 0 ∧ (∀ q, S (q + 1) = S q + H.getD q 0) ∧
      ∀ q, q ≤ 2 ^ r → S q = digit_start L sh r q :=
    ⟨fun q => range_sum (fun q => H.getD q 0) q, range_sum_zero _, fun q => range_sum_succ _ q,
      fun q hq => range_sum_congr _ _ _ (fun i hi => hHget i (by omega))⟩
  obtain ⟨n1, n2, n3⟩ := partition_keys_init_spec H S hSs (2 ^ r) 0 buf
    (by rw [Nat.zero_add, hSeq _ (le_refl _), digit_start_total]; omega)
    (by omega)
  rw [hS0] at n1 n2 n3
  rw [Nat.zero_add, hSeq _ (le_refl _), digit_start_total, hLlen] at n1
  generalize hI : partition_keys_init H (2 ^ r) 0 0 buf = I at n1 n2 n3
  obtain ⟨i, buf1⟩ := I
  dsimp only at n1 n2 n3
  -- the main loop
  have hinv0 : partition_keys_inv L sh r [] (buf1, keys_out) := by
    refine ⟨by rw [n2]; exact hbuf, by rw [hLlen]; exact holen, fun p hp => ⟨?_, ?_⟩⟩
    · dsimp only
      rw [n3, if_pos ⟨by omega, by omega, by omega⟩, digit_keys_nil, List.length_nil,
        Nat.add_zero, show (8 * p + 7) / 8 = p by omega]
      exact hSeq p (by omega)
    · intro x hx1 hx2
      rw [digit_keys_nil, List.length_nil] at hx2
      omega
  have hloop := partition_keys_loop_eq keys sh r hr hsh (size / 4) 0 (buf1, keys_out) hkj
  rw [hL] at hloop
  have hinv := partition_keys_inv_foldl L sh r hr hb (by omega) L [] (buf1, keys_out) rfl hinv0
  have hol := partition_keys_foldl_length sh r L (buf1, keys_out)
  rw [← hloop] at hinv hol
  generalize hX : partition_keys_loop keys (_mm_set_epi32 0 0 0 sh)
    (_mm_set1_epi64x ((1 <<< r) - 1)) (size / 4) 0 (buf1, keys_out) = X at hinv hol
  obtain ⟨buf2, out2⟩ := X
  obtain ⟨v1, v2, v3⟩ := hinv
  dsimp only at v1 v2 v3
  -- the final flush
  obtain ⟨w1, w2⟩ := partition_keys_flush_spec L sh r H buf2 hHget
    (fun p hp => ⟨(v3 p hp).1, fun x hx1 hx2 hx3 => by
      have := (v3 p hp).2 x hx1 hx2
      rw [if_pos hx3] at this
      exact this⟩)
    (2 ^ r) 0 out2 (by omega) v2
    (fun p hp x hx1 hx2 hx3 => by
      have := (v3 p hp).2 x hx1 hx2
      rcases hx3 with h | h
      · rw [if_neg h] at this
        exact this
      · omega)
  simp only [Nat.one_shiftLeft] at hH hX
  refine ⟨partition_keys_flush H buf2 (2 ^ r) 0 out2, H, ?_, ?_, hHlen, ?_⟩
  · simp only [partition_keys, and_15_mul_8, and_63_mul_8, hkp, hop, Nat.mul_zero, Nat.sub_zero,
      Nat.one_shiftLeft, ne_eq, not_true_eq_false, if_false, h4]
    rw [hH, hI]
    dsimp only
    rw [if_neg (by omega), hX]
  · rw [w1]
    exact hol
  · have := stable_partition_of_getD L (partition_keys_flush H buf2 (2 ^ r) 0 out2) sh r
      (by rw [w1]; exact v2)
      (fun p hp x hx1 hx2 => w2 p hp x hx1 hx2 (Or.inr (by omega)))
    rw [hLlen] at this
    exact this


theorem sum_map_indicator (d c : Nat) :
    ∀ n, ((List.range n).map (fun p => if d = p then c else 0)).sum = if d < n then c else 0 := by
  intro n
  induction n with
  | zero => simp
  | succ n ih =>
    rw [List.range_succ, List.map_append, List.sum_append, ih]
    simp only [List.map_cons, List.map_nil, List.sum_cons, List.sum_nil, Nat.add_zero]
    by_cases h : d < n
    · rw [if_pos h, if_neg (by omega), if_pos (by omega)]; omega
    · rw [if_neg h]
      by_cases h2 : d = n
      · rw [if_pos h2, if_pos (by omega)]; omega
      · rw [if_neg h2, if_neg (by omega)]

theorem stable_partition_perm (l : List Nat) (sh r : Nat) :
    List.Perm (stable_partition l sh r) l := by
  rw [List.perm_iff_count]
  intro a
  rw [stable_partition_eq, List.count_flatMap]
  have e : (List.count a ∘ digit_keys l sh r)
      = fun p => if radix_digit a sh r = p then List.count a l else 0 := by
    funext p
    simp only [Function.comp, digit_keys]
    by_cases h : radix_digit a sh r = p
    · rw [if_pos h]
      exact List.count_filter (by simp only [decide_eq_true_eq]; exact h)
    · rw [if_neg h]
      apply List.count_eq_zero_of_not_mem
      intro hm
      have := (List.mem_filter.mp hm).2
      simp only [decide_eq_true_eq] at this
      exact h this
  rw [e, sum_map_indicator, if_pos (radix_digit_lt a sh r)]

/-- A stable partition by the digit above `sh` bits turns an order by the low
`sh` bits into an order by the low `sh + r` bits. -/
theorem stable_partition_sorted (l : List Nat) (sh r : Nat)
    (h : l.Pairwise (fun a b => a % 2 ^ sh ≤ b % 2 ^ sh)) :
    (stable_partition l sh r).Pairwise (fun a b => a % 2 ^ (sh + r) ≤ b % 2 ^ (sh + r)) := by
  have hmod : ∀ x, x % 2 ^ (sh + r) = x % 2 ^ sh + 2 ^ sh * radix_digit x sh r := by
    intro x
    rw [radix_digit_eq, Nat.pow_add, Nat.mod_mul]
  have hpos : 0 < 2 ^ sh := by positivity
  rw [stable_partition_eq, List.pairwise_flatMap]
  constructor
  · intro p _
    have hf : (digit_keys l sh r p).Pairwise (fun a b => a % 2 ^ sh ≤ b % 2 ^ sh) :=
      List.Pairwise.filter _ h
    apply List.Pairwise.imp_of_mem _ hf
    intro a b ha hb hab
    have da := (List.mem_filter.mp ha).2
    have db := (List.mem_filter.mp hb).2
    simp only [decide_eq_true_eq] at da db
    rw [hmod a, hmod b, da, db]
    omega
  · apply List.Pairwise.imp _ (List.pairwise_lt_range _)
    intro p q hpq x hx y hy
    have dx := (List.mem_filter.mp hx).2
    have dy := (List.mem_filter.mp hy).2
    simp only [decide_eq_true_eq] at dx dy
    rw [hmod x, hmod y, dx, dy]
    have hx2 : x % 2 ^ sh < 2 ^ sh := Nat.mod_lt _ hpos
    have hm : 2 ^ sh * (p + 1) ≤ 2 ^ sh * q := Nat.mul_le_mul_left _ hpq
    rw [Nat.mul_add, Nat.mul_one] at hm
    omega

/-- One pass of the radix sort of the sample. -/
theorem partition_keys_pass (kpos opos : Nat) (keys keys_out : List Nat) (size : Nat)
    (hist : List Nat) (sh : Nat) (buf : List Nat) (L : List Nat) (hL : keys.take size = L)
    (hkp : kpos % 8 = 0) (hop : opos % 8 = 0) (h4 : size % 4 = 0) (hsz : size < 2 ^ 64)
    (hlen : size ≤ keys.length) (holen : size ≤ keys_out.length)
    (hb : ∀ x ∈ L, x < 2 ^ 64) (hsh : sh ≤ 56)
    (hhist : 256 ≤ hist.length) (hbuf : buf.length = 2048) :
    ∃ out h', partition_keys kpos opos keys keys_out size hist sh 8 buf = some (out, h') ∧
      out.length = keys_out.length ∧ h'.length = hist.length ∧
      out.take size = stable_partition L sh 8 ∧
      (∀ x ∈ stable_partition L sh 8, x < 2 ^ 64) ∧
      List.Perm (stable_partition L sh 8) L ∧
      (L.Pairwise (fun a b => a % 2 ^ sh ≤ b % 2 ^ sh) →
        (stable_partition L sh 8).Pairwise (fun a b => a % 2 ^ (sh + 8) ≤ b % 2 ^ (sh + 8))) := by
  subst hL
  obtain ⟨out, h', e1, e2, e3, e4⟩ := partition_keys_spec kpos opos keys keys_out size hist sh 8 buf
    (by omega) hop h4 hsz hlen holen hb (by omega) (by omega) (by norm_num; exact hhist)
    (by rw [hbuf]; norm_num)
  have hp := stable_partition_perm (keys.take size) sh 8
  exact ⟨out, h', e1, e2, e3, e4, fun x hx => hb x (hp.mem_iff.mp hx), hp,
    stable_partition_sorted _ sh 8⟩

/-- The eight passes sort the sample. -/
theorem sort_thread_sample_spec (spos bpos : Nat) (sample sample_buf : List Nat)
    (sample_size : Nat) (sample_hist : List Nat) (bufs : Nat → List Nat)
    (hsp : spos % 8 = 0) (hbp : bpos % 8 = 0) (h4 : sample_size % 4 = 0)
    (hsz : sample_size < 2 ^ 64) (hlen : sample_size ≤ sample.length)
    (hblen : sample_size ≤ sample_buf.length)
    (hb : ∀ x ∈ sample.take sample_size, x < 2 ^ 64) (hh : 256 ≤ sample_hist.length)
    (hbufs : ∀ k, k < 8 → (bufs k).length = 2048) :
    ∃ s b h, sort_thread_sample spos bpos sample sample_buf sample_size sample_hist bufs
        = some (s, b, h) ∧
      s.length = sample.length ∧ b.length = sample_buf.length ∧
      List.Perm (s.take sample_size) (sample.take sample_size) ∧
      (s.take sample_size).Pairwise (fun a b => a ≤ b) := by
  obtain ⟨b1, h1, e1, l1, g1, t1, u1, p1, q1⟩ := partition_keys_pass spos bpos sample sample_buf
    sample_size sample_hist 0 (bufs 0) _ rfl hsp hbp h4 hsz hlen hblen hb (by omega) hh
    (hbufs 0 (by omega))
  obtain ⟨s2, h2, e2, l2, g2, t2, u2, p2, q2⟩ := partition_keys_pass bpos spos b1 sample
    sample_size h1 8 (bufs 1) _ t1 hbp hsp h4 hsz (by omega) hlen u1 (by omega) (by omega)
    (hbufs 1 (by omega))
  obtain ⟨b3, h3, e3, l3, g3, t3, u3, p3, q3⟩ := partition_keys_pass spos bpos s2 b1
    sample_size h2 16 (bufs 2) _ t2 hsp hbp h4 hsz (by omega) (by omega) u2 (by omega) (by omega)
    (hbufs 2 (by omega))
  obtain ⟨s4, h4', e4, l4, g4, t4, u4, p4, q4⟩ := partition_keys_pass bpos spos b3 s2
    sample_size h3 24 (bufs 3) _ t3 hbp hsp h4 hsz (by omega) (by omega) u3 (by omega) (by omega)
    (hbufs 3 (by omega))
  obtain ⟨b5, h5, e5, l5, g5, t5, u5, p5, q5⟩ := partition_keys_pass spos bpos s4 b3
    sample_size h4' 32 (bufs 4) _ t4 hsp hbp h4 hsz (by omega) (by omega) u4 (by omega) (by omega)
    (hbufs 4 (by omega))
  obtain ⟨s6, h6, e6, l6, g6, t6, u6, p6, q6⟩ := partition_keys_pass bpos spos b5 s4
    sample_size h5 40 (bufs 5) _ t5 hbp hsp h4 hsz (by omega) (by omega) u5 (by omega) (by omega)
    (hbufs 5 (by omega))
  obtain ⟨b7, h7, e7, l7, g7, t7, u7, p7, q7⟩ := partition_keys_pass spos bpos s6 b5
    sample_size h6 48 (bufs 6) _ t6 hsp hbp h4 hsz (by omega) (by omega) u6 (by omega) (by omega)
    (hbufs 6 (by omega))
  obtain ⟨s8, h8, e8, l8, g8, t8, u8, p8, q8⟩ := partition_keys_pass bpos spos b7 s6
    sample_size h7 56 (bufs 7) _ t7 hbp hsp h4 hsz (by omega) (by omega) u7 (by omega) (by omega)
    (hbufs 7 (by omega))
  refine ⟨s8, b7, h8, ?_, by omega, by omega, ?_, ?_⟩
  · simp only [sort_thread_sample, e1, e2, e3, e4, e5, e6, e7, e8]
  · rw [t8]
    exact p8.trans (p7.trans (p6.trans (p5.trans (p4.trans (p3.trans (p2.trans p1))))))
  · rw [t8]
    have h0 : (sample.take sample_size).Pairwise (fun a b => a % 2 ^ 0 ≤ b % 2 ^ 0) :=
      List.pairwise_of_forall (fun a b => by simp [Nat.mod_one])
    have := q8 (q7 (q6 (q5 (q4 (q3 (q2 (q1 h0)))))))
    apply List.Pairwise.imp_of_mem _ this
    intro a b ha hb' hab
    have ha2 := u8 a ha
    have hb2 := u8 b hb'
    rw [Nat.mod_eq_of_lt ha2, Nat.mod_eq_of_lt hb2] at hab
    exact hab
/-! ## Claims -/

/-- C5: for a non-decreasing delimiter array of length `n` and any key,
`binary_search` returns `p` with `0 ≤ p ≤ n` and
`delim[p-1] < key ≤ delim[p]`, reading `delim[-1]` as `-∞` and `delim[n]`
as `+∞`. -/
theorem binary_search_bounds (delim : List Nat) (key : Nat)
    (hs : List.Sorted (· ≤ ·) delim) (hn : delim.length < 2 ^ 63) :
    ∃ p, binary_search delim delim.length key = some p ∧ 0 ≤ p ∧ p ≤ delim.length ∧
      (p = 0 ∨ delim.getD (p - 1) 0 < key) ∧
      (p = delim.length ∨ key ≤ delim.getD p 0) := by
  obtain ⟨p, hp, hle, h1, h2⟩ := binary_search_sorted delim key hs hn
  refine ⟨p, hp, Nat.zero_le _, hle, ?_, ?_⟩
  · rcases Nat.eq_zero_or_pos p with h | h
    · exact Or.inl h
    · exact Or.inr (h1 (p - 1) (by omega))
  · rcases Nat.eq_or_lt_of_le hle with h | h
    · exact Or.inl h
    · exact Or.inr (h2 p (le_refl _) h)

/-- Witness of C5 at `delim = [10, 20, 30]`, `key = 20`. -/
theorem binary_search_bounds_witness :
    List.Sorted (· ≤ ·) [10, 20, 30] ∧ [10, 20, 30].length < 2 ^ 63 ∧
    ∃ p, binary_search [10, 20, 30] [10, 20, 30].length 20 = some p ∧ 0 ≤ p ∧
      p ≤ [10, 20, 30].length ∧
      (p = 0 ∨ [10, 20, 30].getD (p - 1) 0 < 20) ∧
      (p = [10, 20, 30].length ∨ 20 ≤ [10, 20, 30].getD p 0) :=
  ⟨by decide, by decide, binary_search_bounds [10, 20, 30] 20 (by decide) (by decide)⟩

/-- C6, as stated, fails: with the single delimiter `5` and key `5`,
`binary_search` returns `0`, while the first delimiter strictly greater
than the key does not exist, so the stated partition id is `1`. -/
theorem binary_search_not_first_gt :
    binary_search [5] 1 5 = some 0 ∧ first_delimiter_gt [5] 5 = 1 := by
  decide

/-- C6, amended: on a non-decreasing delimiter array `binary_search`
returns the index of the first delimiter that is greater than or equal to
the key, or the number of delimiters if none is. -/
theorem binary_search_first_ge (delim : List Nat) (key : Nat)
    (hs : List.Sorted (· ≤ ·) delim) (hn : delim.length < 2 ^ 63) :
    binary_search delim delim.length key = some (first_delimiter_ge delim key) := by
  obtain ⟨p, hp, hle, h1, h2⟩ := binary_search_sorted delim key hs hn
  obtain ⟨gle, g1, g2⟩ := first_delimiter_ge_spec delim key
  have hpq : p = first_delimiter_ge delim key := by
    rcases Nat.lt_trichotomy p (first_delimiter_ge delim key) with h | h | h
    · have a := g1 p h
      have b := h2 p (le_refl _) (by omega)
      omega
    · exact h
    · have a := h1 _ h
      have b := g2 (by omega)
      omega
  rw [hp, hpq]

/-- Witness of the amended C6 at `delim = [10, 20, 30]`, `key = 20`. -/
theorem binary_search_first_ge_witness :
    List.Sorted (· ≤ ·) [10, 20, 30] ∧ [10, 20, 30].length < 2 ^ 63 ∧
    binary_search [10, 20, 30] [10, 20, 30].length 20
      = some (first_delimiter_ge [10, 20, 30] 20) :=
  ⟨by decide, by decide, binary_search_first_ge [10, 20, 30] 20 (by decide) (by decide)⟩

/-- C9: for `radix_bits ≤ 16` and `shift_bits + radix_bits ≤ 64`, for key
arrays of any size and either alignment, `histogram` of `lsb_64_chiplet.c`
returns and increases `count[p]` by exactly the number of keys whose digit
`(key >> shift_bits) & ((1 << radix_bits) - 1)` is `p` (modulo `2^64`, the
width of a counter), for every `p`; entries no key maps to are unchanged. -/
theorem histogram_radix_counts (kpos : Nat) (keys : List Nat) (size : Nat) (count : List Nat)
    (shift_bits radix_bits : Nat) (stack : List Nat)
    (hr : radix_bits ≤ 16) (hs : shift_bits + radix_bits ≤ 64) (hsize : size ≤ keys.length)
    (hk : ∀ k ∈ keys, k < 2 ^ 64) (hc : ∀ c ∈ count, c < 2 ^ 64)
    (hcl : 2 ^ radix_bits ≤ count.length)
    (hst : stack.length = 4) (hsv : ∀ x ∈ stack, x < 2 ^ 64) :
    ∃ count', histogram kpos keys size count shift_bits radix_bits stack = some count' ∧
      count'.length = count.length ∧
      ∀ p, p < count.length →
        count'.getD p 0 = (count.getD p 0 + (List.range size).countP
          (fun i => decide (radix_digit (keys.getD i 0) shift_bits radix_bits = p))) % 2 ^ 64 := by
  have hk' := getD_lt_of_forall keys hk
  have hsv' := getD_lt_of_forall stack hsv
  have hc' := getD_lt_of_forall count hc
  unfold histogram
  rw [if_pos hr, histogram_head_eq]
  by_cases hh : kpos % 2 = 1 ∧ 0 < size
  · rw [if_pos hh]
    have hbody := fun p hp => histogram_body keys shift_bits radix_bits hr (by omega) hk'
      1 (size - 1) (le_refl _) (stack.set 0 (keys.getD 0 0)) (by simp [hst])
      (by
        intro j; rw [getD_set]; split
        · exact hk' _
        · exact hsv' _)
      (by
        intro j hj
        have : j = 0 := by omega
        subst this
        rw [getD_set, if_pos ⟨rfl, by omega⟩])
      count p hp (hc' p)
    have e : List.range (1 + (size - 1)) = List.range size := by
      congr 1; omega
    refine ⟨_, rfl, ?_, ?_⟩
    · by_cases hz : 0 < count.length
      · exact (hbody 0 hz).1
      · have : 0 < 2 ^ radix_bits := by positivity
        omega
    · intro p hp
      have h := (hbody p hp).2
      rw [e] at h
      exact h
  · rw [if_neg hh]
    have hbody := fun p hp => histogram_body keys shift_bits radix_bits hr (by omega) hk'
      0 size (by omega) stack hst hsv' (by intro j hj; omega) count p hp (hc' p)
    have e : List.range (0 + size) = List.range size := by
      congr 1; omega
    refine ⟨_, rfl, ?_, ?_⟩
    · by_cases hz : 0 < count.length
      · exact (hbody 0 hz).1
      · have : 0 < 2 ^ radix_bits := by positivity
        omega
    · intro p hp
      have h := (hbody p hp).2
      rw [e] at h
      exact h

/-- Witness of C9: eleven keys starting at an address that is 8 but not 16
byte aligned, two radix bits at shift 0. -/
theorem histogram_radix_counts_witness :
    2 ≤ 16 ∧ 0 + 2 ≤ 64 ∧ 11 ≤ [1, 2, 3, 4, 5, 6, 7, 8, 9, 10, 255].length ∧
    (∀ k ∈ [1, 2, 3, 4, 5, 6, 7, 8, 9, 10, 255], k < 2 ^ 64) ∧
    (∀ c ∈ [0, 0, 0, 0], c < 2 ^ 64) ∧ 2 ^ 2 ≤ [0, 0, 0, 0].length ∧
    [99, 99, 99, 99].length = 4 ∧ (∀ x ∈ [99, 99, 99, 99], x < 2 ^ 64) ∧
    ∃ count', histogram 1 [1, 2, 3, 4, 5, 6, 7, 8, 9, 10, 255] 11 [0, 0, 0, 0] 0 2
        [99, 99, 99, 99] = some count' ∧
      count'.length = [0, 0, 0, 0].length ∧
      ∀ p, p < [0, 0, 0, 0].length →
        count'.getD p 0 = ([0, 0, 0, 0].getD p 0 + (List.range 11).countP
          (fun i => decide (radix_digit ([1, 2, 3, 4, 5, 6, 7, 8, 9, 10, 255].getD i 0) 0 2 = p)))
            % 2 ^ 64 :=
  ⟨by decide, by decide, by decide, by decide, by decide, by decide, by decide, by decide,
    histogram_radix_counts 1 [1, 2, 3, 4, 5, 6, 7, 8, 9, 10, 255] 11 [0, 0, 0, 0] 0 2
      [99, 99, 99, 99] (by decide) (by decide) (by decide) (by decide) (by decide) (by decide)
      (by decide) (by decide)⟩

/-! ## C16, C17: the pass schedule of `distribute_bits` -/

/-- C16: for every `bits` in `[1, 64]` and `numa` in `[1, 8]`,
`distribute_bits` (either limit table of `lsb_64_chiplet.c`, and the table of
`lsb_64_baseline.c`) passes its assertion and returns `k` with
`1 <= k <= 6`, `pass[k] = 0`, `pass[p] >= 1` for `p < k` and
`pass[0] + ... + pass[k-1] = bits`. -/
theorem distribute_bits_schedule (global_tuples bits numa : Nat) (hb1 : 1 ≤ bits)
    (hb : bits ≤ 64) (hn1 : 1 ≤ numa) (hn : numa ≤ 8) :
    (∃ k pass, distribute_bits global_tuples bits numa = some (k, pass) ∧ 1 ≤ k ∧ k ≤ 6 ∧
      pass.getD k 1 = 0 ∧ (∀ p, p < k → 1 ≤ pass.getD p 0) ∧
      (pass.take k).sum = (bits : Int)) ∧
    (∃ k pass, distribute_bits_baseline bits numa = some (k, pass) ∧ 1 ≤ k ∧ k ≤ 6 ∧
      pass.getD k 1 = 0 ∧ (∀ p, p < k → 1 ≤ pass.getD p 0) ∧
      (pass.take k).sum = (bits : Int)) := by
  have h := schedule_check_all bits numa hb1 hb hn1 hn
  simp only [schedule_check, Bool.and_eq_true] at h
  obtain ⟨⟨⟨h1, h2⟩, _⟩, _⟩ := h
  refine ⟨?_, schedule_ok_spec bits _ h1⟩
  simp only [distribute_bits, limit_chiplet]
  split
  · exact schedule_ok_spec bits _ h2
  · exact schedule_ok_spec bits _ h1

/-- The schedule for `bits = 64`, `numa = 2`: with the one NUMA bit it covers 65 bits. -/
theorem distribute_bits_schedule_witness :
    (∃ k pass, distribute_bits 0 64 2 = some (k, pass) ∧ 1 ≤ k ∧ k ≤ 6 ∧
      pass.getD k 1 = 0 ∧ (∀ p, p < k → 1 ≤ pass.getD p 0) ∧
      (pass.take k).sum = ((64 : Nat) : Int)) ∧
    (∃ k pass, distribute_bits_baseline 64 2 = some (k, pass) ∧ 1 ≤ k ∧ k ≤ 6 ∧
      pass.getD k 1 = 0 ∧ (∀ p, p < k → 1 ≤ pass.getD p 0) ∧
      (pass.take k).sum = ((64 : Nat) : Int)) :=
  distribute_bits_schedule 0 64 2 (by decide) (by decide) (by decide) (by decide)

/-- C17: for every `bits` in `[1, 64]` and `numa` in `[1, 8]` and both limit
tables of `lsb_64_chiplet.c` (and the table of `lsb_64_baseline.c`), the
schedule has `pass[0] + ceil_log_2(numa) <= 16` and `pass[p] <= 16` for every
later pass `p`. -/
theorem distribute_bits_fanout (global_tuples bits numa : Nat) (hb1 : 1 ≤ bits)
    (hb : bits ≤ 64) (hn1 : 1 ≤ numa) (hn : numa ≤ 8) :
    (∃ k pass, distribute_bits global_tuples bits numa = some (k, pass) ∧
      pass.getD 0 0 + (ceil_log_2 numa : Int) ≤ 16 ∧ ∀ p, 1 ≤ p → p < k → pass.getD p 0 ≤ 16) ∧
    (∃ k pass, distribute_bits_baseline bits numa = some (k, pass) ∧
      pass.getD 0 0 + (ceil_log_2 numa : Int) ≤ 16 ∧ ∀ p, 1 ≤ p → p < k → pass.getD p 0 ≤ 16) := by
  have h := schedule_check_all bits numa hb1 hb hn1 hn
  simp only [schedule_check, Bool.and_eq_true] at h
  obtain ⟨⟨⟨h1, h2⟩, h3⟩, h4⟩ := h
  have key : ∀ r : Option (Nat × List Int), schedule_ok bits r = true →
      schedule_fits numa r = true →
      ∃ k pass, r = some (k, pass) ∧ pass.getD 0 0 + (ceil_log_2 numa : Int) ≤ 16 ∧
        ∀ p, 1 ≤ p → p < k → pass.getD p 0 ≤ 16 := by
    intro r a b
    match r, a, b with
    | some (k, pass), a, b =>
      have hl : pass.length = k + 1 := by
        simp only [schedule_ok, Bool.and_eq_true, decide_eq_true_eq] at a
        exact a.1.1.1.2
      obtain ⟨c, d⟩ := schedule_fits_spec numa _ k pass rfl (by omega) b
      exact ⟨k, pass, rfl, c, d⟩
  refine ⟨?_, key _ h1 h3⟩
  simp only [distribute_bits, limit_chiplet]
  split
  · exact key _ h2 h4
  · exact key _ h1 h3

/-- The fan-out bound for `bits = 64`, `numa = 8` and at least 100 tuples. -/
theorem distribute_bits_fanout_witness :
    (∃ k pass, distribute_bits 100 64 8 = some (k, pass) ∧
      pass.getD 0 0 + (ceil_log_2 8 : Int) ≤ 16 ∧ ∀ p, 1 ≤ p → p < k → pass.getD p 0 ≤ 16) ∧
    (∃ k pass, distribute_bits_baseline 64 8 = some (k, pass) ∧
      pass.getD 0 0 + (ceil_log_2 8 : Int) ≤ 16 ∧ ∀ p, 1 ≤ p → p < k → pass.getD p 0 ≤ 16) :=
  distribute_bits_fanout 100 64 8 (by decide) (by decide) (by decide) (by decide)

/-! ## C18: `decide_partitions` -/

theorem fanout_single_eq : fanout_single = [(1, 0), (2, 0), (3, 0)] := by decide

theorem fanout_double_eq : fanout_double = [(1, 1), (2, 1), (2, 2), (3, 1), (3, 2), (3, 3)] := by
  decide

/-- C18, counterexample: for a size above `1800 * 1800 * 1500000` the result
is `(1800, 1800)` and `part[0] * part[1] * 1500000 >= size` fails. -/
theorem decide_partitions_large :
    decide_partitions 4860000000001 1 = (1800, 1800) ∧
      ¬ ((decide_partitions 4860000000001 1).1 * (decide_partitions 4860000000001 1).2 * 1500000
          ≥ 4860000000001) := by
  decide

/-- C18, amended: for every size and `numa`, `decide_partitions` returns
`part[0]` in `{360, 1000, 1800}` and `part[1]` in `{1, 360, 1000, 1800}`; when
`numa <= 1800` and `size <= 1800 * 1800 * 1500000` also `part[0] >= numa` and
`part[0] * part[1] * 1500000 >= size`. -/
theorem decide_partitions_spec (size numa : Nat) :
    ((decide_partitions size numa).1 = 360 ∨ (decide_partitions size numa).1 = 1000 ∨
      (decide_partitions size numa).1 = 1800) ∧
    ((decide_partitions size numa).2 = 1 ∨ (decide_partitions size numa).2 = 360 ∨
      (decide_partitions size numa).2 = 1000 ∨ (decide_partitions size numa).2 = 1800) ∧
    (numa ≤ 1800 → size ≤ 1800 * 1800 * 1500000 →
      (decide_partitions size numa).1 ≥ numa ∧
      (decide_partitions size numa).1 * (decide_partitions size numa).2 * 1500000 ≥ size) := by
  simp only [decide_partitions]
  cases h1 : fanout_single.find? (fun (ij : Nat × Nat) =>
      decide (fanout.getD ij.1 0 * 1500000 % 2 ^ 64 ≥ size) && decide (fanout.getD ij.1 0 ≥ numa)) with
  | some ij =>
    have hm := List.mem_of_find?_eq_some h1
    have hp := List.find?_some h1
    rw [fanout_single_eq] at hm
    simp only [List.mem_cons, List.mem_singleton, List.not_mem_nil, or_false] at hm
    rcases hm with rfl | rfl | rfl <;>
      simp [fanout] at hp ⊢ <;> omega
  | none =>
    simp only []
    cases h2 : fanout_double.find? (fun (ij : Nat × Nat) =>
        decide (fanout.getD ij.1 0 * fanout.getD ij.2 0 % 2 ^ 64 * 1500000 % 2 ^ 64 ≥ size)
          && decide (fanout.getD ij.1 0 ≥ numa)) with
    | some ij =>
      have hm := List.mem_of_find?_eq_some h2
      have hp := List.find?_some h2
      rw [fanout_double_eq] at hm
      simp only [List.mem_cons, List.mem_singleton, List.not_mem_nil, or_false] at hm
      rcases hm with rfl | rfl | rfl | rfl | rfl | rfl <;>
        simp [fanout] at hp ⊢ <;> omega
    | none =>
      rw [List.find?_eq_none] at h2
      have h3 := h2 (3, 3) (by rw [fanout_double_eq]; simp)
      simp [fanout] at h3 ⊢
      intro a b
      omega

/-- The amended C18 at `size = 4 * 10^9`, `numa = 2`. -/
theorem decide_partitions_spec_witness :
    (decide_partitions 4000000000 2).1 ≥ 2 ∧
      (decide_partitions 4000000000 2).1 * (decide_partitions 4000000000 2).2 * 1500000
        ≥ 4000000000 :=
  (decide_partitions_spec 4000000000 2).2.2 (by decide) (by decide)

/-! ## C19: the first-pass delimiters -/

/-- C19, counterexample: with a sample of 1000 keys and 360 partitions the
first delimiter is the sample element at position `1 * (1000 / 360) - 1 = 1`,
not at `ceil(1 * 1000 / 360) - 1 = 2`. -/
theorem delim_1_index_not_ceil :
    delim_1_index 1000 360 0 = 1 ∧ (1 * 1000 + 360 - 1) / 360 - 1 = 2 := by
  constructor <;> rfl

/-- C19, amended: for `S >= P >= 1` and `i` in `[1, P-1]`, the `i`-th
first-pass delimiter is the sample element at position `i * floor(S / P) - 1`,
which is inside the sample. -/
theorem delim_1_index_floor (S P i : Nat) (hP : 1 ≤ P) (hSP : P ≤ S) (hS : S < 2 ^ 64)
    (hi1 : 1 ≤ i) (hi : i ≤ P - 1) :
    delim_1_index S P (i - 1) = i * (S / P) - 1 ∧ delim_1_index S P (i - 1) < S := by
  have hj : 1 ≤ S / P := (Nat.one_le_div_iff (by omega)).mpr hSP
  have hle : i * (S / P) ≤ P * (S / P) := Nat.mul_le_mul_right _ (by omega)
  have hle2 : P * (S / P) ≤ S := Nat.mul_div_le S P
  have hpos : 1 ≤ i * (S / P) := Nat.one_le_iff_ne_zero.mpr (Nat.mul_ne_zero (by omega) (by omega))
  have e : S / P * (i - 1 + 1) = i * (S / P) := by
    rw [Nat.sub_add_cancel hi1, Nat.mul_comm]
  simp only [delim_1_index, e]
  rw [Nat.mod_eq_of_lt (show i * (S / P) < 2 ^ 64 by omega)]
  have e2 : i * (S / P) + (2 ^ 64 - 1) = (i * (S / P) - 1) + 2 ^ 64 := by omega
  rw [e2, Nat.add_mod_right, Nat.mod_eq_of_lt (by omega)]
  exact ⟨rfl, by omega⟩

/-- The amended C19 at `S = 1000`, `P = 360`, `i = 359`. -/
theorem delim_1_index_floor_witness :
    delim_1_index 1000 360 (359 - 1) = 359 * (1000 / 360) - 1 ∧
      delim_1_index 1000 360 (359 - 1) < 1000 :=
  delim_1_index_floor 1000 360 359 (by decide) (by decide) (by norm_num) (by decide) (by decide)

/-! ## C13, C14, C15: where the sorted data ends -/

/-- C13: for every `numa >= 1` and `partitions_2`, the value
`(numa == 1) ^ (partitions_2 == 1)` returned by `sort` of `cmp_64_chiplet.c`
is 0 exactly when the last data movement of `sort_thread` wrote the caller's
`keys`/`rids`, and 1 exactly when it wrote `keys_buf`/`rids_buf`. -/
theorem cmp_sort_return_parity (numa partitions_2 : Nat) (hn : 1 ≤ numa) :
    (cmp_sort_return numa partitions_2 = 0 ↔
      ((cmp_sort_thread_moves numa partitions_2).getLast?).map Prod.snd = some Buffer.input) ∧
    (cmp_sort_return numa partitions_2 = 1 ↔
      ((cmp_sort_thread_moves numa partitions_2).getLast?).map Prod.snd = some Buffer.scratch) := by
  by_cases h1 : numa = 1
  · subst h1
    by_cases h2 : partitions_2 = 1
    · subst h2; decide
    · simp [cmp_sort_return, cmp_sort_thread_moves, h2]
  · have h3 : numa > 1 := by omega
    by_cases h2 : partitions_2 = 1
    · subst h2; simp [cmp_sort_return, cmp_sort_thread_moves, h1, h3]
    · simp [cmp_sort_return, cmp_sort_thread_moves, h1, h2, h3]

/-- C13 at `numa = 2`, `partitions_2 = 360`. -/
theorem cmp_sort_return_parity_witness :
    (cmp_sort_return 2 360 = 0 ↔
      ((cmp_sort_thread_moves 2 360).getLast?).map Prod.snd = some Buffer.input) ∧
    (cmp_sort_return 2 360 = 1 ↔
      ((cmp_sort_thread_moves 2 360).getLast?).map Prod.snd = some Buffer.scratch) :=
  cmp_sort_return_parity 2 360 (by decide)

set_option maxRecDepth 10000 in
/-- C14, failing input: with `bits = 8` and `numa = 2`, `sort` of
`lsb_64_chiplet.c` schedules one pass, which writes `keys_buf`/`rids_buf`,
and returns 0. -/
theorem lsb_sort_single_pass :
    lsb_sort 0 8 2 = some (0, [(Buffer.input, Buffer.scratch)]) := by
  decide

set_option maxRecDepth 10000 in
/-- C15, failing input: with `bits = 64` and `numa = 2`, the second pass of
`sort_thread` in `lsb_64_chiplet.c` reads the caller's `keys`/`rids`, while
the first pass wrote `keys_buf`/`rids_buf`. -/
theorem lsb_sort_second_pass_source :
    ∃ r moves, lsb_sort 0 64 2 = some (r, moves) ∧
      moves.take 2 = [(Buffer.input, Buffer.scratch), (Buffer.input, Buffer.scratch)] ∧
      moves_chained moves = false := by
  refine ⟨_, _, rfl, ?_, ?_⟩ <;> decide

/-! ## C20: `extract_delimiters` -/

set_option maxRecDepth 100000 in
/-- C20, failing input: for the sample `[5, 5, 5]` and one delimiter, the
delimiter is taken at position 1, where the run of 5s has one element before
and one after, and it is decremented to 4. -/
theorem extract_delimiters_leading_run :
    extract_delimiters [5, 5, 5] 3 [0, 2 ^ 64 - 1] = some [4, 2 ^ 64 - 1] := by
  decide

/-! ## C3, C12: the buffered partition of `lsb_64_chiplet.c` -/

set_option maxRecDepth 1000000 in
/-- C12, failing input: 13 aligned items with 1-bit digits, five 0s and eight
1s, and zeros in the unused entries of `unaligned_keys`, `unaligned_rids`.
`partition` of `lsb_64_chiplet.c` also partitions the three unused lanes of
the last group: after `finalize`, positions 5 to 7 of the slab of digit 1 hold
these lanes and not the pairs (1, 101), (1, 103), (1, 104), which
`partition` of `lsb_64_baseline.c` puts there. -/
theorem partition_unused_lanes :
    (partition 0 [0, 1, 0, 1, 1, 0, 1, 1, 0, 1, 1, 0, 1]
        [100, 101, 102, 103, 104, 105, 106, 107, 108, 109, 110, 111, 112] 13 [0, 5]
        (List.replicate 32 0) (List.replicate 16 7) (List.replicate 16 7) 0 1
        [0, 0, 0, 0] [0, 0, 0, 0]).map (fun st => finalize [5, 8] st.1 st.2.1 st.2.2 2)
      = some ([0, 0, 0, 0, 0, 0, 0, 0, 1, 1, 1, 1, 1, 7, 7, 7],
          [100, 102, 105, 108, 111, 0, 0, 0, 106, 107, 109, 110, 112, 7, 7, 7]) ∧
    (partition_baseline 0 [0, 1, 0, 1, 1, 0, 1, 1, 0, 1, 1, 0, 1]
        [100, 101, 102, 103, 104, 105, 106, 107, 108, 109, 110, 111, 112] 13 [0, 5]
        (List.replicate 32 0) (List.replicate 16 7) (List.replicate 16 7) 0 1
        [0, 0, 0, 0] [0, 0, 0, 0]).map (fun st => finalize [5, 8] st.1 st.2.1 st.2.2 2)
      = some ([0, 0, 0, 0, 0, 1, 1, 1, 1, 1, 1, 1, 1, 7, 7, 7],
          [100, 102, 105, 108, 111, 101, 103, 104, 106, 107, 109, 110, 112, 7, 7, 7]) := by
  constructor <;> decide

set_option maxRecDepth 1000000 in
/-- C3, failing input: `sort` of `lsb_64_chiplet.c` with one thread,
`bits = 1`, 13 keys (five 0s, eight 1s) with payloads equal to the keys, and
zeros in the unused entries of `unaligned_keys`, `unaligned_rids`: the arrays
selected by the returned parity 1, `keys_buf` and `rids_buf`, start with
eight 0s and five 1s. -/
theorem lsb_sort_single_unused_lanes :
    lsb_sort_single 13 1 [0, 1, 0, 1, 1, 0, 1, 1, 0, 1, 1, 0, 1]
        [0, 1, 0, 1, 1, 0, 1, 1, 0, 1, 1, 0, 1] 13 (List.replicate 16 7) (List.replicate 16 7)
        [0, 0, 0, 0] [0, 0, 0, 0]
      = some (1, [0, 1, 0, 1, 1, 0, 1, 1, 0, 1, 1, 0, 1], [0, 1, 0, 1, 1, 0, 1, 1, 0, 1, 1, 0, 1],
          [0, 0, 0, 0, 0, 0, 0, 0, 1, 1, 1, 1, 1, 7, 7, 7],
          [0, 0, 0, 0, 0, 0, 0, 0, 1, 1, 1, 1, 1, 7, 7, 7]) := by
  decide

/-! ## C10, C11: `known_partition` -/

set_option maxRecDepth 1000000 in
/-- C10, failing input: `keys_out` 24 bytes past a 64-byte boundary
(`to_align = 5`) and `size = 3` items: `virtual_add` stays 0 and the
assertion `(63 & (uint64_t) keys_out) == 0` fails. -/
theorem known_partition_small_misaligned :
    known_partition 0 3 [5, 4, 3] [50, 40, 30] [1, 0, 1] 3 none [1, 2] (List.replicate 16 7)
      (List.replicate 16 7) (List.replicate 32 0) 2
      ([0, 0, 0, 0], [0, 0, 0, 0], [0, 0, 0, 0, 0, 0, 0, 0]) = none := by
  decide

set_option maxRecDepth 1000000 in
/-- C11, failing input: two workers and one non-empty partition, worker A
with 3 items for the slab `[0, 3)` and worker B with 13 items for the slab
`[3, 16)`.  When A's call runs before B's, B's write of the first cache line
puts the unused entries of its buffer on positions 0 to 2; when B's call runs
first, A's items stay there. -/
theorem known_partition_order :
    ((known_partition 0 0 [10, 11, 12] [10, 11, 12] [0, 0, 0] 3 (some [0, 16]) [3, 0]
        (List.replicate 16 7) (List.replicate 16 7) (List.replicate 32 0) 2
        ([0, 0, 0, 0], [0, 0, 0, 0], [0, 0, 0, 0, 0, 0, 0, 0])).bind (fun st =>
      known_partition 0 0 [20, 21, 22, 23, 24, 25, 26, 27, 28, 29, 30, 31, 32]
        [20, 21, 22, 23, 24, 25, 26, 27, 28, 29, 30, 31, 32]
        [0, 0, 0, 0, 0, 0, 0, 0, 0, 0, 0, 0, 0] 13 (some [3, 16]) [13, 0] st.2.1 st.2.2
        (List.replicate 32 0) 2 ([0, 0, 0, 0], [0, 0, 0, 0], [0, 0, 0, 0, 0, 0, 0, 0]))).map
        (fun st => st.2)
      = some ([0, 0, 0, 20, 21, 22, 23, 24, 25, 26, 27, 28, 29, 30, 31, 32],
          [0, 0, 0, 20, 21, 22, 23, 24, 25, 26, 27, 28, 29, 30, 31, 32]) ∧
    ((known_partition 0 0 [20, 21, 22, 23, 24, 25, 26, 27, 28, 29, 30, 31, 32]
        [20, 21, 22, 23, 24, 25, 26, 27, 28, 29, 30, 31, 32]
        [0, 0, 0, 0, 0, 0, 0, 0, 0, 0, 0, 0, 0] 13 (some [3, 16]) [13, 0]
        (List.replicate 16 7) (List.replicate 16 7) (List.replicate 32 0) 2
        ([0, 0, 0, 0], [0, 0, 0, 0], [0, 0, 0, 0, 0, 0, 0, 0])).bind (fun st =>
      known_partition 0 0 [10, 11, 12] [10, 11, 12] [0, 0, 0] 3 (some [0, 16]) [3, 0]
        st.2.1 st.2.2 (List.replicate 32 0) 2
        ([0, 0, 0, 0], [0, 0, 0, 0], [0, 0, 0, 0, 0, 0, 0, 0]))).map (fun st => st.2)
      = some ([10, 11, 12, 20, 21, 22, 23, 24, 25, 26, 27, 28, 29, 30, 31, 32],
          [10, 11, 12, 20, 21, 22, 23, 24, 25, 26, 27, 28, 29, 30, 31, 32]) := by
  constructor <;> decide

/-! ## C4: the sample of the range sort for 16 tuples -/

/-- C4, failing input: for 16 tuples `sort` of `cmp_64_chiplet.c` takes a
sample of `(uint64_t) (0.01 * 16) = 0` keys and 360 partitions, so
`j = 0 / 360 = 0` and the first delimiter is read from
`sample[0 * 1 - 1] = sample[2^64 - 1]`, outside the sample. -/
theorem cmp_first_delimiters_sixteen (sample : List Nat) :
    cmp_sample_size 16 = 0 ∧ (decide_partitions 16 1).1 = 360 ∧
      delim_1_index (cmp_sample_size 16) 360 0 = 2 ^ 64 - 1 ∧
      cmp_first_delimiters 16 1 sample = none := by
  refine ⟨by decide, by decide, by rfl, ?_⟩
  have h1 : cmp_sample_size 16 = 0 := by decide
  have h2 : (decide_partitions 16 1).1 = 360 := by decide
  simp only [cmp_first_delimiters, first_pass_delimiters, h1, h2]
  have h3 : List.range (360 - 1) = 0 :: List.range' 1 358 := by
    rw [List.range_eq_range']
    rfl
  rw [h3, List.mapM_cons]
  simp

/-! ## C1, C2: `simd_combsort` -/

/-- C1: for arrays `keys`, `rids` of equal length holding 64-bit values, every
`size <= 0x7FFFFFF0` and either alignment of `keys` (any `kpos`),
`simd_combsort` returns and leaves `keys_out` non-decreasing:
`keys_out[i] <= keys_out[i+1]` for all `i + 1 < size`. -/
theorem simd_combsort_sorted (kpos : Nat) (keys rids : List Nat) (size : Nat)
    (hsize : size ≤ 0x7FFFFFF0) (hlen : size ≤ keys.length) (hrl : rids.length = keys.length)
    (hk : ∀ k ∈ keys, k < 2 ^ 64) (hr : ∀ r ∈ rids, r < 2 ^ 64) :
    ∃ fuel0, ∀ fuel, fuel0 ≤ fuel →
      ∃ res, simd_combsort fuel kpos keys rids size = some res ∧
        ∀ i, i + 1 < size → res.2.2.1.getD i 0 ≤ res.2.2.1.getD (i + 1) 0 := by
  obtain ⟨fuel0, h⟩ := simd_combsort_spec kpos keys rids size hsize hlen hrl
    (getD_lt_of_forall keys hk) (getD_lt_of_forall rids hr)
  refine ⟨fuel0, fun fuel hf => ?_⟩
  obtain ⟨keys', rids', keys_out, rids_out, h1, _, _, h4, _⟩ := h fuel hf
  exact ⟨_, h1, h4⟩

/-- C1 for twelve pairs at an address that is 8 but not 16 byte aligned (`beg = 1`). -/
theorem simd_combsort_sorted_witness :
    12 ≤ 0x7FFFFFF0 ∧ 12 ≤ [9, 8, 7, 6, 5, 4, 3, 2, 1, 0, 11, 10].length ∧
    [0, 1, 2, 3, 4, 5, 6, 7, 8, 9, 10, 11].length = [9, 8, 7, 6, 5, 4, 3, 2, 1, 0, 11, 10].length ∧
    (∀ k ∈ [9, 8, 7, 6, 5, 4, 3, 2, 1, 0, 11, 10], k < 2 ^ 64) ∧
    (∀ r ∈ [0, 1, 2, 3, 4, 5, 6, 7, 8, 9, 10, 11], r < 2 ^ 64) ∧
    ∃ fuel0, ∀ fuel, fuel0 ≤ fuel →
      ∃ res, simd_combsort fuel 1 [9, 8, 7, 6, 5, 4, 3, 2, 1, 0, 11, 10]
          [0, 1, 2, 3, 4, 5, 6, 7, 8, 9, 10, 11] 12 = some res ∧
        ∀ i, i + 1 < 12 → res.2.2.1.getD i 0 ≤ res.2.2.1.getD (i + 1) 0 :=
  ⟨by decide, by decide, by decide, by decide, by decide,
    simd_combsort_sorted 1 [9, 8, 7, 6, 5, 4, 3, 2, 1, 0, 11, 10]
      [0, 1, 2, 3, 4, 5, 6, 7, 8, 9, 10, 11] 12 (by decide) (by decide) (by decide) (by decide)
      (by decide)⟩

/-- C2: for every input of `size <= 0x7FFFFFF0` pairs of 64-bit values,
`simd_combsort` returns and the pairs `(keys_out[i], rids_out[i])` are a
permutation of the input pairs `(keys[i], rids[i])`, `i < size`; the key sum
is preserved, and when `keys[i] = rids[i]` for all `i` on input then
`keys_out[i] = rids_out[i]` for all `i` on output.  Keys equal to
`0xFFFFFFFFFFFFFFFF` are included. -/
theorem simd_combsort_perm (kpos : Nat) (keys rids : List Nat) (size : Nat)
    (hsize : size ≤ 0x7FFFFFF0) (hlen : size ≤ keys.length) (hrl : rids.length = keys.length)
    (hk : ∀ k ∈ keys, k < 2 ^ 64) (hr : ∀ r ∈ rids, r < 2 ^ 64) :
    ∃ fuel0, ∀ fuel, fuel0 ≤ fuel →
      ∃ res, simd_combsort fuel kpos keys rids size = some res ∧
        List.Perm (res.2.2.1.zip res.2.2.2) (pairs keys rids size) ∧
        res.2.2.1.sum = (keys.take size).sum ∧
        ((∀ i, i < size → keys.getD i 0 = rids.getD i 0) →
          ∀ i, i < size → res.2.2.1.getD i 0 = res.2.2.2.getD i 0) := by
  obtain ⟨fuel0, h⟩ := simd_combsort_spec kpos keys rids size hsize hlen hrl
    (getD_lt_of_forall keys hk) (getD_lt_of_forall rids hr)
  refine ⟨fuel0, fun fuel hf => ?_⟩
  obtain ⟨keys', rids', keys_out, rids_out, h1, h2, h3, _, h5⟩ := h fuel hf
  refine ⟨_, h1, h5, ?_, ?_⟩
  · have e1 : (keys_out.zip rids_out).map Prod.fst = keys_out :=
      List.map_fst_zip _ _ (by rw [h2, h3])
    have e2 : (pairs keys rids size).map Prod.fst = keys.take size := by
      rw [← zip_take_eq_pairs keys rids size hlen hrl]
      exact List.map_fst_zip _ _ (by simp [hrl])
    have := (h5.map Prod.fst).sum_eq
    rw [e1, e2] at this
    exact this
  · intro hd i hi
    have hmem : (keys_out.getD i 0, rids_out.getD i 0) ∈ pairs keys rids size := by
      apply h5.subset
      rw [getD_of_lt keys_out i (by omega), getD_of_lt rids_out i (by omega)]
      have hz : i < (keys_out.zip rids_out).length := by rw [List.length_zip, h2, h3]; simpa using hi
      have := List.getElem_mem hz
      rw [List.getElem_zip] at this
      exact this
    simp only [pairs, List.mem_map, List.mem_range, Prod.mk.injEq] at hmem
    obtain ⟨e, he, h6, h7⟩ := hmem
    rw [← h6, ← h7]
    exact hd e he

/-- C2 for ten pairs with equal keys and payloads, among them the value
`0xFFFFFFFFFFFFFFFF` twice. -/
theorem simd_combsort_perm_witness :
    10 ≤ 0x7FFFFFF0 ∧
    10 ≤ [9, 2 ^ 64 - 1, 7, 6, 5, 2 ^ 64 - 1, 3, 2, 1, 0].length ∧
    [9, 2 ^ 64 - 1, 7, 6, 5, 2 ^ 64 - 1, 3, 2, 1, 0].length
      = [9, 2 ^ 64 - 1, 7, 6, 5, 2 ^ 64 - 1, 3, 2, 1, 0].length ∧
    (∀ k ∈ [9, 2 ^ 64 - 1, 7, 6, 5, 2 ^ 64 - 1, 3, 2, 1, 0], k < 2 ^ 64) ∧
    ∃ fuel0, ∀ fuel, fuel0 ≤ fuel →
      ∃ res, simd_combsort fuel 0 [9, 2 ^ 64 - 1, 7, 6, 5, 2 ^ 64 - 1, 3, 2, 1, 0]
          [9, 2 ^ 64 - 1, 7, 6, 5, 2 ^ 64 - 1, 3, 2, 1, 0] 10 = some res ∧
        List.Perm (res.2.2.1.zip res.2.2.2)
          (pairs [9, 2 ^ 64 - 1, 7, 6, 5, 2 ^ 64 - 1, 3, 2, 1, 0]
            [9, 2 ^ 64 - 1, 7, 6, 5, 2 ^ 64 - 1, 3, 2, 1, 0] 10) ∧
        res.2.2.1.sum = (([9, 2 ^ 64 - 1, 7, 6, 5, 2 ^ 64 - 1, 3, 2, 1, 0] : List Nat).take 10).sum ∧
        ((∀ i, i < 10 → ([9, 2 ^ 64 - 1, 7, 6, 5, 2 ^ 64 - 1, 3, 2, 1, 0] : List Nat).getD i 0
            = ([9, 2 ^ 64 - 1, 7, 6, 5, 2 ^ 64 - 1, 3, 2, 1, 0] : List Nat).getD i 0) →
          ∀ i, i < 10 → res.2.2.1.getD i 0 = res.2.2.2.getD i 0) :=
  ⟨by decide, by decide, rfl, by simp,
    simd_combsort_perm 0 [9, 2 ^ 64 - 1, 7, 6, 5, 2 ^ 64 - 1, 3, 2, 1, 0]
      [9, 2 ^ 64 - 1, 7, 6, 5, 2 ^ 64 - 1, 3, 2, 1, 0] 10 (by decide) (by decide) rfl (by simp)
      (by simp)⟩

/-! ## C7, C8: the range histograms `histogram_360`, `histogram_1000`, `histogram_1800` -/

set_option maxRecDepth 1000000 in
/-- C7, as stated, fails: not every size goes with every alignment of the
ranges pointer.  With keys and ranges both at element 1 of 64-byte aligned
buffers (`keys = 8`, `ranges = 2`), 359 non-decreasing delimiters and
`size = 2`, the scalar head of `histogram_360` uses up the two keys before
`ranges` is 8-byte aligned, the keys pointer is then 24, and
`assert((15 & (uint64_t) keys) == 0)` fails. -/
theorem histogram_tags_misaligned :
    histogram_360 1 1 [3, 4] 2 (List.range' 0 359) (List.replicate 360 0) [0, 0]
      (List.replicate 360 0) = none := by
  decide!

/-- C7, amended: for each `P` in {360, 1000, 1800}, every non-decreasing
delimiter array of length `P - 1` and every call whose keys pointer is
16-byte aligned after the scalar head (the head takes
`min size ((4 - rpos % 4) % 4)` keys, `rpos` the ranges pointer in units of
`uint16_t`, `kpos` the keys pointer in units of `uint64_t`), the index
distribution loop ends with the asserted level counts, `histogram_P`
returns, and the tag in `ranges[i]` is `binary_search(delim, P - 1, keys[i])`
for every `i < size`; keys and delimiters are any 64-bit values, and the
index array has at least `P` entries, as `sort_thread` allocates it. -/
theorem histogram_range_tags (kpos rpos : Nat) (keys : List Nat) (size : Nat)
    (d360 d1000 d1800 count ranges i360 i1000 i1800 : List Nat)
    (hk : ∀ k ∈ keys, k < 2 ^ 64) (hr : size ≤ ranges.length)
    (hi360 : 360 ≤ i360.length) (hi1000 : 1000 ≤ i1000.length) (hi1800 : 1800 ≤ i1800.length)
    (hal : (kpos + min size ((4 - rpos % 4) % 4)) % 2 = 0)
    (s360 : List.Sorted (· ≤ ·) d360) (l360 : d360.length = 359) (b360 : ∀ d ∈ d360, d < 2 ^ 64)
    (s1000 : List.Sorted (· ≤ ·) d1000) (l1000 : d1000.length = 999)
    (b1000 : ∀ d ∈ d1000, d < 2 ^ 64)
    (s1800 : List.Sorted (· ≤ ·) d1800) (l1800 : d1800.length = 1799)
    (b1800 : ∀ d ∈ d1800, d < 2 ^ 64) :
    ((∃ r1 r2 r3 idx, index_fill_360 (delim_biased d360) 359 0 (2, 2, 4, 0, 0, 0, 0, i360)
          = (r1, r2, r3, 7, 16, 48, 288, idx)) ∧
      ∃ res, histogram_360 kpos rpos keys size d360 count ranges i360 = some res ∧
        ∀ i, i < size → binary_search d360 359 (keys.getD i 0) = some (res.2.1.getD i 0)) ∧
    ((∃ r1 r2 r3 idx, index_fill_1000 (delim_biased d1000) 999 0 (4, 4, 4, 0, 0, 0, 0, i1000)
          = (r1, r2, r3, 7, 32, 160, 800, idx)) ∧
      ∃ res, histogram_1000 kpos rpos keys size d1000 count ranges i1000 = some res ∧
        ∀ i, i < size → binary_search d1000 999 (keys.getD i 0) = some (res.2.1.getD i 0)) ∧
    ((∃ r1 r2 r3 r4 idx,
        index_fill_1800 (delim_biased d1800) 1799 0 (2, 2, 4, 4, 0, 0, 0, 0, 0, i1800)
          = (r1, r2, r3, r4, 7, 16, 48, 288, 1440, idx)) ∧
      ∃ res, histogram_1800 kpos rpos keys size d1800 count ranges i1800 = some res ∧
        ∀ i, i < size → binary_search d1800 1799 (keys.getD i 0) = some (res.2.1.getD i 0)) := by
  refine ⟨?_, ?_, ?_⟩
  · obtain ⟨idx', e, h⟩ := histogram_360_eq kpos rpos keys size d360 count ranges i360
      s360 l360 b360 hk hi360
    rw [if_pos hal] at h
    refine ⟨⟨_, _, _, idx', e⟩, _, h, ?_⟩
    intro i hi
    have hb := binary_search_eq_rank d360 (keys.getD i 0) s360 (by omega)
    rw [l360] at hb
    simp only
    rw [store_tags_getD, if_pos ⟨Nat.zero_le _, by omega, by omega⟩]
    exact hb
  · obtain ⟨idx', e, h⟩ := histogram_1000_eq kpos rpos keys size d1000 count ranges i1000
      s1000 l1000 b1000 hk hi1000
    rw [if_pos hal] at h
    refine ⟨⟨_, _, _, idx', e⟩, _, h, ?_⟩
    intro i hi
    have hb := binary_search_eq_rank d1000 (keys.getD i 0) s1000 (by omega)
    rw [l1000] at hb
    simp only
    rw [store_tags_getD, if_pos ⟨Nat.zero_le _, by omega, by omega⟩]
    exact hb
  · obtain ⟨idx', e, h⟩ := histogram_1800_eq kpos rpos keys size d1800 count ranges i1800
      s1800 l1800 b1800 hk hi1800
    rw [if_pos hal] at h
    refine ⟨⟨_, _, _, _, idx', e⟩, _, h, ?_⟩
    intro i hi
    have hb := binary_search_eq_rank d1800 (keys.getD i 0) s1800 (by omega)
    rw [l1800] at hb
    simp only
    rw [store_tags_getD, if_pos ⟨Nat.zero_le _, by omega, by omega⟩]
    exact hb

/-- Witness of the amended C7: ten keys, some with the top bit set, at
`keys = 8`, `ranges = 6`, and delimiter arrays that straddle `2^63`. -/
theorem histogram_range_tags_witness :
    (∀ k ∈ [0, 2 ^ 63, 2 ^ 64 - 1, 5, 2 ^ 63 + 7, 100, 200, 2 ^ 63 - 1, 42, 7], k < 2 ^ 64) ∧
    10 ≤ (List.replicate 10 0).length ∧ 360 ≤ (List.replicate 360 0).length ∧
    1000 ≤ (List.replicate 1000 0).length ∧ 1800 ≤ (List.replicate 1800 0).length ∧
    (1 + min 10 ((4 - 3 % 4) % 4)) % 2 = 0 ∧
    List.Sorted (· ≤ ·) (List.range' (2 ^ 63 - 100) 359) ∧
    (List.range' (2 ^ 63 - 100) 359).length = 359 ∧
    (∀ d ∈ List.range' (2 ^ 63 - 100) 359, d < 2 ^ 64) ∧
    List.Sorted (· ≤ ·) (List.range' (2 ^ 63 - 500) 999) ∧
    (List.range' (2 ^ 63 - 500) 999).length = 999 ∧
    (∀ d ∈ List.range' (2 ^ 63 - 500) 999, d < 2 ^ 64) ∧
    List.Sorted (· ≤ ·) (List.range' (2 ^ 63 - 900) 1799) ∧
    (List.range' (2 ^ 63 - 900) 1799).length = 1799 ∧
    (∀ d ∈ List.range' (2 ^ 63 - 900) 1799, d < 2 ^ 64) ∧
    ((∃ r1 r2 r3 idx, index_fill_360 (delim_biased (List.range' (2 ^ 63 - 100) 359)) 359 0
          (2, 2, 4, 0, 0, 0, 0, List.replicate 360 0) = (r1, r2, r3, 7, 16, 48, 288, idx)) ∧
      ∃ res, histogram_360 1 3 [0, 2 ^ 63, 2 ^ 64 - 1, 5, 2 ^ 63 + 7, 100, 200, 2 ^ 63 - 1, 42, 7]
          10 (List.range' (2 ^ 63 - 100) 359) (List.replicate 360 0) (List.replicate 10 0)
          (List.replicate 360 0) = some res ∧
        ∀ i, i < 10 → binary_search (List.range' (2 ^ 63 - 100) 359) 359
          ([0, 2 ^ 63, 2 ^ 64 - 1, 5, 2 ^ 63 + 7, 100, 200, 2 ^ 63 - 1, 42, 7].getD i 0)
            = some (res.2.1.getD i 0)) ∧
    ((∃ r1 r2 r3 idx, index_fill_1000 (delim_biased (List.range' (2 ^ 63 - 500) 999)) 999 0
          (4, 4, 4, 0, 0, 0, 0, List.replicate 1000 0) = (r1, r2, r3, 7, 32, 160, 800, idx)) ∧
      ∃ res, histogram_1000 1 3 [0, 2 ^ 63, 2 ^ 64 - 1, 5, 2 ^ 63 + 7, 100, 200, 2 ^ 63 - 1, 42, 7]
          10 (List.range' (2 ^ 63 - 500) 999) (List.replicate 360 0) (List.replicate 10 0)
          (List.replicate 1000 0) = some res ∧
        ∀ i, i < 10 → binary_search (List.range' (2 ^ 63 - 500) 999) 999
          ([0, 2 ^ 63, 2 ^ 64 - 1, 5, 2 ^ 63 + 7, 100, 200, 2 ^ 63 - 1, 42, 7].getD i 0)
            = some (res.2.1.getD i 0)) ∧
    ((∃ r1 r2 r3 r4 idx, index_fill_1800 (delim_biased (List.range' (2 ^ 63 - 900) 1799)) 1799 0
          (2, 2, 4, 4, 0, 0, 0, 0, 0, List.replicate 1800 0)
          = (r1, r2, r3, r4, 7, 16, 48, 288, 1440, idx)) ∧
      ∃ res, histogram_1800 1 3 [0, 2 ^ 63, 2 ^ 64 - 1, 5, 2 ^ 63 + 7, 100, 200, 2 ^ 63 - 1, 42, 7]
          10 (List.range' (2 ^ 63 - 900) 1799) (List.replicate 360 0) (List.replicate 10 0)
          (List.replicate 1800 0) = some res ∧
        ∀ i, i < 10 → binary_search (List.range' (2 ^ 63 - 900) 1799) 1799
          ([0, 2 ^ 63, 2 ^ 64 - 1, 5, 2 ^ 63 + 7, 100, 200, 2 ^ 63 - 1, 42, 7].getD i 0)
            = some (res.2.1.getD i 0)) :=
  ⟨by decide, Nat.le_of_eq (List.length_replicate _ _).symm,
    Nat.le_of_eq (List.length_replicate _ _).symm, Nat.le_of_eq (List.length_replicate _ _).symm,
    Nat.le_of_eq (List.length_replicate _ _).symm, by decide,
    sorted_range' _ _, List.length_range' _ _ _, range'_lt _ _ _ (by norm_num),
    sorted_range' _ _, List.length_range' _ _ _, range'_lt _ _ _ (by norm_num),
    sorted_range' _ _, List.length_range' _ _ _, range'_lt _ _ _ (by norm_num),
    histogram_range_tags 1 3 [0, 2 ^ 63, 2 ^ 64 - 1, 5, 2 ^ 63 + 7, 100, 200, 2 ^ 63 - 1, 42, 7] 10
      (List.range' (2 ^ 63 - 100) 359) (List.range' (2 ^ 63 - 500) 999)
      (List.range' (2 ^ 63 - 900) 1799) (List.replicate 360 0) (List.replicate 10 0)
      (List.replicate 360 0) (List.replicate 1000 0) (List.replicate 1800 0) (by decide)
      (Nat.le_of_eq (List.length_replicate _ _).symm)
      (Nat.le_of_eq (List.length_replicate _ _).symm)
      (Nat.le_of_eq (List.length_replicate _ _).symm)
      (Nat.le_of_eq (List.length_replicate _ _).symm) (by decide)
      (sorted_range' _ _) (List.length_range' _ _ _) (range'_lt _ _ _ (by norm_num))
      (sorted_range' _ _) (List.length_range' _ _ _) (range'_lt _ _ _ (by norm_num))
      (sorted_range' _ _) (List.length_range' _ _ _) (range'_lt _ _ _ (by norm_num))⟩

set_option maxRecDepth 1000000 in
/-- C8, as stated, fails: not every call returns.  With keys and ranges both
at element 2 of 64-byte aligned buffers (`keys = 16`, `ranges = 4`), `count`
all zero, 359 non-decreasing delimiters and `size = 1`, the scalar head of
`histogram_360` takes the only key while `ranges` is not yet 8-byte aligned,
the keys pointer is then 24, and `assert((15 & (uint64_t) keys) == 0)` fails:
no counter is left to compare. -/
theorem histogram_counts_misaligned :
    (∀ c ∈ List.replicate 360 0, c = 0) ∧
    List.Sorted (· ≤ ·) (List.range' 10 359) ∧
    histogram_360 2 2 [7] 1 (List.range' 10 359) (List.replicate 360 0) [0]
      (List.replicate 360 0) = none :=
  ⟨fun _ h => List.eq_of_mem_replicate h, sorted_range' _ _, by decide!⟩

/-- C8, amended: for every call of `histogram_360` whose keys pointer is
16-byte aligned after the scalar head (the head takes
`min size ((4 - rpos % 4) % 4)` keys, `rpos` the ranges pointer in units of
`uint16_t`, `kpos` the keys pointer in units of `uint64_t`), with `count` of
at least 360 entries, initially all zero, `index` of at least 360 entries and
`delim` non-decreasing, the call returns, `count[p]` is the number of indices
`i < size` with `binary_search(delim, 359, keys[i]) = p` for every `p < 360`,
and the counters add up to `size`; likewise for `histogram_1000` and
`histogram_1800` with 1000 and 1800 entries. -/
theorem histogram_range_counts (kpos rpos : Nat) (keys : List Nat) (size : Nat)
    (d360 d1000 d1800 c360 c1000 c1800 ranges i360 i1000 i1800 : List Nat)
    (hk : ∀ k ∈ keys, k < 2 ^ 64) (hsz : size < 2 ^ 64)
    (hi360 : 360 ≤ i360.length) (hi1000 : 1000 ≤ i1000.length) (hi1800 : 1800 ≤ i1800.length)
    (hc360 : ∀ c ∈ c360, c = 0) (hl360 : 360 ≤ c360.length)
    (hc1000 : ∀ c ∈ c1000, c = 0) (hl1000 : 1000 ≤ c1000.length)
    (hc1800 : ∀ c ∈ c1800, c = 0) (hl1800 : 1800 ≤ c1800.length)
    (hal : (kpos + min size ((4 - rpos % 4) % 4)) % 2 = 0)
    (s360 : List.Sorted (· ≤ ·) d360) (l360 : d360.length = 359) (b360 : ∀ d ∈ d360, d < 2 ^ 64)
    (s1000 : List.Sorted (· ≤ ·) d1000) (l1000 : d1000.length = 999)
    (b1000 : ∀ d ∈ d1000, d < 2 ^ 64)
    (s1800 : List.Sorted (· ≤ ·) d1800) (l1800 : d1800.length = 1799)
    (b1800 : ∀ d ∈ d1800, d < 2 ^ 64) :
    (∃ res, histogram_360 kpos rpos keys size d360 c360 ranges i360 = some res ∧
      (∀ p, p < 360 → res.1.getD p 0 = (List.range size).countP
        (fun i => decide (binary_search d360 359 (keys.getD i 0) = some p))) ∧
      ((List.range 360).map (fun p => res.1.getD p 0)).sum = size) ∧
    (∃ res, histogram_1000 kpos rpos keys size d1000 c1000 ranges i1000 = some res ∧
      (∀ p, p < 1000 → res.1.getD p 0 = (List.range size).countP
        (fun i => decide (binary_search d1000 999 (keys.getD i 0) = some p))) ∧
      ((List.range 1000).map (fun p => res.1.getD p 0)).sum = size) ∧
    (∃ res, histogram_1800 kpos rpos keys size d1800 c1800 ranges i1800 = some res ∧
      (∀ p, p < 1800 → res.1.getD p 0 = (List.range size).countP
        (fun i => decide (binary_search d1800 1799 (keys.getD i 0) = some p))) ∧
      ((List.range 1800).map (fun p => res.1.getD p 0)).sum = size) := by
  have main : ∀ (delim count : List Nat) (n : Nat), List.Sorted (· ≤ ·) delim →
      delim.length = n → n < 1800 → (∀ c ∈ count, c = 0) → n + 1 ≤ count.length →
      (∀ p, p < n + 1 →
        (tally_tags (fun j => first_delimiter_ge delim (keys.getD j 0)) 0 size count).getD p 0
          = (List.range size).countP
              (fun i => decide (binary_search delim n (keys.getD i 0) = some p))) ∧
      ((List.range (n + 1)).map (fun p =>
        (tally_tags (fun j => first_delimiter_ge delim (keys.getD j 0)) 0 size count).getD p 0)).sum
          = size := by
    intro delim count n hs hl hlt hc hn
    have ht := tally_tags_zero (fun j => first_delimiter_ge delim (keys.getD j 0)) size (n + 1)
      count hc hn hsz (fun j => by
        have := rank_le delim (keys.getD j 0)
        show first_delimiter_ge delim (keys.getD j 0) < n + 1
        omega)
    refine ⟨?_, ht.2⟩
    intro p hp
    rw [ht.1 p hp]
    congr 1
    funext i
    have hb := binary_search_eq_rank delim (keys.getD i 0) hs (by omega)
    rw [hl] at hb
    rw [hb]
    simp
  refine ⟨?_, ?_, ?_⟩
  · obtain ⟨idx', _, h⟩ := histogram_360_eq kpos rpos keys size d360 c360 ranges i360
      s360 l360 b360 hk hi360
    rw [if_pos hal] at h
    exact ⟨_, h, main d360 c360 359 s360 l360 (by omega) hc360 hl360⟩
  · obtain ⟨idx', _, h⟩ := histogram_1000_eq kpos rpos keys size d1000 c1000 ranges i1000
      s1000 l1000 b1000 hk hi1000
    rw [if_pos hal] at h
    exact ⟨_, h, main d1000 c1000 999 s1000 l1000 (by omega) hc1000 hl1000⟩
  · obtain ⟨idx', _, h⟩ := histogram_1800_eq kpos rpos keys size d1800 c1800 ranges i1800
      s1800 l1800 b1800 hk hi1800
    rw [if_pos hal] at h
    exact ⟨_, h, main d1800 c1800 1799 s1800 l1800 (by omega) hc1800 hl1800⟩

/-- Witness of the amended C8: nine keys at 16-byte aligned `keys` and 8-byte
aligned `ranges`, one group of eight and one scalar key, with `count` and
`index` arrays of exactly 360, 1000 and 1800 entries. -/
theorem histogram_range_counts_witness :
    (∀ k ∈ [2 ^ 63 + 3, 0, 2 ^ 64 - 1, 17, 2 ^ 63, 1000, 2000, 359, 1799], k < 2 ^ 64) ∧
    9 < 2 ^ 64 ∧ 360 ≤ (List.replicate 360 0).length ∧
    1000 ≤ (List.replicate 1000 0).length ∧ 1800 ≤ (List.replicate 1800 0).length ∧
    (∀ c ∈ List.replicate 360 0, c = 0) ∧ (∀ c ∈ List.replicate 1000 0, c = 0) ∧
    (∀ c ∈ List.replicate 1800 0, c = 0) ∧
    (0 + min 9 ((4 - 0 % 4) % 4)) % 2 = 0 ∧
    List.Sorted (· ≤ ·) (List.range' 10 359) ∧ (List.range' 10 359).length = 359 ∧
    (∀ d ∈ List.range' 10 359, d < 2 ^ 64) ∧
    List.Sorted (· ≤ ·) (List.range' 10 999) ∧ (List.range' 10 999).length = 999 ∧
    (∀ d ∈ List.range' 10 999, d < 2 ^ 64) ∧
    List.Sorted (· ≤ ·) (List.range' 10 1799) ∧ (List.range' 10 1799).length = 1799 ∧
    (∀ d ∈ List.range' 10 1799, d < 2 ^ 64) ∧
    (∃ res, histogram_360 0 0 [2 ^ 63 + 3, 0, 2 ^ 64 - 1, 17, 2 ^ 63, 1000, 2000, 359, 1799] 9
        (List.range' 10 359) (List.replicate 360 0) (List.replicate 9 0) (List.replicate 360 0)
          = some res ∧
      (∀ p, p < 360 → res.1.getD p 0 = (List.range 9).countP
        (fun i => decide (binary_search (List.range' 10 359) 359
          ([2 ^ 63 + 3, 0, 2 ^ 64 - 1, 17, 2 ^ 63, 1000, 2000, 359, 1799].getD i 0) = some p))) ∧
      ((List.range 360).map (fun p => res.1.getD p 0)).sum = 9) ∧
    (∃ res, histogram_1000 0 0 [2 ^ 63 + 3, 0, 2 ^ 64 - 1, 17, 2 ^ 63, 1000, 2000, 359, 1799] 9
        (List.range' 10 999) (List.replicate 1000 0) (List.replicate 9 0) (List.replicate 1000 0)
          = some res ∧
      (∀ p, p < 1000 → res.1.getD p 0 = (List.range 9).countP
        (fun i => decide (binary_search (List.range' 10 999) 999
          ([2 ^ 63 + 3, 0, 2 ^ 64 - 1, 17, 2 ^ 63, 1000, 2000, 359, 1799].getD i 0) = some p))) ∧
      ((List.range 1000).map (fun p => res.1.getD p 0)).sum = 9) ∧
    (∃ res, histogram_1800 0 0 [2 ^ 63 + 3, 0, 2 ^ 64 - 1, 17, 2 ^ 63, 1000, 2000, 359, 1799] 9
        (List.range' 10 1799) (List.replicate 1800 0) (List.replicate 9 0) (List.replicate 1800 0)
          = some res ∧
      (∀ p, p < 1800 → res.1.getD p 0 = (List.range 9).countP
        (fun i => decide (binary_search (List.range' 10 1799) 1799
          ([2 ^ 63 + 3, 0, 2 ^ 64 - 1, 17, 2 ^ 63, 1000, 2000, 359, 1799].getD i 0) = some p))) ∧
      ((List.range 1800).map (fun p => res.1.getD p 0)).sum = 9) :=
  ⟨by decide, by decide, Nat.le_of_eq (List.length_replicate _ _).symm,
    Nat.le_of_eq (List.length_replicate _ _).symm, Nat.le_of_eq (List.length_replicate _ _).symm,
    fun _ h => List.eq_of_mem_replicate h, fun _ h => List.eq_of_mem_replicate h,
    fun _ h => List.eq_of_mem_replicate h, by decide,
    sorted_range' _ _, List.length_range' _ _ _, range'_lt _ _ _ (by norm_num),
    sorted_range' _ _, List.length_range' _ _ _, range'_lt _ _ _ (by norm_num),
    sorted_range' _ _, List.length_range' _ _ _, range'_lt _ _ _ (by norm_num),
    histogram_range_counts 0 0 [2 ^ 63 + 3, 0, 2 ^ 64 - 1, 17, 2 ^ 63, 1000, 2000, 359, 1799] 9
      (List.range' 10 359) (List.range' 10 999) (List.range' 10 1799) (List.replicate 360 0)
      (List.replicate 1000 0) (List.replicate 1800 0) (List.replicate 9 0)
      (List.replicate 360 0) (List.replicate 1000 0) (List.replicate 1800 0)
      (by decide) (by decide)
      (Nat.le_of_eq (List.length_replicate _ _).symm)
      (Nat.le_of_eq (List.length_replicate _ _).symm)
      (Nat.le_of_eq (List.length_replicate _ _).symm)
      (fun _ h => List.eq_of_mem_replicate h) (Nat.le_of_eq (List.length_replicate _ _).symm)
      (fun _ h => List.eq_of_mem_replicate h) (Nat.le_of_eq (List.length_replicate _ _).symm)
      (fun _ h => List.eq_of_mem_replicate h) (Nat.le_of_eq (List.length_replicate _ _).symm)
      (by decide)
      (sorted_range' _ _) (List.length_range' _ _ _) (range'_lt _ _ _ (by norm_num))
      (sorted_range' _ _) (List.length_range' _ _ _) (range'_lt _ _ _ (by norm_num))
      (sorted_range' _ _) (List.length_range' _ _ _) (range'_lt _ _ _ (by norm_num))⟩

/-! ## C23, C24, C25: `calculatePattern` -/

/-- C23: for thread indices `t, u ≥ 0` in the same block of 128,
`calculatePattern t` and `calculatePattern u` lie in the same chiplet
(`core / CORES_PER_CHIPLET`) if and only if `t mod 16 = u mod 16`. -/
theorem calculatePattern_same_chiplet (t u : Int) (ht : 0 ≤ t) (hu : 0 ≤ u)
    (hb : Int.tdiv t 128 = Int.tdiv u 128) :
    Int.tdiv (calculatePattern t) CORES_PER_CHIPLET = Int.tdiv (calculatePattern u) CORES_PER_CHIPLET
      ↔ Int.tmod t 16 = Int.tmod u 16 := by
  rw [Int.tdiv_eq_ediv ht (by norm_num), Int.tdiv_eq_ediv hu (by norm_num)] at hb
  rw [chiplet_eq t ht, chiplet_eq u hu, Int.tmod_eq_emod ht (by norm_num),
    Int.tmod_eq_emod hu (by norm_num)]
  omega

/-- Witness of C23 at `t = 3`, `u = 19`. -/
theorem calculatePattern_same_chiplet_witness :
    (0 : Int) ≤ 3 ∧ (0 : Int) ≤ 19 ∧ Int.tdiv 3 128 = Int.tdiv 19 128 ∧
    (Int.tdiv (calculatePattern 3) CORES_PER_CHIPLET
        = Int.tdiv (calculatePattern 19) CORES_PER_CHIPLET
      ↔ Int.tmod 3 16 = Int.tmod 19 16) :=
  ⟨by decide, by decide, by decide,
    calculatePattern_same_chiplet 3 19 (by decide) (by decide) (by decide)⟩

/-- C24, as stated, fails: the adjacent threads 0 and 1 of the first group
of 16 are mapped to cores 0 and 8, in chiplets 0 and 1. -/
theorem calculatePattern_adjacent_split :
    Int.tdiv 0 16 = Int.tdiv 1 16 ∧ calculatePattern 0 = 0 ∧ calculatePattern 1 = 8 ∧
    Int.tdiv (calculatePattern 0) CORES_PER_CHIPLET
      ≠ Int.tdiv (calculatePattern 1) CORES_PER_CHIPLET := by
  decide

/-- C24, amended: the 16 adjacent threads of a group are mapped to 16
different chiplets: two thread indices `t, u ≥ 0` of the same group
(`t / 16 = u / 16`) are in the same chiplet only if `t = u`. -/
theorem calculatePattern_group_spread (t u : Int) (ht : 0 ≤ t) (hu : 0 ≤ u)
    (hg : Int.tdiv t 16 = Int.tdiv u 16) :
    Int.tdiv (calculatePattern t) CORES_PER_CHIPLET = Int.tdiv (calculatePattern u) CORES_PER_CHIPLET
      ↔ t = u := by
  rw [Int.tdiv_eq_ediv ht (by norm_num), Int.tdiv_eq_ediv hu (by norm_num)] at hg
  rw [chiplet_eq t ht, chiplet_eq u hu]
  omega

/-- Witness of the amended C24 at `t = 37`, `u = 42`. -/
theorem calculatePattern_group_spread_witness :
    (0 : Int) ≤ 37 ∧ (0 : Int) ≤ 42 ∧ Int.tdiv 37 16 = Int.tdiv 42 16 ∧
    (Int.tdiv (calculatePattern 37) CORES_PER_CHIPLET
        = Int.tdiv (calculatePattern 42) CORES_PER_CHIPLET
      ↔ (37 : Int) = 42) :=
  ⟨by decide, by decide, by decide,
    calculatePattern_group_spread 37 42 (by decide) (by decide) (by decide)⟩

/-- C25: for every `b ≥ 0`, `calculatePattern` maps the block
`[128 b, 128 b + 128)` into itself, injectively and onto; and no two
distinct non-negative thread indices have the same image. -/
theorem calculatePattern_block_perm (b : Int) (hb : 0 ≤ b) :
    (∀ t, 128 * b ≤ t → t < 128 * b + 128 →
      128 * b ≤ calculatePattern t ∧ calculatePattern t < 128 * b + 128) ∧
    (∀ c, 128 * b ≤ c → c < 128 * b + 128 →
      ∃ t, 128 * b ≤ t ∧ t < 128 * b + 128 ∧ calculatePattern t = c) ∧
    (∀ t u, 0 ≤ t → 0 ≤ u → calculatePattern t = calculatePattern u → t = u) := by
  refine ⟨?_, ?_, ?_⟩
  · intro t h1 h2
    rw [calculatePattern_eq t (by omega)]
    omega
  · intro c h1 h2
    obtain ⟨x, y, hx, hy, hc⟩ : ∃ x y : Int, 0 ≤ x ∧ x < 8 ∧ 0 ≤ y ∧ y < 16 ∧
        c = 128 * b + x + 8 * y :=
      ⟨(c - 128 * b) % 8, (c - 128 * b) / 8, by omega, by omega, by omega, by omega, by omega⟩
    refine ⟨128 * b + 16 * x + y, by omega, by omega, ?_⟩
    rw [calculatePattern_eq _ (by omega)]
    have e1 : (128 * b + 16 * x + y) / 128 = b := by omega
    have e2 : (128 * b + 16 * x + y) % 128 = 16 * x + y := by omega
    have e3 : (16 * x + y) / 16 = x := by omega
    have e4 : (16 * x + y) % 16 = y := by omega
    rw [e1, e2, e3, e4]
    omega
  · intro t u ht hu h
    rw [calculatePattern_eq t ht, calculatePattern_eq u hu] at h
    omega

/-- Witness of C25 at the block `b = 1`. -/
theorem calculatePattern_block_perm_witness :
    (0 : Int) ≤ 1 ∧
    (∀ t, 128 * (1 : Int) ≤ t → t < 128 * 1 + 128 →
      128 * 1 ≤ calculatePattern t ∧ calculatePattern t < 128 * 1 + 128) ∧
    (∀ c, 128 * (1 : Int) ≤ c → c < 128 * 1 + 128 →
      ∃ t, 128 * 1 ≤ t ∧ t < 128 * 1 + 128 ∧ calculatePattern t = c) ∧
    (∀ t u, 0 ≤ t → 0 ≤ u → calculatePattern t = calculatePattern u → t = u) :=
  ⟨by decide, calculatePattern_block_perm 1 (by decide)⟩

/-! ## C26: `schedule_threads` -/

/-- C26, as stated, fails: with 4 threads and 2 NUMA nodes requested on a
machine with one node, `schedule_threads` takes its first branch and the
nodes are `[0, 0, 1, 1]` (`t / threads_per_numa`), not `t mod numa`. -/
theorem schedule_threads_not_modulo :
    schedule_threads 1 8 (fun _ => 0) 4 2 = some ([0, 1, 2, 3], [0, 0, 1, 1]) ∧
    (List.range 4).map (fun t => ((t % 2 : Nat) : Int)) = [0, 1, 0, 1] := by
  decide

/-- C26, amended: when `numa > max_numa`, `threads > max_threads` or
`threads / numa > max_threads / max_numa` (and the assertion
`numa > 0 && threads >= numa && threads % numa == 0` holds),
`schedule_threads` returns with `cpu[t] = t` and
`numa_node[t] = t / (threads / numa)` for every `t < threads`: the threads of
a node are consecutive. -/
theorem schedule_threads_block_layout (max_numa max_threads : Nat) (numa_node_of_cpu : Nat → Int)
    (threads numa : Nat) (hm : 0 < max_numa) (hn : 0 < numa) (ht : numa ≤ threads)
    (hd : threads % numa = 0)
    (hx : numa > max_numa ∨ threads > max_threads ∨
      threads / numa > max_threads / max_numa) :
    ∃ cpu numa_node, schedule_threads max_numa max_threads numa_node_of_cpu threads numa
        = some (cpu, numa_node) ∧ cpu.length = threads ∧ numa_node.length = threads ∧
      ∀ t, t < threads → cpu.getD t 0 = (t : Int) ∧
        numa_node.getD t 0 = ((t / (threads / numa) : Nat) : Int) := by
  refine ⟨(List.range threads).map (fun (t : Nat) => (t : Int)),
    (List.range threads).map (fun (t : Nat) => ((t / (threads / numa) : Nat) : Int)), ?_, ?_, ?_, ?_⟩
  · unfold schedule_threads
    rw [if_neg (by omega), if_neg (by simp only [not_not]; exact ⟨hn, ht, hd⟩), if_pos hx]
  · rw [List.length_map, List.length_range]
  · rw [List.length_map, List.length_range]
  · intro t htt
    constructor
    · rw [List.getD_eq_getElem?_getD, List.getElem?_map, List.getElem?_range htt]
      rfl
    · rw [List.getD_eq_getElem?_getD, List.getElem?_map, List.getElem?_range htt]
      rfl

/-- Witness of the amended C26: 8 threads on 2 nodes requested on a machine
with 4 hardware threads. -/
theorem schedule_threads_block_layout_witness :
    0 < 2 ∧ 0 < 2 ∧ 2 ≤ 8 ∧ 8 % 2 = 0 ∧ (2 > 2 ∨ 8 > 4 ∨ 8 / 2 > 4 / 2) ∧
    ∃ cpu numa_node, schedule_threads 2 4 (fun i => ((i % 2 : Nat) : Int)) 8 2
        = some (cpu, numa_node) ∧ cpu.length = 8 ∧ numa_node.length = 8 ∧
      ∀ t, t < 8 → cpu.getD t 0 = (t : Int) ∧
        numa_node.getD t 0 = ((t / (8 / 2) : Nat) : Int) :=
  ⟨by decide, by decide, by decide, by decide, by decide,
    schedule_threads_block_layout 2 4 (fun i => ((i % 2 : Nat) : Int)) 8 2 (by decide) (by decide)
      (by decide) (by decide) (by decide)⟩

/-! ## C30: partitions per NUMA node -/

/-- C30: for `numa > 1` and partition sizes that add up to `total_size`, with
`F n` the first partition of node `n` (`F 0 = 0`, `F numa = partitions_1`,
`F (n + 1)` the cut of node `n`): every cut is at a prefix sum nearest to
`g = (total_size / numa) * (n + 1)`, `F` is non-decreasing,
`part_per_numa[n] = F (n + 1) - F n` without underflow, `size_per_numa[n]` is
the total size of the partitions `F n ≤ p < F (n + 1)`, and the two arrays
add up to `partitions_1` and `total_size`. -/
theorem assign_nodes_spec (part : List Nat) (partitions_1 total_size numa : Nat)
    (hnuma : 1 < numa) (hl : part.length = partitions_1) (hs : part.sum = total_size)
    (ht : total_size < 2 ^ 64) (hp : partitions_1 < 2 ^ 64) :
    (∀ n, n + 1 < numa →
      node_first part partitions_1 total_size numa (n + 1) ≤ partitions_1 ∧
      ∀ j, j ≤ partitions_1 →
        dist_size (prefix_size part (node_first part partitions_1 total_size numa (n + 1)))
            (total_size / numa * (n + 1))
          ≤ dist_size (prefix_size part j) (total_size / numa * (n + 1))) ∧
    (∀ n m, n ≤ m → node_first part partitions_1 total_size numa n
      ≤ node_first part partitions_1 total_size numa m) ∧
    (assign_nodes part partitions_1 total_size numa).1.length = numa ∧
    (assign_nodes part partitions_1 total_size numa).2.length = numa ∧
    (∀ n, n < numa →
      (assign_nodes part partitions_1 total_size numa).1.getD n 0
        = node_first part partitions_1 total_size numa (n + 1)
          - node_first part partitions_1 total_size numa n ∧
      (assign_nodes part partitions_1 total_size numa).2.getD n 0
        = ((part.take (node_first part partitions_1 total_size numa (n + 1))).drop
            (node_first part partitions_1 total_size numa n)).sum) ∧
    (assign_nodes part partitions_1 total_size numa).1.sum = partitions_1 ∧
    (assign_nodes part partitions_1 total_size numa).2.sum = total_size := by
  have hmono := node_first_mono part partitions_1 total_size numa hl hs ht
  have hF0 : node_first part partitions_1 total_size numa 0 = 0 := by simp [node_first]
  have hFn : node_first part partitions_1 total_size numa numa = partitions_1 := by
    unfold node_first
    rw [if_neg (by omega), if_pos (le_refl _)]
  obtain ⟨ppn, spn, e, l1, l2, g1, g2, s1, s2⟩ :=
    assign_loop_spec part partitions_1 total_size numa hl hs ht hp (numa - 1) 0 [] []
      (by omega) rfl rfl (by intro m hm; omega) (by intro m hm; omega)
      (by simp [hF0]) (by simp [hF0, prefix_size_zero])
  rw [hF0, prefix_size_zero] at e
  have hlast := hmono (numa - 1) numa (by omega)
  rw [hFn] at hlast
  have hpl : prefix_size part (node_first part partitions_1 total_size numa (numa - 1))
      ≤ total_size := by
    have hlast' : node_first part partitions_1 total_size numa (numa - 1) ≤ part.length := by
      rw [hl]; exact hlast
    have := prefix_size_mono part (node_first part partitions_1 total_size numa (numa - 1))
      part.length hlast'
    rw [prefix_size_total, hs] at this
    exact this
  have hA : assign_nodes part partitions_1 total_size numa
      = (ppn ++ [partitions_1 - node_first part partitions_1 total_size numa (numa - 1)],
         spn ++ [total_size
           - prefix_size part (node_first part partitions_1 total_size numa (numa - 1))]) := by
    simp only [assign_nodes, e]
    rw [show (partitions_1 + 2 ^ 64 - node_first part partitions_1 total_size numa (numa - 1))
          % 2 ^ 64 = partitions_1 - node_first part partitions_1 total_size numa (numa - 1)
        by omega,
      show (total_size + 2 ^ 64
          - prefix_size part (node_first part partitions_1 total_size numa (numa - 1))) % 2 ^ 64
        = total_size - prefix_size part (node_first part partitions_1 total_size numa (numa - 1))
        by omega]
  rw [hA]
  simp only
  refine ⟨?_, hmono, by simp [l1]; omega, by simp [l2]; omega, ?_, ?_, ?_⟩
  · intro n hn
    rw [node_first_succ part partitions_1 total_size numa n hn]
    obtain ⟨c, p, e, hc, _⟩ :=
      node_cut_spec part partitions_1 total_size numa n hl hs ht (by omega)
    refine ⟨by rw [e]; exact hc, ?_⟩
    exact node_cut_nearest part partitions_1 total_size numa n hl hs ht (by omega)
  · intro n hn
    rw [getD_append_one, getD_append_one, l1, l2,
      sum_take_drop part _ _ (hmono n (n + 1) (by omega))]
    by_cases hlt : n < numa - 1
    · rw [if_pos hlt, if_pos hlt]
      exact ⟨g1 n hlt, g2 n hlt⟩
    · have hn1 : n = numa - 1 := by omega
      rw [if_neg hlt, if_neg hlt, if_pos hn1, if_pos hn1, hn1,
        show numa - 1 + 1 = numa by omega, hFn]
      refine ⟨rfl, ?_⟩
      rw [← hl, prefix_size_total, hs]
  · rw [List.sum_append, s1]; simp; omega
  · rw [List.sum_append, s2]; simp; omega

/-- Witness of C30: four partitions of sizes 10, 20, 30, 40 on two nodes;
the cut for `g = 50` is after the third partition (60 is nearer than 30). -/
theorem assign_nodes_spec_witness :
    1 < 2 ∧ [10, 20, 30, 40].length = 4 ∧ [10, 20, 30, 40].sum = 100 ∧ 100 < 2 ^ 64 ∧
    4 < 2 ^ 64 ∧
    (∀ n, n + 1 < 2 →
      node_first [10, 20, 30, 40] 4 100 2 (n + 1) ≤ 4 ∧
      ∀ j, j ≤ 4 →
        dist_size (prefix_size [10, 20, 30, 40] (node_first [10, 20, 30, 40] 4 100 2 (n + 1)))
            (100 / 2 * (n + 1))
          ≤ dist_size (prefix_size [10, 20, 30, 40] j) (100 / 2 * (n + 1))) ∧
    (∀ n m, n ≤ m → node_first [10, 20, 30, 40] 4 100 2 n
      ≤ node_first [10, 20, 30, 40] 4 100 2 m) ∧
    (assign_nodes [10, 20, 30, 40] 4 100 2).1.length = 2 ∧
    (assign_nodes [10, 20, 30, 40] 4 100 2).2.length = 2 ∧
    (∀ n, n < 2 →
      (assign_nodes [10, 20, 30, 40] 4 100 2).1.getD n 0
        = node_first [10, 20, 30, 40] 4 100 2 (n + 1)
          - node_first [10, 20, 30, 40] 4 100 2 n ∧
      (assign_nodes [10, 20, 30, 40] 4 100 2).2.getD n 0
        = (([10, 20, 30, 40].take (node_first [10, 20, 30, 40] 4 100 2 (n + 1))).drop
            (node_first [10, 20, 30, 40] 4 100 2 n)).sum) ∧
    (assign_nodes [10, 20, 30, 40] 4 100 2).1.sum = 4 ∧
    (assign_nodes [10, 20, 30, 40] 4 100 2).2.sum = 100 :=
  ⟨by decide, by decide, by decide, by decide, by decide,
    assign_nodes_spec [10, 20, 30, 40] 4 100 2 (by decide) (by decide) (by decide) (by decide)
      (by decide)⟩

/-! ## C29: the transfer list of the NUMA shuffle -/

/-- C29, as stated, fails: not every count table gets a transfer list.  For
two nodes of one thread with 100 keys each, two partitions,
`count[0][0] = [100, 0]`, `count[1][0] = [60, 40]` and `fudge = 1.1` (the
value of `main`), node 0 is assigned partition 0 with 160 keys, and
`assert(size_per_numa[0] <= d->size[0] * d->fudge)` fails, as
`160 > 110.00000000000001`. -/
theorem build_transfers_over_capacity :
    part_totals (fun n _ p => ([[100, 0], [60, 40]].getD n []).getD p 0) 2 1 2 = [160, 40] ∧
    assign_nodes [160, 40] 2 200 2 = ([1, 1], [160, 40]) ∧
    fits_fudge 160 100 (4953959590107546, 52) = false ∧
    build_transfers (fun n _ p => ([[100, 0], [60, 40]].getD n []).getD p 0) 1 2 0
      [1, 1] [160, 40] [100, 100] (4953959590107546, 52) = none := by
  decide

/-- C29, amended: for `numa > 1`, every table `count[n][t][p]` whose entries
add up to `total_size < 2^64`, every node `numa_node < numa`, every `d->size`
and `d->fudge`, with the partitions assigned as in C30 (`F` the first
partition of a node): when one of the checks
`size_per_numa[n] <= d->size[n] * d->fudge` fails, the thread stops at the
assertion and no transfer list is built; when they all hold, the transfer
list has `part_per_numa[numa_node] * numa` descriptors, the descriptor
`q * numa + n` comes from node `n` and has the size counted by the threads of
node `n` for partition `F numa_node + q`, the sizes of the `numa`
descriptors of a partition add up to its `part_total_size`, the destination
regions start at offset 0, each where the one before ends (so they are
pairwise disjoint), and their total length is `size_per_numa[numa_node]`. -/
theorem build_transfers_spec (count : Nat → Nat → Nat → Nat)
    (tpn numa numa_node partitions_1 total_size : Nat) (size : List Nat) (fudge : Nat × Nat)
    (hnuma : 1 < numa) (hnode : numa_node < numa) (hP : partitions_1 < 2 ^ 64)
    (ht : total_size < 2 ^ 64)
    (hsum : range_sum (fun p => range_sum (fun n => range_sum (fun t => count n t p) tpn) numa)
      partitions_1 = total_size) :
    (sizes_fit
        (assign_nodes (part_totals count numa tpn partitions_1) partitions_1 total_size numa).2
        size fudge numa = false →
      build_transfers count tpn numa numa_node
        (assign_nodes (part_totals count numa tpn partitions_1) partitions_1 total_size numa).1
        (assign_nodes (part_totals count numa tpn partitions_1) partitions_1 total_size numa).2
        size fudge = none) ∧
    (sizes_fit
        (assign_nodes (part_totals count numa tpn partitions_1) partitions_1 total_size numa).2
        size fudge numa = true →
    ∃ trs lo,
      build_transfers count tpn numa numa_node
        (assign_nodes (part_totals count numa tpn partitions_1) partitions_1 total_size numa).1
        (assign_nodes (part_totals count numa tpn partitions_1) partitions_1 total_size numa).2
        size fudge = some (trs, lo) ∧
      trs.length
        = (assign_nodes (part_totals count numa tpn partitions_1) partitions_1 total_size
            numa).1.getD numa_node 0 * numa ∧
      (∀ q n, q < (assign_nodes (part_totals count numa tpn partitions_1) partitions_1 total_size
            numa).1.getD numa_node 0 → n < numa →
        (trs.map (fun t => (t.src_node, t.size)))[q * numa + n]?
          = some (n, range_sum (fun t => count n t
              (node_first (part_totals count numa tpn partitions_1) partitions_1 total_size numa
                numa_node + q)) tpn)) ∧
      (∀ q, q < (assign_nodes (part_totals count numa tpn partitions_1) partitions_1 total_size
            numa).1.getD numa_node 0 →
        range_sum (fun n => (trs.map (fun t => t.size)).getD (q * numa + n) 0) numa
          = (part_totals count numa tpn partitions_1).getD
              (node_first (part_totals count numa tpn partitions_1) partitions_1 total_size numa
                numa_node + q) 0) ∧
      (∀ k, k < trs.length →
        (trs.map (fun t => t.dst)).getD k 0 = ((trs.map (fun t => t.size)).take k).sum) ∧
      (∀ k k', k < k' → k' < trs.length →
        (trs.map (fun t => t.dst)).getD k 0 + (trs.map (fun t => t.size)).getD k 0
          ≤ (trs.map (fun t => t.dst)).getD k' 0) ∧
      lo = (trs.map (fun t => t.size)).sum ∧
      lo = (assign_nodes (part_totals count numa tpn partitions_1) partitions_1 total_size
            numa).2.getD numa_node 0) := by
  refine ⟨fun hno => ?_, fun hfit => ?_⟩
  · unfold build_transfers
    rw [hno]
    rfl
  have hpart := part_totals_eq count numa tpn partitions_1 total_size ht hsum
  generalize hPT : (fun p => range_sum (fun n => range_sum (fun t => count n t p) tpn) numa) = PT
    at hpart hsum
  generalize part_totals count numa tpn partitions_1 = part at hpart hfit ⊢
  have hl : part.length = partitions_1 := by rw [hpart]; simp
  have hs : part.sum = total_size := by
    rw [← hsum, hpart]; rfl
  obtain ⟨_, hmono, l1, l2, hg, _, _⟩ :=
    assign_nodes_spec part partitions_1 total_size numa hnuma hl hs ht hP
  generalize assign_nodes part partitions_1 total_size numa = A at l1 l2 hg hfit ⊢
  generalize hF : node_first part partitions_1 total_size numa = F at hmono hg ⊢
  have hF0 : F 0 = 0 := by rw [← hF]; simp [node_first]
  have hFle : ∀ n, F n ≤ partitions_1 := by
    intro n; rw [← hF]; exact node_first_le part partitions_1 total_size numa n hl hs ht
  have htel := prefix_telescope A.1 F numa l1 hF0 (fun i => hmono i (i + 1) (by omega))
    (fun i hi => (hg i hi).1) numa_node (by omega)
  have hprev : sum64 (A.1.take numa_node) = F numa_node := by
    have : (A.1.take numa_node).sum = F numa_node := htel
    rw [sum64_eq _ (by rw [this]; have := hFle numa_node; omega), this]
  have hnp := (hg numa_node hnode).1
  have hstep := hmono numa_node (numa_node + 1) (by omega)
  have hspn := (hg numa_node hnode).2
  rw [sum_take_drop part _ _ hstep, hpart,
    prefix_size_map_range PT partitions_1 _ (hFle _),
    prefix_size_map_range PT partitions_1 _ (hFle _)] at hspn
  have hadd := range_sum_add PT (F numa_node) (A.1.getD numa_node 0)
  rw [hnp, show F numa_node + (F (numa_node + 1) - F numa_node) = F (numa_node + 1) by omega]
    at hadd
  have hle := range_sum_mono PT (F (numa_node + 1)) partitions_1 (hFle _)
  have hcomm : (fun q => range_sum (fun n => range_sum (fun t => count n t
        (0 + q + F numa_node)) tpn) numa) = (fun q => PT (F numa_node + q)) := by
    funext q
    rw [← hPT, show 0 + q + F numa_node = F numa_node + q by omega]
  obtain ⟨ro', new, e1, e2, e3⟩ := transfer_parts_spec count tpn numa (F numa_node)
    (A.1.getD numa_node 0) 0
    ((List.range numa).map (remote_offset_init count tpn (F numa_node))) 0 []
    ⟨rfl, fun k hk => by simp at hk⟩
    (by have := hFle (numa_node + 1); omega)
    (by rw [hcomm, hnp]; omega)
  rw [hcomm] at e1 e2
  simp only [List.nil_append, Nat.zero_add] at e1 e2 e3
  have hblk := blocks_spec (fun q n => (n, range_sum (fun t => count n t (q + F numa_node)) tpn))
    numa (A.1.getD numa_node 0)
  rw [← e3] at hblk
  have hlen : new.length = A.1.getD numa_node 0 * numa := by
    have := hblk.1
    rwa [List.length_map] at this
  have hsz : ∀ q n, q < A.1.getD numa_node 0 → n < numa →
      (new.map (fun t => t.size)).getD (q * numa + n) 0
        = range_sum (fun t => count n t (F numa_node + q)) tpn := by
    intro q n hq hn
    have := hblk.2 q n hq hn
    rw [List.getElem?_map] at this
    rw [List.getD_eq_getElem?_getD, List.getElem?_map]
    cases hnew : new[q * numa + n]? with
    | none => rw [hnew] at this; simp at this
    | some tr =>
      rw [hnew] at this
      simp only [Option.map_some', Option.some.injEq, Prod.mk.injEq] at this
      simp only [Option.map_some', Option.getD_some]
      rw [this.2, Nat.add_comm]
  refine ⟨new, _, ?_, hlen, ?_, ?_, e2.2, ?_, e2.1, ?_⟩
  · have hlo : range_sum (fun q => PT (F numa_node + q)) (A.1.getD numa_node 0)
        = A.2.getD numa_node 0 := by
      rw [hspn, hnp]; omega
    have hfl : fits_fudge (range_sum (fun q => PT (F numa_node + q)) (A.1.getD numa_node 0))
        (size.getD numa_node 0) fudge = true := by
      rw [hlo]
      exact List.all_eq_true.mp hfit numa_node (List.mem_range.mpr hnode)
    unfold build_transfers
    rw [if_pos hfit]
    simp only [hprev, e1]
    rw [if_pos hfl, if_pos (by rw [hlen])]
  · intro q n hq hn
    have := hblk.2 q n hq hn
    rw [this, Nat.add_comm]
  · intro q hq
    rw [hpart, getD_map_range PT partitions_1 _ (by have := hFle (numa_node + 1); omega), ← hPT]
    exact range_sum_congr _ _ _ (fun n hn => hsz q n hq hn)
  · intro k k' hkk hk'
    have a := e2.2 k (by omega)
    have b := e2.2 k' hk'
    rw [a, b]
    have hk1 : k < (new.map (fun t => t.size)).length := by rw [List.length_map]; omega
    have m := prefix_size_mono (new.map (fun t => t.size)) (k + 1) k' (by omega)
    rw [prefix_size_succ _ k hk1] at m
    exact m
  · rw [hspn, hnp]; omega

/-- Witness of the amended C29: two nodes of two threads, four partitions,
`count[n][t][p] = n + t + p + 1`, so that `d->size = [24, 32]`, with
`fudge = 1.5`: the sizes `[20, 36]` fit and the transfer list of node 1 is
built. -/
theorem build_transfers_spec_witness :
    1 < 2 ∧ 1 < 2 ∧ 4 < 2 ^ 64 ∧ 56 < 2 ^ 64 ∧
    range_sum (fun p => range_sum (fun n => range_sum (fun t => (fun n t p => n + t + p + 1) n t p) 2) 2) 4 = 56 ∧
    sizes_fit (assign_nodes (part_totals (fun n t p => n + t + p + 1) 2 2 4) 4 56 2).2
      [24, 32] (3, 1) 2 = true ∧
    ∃ trs lo,
      build_transfers (fun n t p => n + t + p + 1) 2 2 1
        (assign_nodes (part_totals (fun n t p => n + t + p + 1) 2 2 4) 4 56 2).1
        (assign_nodes (part_totals (fun n t p => n + t + p + 1) 2 2 4) 4 56 2).2
        [24, 32] (3, 1) = some (trs, lo) ∧
      trs.length
        = (assign_nodes (part_totals (fun n t p => n + t + p + 1) 2 2 4) 4 56
            2).1.getD 1 0 * 2 ∧
      (∀ q n, q < (assign_nodes (part_totals (fun n t p => n + t + p + 1) 2 2 4) 4 56
            2).1.getD 1 0 → n < 2 →
        (trs.map (fun t => (t.src_node, t.size)))[q * 2 + n]?
          = some (n, range_sum (fun t => (fun n t p => n + t + p + 1) n t
              (node_first (part_totals (fun n t p => n + t + p + 1) 2 2 4) 4 56 2
                1 + q)) 2)) ∧
      (∀ q, q < (assign_nodes (part_totals (fun n t p => n + t + p + 1) 2 2 4) 4 56
            2).1.getD 1 0 →
        range_sum (fun n => (trs.map (fun t => t.size)).getD (q * 2 + n) 0) 2
          = (part_totals (fun n t p => n + t + p + 1) 2 2 4).getD
              (node_first (part_totals (fun n t p => n + t + p + 1) 2 2 4) 4 56 2
                1 + q) 0) ∧
      (∀ k, k < trs.length →
        (trs.map (fun t => t.dst)).getD k 0 = ((trs.map (fun t => t.size)).take k).sum) ∧
      (∀ k k', k < k' → k' < trs.length →
        (trs.map (fun t => t.dst)).getD k 0 + (trs.map (fun t => t.size)).getD k 0
          ≤ (trs.map (fun t => t.dst)).getD k' 0) ∧
      lo = (trs.map (fun t => t.size)).sum ∧
      lo = (assign_nodes (part_totals (fun n t p => n + t + p + 1) 2 2 4) 4 56
            2).2.getD 1 0 :=
  ⟨by decide, by decide, by decide, by decide, by decide, by decide,
    (build_transfers_spec (fun n t p => n + t + p + 1) 2 2 1 4 56 [24, 32] (3, 1) (by decide)
      (by decide) (by decide) (by decide) (by decide)).2 (by decide)⟩

/-- C27: `insertsort` is a stable sort for every `size`: it leaves the arrays
unchanged for `size ≤ 1`, puts `keys[0 .. size)` in non-decreasing order,
permutes the pairs, and keeps pairs with equal keys in their input order;
for `size ≤ 9` `simd_combsort` returns, whatever the fuel and the alignment,
the arrays sorted by `insertsort` and their first `size` entries in
`keys_out`, `rids_out`, which are therefore the stable sort of the input. -/
theorem simd_combsort_small_stable (keys rids : List Nat) (size : Nat)
    (hlen : size ≤ keys.length) (hrl : rids.length = keys.length) :
    (size ≤ 1 → insertsort keys rids size = (keys, rids)) ∧
    (insertsort keys rids size).1.length = keys.length ∧
    (insertsort keys rids size).2.length = keys.length ∧
    (∀ x, x + 1 < size → (insertsort keys rids size).1.getD x 0
      ≤ (insertsort keys rids size).1.getD (x + 1) 0) ∧
    List.Perm (pairs (insertsort keys rids size).1 (insertsort keys rids size).2 size)
      (pairs keys rids size) ∧
    stable_image keys rids (insertsort keys rids size).1 (insertsort keys rids size).2 size ∧
    (size ≤ 9 → ∀ fuel kpos, ∃ keys_out rids_out,
      simd_combsort fuel kpos keys rids size
        = some ((insertsort keys rids size).1, (insertsort keys rids size).2, keys_out, rids_out) ∧
      keys_out.length = size ∧ rids_out.length = size ∧
      (∀ x, x + 1 < size → keys_out.getD x 0 ≤ keys_out.getD (x + 1) 0) ∧
      List.Perm (keys_out.zip rids_out) (pairs keys rids size) ∧
      stable_image keys rids keys_out rids_out size) := by
  obtain ⟨a, b, c, d⟩ := insertsort_spec keys rids size hlen hrl
  have hst := insertsort_stable_image keys rids size hlen hrl
  refine ⟨fun h => by simp only [insertsort, if_pos h], a, b, c, d, hst, ?_⟩
  intro h9 fuel kpos
  have ek : ∀ x, x < size → ((insertsort keys rids size).1.take size).getD x 0
      = (insertsort keys rids size).1.getD x 0 :=
    fun x hx => take_getD _ size x hx (by rw [a]; exact hlen)
  have er : ∀ x, x < size → ((insertsort keys rids size).2.take size).getD x 0
      = (insertsort keys rids size).2.getD x 0 :=
    fun x hx => take_getD _ size x hx (by rw [b]; exact hlen)
  refine ⟨(insertsort keys rids size).1.take size, (insertsort keys rids size).2.take size, ?_, ?_,
    ?_, ?_, ?_, ?_⟩
  · simp only [simd_combsort, if_pos h9]
  · rw [List.length_take, a]; omega
  · rw [List.length_take, b]; omega
  · intro x hx
    rw [ek x (by omega), ek (x + 1) hx]
    exact c x hx
  · rw [zip_take_eq_pairs _ _ size (by rw [a]; exact hlen) (by rw [a, b])]
    exact d
  · obtain ⟨σ, s1, s2, s3, s4⟩ := hst
    refine ⟨σ, s1, s2, ?_, ?_⟩
    · intro x hx
      rw [ek x hx, er x hx]
      exact s3 x hx
    · intro x y hxy hy heq
      rw [ek x (by omega), ek y hy] at heq
      exact s4 x y hxy hy heq

theorem simd_combsort_small_stable_witness :
    (4 ≤ [3, 1, 2, 1].length ∧ [10, 11, 12, 13].length = [3, 1, 2, 1].length) ∧
    simd_combsort 0 0 [3, 1, 2, 1] [10, 11, 12, 13] 4
      = some ([1, 1, 2, 3], [11, 13, 12, 10], [1, 1, 2, 3], [11, 13, 12, 10]) ∧
    stable_image [3, 1, 2, 1] [10, 11, 12, 13] (insertsort [3, 1, 2, 1] [10, 11, 12, 13] 4).1
      (insertsort [3, 1, 2, 1] [10, 11, 12, 13] 4).2 4 :=
  ⟨⟨by decide, by decide⟩, by decide,
    (simd_combsort_small_stable [3, 1, 2, 1] [10, 11, 12, 13] 4 (by decide) (by decide)).2.2.2.2.2.1⟩

/-- C28: for 64-bit arrays and `size <= 0x7FFFFFF0`, when `keys[0 .. size)`
is non-decreasing (whatever the payloads), `simd_combsort` returns, leaves
`keys` and `rids` as they are and writes `keys_out[i] = keys[i]`,
`rids_out[i] = rids[i]` for all `i < size`; and for every input, sorted or
not, `simd_combsort` applied to its own output (at any alignment) returns
that output again. -/
theorem simd_combsort_idempotent (kpos : Nat) (keys rids : List Nat) (size : Nat)
    (hsize : size ≤ 0x7FFFFFF0) (hlen : size ≤ keys.length) (hrl : rids.length = keys.length)
    (hk : ∀ k ∈ keys, k < 2 ^ 64) (hr : ∀ r ∈ rids, r < 2 ^ 64) :
    ((∀ i, i + 1 < size → keys.getD i 0 ≤ keys.getD (i + 1) 0) →
      ∃ fuel0, ∀ fuel, fuel0 ≤ fuel →
        ∃ res, simd_combsort fuel kpos keys rids size = some res ∧
          res.1 = keys ∧ res.2.1 = rids ∧
          res.2.2.1.length = size ∧ res.2.2.2.length = size ∧
          ∀ i, i < size → res.2.2.1.getD i 0 = keys.getD i 0 ∧
            res.2.2.2.getD i 0 = rids.getD i 0) ∧
    (∃ fuel0, ∀ fuel, fuel0 ≤ fuel →
      ∃ res, simd_combsort fuel kpos keys rids size = some res ∧
        ∀ kpos2, ∃ fuel1, ∀ fuel2, fuel1 ≤ fuel2 →
          ∃ res2, simd_combsort fuel2 kpos2 res.2.2.1 res.2.2.2 size = some res2 ∧
            res2.2.2.1 = res.2.2.1 ∧ res2.2.2.2 = res.2.2.2) := by
  have hk' := getD_lt_of_forall keys hk
  have hr' := getD_lt_of_forall rids hr
  constructor
  · intro hs
    refine ⟨size, fun fuel hf => ?_⟩
    refine ⟨_, simd_combsort_sorted_id kpos keys rids size hsize hlen hrl hk' hr' hs fuel hf,
      rfl, rfl, ?_, ?_, ?_⟩
    · dsimp only
      rw [List.length_take]; omega
    · dsimp only
      rw [List.length_take]; omega
    · intro i hi
      dsimp only
      exact ⟨take_getD keys size i hi hlen, take_getD rids size i hi (by omega)⟩
  · obtain ⟨fuel0, h⟩ := simd_combsort_spec kpos keys rids size hsize hlen hrl hk' hr'
    refine ⟨fuel0, fun fuel hf => ?_⟩
    obtain ⟨keys', rids', keys_out, rids_out, h1, h2, h3, h4, h5⟩ := h fuel hf
    refine ⟨_, h1, fun kpos2 => ⟨size, fun fuel2 hf2 => ?_⟩⟩
    dsimp only
    obtain ⟨b1, b2⟩ := perm_pairs_bounds keys rids keys_out rids_out size hk' hr' h2 h3 h5
    have := simd_combsort_sorted_id kpos2 keys_out rids_out size hsize (by omega) (by omega)
      (getD_lt_of_forall keys_out b1) (getD_lt_of_forall rids_out b2) h4 fuel2 hf2
    rw [List.take_of_length_le (by omega), List.take_of_length_le (by omega)] at this
    exact ⟨_, this, rfl, rfl⟩

/-- C28 for twelve pairs at an odd position (`beg = 1`), with runs of equal
keys carrying distinct payloads. -/
theorem simd_combsort_idempotent_witness :
    12 ≤ 0x7FFFFFF0 ∧ 12 ≤ [1, 1, 1, 2, 2, 3, 5, 5, 5, 5, 8, 9].length ∧
    [20, 19, 18, 17, 16, 15, 14, 13, 12, 11, 10, 9].length
      = [1, 1, 1, 2, 2, 3, 5, 5, 5, 5, 8, 9].length ∧
    (∀ k ∈ [1, 1, 1, 2, 2, 3, 5, 5, 5, 5, 8, 9], k < 2 ^ 64) ∧
    (∀ r ∈ [20, 19, 18, 17, 16, 15, 14, 13, 12, 11, 10, 9], r < 2 ^ 64) ∧
    (∀ i, i + 1 < 12 → ([1, 1, 1, 2, 2, 3, 5, 5, 5, 5, 8, 9] : List Nat).getD i 0
      ≤ ([1, 1, 1, 2, 2, 3, 5, 5, 5, 5, 8, 9] : List Nat).getD (i + 1) 0) ∧
    ∃ fuel0, ∀ fuel, fuel0 ≤ fuel →
      ∃ res, simd_combsort fuel 1 [1, 1, 1, 2, 2, 3, 5, 5, 5, 5, 8, 9]
          [20, 19, 18, 17, 16, 15, 14, 13, 12, 11, 10, 9] 12 = some res ∧
        res.1 = [1, 1, 1, 2, 2, 3, 5, 5, 5, 5, 8, 9] ∧
        res.2.1 = [20, 19, 18, 17, 16, 15, 14, 13, 12, 11, 10, 9] ∧
        res.2.2.1.length = 12 ∧ res.2.2.2.length = 12 ∧
        ∀ i, i < 12 → res.2.2.1.getD i 0
            = ([1, 1, 1, 2, 2, 3, 5, 5, 5, 5, 8, 9] : List Nat).getD i 0 ∧
          res.2.2.2.getD i 0
            = ([20, 19, 18, 17, 16, 15, 14, 13, 12, 11, 10, 9] : List Nat).getD i 0 :=
  ⟨by decide, by decide, by decide, by decide, by decide,
    (by intro i hi; have hi2 : i < 11 := (by omega); interval_cases i <;> decide),
    (simd_combsort_idempotent 1 [1, 1, 1, 2, 2, 3, 5, 5, 5, 5, 8, 9]
      [20, 19, 18, 17, 16, 15, 14, 13, 12, 11, 10, 9] 12 (by decide) (by decide) (by decide)
      (by decide) (by decide)).1 (by intro i hi; have hi2 : i < 11 := (by omega); interval_cases i <;> decide)⟩

/-- C22, as stated, fails for the empty sample: with `sample_size = 0` the
index of the first delimiter is `(uint64_t) (0.0 * 1 - 0.001) = 0` and
`delimiter[0] = sample[0]` reads outside the sample. -/
theorem extract_delimiters_empty_sample :
    extract_delimiters [] 0 [0, 2 ^ 64 - 1] = none := by
  decide

/-- C22, amended: for every non-decreasing sample of `sample_size >= 1` keys
and every delimiter array with `parts <= 7` entries before the end marker
`~0`, `extract_delimiters` returns; every index it reads is inside the
sample; the delimiters are non-decreasing, `delimiter[i] <= delimiter[i+1]`
for `i + 1 < parts`; each delimiter is the sample key at its index or that
key less one, the latter only for a non-zero key (no decrement wraps below
0); the end marker and the entries after it are unchanged. -/
theorem extract_delimiters_monotone (sample : List Nat) (S : Nat) (delimiter : List Nat)
    (parts : Nat) (hS1 : 1 ≤ S) (hS : S < 2 ^ 64) (hlen : S ≤ sample.length)
    (hs : ∀ i, i + 1 < S → sample.getD i 0 ≤ sample.getD (i + 1) 0)
    (hp7 : parts ≤ 7) (hpl : parts < delimiter.length)
    (hterm : delimiter.getD parts 0 = 2 ^ 64 - 1)
    (hnot : ∀ j, j < parts → delimiter.getD j 0 ≠ 2 ^ 64 - 1) :
    ∃ out, extract_delimiters sample S delimiter = some out ∧
      out.length = delimiter.length ∧
      (∀ i, i + 1 < parts → out.getD i 0 ≤ out.getD (i + 1) 0) ∧
      (∀ i, i < parts → extract_index S parts i < S ∧
        (out.getD i 0 = sample.getD (extract_index S parts i) 0 ∨
          (0 < sample.getD (extract_index S parts i) 0 ∧
            out.getD i 0 = sample.getD (extract_index S parts i) 0 - 1))) ∧
      (∀ j, parts ≤ j → out.getD j 0 = delimiter.getD j 0) := by
  obtain ⟨out, o1, o2, o3⟩ := extract_delimiters_eq sample S delimiter parts hS1 hS hlen hp7 hpl
    hterm hnot
  refine ⟨out, o1, o2, ?_, ?_, ?_⟩
  · intro i hi
    rw [o3, o3, if_pos (by omega), if_pos hi]
    exact extract_value_mono sample S _ _ (extract_index_mono S parts i hS1 hS hp7 hi)
      (extract_index_lt S parts (i + 1) hS1 hS hp7 hi) hs
  · intro i hi
    rw [o3, if_pos hi]
    exact ⟨extract_index_lt S parts i hS1 hS hp7 hi, extract_value_bounds sample S _⟩
  · intro j hj
    rw [o3, if_neg (by omega)]

/-- The amended C22 for a sample of eight keys with a run of four 2s and
three delimiters. -/
theorem extract_delimiters_monotone_witness :
    1 ≤ 8 ∧ 8 < 2 ^ 64 ∧ 8 ≤ [1, 2, 2, 2, 2, 3, 5, 5].length ∧
    (∀ i, i + 1 < 8 → ([1, 2, 2, 2, 2, 3, 5, 5] : List Nat).getD i 0
      ≤ ([1, 2, 2, 2, 2, 3, 5, 5] : List Nat).getD (i + 1) 0) ∧
    3 ≤ 7 ∧ 3 < [0, 0, 0, 2 ^ 64 - 1].length ∧
    ([0, 0, 0, 2 ^ 64 - 1] : List Nat).getD 3 0 = 2 ^ 64 - 1 ∧
    (∀ j, j < 3 → ([0, 0, 0, 2 ^ 64 - 1] : List Nat).getD j 0 ≠ 2 ^ 64 - 1) ∧
    extract_delimiters [1, 2, 2, 2, 2, 3, 5, 5] 8 [0, 0, 0, 2 ^ 64 - 1]
      = some [1, 2, 3, 2 ^ 64 - 1] ∧
    ∃ out, extract_delimiters [1, 2, 2, 2, 2, 3, 5, 5] 8 [0, 0, 0, 2 ^ 64 - 1] = some out ∧
      out.length = [0, 0, 0, 2 ^ 64 - 1].length ∧
      (∀ i, i + 1 < 3 → out.getD i 0 ≤ out.getD (i + 1) 0) ∧
      (∀ i, i < 3 → extract_index 8 3 i < 8 ∧
        (out.getD i 0 = ([1, 2, 2, 2, 2, 3, 5, 5] : List Nat).getD (extract_index 8 3 i) 0 ∨
          (0 < ([1, 2, 2, 2, 2, 3, 5, 5] : List Nat).getD (extract_index 8 3 i) 0 ∧
            out.getD i 0
              = ([1, 2, 2, 2, 2, 3, 5, 5] : List Nat).getD (extract_index 8 3 i) 0 - 1))) ∧
      (∀ j, 3 ≤ j → out.getD j 0 = ([0, 0, 0, 2 ^ 64 - 1] : List Nat).getD j 0) :=
  ⟨by decide, by decide, by decide,
    (by intro i hi; have hi2 : i < 7 := (by omega); interval_cases i <;> decide),
    by decide, by decide, by decide, by decide, by decide,
    extract_delimiters_monotone [1, 2, 2, 2, 2, 3, 5, 5] 8 [0, 0, 0, 2 ^ 64 - 1] 3
      (by decide) (by decide) (by decide)
      (by intro i hi; have hi2 : i < 7 := (by omega); interval_cases i <;> decide)
      (by decide) (by decide) (by decide) (by decide)⟩

/-- C21: when every key of the input and of the sample is the same 64-bit
value `v`, all tuples go to one first-pass partition.  In
`cmp_64_chiplet.c`, for a sample of `Sc` keys and `P <= Sc` partitions the
delimiters of `sort_thread` are all `v`, and `histogram_360`,
`histogram_1000`, `histogram_1800` (keys pointer 16-byte aligned after the
scalar head, index array of at least `P` entries) return with the tag 0 in
`ranges[i]` for every `i < size`.  In
`lsb_64_baseline.c` with `numa = 2`, for a sample of `1 <= Sl <= 100000`
keys `extract_delimiters` turns the delimiter array `[0, ~0]` into
`[v - 1, ~0]` (`[0, ~0]` for `v = 0`), and `histogram_numa_2` with this
delimiter returns and adds all `size` keys to the one counter
`numa_2_index v`, whose NUMA tag is 1 for `v > 0` and 0 for `v = 0`; every
other counter is unchanged. -/
theorem equal_keys_one_partition (v : Nat) (keys : List Nat) (size : Nat)
    (hv : v < 2 ^ 64) (hkv : ∀ k ∈ keys, k = v) (hsize : size ≤ keys.length)
    (Sc kpos rpos : Nat) (count ranges i360 i1000 i1800 : List Nat) (hSc : Sc < 2 ^ 64)
    (hr : size ≤ ranges.length)
    (hi360 : 360 ≤ i360.length) (hi1000 : 1000 ≤ i1000.length) (hi1800 : 1800 ≤ i1800.length)
    (hal : (kpos + min size ((4 - rpos % 4) % 4)) % 2 = 0)
    (Sl lpos radix_bits : Nat) (lcount stack : List Nat) (hSl1 : 1 ≤ Sl) (hSl : Sl ≤ 100000)
    (hrb : radix_bits ≤ 16) (hcl : 2 ^ (radix_bits + 1) ≤ lcount.length)
    (hlc : ∀ c ∈ lcount, c < 2 ^ 64) (hst : stack.length = 4) (hsv : ∀ x ∈ stack, x < 2 ^ 64) :
    (∀ P, 1 ≤ P → P ≤ Sc →
      first_pass_delimiters (List.replicate Sc v) Sc P = some (List.replicate (P - 1) v)) ∧
    (∃ res, histogram_360 kpos rpos keys size (List.replicate 359 v) count ranges i360 = some res ∧
      ∀ i, i < size → res.2.1.getD i 0 = 0) ∧
    (∃ res, histogram_1000 kpos rpos keys size (List.replicate 999 v) count ranges i1000
        = some res ∧
      ∀ i, i < size → res.2.1.getD i 0 = 0) ∧
    (∃ res, histogram_1800 kpos rpos keys size (List.replicate 1799 v) count ranges i1800
        = some res ∧
      ∀ i, i < size → res.2.1.getD i 0 = 0) ∧
    extract_delimiters (List.replicate Sl v) Sl [0, 2 ^ 64 - 1] = some [v - 1, 2 ^ 64 - 1] ∧
    (∃ count', histogram_numa_2 lpos keys size lcount radix_bits [v - 1, 2 ^ 64 - 1] stack
        = some count' ∧
      count'.length = lcount.length ∧
      ∀ p, p < lcount.length →
        count'.getD p 0
          = (lcount.getD p 0 + if p = numa_2_index v radix_bits (v - 1) then size else 0)
              % 2 ^ 64) ∧
    numa_2_index v radix_bits (v - 1) < lcount.length ∧
    numa_2_index v radix_bits (v - 1) >>> radix_bits = (if v = 0 then 0 else 1) := by
  have hk : ∀ k ∈ keys, k < 2 ^ 64 := fun k hk => by rw [hkv k hk]; exact hv
  have hkd : ∀ i, i < size → keys.getD i 0 = v := by
    intro i hi
    rw [getD_of_lt _ _ (by omega)]
    exact hkv _ (List.getElem_mem _)
  have hd : ∀ n, ∀ d ∈ List.replicate n v, d < 2 ^ 64 := by
    intro n d hd
    rw [List.eq_of_mem_replicate hd]; exact hv
  refine ⟨fun P hP hPS => first_pass_delimiters_replicate Sc P v hP hPS hSc, ?_, ?_, ?_,
    extract_delimiters_replicate Sl v hSl1 hSl, ?_, ?_, ?_⟩
  · obtain ⟨idx', _, h⟩ := histogram_360_eq kpos rpos keys size (List.replicate 359 v) count
      ranges i360 (sorted_replicate _ _) (List.length_replicate _ _) (hd _) hk hi360
    rw [if_pos hal] at h
    exact ⟨_, h, store_tags_replicate 359 v (by norm_num) keys ranges size hkd hr⟩
  · obtain ⟨idx', _, h⟩ := histogram_1000_eq kpos rpos keys size (List.replicate 999 v) count
      ranges i1000 (sorted_replicate _ _) (List.length_replicate _ _) (hd _) hk hi1000
    rw [if_pos hal] at h
    exact ⟨_, h, store_tags_replicate 999 v (by norm_num) keys ranges size hkd hr⟩
  · obtain ⟨idx', _, h⟩ := histogram_1800_eq kpos rpos keys size (List.replicate 1799 v) count
      ranges i1800 (sorted_replicate _ _) (List.length_replicate _ _) (hd _) hk hi1800
    rw [if_pos hal] at h
    exact ⟨_, h, store_tags_replicate 1799 v (by norm_num) keys ranges size hkd hr⟩
  · have hpos : 0 < lcount.length := lt_of_lt_of_le (Nat.pow_pos (by norm_num)) hcl
    obtain ⟨count', c1, c2, c3⟩ := histogram_numa_2_counts lpos keys size lcount radix_bits
      [v - 1, 2 ^ 64 - 1] stack hrb (getD_lt_of_forall keys hk)
      (by show v - 1 < 2 ^ 64; omega) hst (getD_lt_of_forall stack hsv) hpos
      (getD_lt_of_forall lcount hlc)
    refine ⟨count', c1, c2, ?_⟩
    intro p hp
    rw [c3 p hp]
    have := countP_const_keys keys size v (fun k => numa_2_index k radix_bits (v - 1)) p hkd
    simp only at this
    show (lcount.getD p 0 + (List.range size).countP
      (fun i => decide (numa_2_index (keys.getD i 0) radix_bits (v - 1) = p))) % 2 ^ 64 = _
    rw [this]
  · exact lt_of_lt_of_le (numa_2_index_lt _ _ _) hcl
  · rw [numa_2_index_eq, Nat.shiftRight_eq_div_pow]
    have hlt : v % 2 ^ radix_bits < 2 ^ radix_bits := Nat.mod_lt _ (by positivity)
    have hpos : 0 < 2 ^ radix_bits := by positivity
    by_cases h0 : v = 0
    · subst h0
      simp
    · rw [if_pos (by omega), if_neg h0, Nat.one_mul]
      rw [Nat.add_div_right _ hpos, Nat.div_eq_of_lt hlt]

/-- C21 at `v = 7`: ten keys 7, samples of 2000 and of 16 keys 7, four
radix bits, count and index arrays of 360 entries for `histogram_360`. -/
theorem equal_keys_one_partition_witness :
    7 < 2 ^ 64 ∧ (∀ k ∈ List.replicate 10 7, k = 7) ∧ 10 ≤ (List.replicate 10 7).length ∧
    2000 < 2 ^ 64 ∧ 10 ≤ (List.replicate 10 0).length ∧ 360 ≤ (List.replicate 360 0).length ∧
    1000 ≤ (List.replicate 1000 0).length ∧ 1800 ≤ (List.replicate 1800 0).length ∧
    (1 + min 10 ((4 - 3 % 4) % 4)) % 2 = 0 ∧
    1 ≤ 16 ∧ 16 ≤ 100000 ∧ 4 ≤ 16 ∧ 2 ^ (4 + 1) ≤ (List.replicate 32 0).length ∧
    (∀ c ∈ List.replicate 32 0, c < 2 ^ 64) ∧ [99, 99, 99, 99].length = 4 ∧
    (∀ x ∈ [99, 99, 99, 99], x < 2 ^ 64) ∧
    first_pass_delimiters (List.replicate 2000 7) 2000 360 = some (List.replicate 359 7) ∧
    (∃ res, histogram_360 1 3 (List.replicate 10 7) 10 (List.replicate 359 7)
        (List.replicate 360 0) (List.replicate 10 0) (List.replicate 360 0) = some res ∧
      ∀ i, i < 10 → res.2.1.getD i 0 = 0) ∧
    extract_delimiters (List.replicate 16 7) 16 [0, 2 ^ 64 - 1] = some [6, 2 ^ 64 - 1] ∧
    (∃ count', histogram_numa_2 1 (List.replicate 10 7) 10 (List.replicate 32 0) 4
        [6, 2 ^ 64 - 1] [99, 99, 99, 99] = some count' ∧
      count'.length = (List.replicate 32 0).length ∧
      ∀ p, p < (List.replicate 32 0).length →
        count'.getD p 0
          = ((List.replicate 32 0).getD p 0 + if p = numa_2_index 7 4 6 then 10 else 0)
              % 2 ^ 64) ∧
    numa_2_index 7 4 6 = 23 :=
  ⟨by decide, fun _ h => List.eq_of_mem_replicate h,
    Nat.le_of_eq (List.length_replicate _ _).symm, by decide,
    Nat.le_of_eq (List.length_replicate _ _).symm, Nat.le_of_eq (List.length_replicate _ _).symm,
    Nat.le_of_eq (List.length_replicate _ _).symm, Nat.le_of_eq (List.length_replicate _ _).symm,
    by decide, by decide, by decide, by decide, Nat.le_of_eq (List.length_replicate _ _).symm,
    (fun c h => by rw [List.eq_of_mem_replicate h]; norm_num), rfl, by decide,
    (equal_keys_one_partition 7 (List.replicate 10 7) 10 (by decide)
      (fun _ h => List.eq_of_mem_replicate h) (Nat.le_of_eq (List.length_replicate _ _).symm)
      2000 1 3 (List.replicate 360 0) (List.replicate 10 0) (List.replicate 360 0)
      (List.replicate 1000 0) (List.replicate 1800 0)
      (by decide) (Nat.le_of_eq (List.length_replicate _ _).symm)
      (Nat.le_of_eq (List.length_replicate _ _).symm)
      (Nat.le_of_eq (List.length_replicate _ _).symm)
      (Nat.le_of_eq (List.length_replicate _ _).symm) (by decide)
      16 1 4 (List.replicate 32 0) [99, 99, 99, 99] (by decide) (by decide) (by decide)
      (Nat.le_of_eq (List.length_replicate _ _).symm)
      (fun c h => by rw [List.eq_of_mem_replicate h]; norm_num) rfl (by decide)).1 360
      (by decide) (by decide),
    (equal_keys_one_partition 7 (List.replicate 10 7) 10 (by decide)
      (fun _ h => List.eq_of_mem_replicate h) (Nat.le_of_eq (List.length_replicate _ _).symm)
      2000 1 3 (List.replicate 360 0) (List.replicate 10 0) (List.replicate 360 0)
      (List.replicate 1000 0) (List.replicate 1800 0)
      (by decide) (Nat.le_of_eq (List.length_replicate _ _).symm)
      (Nat.le_of_eq (List.length_replicate _ _).symm)
      (Nat.le_of_eq (List.length_replicate _ _).symm)
      (Nat.le_of_eq (List.length_replicate _ _).symm) (by decide)
      16 1 4 (List.replicate 32 0) [99, 99, 99, 99] (by decide) (by decide) (by decide)
      (Nat.le_of_eq (List.length_replicate _ _).symm)
      (fun c h => by rw [List.eq_of_mem_replicate h]; norm_num) rfl (by decide)).2.1,
    (equal_keys_one_partition 7 (List.replicate 10 7) 10 (by decide)
      (fun _ h => List.eq_of_mem_replicate h) (Nat.le_of_eq (List.length_replicate _ _).symm)
      2000 1 3 (List.replicate 360 0) (List.replicate 10 0) (List.replicate 360 0)
      (List.replicate 1000 0) (List.replicate 1800 0)
      (by decide) (Nat.le_of_eq (List.length_replicate _ _).symm)
      (Nat.le_of_eq (List.length_replicate _ _).symm)
      (Nat.le_of_eq (List.length_replicate _ _).symm)
      (Nat.le_of_eq (List.length_replicate _ _).symm) (by decide)
      16 1 4 (List.replicate 32 0) [99, 99, 99, 99] (by decide) (by decide) (by decide)
      (Nat.le_of_eq (List.length_replicate _ _).symm)
      (fun c h => by rw [List.eq_of_mem_replicate h]; norm_num) rfl (by decide)).2.2.2.2.1,
    (equal_keys_one_partition 7 (List.replicate 10 7) 10 (by decide)
      (fun _ h => List.eq_of_mem_replicate h) (Nat.le_of_eq (List.length_replicate _ _).symm)
      2000 1 3 (List.replicate 360 0) (List.replicate 10 0) (List.replicate 360 0)
      (List.replicate 1000 0) (List.replicate 1800 0)
      (by decide) (Nat.le_of_eq (List.length_replicate _ _).symm)
      (Nat.le_of_eq (List.length_replicate _ _).symm)
      (Nat.le_of_eq (List.length_replicate _ _).symm)
      (Nat.le_of_eq (List.length_replicate _ _).symm) (by decide)
      16 1 4 (List.replicate 32 0) [99, 99, 99, 99] (by decide) (by decide) (by decide)
      (Nat.le_of_eq (List.length_replicate _ _).symm)
      (fun c h => by rw [List.eq_of_mem_replicate h]; norm_num) rfl (by decide)).2.2.2.2.2.1,
    by decide⟩

/-! ## C31, C32: random indices -/

/-- C31: for a transfer list of `transfer_unit < 2^64` descriptors and any
stream `rand` of values of `rand64_next`, every index
`r = mulhi(rand p, transfer_unit - p) + p` of the randomisation loop lies in
`[p, transfer_unit)`, the loop returns a permutation of the descriptors, and
the result depends only on the first `transfer_unit` values of the stream:
a worker that draws the same values obtains the same order. -/
theorem randomize_transfers_perm (rand : Nat → Nat) (transfers : List Transfer)
    (htu : transfers.length < 2 ^ 64) :
    (∀ p, p < transfers.length →
      p ≤ transfer_pick (rand p) transfers.length p ∧
      transfer_pick (rand p) transfers.length p < transfers.length) ∧
    ∃ out, randomize_transfers rand transfers.length transfers.length 0 transfers = some out ∧
      List.Perm out transfers ∧
      ∀ rand' : Nat → Nat, (∀ p, p < transfers.length → rand' p = rand p) →
        randomize_transfers rand' transfers.length transfers.length 0 transfers = some out := by
  refine ⟨fun p hp => transfer_pick_bounds (rand p) _ p htu hp, ?_⟩
  obtain ⟨out, o1, o2⟩ := randomize_transfers_spec rand transfers.length htu transfers.length 0
    transfers (by omega) rfl
  refine ⟨out, o1, o2, fun rand' h => ?_⟩
  rw [randomize_transfers_congr rand rand' transfers.length transfers.length 0 transfers
    (fun q _ h2 => h q (by omega))]
  exact o1

/-- C31 for three descriptors and the stream `2^63, 2^63 + 5, 7, ...`: the
picks are 1, 2, 2 and the order becomes second, third, first. -/
theorem randomize_transfers_perm_witness :
    ([⟨0, 0, 0, 4⟩, ⟨1, 0, 4, 5⟩, ⟨0, 4, 9, 6⟩] : List Transfer).length < 2 ^ 64 ∧
    randomize_transfers (fun p => [2 ^ 63, 2 ^ 63 + 5, 7].getD p 0) 3 3 0
      [⟨0, 0, 0, 4⟩, ⟨1, 0, 4, 5⟩, ⟨0, 4, 9, 6⟩]
      = some [⟨1, 0, 4, 5⟩, ⟨0, 4, 9, 6⟩, ⟨0, 0, 0, 4⟩] ∧
    ((∀ p, p < ([⟨0, 0, 0, 4⟩, ⟨1, 0, 4, 5⟩, ⟨0, 4, 9, 6⟩] : List Transfer).length →
      p ≤ transfer_pick ((fun p => [2 ^ 63, 2 ^ 63 + 5, 7].getD p 0) p)
        ([⟨0, 0, 0, 4⟩, ⟨1, 0, 4, 5⟩, ⟨0, 4, 9, 6⟩] : List Transfer).length p ∧
      transfer_pick ((fun p => [2 ^ 63, 2 ^ 63 + 5, 7].getD p 0) p)
        ([⟨0, 0, 0, 4⟩, ⟨1, 0, 4, 5⟩, ⟨0, 4, 9, 6⟩] : List Transfer).length p
        < ([⟨0, 0, 0, 4⟩, ⟨1, 0, 4, 5⟩, ⟨0, 4, 9, 6⟩] : List Transfer).length) ∧
    ∃ out, randomize_transfers (fun p => [2 ^ 63, 2 ^ 63 + 5, 7].getD p 0)
        ([⟨0, 0, 0, 4⟩, ⟨1, 0, 4, 5⟩, ⟨0, 4, 9, 6⟩] : List Transfer).length
        ([⟨0, 0, 0, 4⟩, ⟨1, 0, 4, 5⟩, ⟨0, 4, 9, 6⟩] : List Transfer).length 0
        [⟨0, 0, 0, 4⟩, ⟨1, 0, 4, 5⟩, ⟨0, 4, 9, 6⟩] = some out ∧
      List.Perm out [⟨0, 0, 0, 4⟩, ⟨1, 0, 4, 5⟩, ⟨0, 4, 9, 6⟩] ∧
      ∀ rand' : Nat → Nat,
        (∀ p, p < ([⟨0, 0, 0, 4⟩, ⟨1, 0, 4, 5⟩, ⟨0, 4, 9, 6⟩] : List Transfer).length →
          rand' p = (fun p => [2 ^ 63, 2 ^ 63 + 5, 7].getD p 0) p) →
        randomize_transfers rand'
          ([⟨0, 0, 0, 4⟩, ⟨1, 0, 4, 5⟩, ⟨0, 4, 9, 6⟩] : List Transfer).length
          ([⟨0, 0, 0, 4⟩, ⟨1, 0, 4, 5⟩, ⟨0, 4, 9, 6⟩] : List Transfer).length 0
          [⟨0, 0, 0, 4⟩, ⟨1, 0, 4, 5⟩, ⟨0, 4, 9, 6⟩] = some out) :=
  ⟨by decide, by decide,
    randomize_transfers_perm (fun p => [2 ^ 63, 2 ^ 63 + 5, 7].getD p 0)
      [⟨0, 0, 0, 4⟩, ⟨1, 0, 4, 5⟩, ⟨0, 4, 9, 6⟩] (by decide)⟩

/-- C32: for all 64-bit `x` and `y`, `mulhi(x, y)` is the integer part of
`x * y / 2^64`, and it is below `y` when `y > 0`; hence for a thread with
`0 < size` keys the sampling loop of `sort_thread` reads only inside the
keys of the thread: it returns `sample_size` values, each of them one of
`keys[0 .. size)`. -/
theorem mulhi_spec (x y : Nat) (hx : x < 2 ^ 64) (hy : y < 2 ^ 64) :
    mulhi x y = x * y / 2 ^ 64 ∧ (0 < y → mulhi x y < y) ∧
    ∀ (rand : Nat → Nat) (keys : List Nat) (sample_size : Nat),
      0 < y → y ≤ keys.length →
      ∃ sample, draw_sample rand keys y sample_size = some sample ∧
        sample.length = sample_size ∧
        ∀ s ∈ sample, ∃ i, i < y ∧ s = keys.getD i 0 := by
  refine ⟨mulhi_eq x y hx hy, mulhi_lt x y hx hy, ?_⟩
  intro rand keys sample_size hpos hlen
  obtain ⟨out, o1, o2, o3⟩ := mapM_some_mem
    (fun p => if mulhi (rand p) y < y then keys[mulhi (rand p) y]? else none)
    (fun s => ∃ i, i < y ∧ s = keys.getD i 0) (List.range sample_size)
    (fun p _ => by
      have h := mulhi_lt (rand p % 2 ^ 64) y (Nat.mod_lt _ (by norm_num)) hy hpos
      rw [← mulhi_mod] at h
      refine ⟨keys.getD (mulhi (rand p) y) 0, ?_, _, h, rfl⟩
      dsimp only
      rw [if_pos h, getD_of_lt _ _ (by omega)]
      exact List.getElem?_eq_getElem (by omega))
  exact ⟨out, o1, by rw [o2, List.length_range], o3⟩

/-- C32 at `x = 2^63 + 1`, `y = 10`. -/
theorem mulhi_spec_witness :
    2 ^ 63 + 1 < 2 ^ 64 ∧ 10 < 2 ^ 64 ∧ mulhi (2 ^ 63 + 1) 10 = 5 ∧
    (mulhi (2 ^ 63 + 1) 10 = (2 ^ 63 + 1) * 10 / 2 ^ 64 ∧ (0 < 10 → mulhi (2 ^ 63 + 1) 10 < 10) ∧
    ∀ (rand : Nat → Nat) (keys : List Nat) (sample_size : Nat),
      0 < 10 → 10 ≤ keys.length →
      ∃ sample, draw_sample rand keys 10 sample_size = some sample ∧
        sample.length = sample_size ∧
        ∀ s ∈ sample, ∃ i, i < 10 ∧ s = keys.getD i 0) :=
  ⟨by decide, by decide, by decide, mulhi_spec (2 ^ 63 + 1) 10 (by decide) (by decide)⟩


/-- C33: `simd_combsort` fails at its assertion `size <= 0x7FFFFFF0` exactly
for `size > 0x7FFFFFF0`: for such a size it returns nothing whatever the
number of passes allowed, and for every `size <= 0x7FFFFFF0` it returns once
enough passes are allowed. For `10 <= size <= 0x7FFFFFF0` the 32-bit location
arithmetic of the merge does not overflow: `size - 1` and, before and after
each of the `size` iterations, every location plus 4 are below `2^31`, so the
signed comparison of `loc + 4` with `size - 1` compares the true values. -/
theorem simd_combsort_fail_fast (kpos : Nat) (keys rids : List Nat) (size : Nat)
    (hlen : size ≤ keys.length) (hrl : rids.length = keys.length)
    (hk : ∀ k ∈ keys, k < 2 ^ 64) (hr : ∀ r ∈ rids, r < 2 ^ 64) :
    (0x7FFFFFF0 < size → ∀ fuel, simd_combsort fuel kpos keys rids size = none) ∧
    (size ≤ 0x7FFFFFF0 →
      ∃ fuel0, ∀ fuel, fuel0 ≤ fuel →
        ∃ res, simd_combsort fuel kpos keys rids size = some res ∧
          (10 ≤ size → size - 1 < 2 ^ 31 ∧
            ∀ n, n ≤ size →
              (simd_merge_regs (_mm_slli_epi64 (_mm_set1_epi32 (2 ^ 32 - 1)) 63)
                (_mm_set1_epi32 (2 ^ 32 - 1)) res.1 res.2.1 size n).loc.e0 + 4 < 2 ^ 31 ∧
              (simd_merge_regs (_mm_slli_epi64 (_mm_set1_epi32 (2 ^ 32 - 1)) 63)
                (_mm_set1_epi32 (2 ^ 32 - 1)) res.1 res.2.1 size n).loc.e1 + 4 < 2 ^ 31 ∧
              (simd_merge_regs (_mm_slli_epi64 (_mm_set1_epi32 (2 ^ 32 - 1)) 63)
                (_mm_set1_epi32 (2 ^ 32 - 1)) res.1 res.2.1 size n).loc.e2 + 4 < 2 ^ 31 ∧
              (simd_merge_regs (_mm_slli_epi64 (_mm_set1_epi32 (2 ^ 32 - 1)) 63)
                (_mm_set1_epi32 (2 ^ 32 - 1)) res.1 res.2.1 size n).loc.e3 + 4 < 2 ^ 31)) := by
  have hk' := getD_lt_of_forall keys hk
  have hr' := getD_lt_of_forall rids hr
  constructor
  · intro h fuel
    simp only [simd_combsort, if_neg (show ¬ size ≤ 9 by omega),
      if_neg (show ¬ size ≤ 0x7FFFFFF0 by omega)]
  · intro hsize
    by_cases h10 : 10 ≤ size
    · obtain ⟨fuel0, h⟩ := simd_combsort_comb kpos keys rids size h10 hsize hlen hrl hk' hr'
      refine ⟨fuel0, fun fuel hf => ?_⟩
      obtain ⟨keys', rids', c1, c2, c3, c4, c6, c7, c8, _⟩ := h fuel hf
      have e := simd_combsort_eq fuel kpos keys rids size h10 hsize
      rw [c1] at e
      refine ⟨_, e, fun _ => ⟨by omega, fun n hn => ?_⟩⟩
      dsimp only
      have hC := mask_C_eq
      rw [mask_I_eq] at hC
      rw [mask_I_eq, hC]
      obtain ⟨l0, l1, l2, l3⟩ := simd_merge_regs_loc keys' rids' size n hsize (by omega) hn c6 c7 c8
      omega
    · obtain ⟨fuel0, h⟩ := simd_combsort_spec kpos keys rids size hsize hlen hrl hk' hr'
      refine ⟨fuel0, fun fuel hf => ?_⟩
      obtain ⟨keys', rids', keys_out, rids_out, h1, _⟩ := h fuel hf
      exact ⟨_, h1, fun h => absurd h h10⟩

/-- C33 for twelve pairs at an odd position: the call returns. -/
theorem simd_combsort_fail_fast_witness :
    12 ≤ [9, 3, 7, 1, 12, 5, 5, 0, 8, 2, 11, 4].length ∧
    [0, 1, 2, 3, 4, 5, 6, 7, 8, 9, 10, 11].length = [9, 3, 7, 1, 12, 5, 5, 0, 8, 2, 11, 4].length ∧
    (∀ k ∈ [9, 3, 7, 1, 12, 5, 5, 0, 8, 2, 11, 4], k < 2 ^ 64) ∧
    (∀ r ∈ [0, 1, 2, 3, 4, 5, 6, 7, 8, 9, 10, 11], r < 2 ^ 64) ∧
    ∃ fuel0, ∀ fuel, fuel0 ≤ fuel →
      ∃ res, simd_combsort fuel 1 [9, 3, 7, 1, 12, 5, 5, 0, 8, 2, 11, 4]
          [0, 1, 2, 3, 4, 5, 6, 7, 8, 9, 10, 11] 12 = some res ∧
        (10 ≤ 12 → 12 - 1 < 2 ^ 31 ∧
          ∀ n, n ≤ 12 →
            (simd_merge_regs (_mm_slli_epi64 (_mm_set1_epi32 (2 ^ 32 - 1)) 63)
              (_mm_set1_epi32 (2 ^ 32 - 1)) res.1 res.2.1 12 n).loc.e0 + 4 < 2 ^ 31 ∧
            (simd_merge_regs (_mm_slli_epi64 (_mm_set1_epi32 (2 ^ 32 - 1)) 63)
              (_mm_set1_epi32 (2 ^ 32 - 1)) res.1 res.2.1 12 n).loc.e1 + 4 < 2 ^ 31 ∧
            (simd_merge_regs (_mm_slli_epi64 (_mm_set1_epi32 (2 ^ 32 - 1)) 63)
              (_mm_set1_epi32 (2 ^ 32 - 1)) res.1 res.2.1 12 n).loc.e2 + 4 < 2 ^ 31 ∧
            (simd_merge_regs (_mm_slli_epi64 (_mm_set1_epi32 (2 ^ 32 - 1)) 63)
              (_mm_set1_epi32 (2 ^ 32 - 1)) res.1 res.2.1 12 n).loc.e3 + 4 < 2 ^ 31) :=
  ⟨by decide, by decide, by decide, by decide,
    (simd_combsort_fail_fast 1 [9, 3, 7, 1, 12, 5, 5, 0, 8, 2, 11, 4]
      [0, 1, 2, 3, 4, 5, 6, 7, 8, 9, 10, 11] 12 (by decide) (by decide) (by decide)
      (by decide)).2 (by decide)⟩

/-- C38: for `10 <= size <= 0x7FFFFFF0` and keys at any 8-byte position, the
comb loop of `simd_combsort` terminates. The first gap (in units of four
elements) is at least 1 and `4 * gap < size`; a gap `g >= 2` is followed by
`(uint64_t) (g * 0.77)`, which is at least 1 and less than `g`; a pass with
gap `g` is the sequence of compare-exchanges of `x` with `x + 4 * g` for
`x = 0, ..., size - 4 * g - 1`, and its swap register is zero exactly when no
pair was exchanged; the loop returns only from a pass with gap 1 and a zero
swap register; with enough passes allowed it does return, and in the arrays
it returns `keys[x] <= keys[x + 4]` for every `x + 4 < size`. -/
theorem simd_combsort_comb_loop (kpos : Nat) (keys rids : List Nat) (size : Nat)
    (h10 : 10 ≤ size) (hsize : size ≤ 0x7FFFFFF0)
    (hlen : size ≤ keys.length) (hrl : rids.length = keys.length)
    (hk : ∀ k ∈ keys, k < 2 ^ 64) (hr : ∀ r ∈ rids, r < 2 ^ 64) :
    (comb_params kpos size).2.2.2 = size - (comb_params kpos size).2.1 ∧
    1 ≤ (comb_params kpos size).2.2.1 ∧ 4 * (comb_params kpos size).2.2.1 < size ∧
    (∀ g, 2 ≤ g → g ≤ (comb_params kpos size).2.2.1 → 1 ≤ mul_shrink g ∧ mul_shrink g < g) ∧
    (∀ g (k r : List Nat), 1 ≤ g → g ≤ (comb_params kpos size).2.2.1 →
      size ≤ k.length → r.length = k.length → (∀ x ∈ k, x < 2 ^ 64) → (∀ x ∈ r, x < 2 ^ 64) →
      ∃ swap, comb_pass (mk64 (2 ^ 63) (2 ^ 63)) size (comb_params kpos size).1
          (comb_params kpos size).2.1 (comb_params kpos size).2.2.2 g k r
          = some ((cx_seq (4 * g) (size - 4 * g) 0 (k, r, false)).1,
              (cx_seq (4 * g) (size - 4 * g) 0 (k, r, false)).2.1, swap) ∧
        (swap = ⟨0, 0, 0, 0⟩ ↔ (cx_seq (4 * g) (size - 4 * g) 0 (k, r, false)).2.2 = false)) ∧
    (∀ fuel out, comb_loop (mk64 (2 ^ 63) (2 ^ 63)) size (comb_params kpos size).1
        (comb_params kpos size).2.1 (comb_params kpos size).2.2.2 fuel
        (comb_params kpos size).2.2.1 keys rids = some out →
      ∃ k0 r0 swap, comb_pass (mk64 (2 ^ 63) (2 ^ 63)) size (comb_params kpos size).1
          (comb_params kpos size).2.1 (comb_params kpos size).2.2.2 1 k0 r0
          = some (out.1, out.2, swap) ∧ _mm_testz_si128 swap swap = true) ∧
    (∃ fuel0, ∀ fuel, fuel0 ≤ fuel →
      ∃ keys' rids' keys_out rids_out,
        comb_loop (mk64 (2 ^ 63) (2 ^ 63)) size (comb_params kpos size).1
          (comb_params kpos size).2.1 (comb_params kpos size).2.2.2 fuel
          (comb_params kpos size).2.2.1 keys rids = some (keys', rids') ∧
        simd_combsort fuel kpos keys rids size = some (keys', rids', keys_out, rids_out) ∧
        (∀ x, x + 4 < size → keys'.getD x 0 ≤ keys'.getD (x + 4) 0) ∧
        comb_pass (mk64 (2 ^ 63) (2 ^ 63)) size (comb_params kpos size).1
          (comb_params kpos size).2.1 (comb_params kpos size).2.2.2 1 keys' rids'
          = some (keys', rids', ⟨0, 0, 0, 0⟩)) := by
  have hk' := getD_lt_of_forall keys hk
  have hr' := getD_lt_of_forall rids hr
  obtain ⟨beg, end_, n4, hp, hbeg, hend, hsz, hn2⟩ := comb_params_spec kpos size h10
  obtain ⟨g1, g2⟩ := mul_shrink_bounds n4 hn2 (by omega)
  obtain ⟨fuel0, h⟩ := simd_combsort_comb kpos keys rids size h10 hsize hlen hrl hk' hr'
  refine ⟨by rw [hp], by rw [hp]; exact g1, by rw [hp]; dsimp only; omega, ?_, ?_, ?_, ?_⟩
  · intro g hg1 hg2
    rw [hp] at hg2
    exact mul_shrink_bounds g hg1 (by dsimp only at hg2; omega)
  · intro g k r hg1 hg2 hkl hrl2 hkk hrr
    rw [hp] at hg2 ⊢
    dsimp only at hg2 ⊢
    exact comb_pass_eq size beg end_ g (n4 - g - 1) k r hbeg hg1 (by omega) hkl (by omega) hrl2
      (getD_lt_of_forall k hkk) (getD_lt_of_forall r hrr)
  · intro fuel out hout
    exact comb_loop_exit _ size _ _ _ fuel _ keys rids out (by rw [hp]; exact g1)
      (by rw [hp]; dsimp only; omega) hout
  · refine ⟨fuel0, fun fuel hf => ?_⟩
    obtain ⟨keys', rids', c1, c2, c3, c4, c6, c7, c8, c9⟩ := h fuel hf
    have e := simd_combsort_eq fuel kpos keys rids size h10 hsize
    rw [c1] at e
    exact ⟨keys', rids', _, _, c1, e, c8, c9⟩

/-- C38 for twelve pairs at an odd position (`beg = 1`, `end = 3`, first gap
`(uint64_t) (2 * 0.77) = 1`). -/
theorem simd_combsort_comb_loop_witness :
    10 ≤ 12 ∧ 12 ≤ 0x7FFFFFF0 ∧ 12 ≤ [9, 3, 7, 1, 12, 5, 5, 0, 8, 2, 11, 4].length ∧
    [0, 1, 2, 3, 4, 5, 6, 7, 8, 9, 10, 11].length = [9, 3, 7, 1, 12, 5, 5, 0, 8, 2, 11, 4].length ∧
    (∀ k ∈ [9, 3, 7, 1, 12, 5, 5, 0, 8, 2, 11, 4], k < 2 ^ 64) ∧
    (∀ r ∈ [0, 1, 2, 3, 4, 5, 6, 7, 8, 9, 10, 11], r < 2 ^ 64) ∧
    comb_params 1 12 = (1, 3, 1, 9) ∧
    ∃ fuel0, ∀ fuel, fuel0 ≤ fuel →
      ∃ keys' rids' keys_out rids_out,
        comb_loop (mk64 (2 ^ 63) (2 ^ 63)) 12 (comb_params 1 12).1
          (comb_params 1 12).2.1 (comb_params 1 12).2.2.2 fuel
          (comb_params 1 12).2.2.1 [9, 3, 7, 1, 12, 5, 5, 0, 8, 2, 11, 4]
          [0, 1, 2, 3, 4, 5, 6, 7, 8, 9, 10, 11] = some (keys', rids') ∧
        simd_combsort fuel 1 [9, 3, 7, 1, 12, 5, 5, 0, 8, 2, 11, 4]
          [0, 1, 2, 3, 4, 5, 6, 7, 8, 9, 10, 11] 12 = some (keys', rids', keys_out, rids_out) ∧
        (∀ x, x + 4 < 12 → keys'.getD x 0 ≤ keys'.getD (x + 4) 0) ∧
        comb_pass (mk64 (2 ^ 63) (2 ^ 63)) 12 (comb_params 1 12).1
          (comb_params 1 12).2.1 (comb_params 1 12).2.2.2 1 keys' rids'
          = some (keys', rids', ⟨0, 0, 0, 0⟩) :=
  ⟨by decide, by decide, by decide, by decide, by decide, by decide, by decide,
    (simd_combsort_comb_loop 1 [9, 3, 7, 1, 12, 5, 5, 0, 8, 2, 11, 4]
      [0, 1, 2, 3, 4, 5, 6, 7, 8, 9, 10, 11] 12 (by decide) (by decide) (by decide) (by decide)
      (by decide) (by decide)).2.2.2.2.2.2⟩

/-! ## C34: empty partitions of `known_partition` -/

set_option maxRecDepth 1000000 in
/-- C34, failing input: a call with `size = 0`, two empty partitions and
`keys_out` 24 bytes past a 64-byte boundary (`to_align = 5`): `virtual_add`
stays 0 and the assertion `(63 & (uint64_t) keys_out) == 0` fails.  The same
call with `keys_out` on a 64-byte boundary returns, writes nothing and
leaves both cursors at their initial value 0. -/
theorem known_partition_empty_misaligned :
    known_partition 0 3 [] [] [] 0 none [0, 0] (List.replicate 16 7)
      (List.replicate 16 7) (List.replicate 32 0) 2
      ([0, 0, 0, 0], [0, 0, 0, 0], [0, 0, 0, 0, 0, 0, 0, 0]) = none ∧
    known_partition 0 0 [] [] [] 0 none [0, 0] (List.replicate 16 7)
      (List.replicate 16 7) (List.replicate 32 0) 2
      ([0, 0, 0, 0], [0, 0, 0, 0], [0, 0, 0, 0, 0, 0, 0, 0])
      = some (List.replicate 32 0, List.replicate 16 7, List.replicate 16 7) := by
  decide

/-! ## C39: the checker -/

/-- C39, failing input: one node with the keys `[5, 6, 1, 2]` and two
checker threads (`schedule_threads` places both on node 0).  Each thread
starts with `pkey = 0` and checks its own half, `[5, 6]` and `[1, 2]`; no
assertion fails and `check` returns the checksum 14, although
`keys[1] = 6 > keys[2] = 1`. -/
theorem check_misses_slice_boundary :
    schedule_threads 1 2 (fun _ => 0) 2 1 = some ([0, 1], [0, 0]) ∧
    check_thread [[5, 6, 1, 2]] (some [[5, 6, 1, 2]]) [4] [0, 0] 2 1 0 = some 11 ∧
    check_thread [[5, 6, 1, 2]] (some [[5, 6, 1, 2]]) [4] [0, 0] 2 1 1 = some 3 ∧
    check [[5, 6, 1, 2]] [[5, 6, 1, 2]] [4] 1 true 2 [0, 0] = some 14 ∧
    ¬ (([5, 6, 1, 2] : List Nat).getD 1 0 ≤ ([5, 6, 1, 2] : List Nat).getD 2 0) := by
  decide

/-! ## C40: the sample size of `sort` -/

/-- C40, failing input: `main` called for 1 million tuples on 3 NUMA nodes
gives `size[n] = 333333`, `total_size = 999999` and
`sample_size = (uint64_t) (0.01 * 999999) = 9999`, so the assertion
`(d->sample_size & 3) == 0` of `sort_thread` fails; on one node the sample
size is 10000 and the assertion holds. -/
theorem sample_size_not_aligned :
    main_sizes 1 3 = [333333, 333333, 333333] ∧ sum64 (main_sizes 1 3) = 999999 ∧
    cmp_sample_size (sum64 (main_sizes 1 3)) = 9999 ∧ 9999 &&& 3 = 3 ∧
    sample_size_aligned (main_sizes 1 3) = false ∧
    sample_size_aligned (main_sizes 1 1) = true := by
  decide


/-- C35: `histogram` and `histogram_old` of `lsb_64_chiplet.c` are
functionally identical. For keys at any 8-byte position (16-byte aligned or
not), every key array, size, `shift_bits`, `radix_bits` and initial count
array, and whatever the indeterminate contents of the two `unaligned_keys`
buffers, both return the same count array; both fail at the assertion for
`radix_bits > 16`. -/
theorem histogram_eq_histogram_old (kpos : Nat) (keys : List Nat) (size : Nat) (count : List Nat)
    (shift_bits radix_bits : Nat) (stack stack' : List Nat)
    (hst : stack.length = 4) (hst' : stack'.length = 4) :
    histogram kpos keys size count shift_bits radix_bits stack
      = histogram_old kpos keys size count shift_bits radix_bits stack' := by
  by_cases hr : radix_bits ≤ 16
  · simp only [histogram, histogram_old, if_pos hr, histogram_head_eq, histogram_old_head_eq]
    by_cases hk : kpos % 2 = 1 ∧ 0 < size
    · simp only [if_pos hk]
      have e : size - 1 + 1 = size := by omega
      have := histogram_old_body keys (_mm_set_epi32 0 0 0 shift_bits) ((1 <<< radix_bits) - 1)
        1 (size - 1) (le_refl _) (stack.set 0 (keys.getD 0 0)) (stack'.set 0 (keys.getD 0 0))
        (by rw [List.length_set, hst]) (by rw [List.length_set, hst'])
        (by intro j hj
            have : j = 0 := by omega
            subst this
            rw [getD_set, getD_set, if_pos ⟨rfl, by omega⟩, if_pos ⟨rfl, by omega⟩]) count
      rw [this]
    · simp only [if_neg hk]
      have := histogram_old_body keys (_mm_set_epi32 0 0 0 shift_bits) ((1 <<< radix_bits) - 1)
        0 size (Nat.zero_le _) stack stack' hst hst' (by intro j hj; omega) count
      simp only [Nat.zero_add, Nat.sub_zero] at this ⊢
      rw [this]
  · simp only [histogram, histogram_old, if_neg hr]

/-- C35 for seven keys at an odd position (one head key, one aligned group,
two tail keys) and two different buffers. -/
theorem histogram_eq_histogram_old_witness :
    [11, 12, 13, 14].length = 4 ∧ [0, 0, 0, 0].length = 4 ∧
    histogram 1 [0x13, 0x25, 0x33, 0x41, 0x53, 0x25, 0x13] 7 [0, 0, 0, 0, 0, 0, 0, 0] 4 3
      [11, 12, 13, 14] = some [0, 2, 2, 1, 1, 1, 0, 0] ∧
    histogram 1 [0x13, 0x25, 0x33, 0x41, 0x53, 0x25, 0x13] 7 [0, 0, 0, 0, 0, 0, 0, 0] 4 3
        [11, 12, 13, 14]
      = histogram_old 1 [0x13, 0x25, 0x33, 0x41, 0x53, 0x25, 0x13] 7 [0, 0, 0, 0, 0, 0, 0, 0] 4 3
        [0, 0, 0, 0] :=
  ⟨by decide, by decide, by decide,
    histogram_eq_histogram_old 1 [0x13, 0x25, 0x33, 0x41, 0x53, 0x25, 0x13] 7
      [0, 0, 0, 0, 0, 0, 0, 0] 4 3 [11, 12, 13, 14] [0, 0, 0, 0] (by decide) (by decide)⟩


/-- C36: for one thread, a sample of `sample_size` keys with `sample_size` a
multiple of 4, and `sample`, `sample_buf` aligned to 64 bytes, the eight
calls `partition_keys(..., shift, 8, ...)` with `shift = 0, 8, ..., 56` of
`sort_thread` return, and afterwards the first `sample_size` entries of
`sample` are a permutation of the drawn sample and non-decreasing as
unsigned 64-bit values. Each single call with `radix_bits = 8` and a shift
of at most 56 is a stable partition by the digit at its shift: the first
`size` entries of `keys_out` are the keys with digit 0 in their input
order, then those with digit 1, and so on to digit 255. -/
theorem sort_thread_sample_sorted (spos bpos : Nat) (sample sample_buf : List Nat)
    (sample_size : Nat) (sample_hist : List Nat) (bufs : Nat → List Nat)
    (hsp : spos % 8 = 0) (hbp : bpos % 8 = 0) (h4 : sample_size % 4 = 0)
    (hsz : sample_size < 2 ^ 64) (hlen : sample_size ≤ sample.length)
    (hblen : sample_size ≤ sample_buf.length)
    (hb : ∀ x ∈ sample.take sample_size, x < 2 ^ 64) (hh : 256 ≤ sample_hist.length)
    (hbufs : ∀ k, k < 8 → (bufs k).length = 2048) :
    (∃ s b h, sort_thread_sample spos bpos sample sample_buf sample_size sample_hist bufs
        = some (s, b, h) ∧
      s.length = sample.length ∧
      List.Perm (s.take sample_size) (sample.take sample_size) ∧
      ∀ i, i + 1 < sample_size → s.getD i 0 ≤ s.getD (i + 1) 0) ∧
    (∀ (kpos opos : Nat) (keys keys_out hist buf : List Nat) (shift_bits : Nat),
      kpos % 2 = 0 → opos % 8 = 0 → sample_size ≤ keys.length → sample_size ≤ keys_out.length →
      (∀ x ∈ keys.take sample_size, x < 2 ^ 64) → shift_bits ≤ 56 → 256 ≤ hist.length →
      buf.length = 2048 →
      ∃ out h', partition_keys kpos opos keys keys_out sample_size hist shift_bits 8 buf
          = some (out, h') ∧
        out.length = keys_out.length ∧
        out.take sample_size = stable_partition (keys.take sample_size) shift_bits 8) := by
  constructor
  · obtain ⟨s, b, h, e, l1, l2, p, q⟩ := sort_thread_sample_spec spos bpos sample sample_buf
      sample_size sample_hist bufs hsp hbp h4 hsz hlen hblen hb hh hbufs
    refine ⟨s, b, h, e, l1, p, fun i hi => ?_⟩
    rw [List.pairwise_iff_getElem] at q
    have hl : (s.take sample_size).length = sample_size := by rw [List.length_take]; omega
    have := q i (i + 1) (by omega) (by omega) (by omega)
    rw [← getD_of_lt _ i (by omega), ← getD_of_lt _ (i + 1) (by omega),
      take_getD s sample_size i (by omega) (by omega),
      take_getD s sample_size (i + 1) hi (by omega)] at this
    exact this
  · intro kpos opos keys keys_out hist buf sh hk ho hkl hol hkb hsh hhl hbl
    obtain ⟨out, h', e1, e2, _, e4⟩ := partition_keys_spec kpos opos keys keys_out sample_size
      hist sh 8 buf hk ho h4 hsz hkl hol hkb (by omega) (by omega) (by norm_num; exact hhl)
      (by rw [hbl]; norm_num)
    exact ⟨out, h', e1, e2, e4⟩

/-- C36 for a sample of eight keys. -/
theorem sort_thread_sample_sorted_witness :
    0 % 8 = 0 ∧ 0 % 8 = 0 ∧ 8 % 4 = 0 ∧ 8 < 2 ^ 64 ∧
    8 ≤ [300, 5, 2 ^ 63, 70000, 3, 2 ^ 40 + 1, 9, 300].length ∧
    8 ≤ (List.replicate 8 0).length ∧
    (∀ x ∈ [300, 5, 2 ^ 63, 70000, 3, 2 ^ 40 + 1, 9, 300].take 8, x < 2 ^ 64) ∧
    256 ≤ (List.replicate 256 0).length ∧
    (∀ k, k < 8 → ((fun _ => List.replicate 2048 0) k).length = 2048) ∧
    ∃ s b h, sort_thread_sample 0 0 [300, 5, 2 ^ 63, 70000, 3, 2 ^ 40 + 1, 9, 300]
        (List.replicate 8 0) 8 (List.replicate 256 0) (fun _ => List.replicate 2048 0)
        = some (s, b, h) ∧
      s.length = [300, 5, 2 ^ 63, 70000, 3, 2 ^ 40 + 1, 9, 300].length ∧
      List.Perm (s.take 8) ([300, 5, 2 ^ 63, 70000, 3, 2 ^ 40 + 1, 9, 300].take 8) ∧
      ∀ i, i + 1 < 8 → s.getD i 0 ≤ s.getD (i + 1) 0 :=
  ⟨by decide, by decide, by decide, by decide, by decide, by decide, by decide,
    Nat.le_of_eq (List.length_replicate _ _).symm, fun _ _ => List.length_replicate _ _,
    (sort_thread_sample_sorted 0 0 [300, 5, 2 ^ 63, 70000, 3, 2 ^ 40 + 1, 9, 300]
      (List.replicate 8 0) 8 (List.replicate 256 0) (fun _ => List.replicate 2048 0)
      (by decide) (by decide) (by decide) (by decide) (by decide) (by decide) (by decide)
      (Nat.le_of_eq (List.length_replicate _ _).symm) (fun _ _ => List.length_replicate _ _)).1⟩


/-- C37: for every table `count[t][i]` of `threads` rows and `partitions`
columns whose entries add up to `total < 2^64`, `partition_offsets` for the
thread `id < threads` sets `offsets[i]`, `i < partitions`, to the sum of
`count[t][j]` over `j < i` and all `t` plus the sum of `count[t][i]` over
`t < id`, and leaves the rest of `offsets` as it is. The slabs
`[offsets_id[i], offsets_id[i] + count[id][i])` tile `[0, total)` in the
order partition first, thread second: the first starts at 0, each ends where
the next (the next thread of the partition, or thread 0 of the next
partition) starts, the last ends at `total`, and two different slabs are
disjoint. -/
theorem partition_offsets_tile (count : Nat → Nat → Nat) (partitions threads total : Nat)
    (offsets : List Nat) (hth : threads < 2 ^ 64) (hlen : partitions ≤ offsets.length)
    (htot : range_sum (fun j => range_sum (fun t => count t j) threads) partitions = total)
    (h64 : total < 2 ^ 64) :
    (∀ id i, id < threads → i < partitions →
      (partition_offsets count partitions id threads offsets).getD i 0
        = range_sum (fun j => range_sum (fun t => count t j) threads) i
            + range_sum (fun t => count t i) id) ∧
    (∀ id i, id < threads → partitions ≤ i →
      (partition_offsets count partitions id threads offsets).getD i 0 = offsets.getD i 0) ∧
    (0 < threads → 0 < partitions →
      (partition_offsets count partitions 0 threads offsets).getD 0 0 = 0) ∧
    (∀ id i, id + 1 < threads → i < partitions →
      (partition_offsets count partitions id threads offsets).getD i 0 + count id i
        = (partition_offsets count partitions (id + 1) threads offsets).getD i 0) ∧
    (∀ i, 0 < threads → i + 1 < partitions →
      (partition_offsets count partitions (threads - 1) threads offsets).getD i 0
          + count (threads - 1) i
        = (partition_offsets count partitions 0 threads offsets).getD (i + 1) 0) ∧
    (0 < threads → 0 < partitions →
      (partition_offsets count partitions (threads - 1) threads offsets).getD (partitions - 1) 0
          + count (threads - 1) (partitions - 1) = total) ∧
    (∀ id i id' i', id < threads → id' < threads → i < partitions → i' < partitions →
      i < i' ∨ (i = i' ∧ id < id') →
      (partition_offsets count partitions id threads offsets).getD i 0 + count id i
        ≤ (partition_offsets count partitions id' threads offsets).getD i' 0) := by
  have hf : ∀ id i, id < threads → i < partitions →
      (partition_offsets count partitions id threads offsets).getD i 0
        = range_sum (fun j => range_sum (fun t => count t j) threads) i
            + range_sum (fun t => count t i) id := fun id i hid hi =>
    (partition_offsets_eq count partitions id threads offsets (by omega) hth hlen
      (by omega)).2.1 i hi
  refine ⟨hf, fun id i hid hi =>
    (partition_offsets_eq count partitions id threads offsets (by omega) hth hlen
      (by omega)).2.2 i hi, ?_, ?_, ?_, ?_, ?_⟩
  · intro ht hp
    rw [hf 0 0 ht hp, range_sum_zero, range_sum_zero]
  · intro id i hid hi
    rw [hf id i (by omega) hi, hf (id + 1) i hid hi, range_sum_succ]
    omega
  · intro i ht hi
    rw [hf (threads - 1) i (by omega) (by omega), hf 0 (i + 1) ht hi, range_sum_zero,
      range_sum_succ]
    have := range_sum_succ (fun t => count t i) (threads - 1)
    rw [show threads - 1 + 1 = threads by omega] at this
    try dsimp only at this ⊢
    omega
  · intro ht hp
    rw [hf (threads - 1) (partitions - 1) (by omega) (by omega), ← htot]
    have := range_sum_succ (fun t => count t (partitions - 1)) (threads - 1)
    rw [show threads - 1 + 1 = threads by omega] at this
    have h2 := range_sum_succ (fun j => range_sum (fun t => count t j) threads) (partitions - 1)
    rw [show partitions - 1 + 1 = partitions by omega] at h2
    try dsimp only at this h2 ⊢
    omega
  · intro id i id' i' hid hid' hi hi' hlt
    rw [hf id i hid hi, hf id' i' hid' hi']
    have a := range_sum_succ (fun t => count t i) id
    try dsimp only at a
    rcases hlt with c | ⟨c, c2⟩
    · have b := range_sum_mono (fun t => count t i) (id + 1) threads (by omega)
      have d := range_sum_mono (fun j => range_sum (fun t => count t j) threads) (i + 1) i'
        (by omega)
      rw [range_sum_succ] at d
      try dsimp only at d
      omega
    · subst c
      have b := range_sum_mono (fun t => count t i) (id + 1) id' (by omega)
      omega

/-- C37 for two threads and three partitions, `count[t][i] = 2 * t + i + 1`
(total 18), thread 1: the offsets are 1, 6, 13. -/
theorem partition_offsets_tile_witness :
    2 < 2 ^ 64 ∧ 3 ≤ [7, 7, 7, 7].length ∧
    range_sum (fun j => range_sum (fun t => (fun t i => 2 * t + i + 1) t j) 2) 3 = 18 ∧
    18 < 2 ^ 64 ∧
    partition_offsets (fun t i => 2 * t + i + 1) 3 1 2 [7, 7, 7, 7] = [1, 6, 13, 7] ∧
    ∀ id i, id < 2 → i < 3 →
      (partition_offsets (fun t i => 2 * t + i + 1) 3 id 2 [7, 7, 7, 7]).getD i 0
        = range_sum (fun j => range_sum (fun t => (fun t i => 2 * t + i + 1) t j) 2) i
            + range_sum (fun t => (fun t i => 2 * t + i + 1) t i) id :=
  ⟨by decide, by decide, by decide, by decide, by decide,
    (partition_offsets_tile (fun t i => 2 * t + i + 1) 3 2 18 [7, 7, 7, 7] (by decide)
      (by decide) (by decide) (by decide)).1⟩

end ChipletSort
